import Mathlib

/-!
# Clumsy crucible: the constrained shortest-path search

A shallow embedding of `src/cmd/clumsy-crucible/main.go`.

* Go's `int` is modelled by `Int`, in two ways. The definitions that carry the
  names of `main.go` take every sum exactly; they describe the program as long
  as no sum leaves the 64-bit range. The definitions with the suffix `64`
  (`relaxOne64`, `dijkstra64`, `runMain64`, ...) take every sum in the 64-bit
  `int`, where it wraps around. On a grid of non-negative costs that fits
  (`Fits`) the two searches agree (`dijkstra64_eq_dijkstra`).
* A Go panic (index out of range, `make` with a capacity below the length) is
  the outcome `Outcome.panicked`.
* The `for queue.Len() > 0` loop is modelled with a step budget; running out
  of budget is the outcome `Outcome.outOfFuel`, which says nothing about the
  program.
* `*DijkstraState` pointers always point at the loop-local copy of a popped
  entry, which is never written again, so a pointer is modelled by the value
  it points at.
* `container/heap` of the Go standard library is embedded as the functions
  `up`, `down`, `heapInit`, `heapPush` and `heapPop`.
* The literals `4` and `10` of `dijkstra` and `runMain` are the parameters
  `minRun` and `maxRun` of `dijkstraWith` and `runMainWith`; `dijkstra` and
  `runMain` instantiate them with `4` and `10`.
-/

namespace ClumsyCrucible

/-- Go `Point2D`. -/
structure Point2D where
  X : Int
  Y : Int
deriving DecidableEq, Repr

/-- Go `Point2D.Add`. -/
def Point2D.Add (p other : Point2D) : Point2D :=
  { X := p.X + other.X, Y := p.Y + other.Y }

/-- Go `CityMap`, a slice of rows. -/
abbrev CityMap := List (List Int)

/-- Go `CityMap.InBounds`. The conjunction short-circuits, so `m[0]` is read
only when `0 ≤ p.Y < len(m)`, hence only for a map with a first row. -/
def CityMap.InBounds (m : CityMap) (p : Point2D) : Bool :=
  match m with
  | [] => false
  | row0 :: _ =>
    decide (p.Y ≥ 0) && decide (p.Y < (m.length : Int)) && decide (p.X ≥ 0) &&
      decide (p.X < (row0.length : Int))

/-- The read `cityMap[p.Y][p.X]`; `none` is the index-out-of-range panic. -/
def CityMap.cell (m : CityMap) (p : Point2D) : Option Int :=
  if p.Y < 0 ∨ p.X < 0 then none
  else
    match m[p.Y.toNat]? with
    | none => none
    | some row => row[p.X.toNat]?

/-- Go `Direction` with its four constants. -/
inductive Direction where
  | DirectionRight
  | DirectionDown
  | DirectionLeft
  | DirectionUp
deriving DecidableEq, Repr

open Direction

/-- Go `Direction.ToVector`. -/
def Direction.ToVector : Direction → Point2D
  | DirectionRight => { X := 1, Y := 0 }
  | DirectionDown => { X := 0, Y := 1 }
  | DirectionLeft => { X := -1, Y := 0 }
  | DirectionUp => { X := 0, Y := -1 }

/-- Go `Direction.Reverse`. -/
def Direction.Reverse : Direction → Direction
  | DirectionRight => DirectionLeft
  | DirectionDown => DirectionUp
  | DirectionLeft => DirectionRight
  | DirectionUp => DirectionDown

/-- Go `DijkstraPoint`. -/
structure DijkstraPoint where
  Count : Int
  Direction : ClumsyCrucible.Direction
  Coordinate : Point2D
deriving DecidableEq, Repr

/-- Go `DijkstraPoint.Move`. -/
def DijkstraPoint.Move (p : DijkstraPoint) (direction : ClumsyCrucible.Direction) :
    DijkstraPoint :=
  { Count := if p.Direction = direction then p.Count + 1 else 1
    Direction := direction
    Coordinate := p.Coordinate.Add direction.ToVector }

/-- Go `DijkstraState`: `root` is a state whose `Previous` is nil, `link` a
state whose `Previous` points at the given state. -/
inductive DijkstraState where
  | root (Distance : Int) (Point : DijkstraPoint)
  | link (Distance : Int) (Point : DijkstraPoint) (Previous : DijkstraState)
deriving DecidableEq, Repr

/-- Field `Distance` of a `DijkstraState`. -/
def DijkstraState.Distance : DijkstraState → Int
  | root d _ => d
  | link d _ _ => d

/-- Field `Point` of a `DijkstraState`. -/
def DijkstraState.Point : DijkstraState → DijkstraPoint
  | root _ p => p
  | link _ p _ => p

/-- Field `Previous` of a `DijkstraState`; `none` is the nil pointer. -/
def DijkstraState.Previous : DijkstraState → Option DijkstraState
  | root _ _ => none
  | link _ _ prev => some prev

/-- Go `DijkstraStateMap`, a map from points to states: the list of its
key-value pairs, every key once. -/
abbrev DijkstraStateMap := List (DijkstraPoint × DijkstraState)

/-- The empty map, `make(DijkstraStateMap, ...)`. -/
def emptyStateMap : DijkstraStateMap := []

/-- The lookup `value, ok := state[key]`; `none` is `ok == false`. -/
def DijkstraStateMap.lookup : DijkstraStateMap → DijkstraPoint → Option DijkstraState
  | [], _ => none
  | (k, v) :: rest, key => if k = key then some v else DijkstraStateMap.lookup rest key

/-- The assignment `state[key] = value`. -/
def DijkstraStateMap.set : DijkstraStateMap → DijkstraPoint → DijkstraState → DijkstraStateMap
  | [], key, value => [(key, value)]
  | (k, v) :: rest, key, value =>
    if k = key then (key, value) :: rest else (k, v) :: DijkstraStateMap.set rest key value

/-- Go `DijkstraQueue`, a slice of states. -/
abbrev DijkstraQueue := List DijkstraState

/-- Go `DijkstraQueue.Less`; the heap only passes indices below the length. -/
def DijkstraQueue.Less (d : DijkstraQueue) (i j : Nat) : Bool :=
  match d[i]?, d[j]? with
  | some a, some b => decide (a.Distance < b.Distance)
  | _, _ => false

/-- Go `DijkstraQueue.Swap`; the heap only passes indices below the length. -/
def DijkstraQueue.Swap (d : DijkstraQueue) (i j : Nat) : DijkstraQueue :=
  match d[i]?, d[j]? with
  | some a, some b => (d.set i b).set j a
  | _, _ => d

/-- The loop of `up` in `container/heap`; `fuel` bounds its iterations. -/
def up : Nat → DijkstraQueue → Nat → DijkstraQueue
  | 0, h, _ => h
  | fuel + 1, h, j =>
    let i := (j - 1) / 2
    if i = j ∨ !(DijkstraQueue.Less h j i) then h
    else up fuel (DijkstraQueue.Swap h i j) i

/-- The loop of `down` in `container/heap`; `fuel` bounds its iterations. -/
def down : Nat → DijkstraQueue → Nat → Nat → DijkstraQueue
  | 0, h, _, _ => h
  | fuel + 1, h, i, n =>
    let j1 := 2 * i + 1
    if j1 ≥ n then h
    else
      let j := if j1 + 1 < n ∧ DijkstraQueue.Less h (j1 + 1) j1 then j1 + 1 else j1
      if !(DijkstraQueue.Less h j i) then h
      else down fuel (DijkstraQueue.Swap h i j) j n

/-- The loop `for i := n/2 - 1; i >= 0; i--` of `heap.Init`, counting `k = i + 1` down. -/
def heapInitLoop : Nat → DijkstraQueue → DijkstraQueue
  | 0, h => h
  | k + 1, h => heapInitLoop k (down h.length h k h.length)

/-- Go `heap.Init`. -/
def heapInit (h : DijkstraQueue) : DijkstraQueue :=
  heapInitLoop (h.length / 2) h

/-- Go `heap.Push`: append, then sift the new last entry up. -/
def heapPush (h : DijkstraQueue) (x : DijkstraState) : DijkstraQueue :=
  up (h.length + 1) (h ++ [x]) h.length

/-- Go `heap.Pop` on a non-empty queue: swap the first and the last entry, sift
the new first entry down within the first `n` entries, cut off the last entry
and return it. `none` for the empty queue, on which the loop never calls it. -/
def heapPop (h : DijkstraQueue) : Option (DijkstraState × DijkstraQueue) :=
  let n := h.length - 1
  let h1 := down n (DijkstraQueue.Swap h 0 n) 0 n
  match h1.getLast? with
  | none => none
  | some item => some (item, h1.dropLast)

/-- What a run of Go code ends in. -/
inductive Outcome (α : Type) where
  | ok (value : α)
  | panicked
  | outOfFuel
deriving DecidableEq, Repr

/-- The candidate successors of lines 217-227 of `dijkstra`. -/
def nextPoints (minRun : Int) (point : DijkstraPoint) : List DijkstraPoint :=
  if point.Count > 0 ∧ point.Count < minRun then
    [point.Move point.Direction]
  else
    [point.Move DirectionRight, point.Move DirectionDown, point.Move DirectionLeft,
      point.Move DirectionUp]

/-- The test of lines 230-232 of `dijkstra` under which a candidate is skipped. -/
def skipped (maxRun : Int) (cityMap : CityMap) (point nextPoint : DijkstraPoint) : Bool :=
  !(cityMap.InBounds nextPoint.Coordinate) || decide (nextPoint.Count > maxRun) ||
    decide (nextPoint.Direction = point.Direction.Reverse)

/-- The test `!ok || nextDistance < nextState.Distance` of line 237. -/
def improves (state : DijkstraStateMap) (nextPoint : DijkstraPoint) (nextDistance : Int) :
    Bool :=
  match state.lookup nextPoint with
  | none => true
  | some nextState => decide (nextDistance < nextState.Distance)

/-- The body of the inner loop of `dijkstra`, lines 230-246, for one candidate. -/
def relaxOne (maxRun : Int) (cityMap : CityMap) (point : DijkstraState)
    (nextPoint : DijkstraPoint) (queue : DijkstraQueue) (state : DijkstraStateMap) :
    Outcome (DijkstraQueue × DijkstraStateMap) :=
  if skipped maxRun cityMap point.Point nextPoint then Outcome.ok (queue, state)
  else
    match cityMap.cell nextPoint.Coordinate with
    | none => Outcome.panicked
    | some cost =>
      let nextDistance := point.Distance + cost
      if improves state nextPoint nextDistance then
        let nextState := DijkstraState.link nextDistance nextPoint point
        Outcome.ok (heapPush queue nextState, state.set nextPoint nextState)
      else Outcome.ok (queue, state)

/-- The inner loop `for _, nextPoint := range nextPoints` of `dijkstra`. -/
def relax (maxRun : Int) (cityMap : CityMap) (point : DijkstraState) :
    List DijkstraPoint → DijkstraQueue → DijkstraStateMap →
      Outcome (DijkstraQueue × DijkstraStateMap)
  | [], queue, state => Outcome.ok (queue, state)
  | nextPoint :: rest, queue, state =>
    match relaxOne maxRun cityMap point nextPoint queue state with
    | Outcome.ok (queue1, state1) => relax maxRun cityMap point rest queue1 state1
    | Outcome.panicked => Outcome.panicked
    | Outcome.outOfFuel => Outcome.outOfFuel

/-- The loop `for queue.Len() > 0` of `dijkstra`, at most `fuel` iterations. -/
def dijkstraLoop (minRun maxRun : Int) (cityMap : CityMap) :
    Nat → DijkstraQueue → DijkstraStateMap → Outcome DijkstraStateMap
  | fuel, queue, state =>
    match heapPop queue with
    | none => Outcome.ok state
    | some (point, queue1) =>
      match fuel with
      | 0 => Outcome.outOfFuel
      | fuel1 + 1 =>
        match relax maxRun cityMap point (nextPoints minRun point.Point) queue1 state with
        | Outcome.ok (queue2, state2) => dijkstraLoop minRun maxRun cityMap fuel1 queue2 state2
        | Outcome.panicked => Outcome.panicked
        | Outcome.outOfFuel => Outcome.outOfFuel

/-- Go `dijkstra` with the literals `4` and `10` as `minRun` and `maxRun`.
`len(cityMap[0])` panics on a map without rows, and `make(DijkstraQueue, 1, c)`
panics when the capacity `c = len(cityMap)*len(cityMap[0])*4*3` is below 1. -/
def dijkstraWith (minRun maxRun : Int) (fuel : Nat) (cityMap : CityMap)
    (start : DijkstraPoint) : Outcome DijkstraStateMap :=
  match cityMap with
  | [] => Outcome.panicked
  | row0 :: _ =>
    if cityMap.length * row0.length * 4 * 3 < 1 then Outcome.panicked
    else
      dijkstraLoop minRun maxRun cityMap fuel (heapInit [DijkstraState.root 0 start])
        emptyStateMap

/-- Go `dijkstra`. -/
def dijkstra (fuel : Nat) (cityMap : CityMap) (start : DijkstraPoint) :
    Outcome DijkstraStateMap :=
  dijkstraWith 4 10 fuel cityMap start

/-- Go `math.MaxInt` on a 64-bit platform. -/
def maxInt : Int := 9223372036854775807

/-- The zero value `DijkstraPoint{}`, the seed `runMain` passes to `dijkstra`. -/
def zeroPoint : DijkstraPoint :=
  { Count := 0, Direction := DirectionRight, Coordinate := { X := 0, Y := 0 } }

/-- The key looked up at lines 42-48 of `runMain`: the bottom-right cell. -/
def endPoint (cityMap : CityMap) (direction : ClumsyCrucible.Direction) (count : Int) :
    DijkstraPoint :=
  { Count := count
    Direction := direction
    Coordinate := { X := ((cityMap.headD []).length : Int) - 1, Y := (cityMap.length : Int) - 1 } }

/-- Lines 42-53 of `runMain`: one lookup and the update of `minState`. -/
def selectStep (state : DijkstraStateMap) (minState : DijkstraState) (key : DijkstraPoint) :
    DijkstraState :=
  match state.lookup key with
  | some item => if item.Distance < minState.Distance then item else minState
  | none => minState

/-- The values of `count` in `for count := minRun; count <= maxRun; count++`. -/
def runCounts (minRun maxRun : Int) : List Int :=
  (List.range (maxRun + 1 - minRun).toNat).map (fun (k : Nat) => minRun + (k : Int))

/-- The keys visited by the two nested loops of lines 40-55, in order. -/
def endKeys (minRun maxRun : Int) (cityMap : CityMap) : List DijkstraPoint :=
  (runCounts minRun maxRun).map (endPoint cityMap DirectionRight) ++
    (runCounts minRun maxRun).map (endPoint cityMap DirectionDown)

/-- The initial value `DijkstraState{Distance: math.MaxInt}` of `minState` at
line 39 of `runMain`; it stays when no terminal state is found. -/
def sentinelState : DijkstraState := DijkstraState.root maxInt zeroPoint

/-- Lines 39-55 of `runMain`: the selection of `minState`. -/
def selectMin (minRun maxRun : Int) (cityMap : CityMap) (state : DijkstraStateMap) :
    DijkstraState :=
  (endKeys minRun maxRun cityMap).foldl (selectStep state) sentinelState

/-- The states the loop `for point := minState; point.Previous != nil; point = *point.Previous`
of lines 66-80 visits, in the order it visits them. -/
def pathStates : DijkstraState → List DijkstraState
  | DijkstraState.root _ _ => []
  | DijkstraState.link d p prev => DijkstraState.link d p prev :: pathStates prev

/-- The marker chosen by the `switch` of lines 68-77. -/
def marker : Direction → String
  | DirectionRight => ">"
  | DirectionDown => "v"
  | DirectionLeft => "<"
  | DirectionUp => "^"

/-- The write `solution[p.Y][p.X] = text` of line 79; `none` is the
index-out-of-range panic. -/
def markCell (solution : List (List String)) (p : Point2D) (text : String) :
    Option (List (List String)) :=
  if p.Y < 0 ∨ p.X < 0 then none
  else
    match solution[p.Y.toNat]? with
    | none => none
    | some row =>
      if p.X.toNat < row.length then some (solution.set p.Y.toNat (row.set p.X.toNat text))
      else none

/-- The loop of lines 66-80 over the visited states. -/
def markPath : List DijkstraState → List (List String) → Option (List (List String))
  | [], solution => some solution
  | point :: rest, solution =>
    match markCell solution point.Point.Coordinate (marker point.Point.Direction) with
    | none => none
    | some solution1 => markPath rest solution1

/-- What `runMain` computes: the selected state, whose `Distance` it prints on
the last line, and the rows it prints before. -/
structure Report where
  minState : DijkstraState
  solution : List (List String)

/-- Go `runMain` after a successful `parseCityMap`, with the literals `4` and
`10` as `minRun` and `maxRun`. -/
def runMainWith (minRun maxRun : Int) (fuel : Nat) (cityMap : CityMap) : Outcome Report :=
  match dijkstraWith minRun maxRun fuel cityMap zeroPoint with
  | Outcome.panicked => Outcome.panicked
  | Outcome.outOfFuel => Outcome.outOfFuel
  | Outcome.ok state =>
    let minState := selectMin minRun maxRun cityMap state
    match markPath (pathStates minState) (cityMap.map (fun row => row.map toString)) with
    | none => Outcome.panicked
    | some solution => Outcome.ok { minState := minState, solution := solution }

/-- Go `runMain` after a successful `parseCityMap`. -/
def runMain (fuel : Nat) (cityMap : CityMap) : Outcome Report :=
  runMainWith 4 10 fuel cityMap

/-! ## Notions the statements are written with -/

/-- A grid with at least one cell whose rows all have the length of the first. -/
def WellFormed (cityMap : CityMap) : Prop :=
  cityMap ≠ [] ∧ ∀ row ∈ cityMap, row ≠ [] ∧ row.length = (cityMap.headD []).length

/-- Every cost of the grid is non-negative. -/
def NonNeg (cityMap : CityMap) : Prop :=
  ∀ row ∈ cityMap, ∀ c ∈ row, (0 : Int) ≤ c

/-- The cost of the cell at `p`, `0` when there is no such cell. -/
def cost (cityMap : CityMap) (p : Point2D) : Int :=
  (cityMap.cell p).getD 0

/-- The seed entry `DijkstraState{Point: start}` that `dijkstra` puts in the queue. -/
def seedState (start : DijkstraPoint) : DijkstraState :=
  DijkstraState.root 0 start

/-- Every entry of the queue and of the table satisfies `P`, and every entry
of the table is stored under its own point and has a predecessor. -/
def AllEntries (P : DijkstraState → Prop) (queue : DijkstraQueue) (state : DijkstraStateMap) :
    Prop :=
  (∀ e ∈ queue, P e) ∧
    ∀ k e, state.lookup k = some e → P e ∧ e.Point = k ∧ e.Previous ≠ none

/-- A candidate that the inner loop of `dijkstra` does not skip when it
expands `s`: the successor relation of the search. -/
def Succ (minRun maxRun : Int) (cityMap : CityMap) (s t : DijkstraPoint) : Prop :=
  t ∈ nextPoints minRun s ∧ skipped maxRun cityMap s t = false

/-- The state at the far end of the `Previous` chain, the one whose `Previous` is nil. -/
def DijkstraState.origin : DijkstraState → DijkstraState
  | DijkstraState.root d p => DijkstraState.root d p
  | DijkstraState.link _ _ prev => DijkstraState.origin prev

/-- The sum of the grid costs of the coordinates of the states on the
`Previous` chain of `e`, the state with a nil `Previous` left out. -/
def pathCost (cityMap : CityMap) (e : DijkstraState) : Int :=
  ((pathStates e).map (fun s => cost cityMap s.Point.Coordinate)).sum

/-- The number of consecutive steps that end at `e` and have the heading of `e`. -/
def sameHeadingRun (e : DijkstraState) : Nat :=
  ((pathStates e).takeWhile
    (fun s => decide (s.Point.Direction = e.Point.Direction))).length

/-- One legal move from the state `s` to the state `t`: `t` lies one step from
`s` in the heading of `t` and in bounds, its heading is not the reverse of the
heading of `s`, its run-length is at most `maxRun`, it is one more than the
run-length of `s` when the heading is kept and 1 after a turn, and a turn is
made only when `s` has run-length at least `minRun`, unless the move is the
first one. -/
def LegalMove (minRun maxRun : Int) (cityMap : CityMap) (isFirst : Bool)
    (s t : DijkstraPoint) : Prop :=
  t.Coordinate = s.Coordinate.Add t.Direction.ToVector ∧
  cityMap.InBounds t.Coordinate = true ∧
  t.Direction ≠ s.Direction.Reverse ∧
  t.Count ≤ maxRun ∧
  (t.Direction = s.Direction → t.Count = s.Count + 1) ∧
  (t.Direction ≠ s.Direction → t.Count = 1 ∧ (isFirst = true ∨ minRun ≤ s.Count))

/-- A legal move sequence from the state `s`: the list of the states entered,
each reached from the one before by a legal move. -/
def LegalSeq (minRun maxRun : Int) (cityMap : CityMap) :
    Bool → DijkstraPoint → List DijkstraPoint → Prop
  | _, _, [] => True
  | isFirst, s, t :: rest =>
    LegalMove minRun maxRun cityMap isFirst s t ∧ LegalSeq minRun maxRun cityMap false t rest

/-- The sum of the costs of the cells a move sequence enters. -/
def seqCost (cityMap : CityMap) (moves : List DijkstraPoint) : Int :=
  (moves.map (fun t => cost cityMap t.Coordinate)).sum

/-- The states entered on the way to `e`, from the first one to `e` itself. -/
def trail (e : DijkstraState) : List DijkstraPoint :=
  ((pathStates e).map DijkstraState.Point).reverse

/-- A state at the bottom-right cell with a run-length of at least `minRun`. -/
def IsTerminal (minRun : Int) (cityMap : CityMap) (k : DijkstraPoint) : Prop :=
  k.Coordinate = (endPoint cityMap DirectionRight 0).Coordinate ∧ minRun ≤ k.Count

/-- The table `state2` records every point `state1` records, at a distance that
is not larger. -/
def Below (state1 state2 : DijkstraStateMap) : Prop :=
  ∀ k e, state1.lookup k = some e → ∃ e2, state2.lookup k = some e2 ∧ e2.Distance ≤ e.Distance

/-- Every successor `t` of `s` is recorded at a distance of at most `d` plus the
cost of the cell of `t`. -/
def Processed (minRun maxRun : Int) (cityMap : CityMap) (state : DijkstraStateMap)
    (s : DijkstraPoint) (d : Int) : Prop :=
  ∀ t, Succ minRun maxRun cityMap s t →
    ∃ e, state.lookup t = some e ∧ e.Distance ≤ d + cost cityMap t.Coordinate

/-- The distance `d` is the label of `s`: 0 for the seed, the recorded
distance for a point of the table. -/
def Labelled (start : DijkstraPoint) (state : DijkstraStateMap) (s : DijkstraPoint) (d : Int) :
    Prop :=
  (s = start ∧ d = 0) ∨ ∃ e, state.lookup s = some e ∧ e.Distance = d

/-- The queue holds an entry for `s` with distance `d`. -/
def Pending (queue : DijkstraQueue) (s : DijkstraPoint) (d : Int) : Prop :=
  ∃ e ∈ queue, e.Point = s ∧ e.Distance = d

/-- Every label is still in the queue, or its successors have been relaxed
with it, or it is the label of the entry being expanded. -/
def Settled (minRun maxRun : Int) (cityMap : CityMap) (start : DijkstraPoint)
    (current : Option DijkstraState) (queue : DijkstraQueue) (state : DijkstraStateMap) : Prop :=
  ∀ s d, Labelled start state s d →
    Pending queue s d ∨ Processed minRun maxRun cityMap state s d ∨
      ∃ point, current = some point ∧ point.Point = s ∧ point.Distance = d

/-- An entry with a non-negative distance and run-length; when it has a
predecessor, its point is in bounds with a run-length from 1 to `maxRun`. -/
def Tame (maxRun : Int) (cityMap : CityMap) (e : DijkstraState) : Prop :=
  0 ≤ e.Distance ∧ 0 ≤ e.Point.Count ∧
    (e.Previous ≠ none →
      cityMap.InBounds e.Point.Coordinate = true ∧ 1 ≤ e.Point.Count ∧ e.Point.Count ≤ maxRun)

/-- The number of points of `V` the table does not record. -/
def absentCount (V : Finset DijkstraPoint) (state : DijkstraStateMap) : Nat :=
  (V.filter (fun k => state.lookup k = none)).card

/-- The sum of the distances the table records for the points of `V`. -/
def totalDistance (V : Finset DijkstraPoint) (state : DijkstraStateMap) : Nat :=
  V.sum (fun k =>
    match state.lookup k with
    | some e => e.Distance.toNat
    | none => 0)

/-- The measure `(absentCount, queue length + totalDistance)` of the second
pair is at most that of the first, in the lexicographic order. -/
def MeasureLE (V : Finset DijkstraPoint) (q1 : DijkstraQueue) (s1 : DijkstraStateMap)
    (q2 : DijkstraQueue) (s2 : DijkstraStateMap) : Prop :=
  absentCount V s2 < absentCount V s1 ∨
    (absentCount V s2 = absentCount V s1 ∧
      q2.length + totalDistance V s2 ≤ q1.length + totalDistance V s1)

/-- The rows of `solution` are as long as the rows of the grid. -/
def SameShape (solution : List (List String)) (cityMap : CityMap) : Prop :=
  ∀ i : Nat, (solution[i]?).map List.length = (cityMap[i]?).map List.length

/-- The cost a run of `runMain` prints and the number of cells it marks. -/
def reportSummary : Outcome Report → Option (Int × Nat)
  | Outcome.ok report => some (report.minState.Distance, (pathStates report.minState).length)
  | _ => none

/-! ## A small run used to instantiate the theorems -/

/-- A grid of one row and five columns, every cost 1. -/
def exampleMap : CityMap := [[1, 1, 1, 1, 1]]

/-- The entry the search records for the cell `(n, 0)` of `exampleMap`,
reached by `n` steps to the right. -/
def exampleEntry : Nat → DijkstraState
  | 0 => seedState zeroPoint
  | n + 1 =>
    DijkstraState.link ((n : Int) + 1)
      { Count := (n : Int) + 1, Direction := DirectionRight,
        Coordinate := { X := (n : Int) + 1, Y := 0 } }
      (exampleEntry n)

/-- The table `dijkstra` returns for `exampleMap` and the seed `zeroPoint`. -/
def exampleTable : DijkstraStateMap :=
  [((exampleEntry 1).Point, exampleEntry 1), ((exampleEntry 2).Point, exampleEntry 2),
    ((exampleEntry 3).Point, exampleEntry 3), ((exampleEntry 4).Point, exampleEntry 4)]

/-- The grid of three rows and three columns, every cost 1. -/
def allOnesMap : CityMap := [[1, 1, 1], [1, 1, 1], [1, 1, 1]]

/-- The entry the search records on `allOnesMap` after `n` steps down from the seed. -/
def allOnesDown : Nat → DijkstraState
  | 0 => seedState zeroPoint
  | n + 1 =>
    DijkstraState.link ((n : Int) + 1)
      { Count := (n : Int) + 1, Direction := DirectionDown,
        Coordinate := { X := 0, Y := (n : Int) + 1 } }
      (allOnesDown n)

/-- The table `dijkstra` returns for `allOnesMap` and the seed `zeroPoint`. -/
def allOnesTable : DijkstraStateMap :=
  [((exampleEntry 1).Point, exampleEntry 1), ((allOnesDown 1).Point, allOnesDown 1),
    ((exampleEntry 2).Point, exampleEntry 2), ((allOnesDown 2).Point, allOnesDown 2)]

/-! ## Further notions and example runs -/

/-- The state reached from `e` by following the `Previous` pointer `n` times;
`none` when a nil pointer is met before. -/
def follow : Nat → DijkstraState → Option DijkstraState
  | 0, e => some e
  | n + 1, e =>
    match e.Previous with
    | none => none
    | some prev => follow n prev

/-- The number of states in the table a run of `dijkstra` returns. -/
def recordedCount : Outcome DijkstraStateMap → Option Nat
  | Outcome.ok table => some table.length
  | _ => none

/-- Whether a run ended in a panic. -/
def panics {α : Type} : Outcome α → Bool
  | Outcome.panicked => true
  | _ => false

/-- A grid of one row and two columns. -/
def twoCellMap : CityMap := [[1, 1]]

/-- A seed on the right cell of `twoCellMap`, with the zero-value heading and
run-length of `DijkstraPoint{}`. -/
def rightCellSeed : DijkstraPoint :=
  { Count := 0, Direction := DirectionRight, Coordinate := { X := 1, Y := 0 } }

/-- A grid of one row with a negative cost, as `parseCityMap` yields it for
the line `1/111`. -/
def negativeMap : CityMap := [[1, -1, 1, 1, 1]]

/-- A grid whose last row is longer than the others. -/
def raggedMap : CityMap := [[1], [1], [1], [1], [1, 9]]

/-- A grid whose second row is shorter than the first. -/
def shortRowMap : CityMap := [[1, 1, 1, 1, 1], [1]]

/-- A seed one cell to the left of the grid. -/
def outsideSeed : DijkstraPoint :=
  { Count := 0, Direction := DirectionRight, Coordinate := { X := -1, Y := 0 } }

/-- An entry with a non-negative distance and a run-length of at least `lo`;
when it has a predecessor, its point is in bounds with a run-length from
`lo + 1` to `maxRun`. -/
def TameFrom (lo maxRun : Int) (cityMap : CityMap) (e : DijkstraState) : Prop :=
  0 ≤ e.Distance ∧ lo ≤ e.Point.Count ∧
    (e.Previous ≠ none →
      cityMap.InBounds e.Point.Coordinate = true ∧ lo + 1 ≤ e.Point.Count ∧
        e.Point.Count ≤ maxRun)

/-- The body of the inner loop of `dijkstra` with the function `push` in the
place of `heap.Push`. -/
def relaxOneBy (push : DijkstraQueue → DijkstraState → DijkstraQueue) (maxRun : Int)
    (cityMap : CityMap) (point : DijkstraState) (nextPoint : DijkstraPoint)
    (queue : DijkstraQueue) (state : DijkstraStateMap) :
    Outcome (DijkstraQueue × DijkstraStateMap) :=
  if skipped maxRun cityMap point.Point nextPoint then Outcome.ok (queue, state)
  else
    match cityMap.cell nextPoint.Coordinate with
    | none => Outcome.panicked
    | some cost =>
      let nextDistance := point.Distance + cost
      if improves state nextPoint nextDistance then
        let nextState := DijkstraState.link nextDistance nextPoint point
        Outcome.ok (push queue nextState, state.set nextPoint nextState)
      else Outcome.ok (queue, state)

/-- The inner loop of `dijkstra` with the function `push` in the place of `heap.Push`. -/
def relaxBy (push : DijkstraQueue → DijkstraState → DijkstraQueue) (maxRun : Int)
    (cityMap : CityMap) (point : DijkstraState) :
    List DijkstraPoint → DijkstraQueue → DijkstraStateMap →
      Outcome (DijkstraQueue × DijkstraStateMap)
  | [], queue, state => Outcome.ok (queue, state)
  | nextPoint :: rest, queue, state =>
    match relaxOneBy push maxRun cityMap point nextPoint queue state with
    | Outcome.ok (queue1, state1) => relaxBy push maxRun cityMap point rest queue1 state1
    | Outcome.panicked => Outcome.panicked
    | Outcome.outOfFuel => Outcome.outOfFuel

/-- The outer loop of `dijkstra` with the functions `pop` and `push` in the
place of `heap.Pop` and `heap.Push`. -/
def dijkstraLoopBy (pop : DijkstraQueue → Option (DijkstraState × DijkstraQueue))
    (push : DijkstraQueue → DijkstraState → DijkstraQueue) (minRun maxRun : Int)
    (cityMap : CityMap) : Nat → DijkstraQueue → DijkstraStateMap → Outcome DijkstraStateMap
  | fuel, queue, state =>
    match pop queue with
    | none => Outcome.ok state
    | some (point, queue1) =>
      match fuel with
      | 0 => Outcome.outOfFuel
      | fuel1 + 1 =>
        match relaxBy push maxRun cityMap point (nextPoints minRun point.Point) queue1 state with
        | Outcome.ok (queue2, state2) =>
          dijkstraLoopBy pop push minRun maxRun cityMap fuel1 queue2 state2
        | Outcome.panicked => Outcome.panicked
        | Outcome.outOfFuel => Outcome.outOfFuel

/-- The search `dijkstraWith` with the functions `pop` and `push` in the place
of `heap.Pop` and `heap.Push`. -/
def dijkstraBy (pop : DijkstraQueue → Option (DijkstraState × DijkstraQueue))
    (push : DijkstraQueue → DijkstraState → DijkstraQueue) (minRun maxRun : Int) (fuel : Nat)
    (cityMap : CityMap) (start : DijkstraPoint) : Outcome DijkstraStateMap :=
  match cityMap with
  | [] => Outcome.panicked
  | row0 :: _ =>
    if cityMap.length * row0.length * 4 * 3 < 1 then Outcome.panicked
    else
      dijkstraLoopBy pop push minRun maxRun cityMap fuel [DijkstraState.root 0 start]
        emptyStateMap

/-- A queue discipline: `pop` takes one entry out of a non-empty queue and
`push` puts one entry in; which entry `pop` takes, and where `push` puts the
new one, is left open. -/
def KeepsEntries (pop : DijkstraQueue → Option (DijkstraState × DijkstraQueue))
    (push : DijkstraQueue → DijkstraState → DijkstraQueue) : Prop :=
  (∀ q, pop q = none ↔ q = []) ∧
  (∀ q x rest, pop q = some (x, rest) → q.Perm (x :: rest)) ∧
  (∀ q x, (push q x).Perm (x :: q))

/-- The queue discipline that takes the entry at the front. -/
def popFirst : DijkstraQueue → Option (DijkstraState × DijkstraQueue)
  | [] => none
  | x :: rest => some (x, rest)

/-- The queue discipline that puts the new entry at the back. -/
def pushLast (queue : DijkstraQueue) (x : DijkstraState) : DijkstraQueue :=
  queue ++ [x]

/-- The chain of `e` is a legal move sequence from the seed `start` to the
point of `e`, of cost `e.Distance`; `e` is the seed entry or has a run-length
of at least 1. -/
def LegalEntry (minRun maxRun : Int) (cityMap : CityMap) (start : DijkstraPoint)
    (e : DijkstraState) : Prop :=
  (e = seedState start ∨ 1 ≤ e.Point.Count) ∧
    LegalSeq minRun maxRun cityMap true start (trail e) ∧
    seqCost cityMap (trail e) = e.Distance ∧ (trail e).getLast?.getD start = e.Point

/-! ## The order of the queue and the states the loop passes through -/

/-- The distance of the entry at index `i` of the queue, 0 past its end. -/
def distAt (h : DijkstraQueue) (i : Nat) : Int :=
  match h[i]? with
  | some e => e.Distance
  | none => 0

/-- The heap order of `container/heap` on the first `n` entries: no entry is
`Less` than the entry at its parent index `(k - 1) / 2`. -/
def IsHeapPrefix (h : DijkstraQueue) (n : Nat) : Prop :=
  ∀ k, 0 < k → k < n → distAt h ((k - 1) / 2) ≤ distAt h k

/-- The heap order on the whole queue. -/
def IsHeap (h : DijkstraQueue) : Prop :=
  IsHeapPrefix h h.length

/-- The heap order with the entry at `j` exempt from the comparison with its
parent; the children of `j` are not below the parent of `j`. This is what
holds while `up` carries an entry towards the root. -/
def HeapExceptUp (h : DijkstraQueue) (j : Nat) : Prop :=
  (∀ k, 0 < k → k < h.length → k ≠ j → distAt h ((k - 1) / 2) ≤ distAt h k) ∧
    ∀ k, 0 < k → k < h.length → (k - 1) / 2 = j → 0 < j →
      distAt h ((j - 1) / 2) ≤ distAt h k

/-- The heap order on the first `n` entries with the entry at `i` exempt from
the comparison with its children; the children of `i` are not below the parent
of `i`. This is what holds while `down` carries an entry towards the leaves. -/
def HeapExceptDown (h : DijkstraQueue) (i n : Nat) : Prop :=
  (∀ k, 0 < k → k < n → (k - 1) / 2 ≠ i → distAt h ((k - 1) / 2) ≤ distAt h k) ∧
    ∀ k, 0 < k → k < n → (k - 1) / 2 = i → 0 < i →
      distAt h ((i - 1) / 2) ≤ distAt h k

/-- The componentwise negation of a vector. -/
def Point2D.neg (p : Point2D) : Point2D :=
  { X := -p.X, Y := -p.Y }

/-- The states of the loop `for queue.Len() > 0` of `dijkstra` at the head of
its iterations: `Run pops queue state` says that the loop, started by
`dijkstra` on `start`, reaches the loop head with `queue` and `state` after
popping the entries `pops`, the latest first. -/
inductive Run (minRun maxRun : Int) (cityMap : CityMap) (start : DijkstraPoint) :
    List DijkstraState → DijkstraQueue → DijkstraStateMap → Prop
  | init : Run minRun maxRun cityMap start [] (heapInit [DijkstraState.root 0 start])
      emptyStateMap
  | step {pops : List DijkstraState} {queue queue1 queue2 : DijkstraQueue}
      {state state2 : DijkstraStateMap} {point : DijkstraState} :
      Run minRun maxRun cityMap start pops queue state →
      heapPop queue = some (point, queue1) →
      relax maxRun cityMap point (nextPoints minRun point.Point) queue1 state =
        Outcome.ok (queue2, state2) →
      Run minRun maxRun cityMap start (point :: pops) queue2 state2

/-- The loop heads that follow a loop head: `Later queue state queue2 state2`
says that the loop, at its head with `queue` and `state`, is at its head with
`queue2` and `state2` some iterations later (or none). -/
inductive Later (minRun maxRun : Int) (cityMap : CityMap) (queue : DijkstraQueue)
    (state : DijkstraStateMap) : DijkstraQueue → DijkstraStateMap → Prop
  | refl : Later minRun maxRun cityMap queue state queue state
  | step {queue1 queue2 queue3 : DijkstraQueue}
      {state2 state3 : DijkstraStateMap} {point : DijkstraState} :
      Later minRun maxRun cityMap queue state queue1 state2 →
      heapPop queue1 = some (point, queue2) →
      relax maxRun cityMap point (nextPoints minRun point.Point) queue2 state2 =
        Outcome.ok (queue3, state3) →
      Later minRun maxRun cityMap queue state queue3 state3

/-- The test of the specification for a stale entry: the table records a
strictly lower distance for the state of the popped entry. -/
def isStale (state : DijkstraStateMap) (point : DijkstraState) : Bool :=
  match state.lookup point.Point with
  | some e => decide (e.Distance < point.Distance)
  | none => false

/-- The loop of the specification: as `dijkstraLoop`, but a popped entry that
is stale is discarded without looking at its successors. -/
def lazyDeletionLoop (minRun maxRun : Int) (cityMap : CityMap) :
    Nat → DijkstraQueue → DijkstraStateMap → Outcome DijkstraStateMap
  | fuel, queue, state =>
    match heapPop queue with
    | none => Outcome.ok state
    | some (point, queue1) =>
      match fuel with
      | 0 => Outcome.outOfFuel
      | fuel1 + 1 =>
        if isStale state point then lazyDeletionLoop minRun maxRun cityMap fuel1 queue1 state
        else
          match relax maxRun cityMap point (nextPoints minRun point.Point) queue1 state with
          | Outcome.ok (queue2, state2) =>
            lazyDeletionLoop minRun maxRun cityMap fuel1 queue2 state2
          | Outcome.panicked => Outcome.panicked
          | Outcome.outOfFuel => Outcome.outOfFuel

/-- The search of the specification: `dijkstra` with `lazyDeletionLoop` as its loop. -/
def lazyDeletionDijkstra (fuel : Nat) (cityMap : CityMap) (start : DijkstraPoint) :
    Outcome DijkstraStateMap :=
  match cityMap with
  | [] => Outcome.panicked
  | row0 :: _ =>
    if cityMap.length * row0.length * 4 * 3 < 1 then Outcome.panicked
    else lazyDeletionLoop 4 10 cityMap fuel (heapInit [DijkstraState.root 0 start]) emptyStateMap

/-- Every entry of the queue is the seed entry or is recorded in the table, for
the same state, at a distance that is not larger. -/
def Recorded (start : DijkstraPoint) (queue : DijkstraQueue) (state : DijkstraStateMap) : Prop :=
  ∀ e ∈ queue, e = seedState start ∨
    ∃ e2, state.lookup e.Point = some e2 ∧ e2.Distance ≤ e.Distance

/-- A grid of two rows and two columns. -/
def cornerMap : CityMap := [[1, 2], [3, 4]]

/-- The entry for the step to the right from the seed on `cornerMap`. -/
def cornerRight : DijkstraState :=
  DijkstraState.link 2 (zeroPoint.Move DirectionRight) (seedState zeroPoint)

/-- The entry for the step down from the seed on `cornerMap`. -/
def cornerDown : DijkstraState :=
  DijkstraState.link 3 (zeroPoint.Move DirectionDown) (seedState zeroPoint)

/-- The queue after the first iteration of the loop on `cornerMap`. -/
def cornerQueue : DijkstraQueue := [cornerRight, cornerDown]

/-- The table after the first iteration of the loop on `cornerMap`. -/
def cornerTable : DijkstraStateMap :=
  [(cornerRight.Point, cornerRight), (cornerDown.Point, cornerDown)]

/-! ## The search on the 64-bit `int` of Go

The definitions above take the sums of the program in `Int`, where they are
exact. The definitions of this section, with the suffix `64`, are the same
functions of `main.go` with every sum taken in the 64-bit `int` of Go, where
it wraps around: the sums of `Point2D.Add`, the sum `p.Count + 1` of
`DijkstraPoint.Move` and the sum `point.Distance + cityMap[Y][X]` of line 236
of `dijkstra`. The capacity `len(cityMap)*len(cityMap[0])*4*3` of line 208 is
taken exactly: a grid that is held in memory has too few cells for this
product to wrap.
-/

/-- The value a Go `int` of 64 bits holds after an operation whose exact
result is `x`: the sum, difference or product wraps around. -/
def wrapInt (x : Int) : Int :=
  (x + 2 ^ 63) % 2 ^ 64 - 2 ^ 63

/-- The values of a Go `int` of 64 bits. -/
def IsInt (x : Int) : Prop :=
  -(2 ^ 63) ≤ x ∧ x < 2 ^ 63

instance (x : Int) : Decidable (IsInt x) := by
  unfold IsInt
  infer_instance

/-- Go `Point2D.Add` on the 64-bit `int`. -/
def Point2D.Add64 (p other : Point2D) : Point2D :=
  { X := wrapInt (p.X + other.X), Y := wrapInt (p.Y + other.Y) }

/-- Go `DijkstraPoint.Move` on the 64-bit `int`. -/
def DijkstraPoint.Move64 (p : DijkstraPoint) (direction : ClumsyCrucible.Direction) :
    DijkstraPoint :=
  { Count := if p.Direction = direction then wrapInt (p.Count + 1) else 1
    Direction := direction
    Coordinate := p.Coordinate.Add64 direction.ToVector }

/-- The candidate successors of lines 217-227 of `dijkstra` on the 64-bit `int`. -/
def nextPoints64 (point : DijkstraPoint) : List DijkstraPoint :=
  if point.Count > 0 ∧ point.Count < 4 then
    [point.Move64 point.Direction]
  else
    [point.Move64 DirectionRight, point.Move64 DirectionDown, point.Move64 DirectionLeft,
      point.Move64 DirectionUp]

/-- The body of the inner loop of `dijkstra`, lines 230-246, for one
candidate, on the 64-bit `int`: the sum of line 236 wraps around. -/
def relaxOne64 (cityMap : CityMap) (point : DijkstraState) (nextPoint : DijkstraPoint)
    (queue : DijkstraQueue) (state : DijkstraStateMap) :
    Outcome (DijkstraQueue × DijkstraStateMap) :=
  if skipped 10 cityMap point.Point nextPoint then Outcome.ok (queue, state)
  else
    match cityMap.cell nextPoint.Coordinate with
    | none => Outcome.panicked
    | some cost =>
      let nextDistance := wrapInt (point.Distance + cost)
      if improves state nextPoint nextDistance then
        let nextState := DijkstraState.link nextDistance nextPoint point
        Outcome.ok (heapPush queue nextState, state.set nextPoint nextState)
      else Outcome.ok (queue, state)

/-- The inner loop `for _, nextPoint := range nextPoints` of `dijkstra` on the
64-bit `int`. -/
def relax64 (cityMap : CityMap) (point : DijkstraState) :
    List DijkstraPoint → DijkstraQueue → DijkstraStateMap →
      Outcome (DijkstraQueue × DijkstraStateMap)
  | [], queue, state => Outcome.ok (queue, state)
  | nextPoint :: rest, queue, state =>
    match relaxOne64 cityMap point nextPoint queue state with
    | Outcome.ok (queue1, state1) => relax64 cityMap point rest queue1 state1
    | Outcome.panicked => Outcome.panicked
    | Outcome.outOfFuel => Outcome.outOfFuel

/-- The loop `for queue.Len() > 0` of `dijkstra` on the 64-bit `int`, at most
`fuel` iterations. -/
def dijkstraLoop64 (cityMap : CityMap) :
    Nat → DijkstraQueue → DijkstraStateMap → Outcome DijkstraStateMap
  | fuel, queue, state =>
    match heapPop queue with
    | none => Outcome.ok state
    | some (point, queue1) =>
      match fuel with
      | 0 => Outcome.outOfFuel
      | fuel1 + 1 =>
        match relax64 cityMap point (nextPoints64 point.Point) queue1 state with
        | Outcome.ok (queue2, state2) => dijkstraLoop64 cityMap fuel1 queue2 state2
        | Outcome.panicked => Outcome.panicked
        | Outcome.outOfFuel => Outcome.outOfFuel

/-- Go `dijkstra` on the 64-bit `int`. -/
def dijkstra64 (fuel : Nat) (cityMap : CityMap) (start : DijkstraPoint) :
    Outcome DijkstraStateMap :=
  match cityMap with
  | [] => Outcome.panicked
  | row0 :: _ =>
    if cityMap.length * row0.length * 4 * 3 < 1 then Outcome.panicked
    else dijkstraLoop64 cityMap fuel (heapInit [DijkstraState.root 0 start]) emptyStateMap

/-- Go `runMain` after a successful `parseCityMap`, on the 64-bit `int`. -/
def runMain64 (fuel : Nat) (cityMap : CityMap) : Outcome Report :=
  match dijkstra64 fuel cityMap zeroPoint with
  | Outcome.panicked => Outcome.panicked
  | Outcome.outOfFuel => Outcome.outOfFuel
  | Outcome.ok state =>
    let minState := selectMin 4 10 cityMap state
    match markPath (pathStates minState) (cityMap.map (fun row => row.map toString)) with
    | none => Outcome.panicked
    | some solution => Outcome.ok { minState := minState, solution := solution }

/-- The states of the loop `for queue.Len() > 0` of `dijkstra` on the 64-bit
`int` at the head of its iterations: `Run64 cityMap start pops queue state`
says that the loop, started by `dijkstra` on `start`, reaches the loop head
with `queue` and `state` after popping the entries `pops`, the latest first. -/
inductive Run64 (cityMap : CityMap) (start : DijkstraPoint) :
    List DijkstraState → DijkstraQueue → DijkstraStateMap → Prop
  | init : Run64 cityMap start [] (heapInit [DijkstraState.root 0 start]) emptyStateMap
  | step {pops : List DijkstraState} {queue queue1 queue2 : DijkstraQueue}
      {state state2 : DijkstraStateMap} {point : DijkstraState} :
      Run64 cityMap start pops queue state →
      heapPop queue = some (point, queue1) →
      relax64 cityMap point (nextPoints64 point.Point) queue1 state =
        Outcome.ok (queue2, state2) →
      Run64 cityMap start (point :: pops) queue2 state2

/-- The loop heads on the 64-bit `int` that follow a loop head. -/
inductive Later64 (cityMap : CityMap) (queue : DijkstraQueue) (state : DijkstraStateMap) :
    DijkstraQueue → DijkstraStateMap → Prop
  | refl : Later64 cityMap queue state queue state
  | step {queue1 queue2 queue3 : DijkstraQueue}
      {state2 state3 : DijkstraStateMap} {point : DijkstraState} :
      Later64 cityMap queue state queue1 state2 →
      heapPop queue1 = some (point, queue2) →
      relax64 cityMap point (nextPoints64 point.Point) queue2 state2 =
        Outcome.ok (queue3, state3) →
      Later64 cityMap queue state queue3 state3

/-- The loop of the specification on the 64-bit `int`: as `dijkstraLoop64`,
but a popped entry that is stale is discarded without looking at its
successors. -/
def lazyDeletionLoop64 (cityMap : CityMap) :
    Nat → DijkstraQueue → DijkstraStateMap → Outcome DijkstraStateMap
  | fuel, queue, state =>
    match heapPop queue with
    | none => Outcome.ok state
    | some (point, queue1) =>
      match fuel with
      | 0 => Outcome.outOfFuel
      | fuel1 + 1 =>
        if isStale state point then lazyDeletionLoop64 cityMap fuel1 queue1 state
        else
          match relax64 cityMap point (nextPoints64 point.Point) queue1 state with
          | Outcome.ok (queue2, state2) => lazyDeletionLoop64 cityMap fuel1 queue2 state2
          | Outcome.panicked => Outcome.panicked
          | Outcome.outOfFuel => Outcome.outOfFuel

/-- The search of the specification on the 64-bit `int`: `dijkstra64` with
`lazyDeletionLoop64` as its loop. -/
def lazyDeletionDijkstra64 (fuel : Nat) (cityMap : CityMap) (start : DijkstraPoint) :
    Outcome DijkstraStateMap :=
  match cityMap with
  | [] => Outcome.panicked
  | row0 :: _ =>
    if cityMap.length * row0.length * 4 * 3 < 1 then Outcome.panicked
    else lazyDeletionLoop64 cityMap fuel (heapInit [DijkstraState.root 0 start]) emptyStateMap

/-- The costs of the grid are small enough for the sums of the search not to
wrap: some `bound ≥ 1` is at least every cost, and `40 * rows * cols + 1`
times the bound is below `2^63`. A grid of `rows * cols` cells has
`40 * rows * cols` states (four headings, run-lengths 1 to 10). -/
def Fits (cityMap : CityMap) : Prop :=
  ∃ bound : Int, 1 ≤ bound ∧ (∀ row ∈ cityMap, ∀ c ∈ row, c ≤ bound) ∧
    (40 * ((cityMap.length : Int) * ((cityMap.headD []).length : Int)) + 1) * bound < 2 ^ 63

/-- The distance recorded for a point, `none` when the run did not return a
table or the table has no entry for the point. -/
def recordedDistance (run : Outcome DijkstraStateMap) (key : DijkstraPoint) : Option Int :=
  match run with
  | Outcome.ok table => (table.lookup key).map DijkstraState.Distance
  | _ => none

/-- A candidate that the inner loop of `dijkstra` on the 64-bit `int` does not
skip when it expands `s`. -/
def Succ64 (cityMap : CityMap) (s t : DijkstraPoint) : Prop :=
  t ∈ nextPoints64 s ∧ skipped 10 cityMap s t = false

/-- The coordinates of the reconstructed path of `e`, from the coordinate of
the seed to the coordinate of `e`. -/
def pathCoordinates (e : DijkstraState) : List Point2D :=
  e.origin.Point.Coordinate :: (trail e).map DijkstraPoint.Coordinate

/-- The coordinates of the path a run of `runMain` reconstructs, the start
cell first. -/
def reportPath : Outcome Report → Option (List Point2D)
  | Outcome.ok report => some (pathCoordinates report.minState)
  | _ => none

/-- The entry recorded for a point, `none` when the run did not return a
table or the table has no entry for the point. -/
def recordedEntry (run : Outcome DijkstraStateMap) (key : DijkstraPoint) :
    Option DijkstraState :=
  match run with
  | Outcome.ok table => table.lookup key
  | _ => none

/-- An entry of the search on the 64-bit `int`: its distance is a value of the
64-bit `int`; when it has a predecessor, its point is in bounds with a
run-length that is a value of the 64-bit `int` of at most 10. -/
def Tame64 (cityMap : CityMap) (e : DijkstraState) : Prop :=
  IsInt e.Distance ∧
    (e.Previous ≠ none →
      cityMap.InBounds e.Point.Coordinate = true ∧ IsInt e.Point.Count ∧ e.Point.Count ≤ 10)

/-- The sum, over the points of `V` the table records, of the recorded
distance less `math.MinInt`. -/
def totalDistance64 (V : Finset DijkstraPoint) (state : DijkstraStateMap) : Nat :=
  V.sum (fun k =>
    match state.lookup k with
    | some e => (e.Distance + 2 ^ 63).toNat
    | none => 0)

/-- The measure `(absentCount, queue length + totalDistance64)` of the second
pair is at most that of the first, in the lexicographic order. -/
def MeasureLE64 (V : Finset DijkstraPoint) (q1 : DijkstraQueue) (s1 : DijkstraStateMap)
    (q2 : DijkstraQueue) (s2 : DijkstraStateMap) : Prop :=
  absentCount V s2 < absentCount V s1 ∨
    (absentCount V s2 = absentCount V s1 ∧
      q2.length + totalDistance64 V s2 ≤ q1.length + totalDistance64 V s1)

/-- Every successor `t` of `s` on the 64-bit `int` is recorded at a distance
of at most the wrapped sum of `d` and the cost of the cell of `t`. -/
def Processed64 (cityMap : CityMap) (state : DijkstraStateMap) (s : DijkstraPoint) (d : Int) :
    Prop :=
  ∀ t, Succ64 cityMap s t →
    ∃ e, state.lookup t = some e ∧ e.Distance ≤ wrapInt (d + cost cityMap t.Coordinate)

/-- Every label is still in the queue, or its successors have been relaxed
with it on the 64-bit `int`, or it is the label of the entry being expanded. -/
def Settled64 (cityMap : CityMap) (start : DijkstraPoint) (current : Option DijkstraState)
    (queue : DijkstraQueue) (state : DijkstraStateMap) : Prop :=
  ∀ s d, Labelled start state s d →
    Pending queue s d ∨ Processed64 cityMap state s d ∨
      ∃ point, current = some point ∧ point.Point = s ∧ point.Distance = d

/-- Whether no sum of line 236 wraps around when the inner loop expands
`point`: for every candidate that is not skipped, the distance of `point`
plus the cost of the cell of the candidate is a value of the 64-bit `int`. -/
def noOverflow (cityMap : CityMap) (point : DijkstraState) : Bool :=
  (nextPoints64 point.Point).all (fun t =>
    skipped 10 cityMap point.Point t ||
      match cityMap.cell t.Coordinate with
      | some c => decide (IsInt (point.Distance + c))
      | none => true)

/-- An entry of the search from a seed of run-length 0 to 10: a distance that
is not negative, a run-length from 0 to 10 and coordinates that are values of the
64-bit `int`; when it has a predecessor, its point is in bounds with a
run-length of at least 1. -/
def Small (cityMap : CityMap) (e : DijkstraState) : Prop :=
  0 ≤ e.Distance ∧ 0 ≤ e.Point.Count ∧ e.Point.Count ≤ 10 ∧
    IsInt e.Point.Coordinate.X ∧ IsInt e.Point.Coordinate.Y ∧
    (e.Previous ≠ none → cityMap.InBounds e.Point.Coordinate = true ∧ 1 ≤ e.Point.Count)

/-- The chain of `e` visits no state twice, every state on it is recorded at a
distance of at most that of `e`, and the distance of `e` is at most `bound`
for each state on the chain. -/
def Simple (bound : Int) (state : DijkstraStateMap) (e : DijkstraState) : Prop :=
  e.Distance ≤ ((pathStates e).length : Int) * bound ∧
    ((pathStates e).map DijkstraState.Point).Nodup ∧
    ∀ a ∈ pathStates e, ∃ r, state.lookup a.Point = some r ∧ r.Distance ≤ e.Distance

/-- The head of the loop of `dijkstra64` after `n` iterations: the entries
popped so far (the latest first), the queue and the table; `none` when the
loop has ended before or an iteration has panicked. -/
def loopHead64 (cityMap : CityMap) (start : DijkstraPoint) :
    Nat → Option (List DijkstraState × DijkstraQueue × DijkstraStateMap)
  | 0 => some ([], heapInit [DijkstraState.root 0 start], emptyStateMap)
  | n + 1 =>
    match loopHead64 cityMap start n with
    | none => none
    | some (pops, queue, state) =>
      match heapPop queue with
      | none => none
      | some (point, queue1) =>
        match relax64 cityMap point (nextPoints64 point.Point) queue1 state with
        | Outcome.ok (queue2, state2) => some (point :: pops, queue2, state2)
        | _ => none

/-- The entry `heap.Pop` returns for the queue, the seed entry of `zeroPoint`
for the empty queue. -/
def popped (queue : DijkstraQueue) : DijkstraState :=
  match heapPop queue with
  | some (point, _) => point
  | none => seedState zeroPoint

/-- The queue `heap.Pop` leaves, the empty queue for the empty queue. -/
def afterPop (queue : DijkstraQueue) : DijkstraQueue :=
  match heapPop queue with
  | some (_, rest) => rest
  | none => []

/-! ## Further example runs -/

/-- A grid of two rows and five columns, every cost 1. -/
def turnMap : CityMap := [[1, 1, 1, 1, 1], [1, 1, 1, 1, 1]]

/-- The entry the search records on `turnMap` for the cell `(4, 1)`: four
steps to the right, then a turn down. -/
def turnEntry : DijkstraState :=
  DijkstraState.link 5
    { Count := 1, Direction := DirectionDown, Coordinate := { X := 4, Y := 1 } }
    (exampleEntry 4)

/-- The table `dijkstra` returns for `turnMap` and the seed `zeroPoint`. -/
def turnTable : DijkstraStateMap :=
  [((exampleEntry 1).Point, exampleEntry 1), ((allOnesDown 1).Point, allOnesDown 1),
    ((exampleEntry 2).Point, exampleEntry 2), ((exampleEntry 3).Point, exampleEntry 3),
    ((exampleEntry 4).Point, exampleEntry 4), (turnEntry.Point, turnEntry)]

/-- A grid of two rows and six columns, every cost 1. -/
def wideMap : CityMap := [[1, 1, 1, 1, 1, 1], [1, 1, 1, 1, 1, 1]]

/-- A grid of one row whose second cell has the cost `math.MaxInt`, the other
cells the cost 0. -/
def maxCostMap : CityMap := [[0, 9223372036854775807, 0, 0, 0]]

/-- A grid of one row whose second cell has the cost `math.MaxInt`. -/
def overflowMap : CityMap := [[0, 9223372036854775807, 1, 1, 1]]

/-- A grid of five rows and six columns whose top-right cell has the cost
`math.MaxInt`, the other cells the cost 1. -/
def staleMap : CityMap :=
  [[1, 1, 1, 1, 1, 9223372036854775807], [1, 1, 1, 1, 1, 1], [1, 1, 1, 1, 1, 1],
    [1, 1, 1, 1, 1, 1], [1, 1, 1, 1, 1, 1]]

/-- The state at the top-right cell of `staleMap` after a turn to the right. -/
def stalePoint : DijkstraPoint :=
  { Count := 1, Direction := DirectionRight, Coordinate := { X := 5, Y := 0 } }

/-- A state with the run-length and the column `math.MaxInt`. -/
def extremePoint : DijkstraPoint :=
  { Count := 9223372036854775807, Direction := DirectionRight,
    Coordinate := { X := 9223372036854775807, Y := 0 } }

/-- The entry the search records on `overflowMap` for the cell `(1, 0)`, at
the distance `math.MaxInt`. -/
def overflowEntry : DijkstraState :=
  DijkstraState.link 9223372036854775807
    { Count := 1, Direction := DirectionRight, Coordinate := { X := 1, Y := 0 } }
    (seedState zeroPoint)

/-- The entry the search on the 64-bit `int` records on `overflowMap` for the
cell `(2, 0)`, at the distance `math.MinInt`. -/
def wrappedEntry : DijkstraState :=
  DijkstraState.link (-9223372036854775808)
    { Count := 2, Direction := DirectionRight, Coordinate := { X := 2, Y := 0 } }
    overflowEntry

/-- The head of the loop of `dijkstra64` on `staleMap` after 44 iterations;
the next iteration pops an entry whose state is recorded at a lower distance. -/
def staleHead : List DijkstraState × DijkstraQueue × DijkstraStateMap :=
  (loopHead64 staleMap zeroPoint 44).getD ([], [], [])

/-- The head of the loop of `dijkstra64` on `staleMap` after 91 iterations;
the next iteration pops an entry whose state is recorded at a lower distance
and forms a sum that wraps around. -/
def wrapHead : List DijkstraState × DijkstraQueue × DijkstraStateMap :=
  (loopHead64 staleMap zeroPoint 91).getD ([], [], [])

/-- The state at the cell `(4, 1)` of `staleMap` after a turn down. -/
def turnDownPoint : DijkstraPoint :=
  { Count := 1, Direction := DirectionDown, Coordinate := { X := 4, Y := 1 } }

end ClumsyCrucible

/-! # `aplenty`: the ranges of `countAcceptedParts`

`src/cmd/aplenty/main.go`. A `Range` is the half-open interval from `Min` up
to, not including, `Max`: `countAcceptedParts` counts `Max - Min` values and
skips a range with `Max <= Min`. The panic of `Range.Subtract` is `none`.
Go `int` is the 64-bit integer: the sum `targetValue + 1` of `parseWorkflows`
wraps around.
-/

namespace Aplenty

open ClumsyCrucible (wrapInt)

/-- Go `Range`. -/
structure Range where
  Min : Int
  Max : Int
deriving DecidableEq, Repr

/-- Go `Range.Intersect`. -/
def Range.Intersect (r other : Range) : Range :=
  { Min := max r.Min other.Min, Max := min r.Max other.Max }

/-- Go `Range.Subtract`; `none` is the panic "not implemented in general case". -/
def Range.Subtract (r other : Range) : Option Range :=
  if r.Min = other.Min then some { Min := other.Max, Max := r.Max }
  else if r.Max = other.Max then some { Min := r.Min, Max := other.Min }
  else none

/-- Go `MaxRange`. -/
def MaxRange : Range := { Min := 1, Max := 4001 }

/-- The target range `parseWorkflows` builds at lines 118-124 from the
comparison symbol `criteria[1]` and the parsed value. -/
def conditionTarget (symbol : Char) (targetValue : Int) : Range :=
  if symbol = '<' then { Min := MaxRange.Min, Max := targetValue }
  else if symbol = '>' then { Min := wrapInt (targetValue + 1), Max := MaxRange.Max }
  else MaxRange

/-- The test `next.X.Max <= next.X.Min` of lines 172-175 of
`countAcceptedParts`, on the range `p` of the category of the rule: when it
holds the loop goes on to the next rule with `continue`, and `Subtract` is
not called for this rule. -/
def skipsRule (p target : Range) : Bool :=
  decide ((p.Intersect target).Max ≤ (p.Intersect target).Min)

/-- What one rule with a condition does to the range `p` of its category in
`countAcceptedParts`, the range the following rules see: `p` itself after the
`continue` of lines 172-175, and `p.Intersect(MaxRange.Subtract(target))`,
lines 199-205, otherwise. `none` is the panic of `Subtract`. -/
def passOn (p target : Range) : Option Range :=
  if skipsRule p target then some p
  else
    match MaxRange.Subtract target with
    | some rest => some (p.Intersect rest)
    | none => none

/-- The values of a range: `Min ≤ x < Max`. -/
def Range.Mem (r : Range) (x : Int) : Prop :=
  r.Min ≤ x ∧ x < r.Max

/-- A range that lies within `MaxRange`. `runMain` calls `countAcceptedParts`
with the pattern of four times `MaxRange`, and `countAcceptedParts` only ever
replaces a range of its pattern by its intersection with another range, so
every range of a pattern lies within `MaxRange`. -/
def Range.Within (r : Range) : Prop :=
  MaxRange.Min ≤ r.Min ∧ r.Max ≤ MaxRange.Max

end Aplenty

/-! # `haunted-wasteland` and `pulse-propagation`: `gcd` and `lcm`

`src/cmd/haunted-wasteland/main.go`, lines 83-93, and
`src/cmd/pulse-propagation/main.go`, lines 228-238, hold the same two
functions. Go `int` is the 64-bit two's complement integer here: the product
`a * b` of `lcm` wraps around, `%` and `/` truncate towards zero, and a
division by zero panics. The loop of `gcd` runs on fuel.
-/

namespace HauntedWasteland

open ClumsyCrucible (Outcome)

/-- The value a Go `int` of 64 bits holds after an operation whose exact
result is `x`. -/
def wrapInt (x : Int) : Int :=
  (x + 2 ^ 63) % 2 ^ 64 - 2 ^ 63

/-- The loop `for b != 0 { a, b = b, a%b }` of `gcd`, at most `fuel` iterations. -/
def gcdLoop : Nat → Int → Int → Outcome Int
  | fuel, a, b =>
    if b ≠ 0 then
      match fuel with
      | 0 => Outcome.outOfFuel
      | fuel1 + 1 => gcdLoop fuel1 b (a.tmod b)
    else Outcome.ok a

/-- Go `gcd`. -/
def gcd (fuel : Nat) (a b : Int) : Outcome Int :=
  gcdLoop fuel a b

/-- Go `lcm`: the product is taken first, then `gcd` is called, then the
product is divided. -/
def lcm (fuel : Nat) (a b : Int) : Outcome Int :=
  let product := wrapInt (a * b)
  match gcd fuel a b with
  | Outcome.ok g =>
    if g = 0 then Outcome.panicked else Outcome.ok (wrapInt (product.tdiv g))
  | Outcome.panicked => Outcome.panicked
  | Outcome.outOfFuel => Outcome.outOfFuel

/-- The loop `for _, count := range stepCount { res = lcm(res, count) }` of
lines 45-47 of `runMain`. -/
def lcmLoop (fuel : Nat) : Int → List Int → Outcome Int
  | res, [] => Outcome.ok res
  | res, count :: rest =>
    match lcm fuel res count with
    | Outcome.ok res1 => lcmLoop fuel res1 rest
    | Outcome.panicked => Outcome.panicked
    | Outcome.outOfFuel => Outcome.outOfFuel

/-- Lines 44-47 of `runMain`: `res := 1`, then the loop over `stepCount`. -/
def lcmOfSteps (fuel : Nat) (stepCount : List Int) : Outcome Int :=
  lcmLoop fuel 1 stepCount

/-- No product of the loop of `lcmOfSteps` leaves the range of Go `int`: the
product of the least common multiple so far and the next count is below `2^63`. -/
def ProductsFit : Nat → List Nat → Prop
  | _, [] => True
  | res, count :: rest => res * count < 2 ^ 63 ∧ ProductsFit (Nat.lcm res count) rest

end HauntedWasteland

/-! # `mirage-maintenance`: `extrapolateOnePointBackwards`

`src/cmd/mirage-maintenance/main.go`, lines 46-65. Go `int` is the 64-bit
integer: the differences `numbers[i] - numbers[i-1]` of line 51 and the
difference `numbers[0] - next` of line 64 wrap around.
`make([]int, len(numbers)-1)` panics on the empty list; the recursion runs on
fuel, one unit for each recursive call.
-/

namespace MirageMaintenance

open ClumsyCrucible (Outcome wrapInt IsInt)

/-- The slice `differences` the loop of lines 50-57 fills:
`differences[i-1] = numbers[i] - numbers[i-1]`, in the 64-bit `int`. -/
def differences : List Int → List Int
  | a :: b :: rest => wrapInt (b - a) :: differences (b :: rest)
  | _ => []

/-- The flag `allZeroes` after the loop of lines 50-57: no difference is
other than 0. -/
def allZeroes (numbers : List Int) : Bool :=
  (differences numbers).all (fun difference => decide (difference = 0))

/-- Go `extrapolateOnePointBackwards`, at most `fuel` recursive calls deep. -/
def extrapolateOnePointBackwards : Nat → List Int → Outcome Int
  | _, [] => Outcome.panicked
  | fuel, first :: rest =>
    if allZeroes (first :: rest) then Outcome.ok first
    else
      match fuel with
      | 0 => Outcome.outOfFuel
      | fuel1 + 1 =>
        match extrapolateOnePointBackwards fuel1 (differences (first :: rest)) with
        | Outcome.ok next => Outcome.ok (wrapInt (first - next))
        | Outcome.panicked => Outcome.panicked
        | Outcome.outOfFuel => Outcome.outOfFuel

/-- The finite differences `Δ numbers` of a list of integers, taken exactly.
This is the notion of the specification, not the slice the code fills. -/
def forwardDifferences : List Int → List Int
  | a :: b :: rest => (b - a) :: forwardDifferences (b :: rest)
  | _ => []

/-- The `k`-th finite differences `Δ^k numbers` of a list. -/
def finiteDifferences (k : Nat) (numbers : List Int) : List Int :=
  forwardDifferences^[k] numbers

/-- The alternating sum of the leading finite differences,
`Σ_k (-1)^k (Δ^k numbers)[0]` over `k` below the length of the list. -/
def alternatingSum (numbers : List Int) : Int :=
  ((List.range numbers.length).map
    (fun k => (-1) ^ k * (finiteDifferences k numbers).headD 0)).sum

/-- The list of the two values `math.MaxInt` and `math.MinInt`. -/
def extremes : List Int := [9223372036854775807, -9223372036854775808]

end MirageMaintenance

/-! # `lens-library`: the `HashMap`

`src/cmd/lens-library/main.go`, lines 13-92. A byte is a `Nat` and the
conversion `byte(…)` is `% 256`. A bucket, a `container/list` list of
`*MapEntry`, is the `List` of its entries from front to back; the element
`find` returns is the position of the entry in the bucket. The array
`Buckets [256]list.List` is a `List` of buckets, 256 of them in the zero
value `HashMap{}`.
-/

namespace LensLibrary

/-- Go `MapEntry`. -/
structure MapEntry where
  Key : List Nat
  Value : Int
deriving DecidableEq, Repr

/-- Go `Hash.Write` on the state `state`: the state after the bytes `p`. -/
def hashWrite (state : Nat) (p : List Nat) : Nat :=
  p.foldl (fun s symbol => ((s + symbol) * 17) % 256) state

/-- Go `HashMap`. -/
structure HashMap where
  Buckets : List (List MapEntry)
deriving DecidableEq, Repr

/-- The zero value `var hashMap HashMap`: 256 empty buckets. -/
def emptyHashMap : HashMap :=
  { Buckets := List.replicate 256 [] }

/-- Go `HashMap.bucketIndex`: `Sum64` of a fresh `Hash` after `Write(key)`. -/
def bucketIndex (key : List Nat) : Nat :=
  hashWrite 0 key

/-- Go `HashMap.find`: the position of the first entry of the bucket with
the key, `none` for the `nil` element. -/
def find : List MapEntry → List Nat → Option Nat
  | [], _ => none
  | mapEntry :: rest, key =>
    if mapEntry.Key = key then some 0
    else
      match find rest key with
      | some position => some (position + 1)
      | none => none

/-- The assignment `mapEntry.Value = value` through the element at `position`. -/
def setValue : List MapEntry → Nat → Int → List MapEntry
  | [], _, _ => []
  | mapEntry :: rest, 0, value => { Key := mapEntry.Key, Value := value } :: rest
  | mapEntry :: rest, position + 1, value => mapEntry :: setValue rest position value

/-- The bucket `m.Buckets[m.bucketIndex(key)]`; the index is below 256, so
the default is not used on a map with 256 buckets. -/
def HashMap.bucket (m : HashMap) (key : List Nat) : List MapEntry :=
  m.Buckets.getD (bucketIndex key) []

/-- Go `HashMap.Set`. -/
def HashMap.Set (m : HashMap) (key : List Nat) (value : Int) : HashMap :=
  match find (m.bucket key) key with
  | some position =>
    { Buckets := m.Buckets.set (bucketIndex key) (setValue (m.bucket key) position value) }
  | none =>
    { Buckets := m.Buckets.set (bucketIndex key)
        (m.bucket key ++ [{ Key := key, Value := value }]) }

/-- Go `HashMap.Delete`; `bucket.Remove(e)` takes the element out of the list. -/
def HashMap.Delete (m : HashMap) (key : List Nat) : HashMap :=
  match find (m.bucket key) key with
  | some position =>
    { Buckets := m.Buckets.set (bucketIndex key) ((m.bucket key).eraseIdx position) }
  | none => m

/-- An operation of `parseHashMap` on the map: `label=value` or `label-`. -/
inductive Operation where
  | set (key : List Nat) (value : Int)
  | delete (key : List Nat)
deriving DecidableEq, Repr

/-- The map after one operation. -/
def HashMap.apply (m : HashMap) : Operation → HashMap
  | Operation.set key value => m.Set key value
  | Operation.delete key => m.Delete key

/-- The map after a sequence of operations on the empty map. -/
def runOperations (operations : List Operation) : HashMap :=
  operations.foldl HashMap.apply emptyHashMap

/-- The keys a bucket stores, from front to back. -/
def keysOf (bucket : List MapEntry) : List (List Nat) :=
  bucket.map MapEntry.Key

/-- Every entry sits in the bucket of the hash of its key and no bucket
stores a key twice; there are 256 buckets. -/
def HashMap.Sound (m : HashMap) : Prop :=
  m.Buckets.length = 256 ∧
    ∀ i bucket, m.Buckets[i]? = some bucket →
      (∀ mapEntry ∈ bucket, bucketIndex mapEntry.Key = i) ∧ (keysOf bucket).Nodup

/-- The key is stored in the map. -/
def HashMap.Has (m : HashMap) (key : List Nat) : Prop :=
  ∃ bucket ∈ m.Buckets, key ∈ keysOf bucket

end LensLibrary

/-! # `if-you-give-a-seed-a-fertilizer`: `lookupRange`

`src/cmd/if-you-give-a-seed-a-fertilizer/main.go`, lines 181-243. A `Range`
holds the values from `Start` up to, not including, `End` (`parseSeeds` and
`parseMap` set `End` to `start + length`). Go `int` is the unbounded `Int`.
`slices.BinarySearchFunc` of the standard library is embedded with its loop,
which runs on fuel; an index out of range is `Outcome.panicked`.
`slices.SortFunc`, which is not stable, is an insertion sort by `Start`.
-/

namespace SeedFertilizer

open ClumsyCrucible (Outcome)

/-- Go `Range`. -/
structure Range where
  Start : Int
  End : Int
  Value : Int
deriving DecidableEq, Repr

/-- The comparison function `lookupRange` passes to `slices.BinarySearchFunc`:
0 when the target lies in the range, `cmp.Compare(r.Start, target)` otherwise. -/
def compareRange (r : Range) (target : Int) : Int :=
  if r.Start ≤ target ∧ r.End > target then 0
  else if r.Start < target then -1
  else if r.Start > target then 1
  else 0

/-- The loop `for i < j` of `slices.BinarySearchFunc`, at most `fuel` iterations. -/
def binarySearchLoop : Nat → List Range → Int → Nat → Nat → Outcome Nat
  | fuel, x, target, i, j =>
    if i < j then
      match fuel with
      | 0 => Outcome.outOfFuel
      | fuel1 + 1 =>
        match x[(i + j) / 2]? with
        | none => Outcome.panicked
        | some r =>
          if compareRange r target < 0 then binarySearchLoop fuel1 x target ((i + j) / 2 + 1) j
          else binarySearchLoop fuel1 x target i ((i + j) / 2)
    else Outcome.ok i

/-- Go `slices.BinarySearchFunc` with the comparison function `compareRange`:
the position and whether the target was found there. -/
def BinarySearchFunc (fuel : Nat) (x : List Range) (target : Int) : Outcome (Nat × Bool) :=
  match binarySearchLoop fuel x target 0 x.length with
  | Outcome.ok i =>
    match x[i]? with
    | some r => Outcome.ok (i, decide (compareRange r target = 0))
    | none => Outcome.ok (i, false)
  | Outcome.panicked => Outcome.panicked
  | Outcome.outOfFuel => Outcome.outOfFuel

/-- The range appended at lines 206-209 when the start was not found. -/
def firstGap (haystack : List Range) (needle : Range) (start : Nat) : Range :=
  match haystack[start]? with
  | some r => { Start := needle.Start, End := min r.Start needle.Start, Value := 0 }
  | none => { Start := needle.Start, End := needle.Start, Value := 0 }

/-- The loop `for i := start; i < end; i++` of lines 212-229, with `count`
iterations left. -/
def middleLoop (haystack : List Range) (needle : Range) :
    Nat → Nat → List Range → Outcome (List Range)
  | _, 0, res => Outcome.ok res
  | i, count + 1, res =>
    match haystack[i]? with
    | none => Outcome.panicked
    | some r =>
      let res1 := res ++ [{ Start := max r.Start needle.Start + r.Value,
                            End := min r.End needle.End + r.Value, Value := 0 }]
      let gapEnd :=
        match haystack[i + 1]? with
        | some next => min next.Start needle.End
        | none => needle.End
      let res2 := if gapEnd > r.End then res1 ++ [{ Start := r.End, End := gapEnd, Value := 0 }]
        else res1
      middleLoop haystack needle (i + 1) count res2

/-- Go `slices.SortFunc` with `cmp.Compare(a.Start, b.Start)`. -/
def sortByStart (res : List Range) : List Range :=
  res.insertionSort (fun a b => a.Start ≤ b.Start)

/-- Go `lookupRange`. -/
def lookupRange (fuel : Nat) (haystack : List Range) (needle : Range) :
    Outcome (List Range) :=
  match BinarySearchFunc fuel haystack needle.Start with
  | Outcome.panicked => Outcome.panicked
  | Outcome.outOfFuel => Outcome.outOfFuel
  | Outcome.ok (start, foundStart) =>
    match BinarySearchFunc fuel haystack needle.End with
    | Outcome.panicked => Outcome.panicked
    | Outcome.outOfFuel => Outcome.outOfFuel
    | Outcome.ok (stop, foundEnd) =>
      let res0 := if foundStart then [] else [firstGap haystack needle start]
      match middleLoop haystack needle start (stop - start) res0 with
      | Outcome.panicked => Outcome.panicked
      | Outcome.outOfFuel => Outcome.outOfFuel
      | Outcome.ok res1 =>
        if foundEnd then
          match haystack[stop]? with
          | none => Outcome.panicked
          | some r =>
            Outcome.ok (sortByStart (res1 ++
              [{ Start := max r.Start needle.Start + r.Value,
                 End := needle.End + r.Value, Value := 0 }]))
        else Outcome.ok (sortByStart res1)

/-- The number of values the ranges hold together. -/
def totalLength (ranges : List Range) : Int :=
  (ranges.map (fun r => r.End - r.Start)).sum

/-- The value `x` lies in the range. -/
def Range.Mem (r : Range) (x : Int) : Prop :=
  r.Start ≤ x ∧ x < r.End

/-- The image of `x` under the map the haystack stands for: shifted by the
`Value` of the first range that holds `x`, unchanged when none does. -/
def mapValue : List Range → Int → Int
  | [], x => x
  | r :: rest, x => if r.Start ≤ x ∧ x < r.End then x + r.Value else mapValue rest x

/-- The haystack and needle on which `lookupRange` loses values. -/
def lossyHaystack : List Range := [{ Start := 10, End := 20, Value := 5 }]

/-- The needle `[5, 15)`. -/
def lossyNeedle : Range := { Start := 5, End := 15, Value := 0 }

end SeedFertilizer

/-! # `camel-cards`: `rankHand`

`src/cmd/camel-cards/main.go`, lines 14-48 and 130-228. A `Card` is one of
the thirteen constants and a `Rank` is its Go `int` value, from 0 for
`RankHighCard` to 6 for `RankFiveOfAKind`. The array `[5]Card` is a `List`
of cards. The map `cardCount` is the function from a card to its count, 0
for a card that is not a key; the loops over the map look for the count 2,
which no card outside the map has, so they run over all the cards here. The
panic of `rankHand` is `none`.
-/

namespace CamelCards

/-- Go `Card` with its constants. -/
inductive Card where
  | CardJoker
  | Card2
  | Card3
  | Card4
  | Card5
  | Card6
  | Card7
  | Card8
  | Card9
  | Card10
  | CardQueen
  | CardKing
  | CardAce
deriving DecidableEq, Repr

open Card

/-- Go `Rank`, an `int`. -/
abbrev Rank := Nat

/-- Go `RankHighCard`. -/
def RankHighCard : Rank := 0

/-- Go `RankOnePair`. -/
def RankOnePair : Rank := 1

/-- Go `RankTwoPair`. -/
def RankTwoPair : Rank := 2

/-- Go `RankThreeOfAKind`. -/
def RankThreeOfAKind : Rank := 3

/-- Go `RankFullHouse`. -/
def RankFullHouse : Rank := 4

/-- Go `RankFourOfAKind`. -/
def RankFourOfAKind : Rank := 5

/-- Go `RankFiveOfAKind`. -/
def RankFiveOfAKind : Rank := 6

/-- The variables `cardCount`, `maxCount` and `jokerCount` of `rankHand`. -/
structure Counts where
  cardCount : Card → Nat
  maxCount : Nat
  jokerCount : Nat

/-- The body of the loop of lines 135-146 for one card. -/
def countCard (counts : Counts) (card : Card) : Counts :=
  if card = CardJoker then
    { cardCount := counts.cardCount, maxCount := counts.maxCount,
      jokerCount := counts.jokerCount + 1 }
  else
    { cardCount := fun c => if c = card then counts.cardCount card + 1 else counts.cardCount c
      maxCount :=
        if counts.cardCount card + 1 > counts.maxCount then counts.cardCount card + 1
        else counts.maxCount
      jokerCount := counts.jokerCount }

/-- The loop of lines 135-146 over the hand, from the empty map and zeros. -/
def countCards (hand : List Card) : Counts :=
  hand.foldl countCard { cardCount := fun _ => 0, maxCount := 0, jokerCount := 0 }

/-- The thirteen cards. -/
def allCards : List Card :=
  [CardJoker, Card2, Card3, Card4, Card5, Card6, Card7, Card8, Card9, Card10, CardQueen,
    CardKing, CardAce]

/-- The variable `pairs` after the loop of lines 169-173. -/
def pairs (cardCount : Card → Nat) : Nat :=
  (allCards.filter (fun c => decide (cardCount c = 2))).length

/-- The variable `hasPair` after the loop of lines 198-203. -/
def hasPair (cardCount : Card → Nat) : Bool :=
  allCards.any (fun c => decide (cardCount c = 2))

/-- The statements of `rankHand` after the counting loop. -/
def rankOfCounts (counts : Counts) : Option Rank :=
  if counts.maxCount = 0 then some RankFiveOfAKind
  else if counts.maxCount = 1 then
    match counts.jokerCount with
    | 0 => some RankHighCard
    | 1 => some RankOnePair
    | 2 => some RankThreeOfAKind
    | 3 => some RankFourOfAKind
    | 4 => some RankFiveOfAKind
    | _ => none
  else if counts.maxCount = 2 then
    if pairs counts.cardCount = 2 then
      match counts.jokerCount with
      | 0 => some RankTwoPair
      | 1 => some RankFullHouse
      | _ => none
    else
      match counts.jokerCount with
      | 0 => some RankOnePair
      | 1 => some RankThreeOfAKind
      | 2 => some RankFourOfAKind
      | 3 => some RankFiveOfAKind
      | _ => none
  else if counts.maxCount = 3 then
    if hasPair counts.cardCount then some RankFullHouse
    else
      match counts.jokerCount with
      | 0 => some RankThreeOfAKind
      | 1 => some RankFourOfAKind
      | 2 => some RankFiveOfAKind
      | _ => none
  else if counts.maxCount = 4 then some (RankFourOfAKind + counts.jokerCount)
  else if counts.maxCount = 5 then some RankFiveOfAKind
  else none

/-- Go `rankHand`. -/
def rankHand (hand : List Card) : Option Rank :=
  rankOfCounts (countCards hand)

/-- The number of cards that the function `cardCount` gives the count `k`. -/
def labelsWith (cardCount : Card → Nat) (k : Nat) : Nat :=
  (allCards.filter (fun c => decide (cardCount c = k))).length

/-- The number of cards that occur exactly `k` times in the hand. -/
def labelsWithCount (hand : List Card) (k : Nat) : Nat :=
  labelsWith (fun c => hand.count c) k

/-- The hand type as a function of the largest number `most` of equal cards
and the number `labels` of different cards of a hand of five cards. -/
def typeOf (most labels : Nat) : Rank :=
  if 5 ≤ most then RankFiveOfAKind
  else if most = 4 then RankFourOfAKind
  else if most = 3 then (if labels ≤ 2 then RankFullHouse else RankThreeOfAKind)
  else if most = 2 then (if labels ≤ 3 then RankTwoPair else RankOnePair)
  else RankHighCard

/-- The type of a hand by the rules of the game, jokers counted as a label
like any other: five of a kind, four of a kind, full house (three of one
label and two of another), three of a kind, two pair, one pair, high card.
It is written from the rules, not from the source, and is what `rankHand`
is compared with. -/
def handType (hand : List Card) : Rank :=
  if 0 < labelsWithCount hand 5 then RankFiveOfAKind
  else if 0 < labelsWithCount hand 4 then RankFourOfAKind
  else if 0 < labelsWithCount hand 3 ∧ 0 < labelsWithCount hand 2 then RankFullHouse
  else if 0 < labelsWithCount hand 3 then RankThreeOfAKind
  else if labelsWithCount hand 2 = 2 then RankTwoPair
  else if 0 < labelsWithCount hand 2 then RankOnePair
  else RankHighCard

/-- The hand `replaced` is `hand` with each joker replaced by a card that is
not a joker, and every other card kept. -/
def Replaces (hand replaced : List Card) : Prop :=
  List.Forall₂ (fun card new => new ≠ CardJoker ∧ (card ≠ CardJoker → new = card)) hand replaced

end CamelCards

/-! # `parabolic-reflector-dish`: `tiltNorth`

`src/cmd/parabolic-reflector-dish/main.go`, lines 11-21 and 78-95. The
platform is the `List` of its rows; `tiltNorth` changes it in place, so the
loops pass the platform and the slice `cursors` along, and every tile is
read from the platform as it is when the loop reaches it. An index out of
range is `none`.
-/

namespace ParabolicReflectorDish

/-- Go `Tile` with its constants. -/
inductive Tile where
  | TileEmptySpace
  | TileRoundedRock
  | TileCubeShapedRock
deriving DecidableEq, Repr

open Tile

/-- Go `Row`. -/
abbrev Row := List Tile

/-- Go `Platform`. -/
abbrev Platform := List Row

/-- The read `(*p)[i][j]`. -/
def getTile (p : Platform) (i j : Nat) : Option Tile :=
  match p[i]? with
  | some row => row[j]?
  | none => none

/-- The write `(*p)[i][j] = tile`. -/
def setTile (p : Platform) (i j : Nat) (tile : Tile) : Option Platform :=
  match p[i]? with
  | some row => if j < row.length then some (p.set i (row.set j tile)) else none
  | none => none

/-- The body of the inner loop of `tiltNorth`, lines 83-92, for the tile at
row `i` and column `j`. -/
def tiltCell (i j : Nat) (state : Platform × List Nat) : Option (Platform × List Nat) :=
  match getTile state.1 i j with
  | none => none
  | some TileCubeShapedRock =>
    if j < state.2.length then some (state.1, state.2.set j (i + 1)) else none
  | some TileRoundedRock =>
    match state.2[j]? with
    | none => none
    | some cursor =>
      if cursor ≠ i then
        match setTile state.1 cursor j TileRoundedRock with
        | none => none
        | some p1 =>
          match setTile p1 i j TileEmptySpace with
          | none => none
          | some p2 => some (p2, state.2.set j (cursor + 1))
      else some (state.1, state.2.set j (cursor + 1))
  | some TileEmptySpace => some state

/-- The inner loop `for j, tile := range row` over the columns `columns`. -/
def tiltColumns (i : Nat) : List Nat → Platform × List Nat → Option (Platform × List Nat)
  | [], state => some state
  | j :: rest, state =>
    match tiltCell i j state with
    | none => none
    | some state1 => tiltColumns i rest state1

/-- The outer loop `for i, row := range *p` over the rows `rows`. -/
def tiltRows : List Nat → Platform × List Nat → Option (Platform × List Nat)
  | [], state => some state
  | i :: rest, state =>
    match state.1[i]? with
    | none => none
    | some row =>
      match tiltColumns i (List.range row.length) state with
      | none => none
      | some state1 => tiltRows rest state1

/-- Go `Platform.tiltNorth`: the platform after the call, `none` for a panic. -/
def tiltNorth (p : Platform) : Option Platform :=
  match p with
  | [] => none
  | row0 :: _ =>
    match tiltRows (List.range p.length) (p, List.replicate row0.length 0) with
    | none => none
    | some state => some state.1

/-- The tile at row `r` and column `c`, empty space outside the platform. -/
def tileAt (p : Platform) (r c : Nat) : Tile :=
  (getTile p r c).getD TileEmptySpace

/-- A platform of `rows` rows with `cols` tiles each. -/
def Rectangular (p : Platform) (rows cols : Nat) : Prop :=
  p.length = rows ∧ ∀ row ∈ p, row.length = cols

/-- The number of rounded rocks of a column in the rows from `a` up to, not
including, `b`. -/
def roundedCount (column : Nat → Tile) (a b : Nat) : Nat :=
  ((Finset.Ico a b).filter (fun r => column r = TileRoundedRock)).card

/-- The rows from `a` up to, not including, `b` are a segment of the column
between cube-shaped rocks or the edges: no cube-shaped rock in them, one (or
the edge) right before them and one (or the edge, row `rows`) right after. -/
def IsSegment (column : Nat → Tile) (rows a b : Nat) : Prop :=
  a ≤ b ∧ b ≤ rows ∧ (a = 0 ∨ column (a - 1) = TileCubeShapedRock) ∧
    (∀ r, a ≤ r → r < b → column r ≠ TileCubeShapedRock) ∧
    (b = rows ∨ column b = TileCubeShapedRock)

/-- The state of a column while `tiltNorth` works on it: `column` is the
column now, `original` the column before the call, `n` the number of its
rows the loop has passed and `cursor` the entry of `cursors` for it. -/
def ColumnOk (original column : Nat → Tile) (cursor n : Nat) : Prop :=
  cursor ≤ n ∧
  (∀ r, cursor ≤ r → r < n → column r = TileEmptySpace) ∧
  (∀ r, n ≤ r → column r = original r) ∧
  (∀ r, column r = TileCubeShapedRock ↔ original r = TileCubeShapedRock) ∧
  (cursor = 0 ∨ column (cursor - 1) ≠ TileEmptySpace) ∧
  (∀ r, r + 1 < n → column (r + 1) = TileRoundedRock → column r ≠ TileEmptySpace) ∧
  (∀ a b, a ≤ b → (a = 0 ∨ original (a - 1) = TileCubeShapedRock) →
    (∀ r, a ≤ r → r < b → original r ≠ TileCubeShapedRock) →
    (n ≤ b ∨ original b = TileCubeShapedRock) →
    roundedCount column a b = roundedCount original a b)

/-- What holds when the loops of `tiltNorth` reach row `i` and column `j`,
for the platform `original` before the call: every column left of `j` has
`i + 1` rows passed and every other column `i`. -/
def TiltInv (original : Platform) (rows cols i j : Nat) (state : Platform × List Nat) : Prop :=
  Rectangular state.1 rows cols ∧ state.2.length = cols ∧
  ∀ c, c < cols → ∃ cursor, state.2[c]? = some cursor ∧
    ColumnOk (fun r => tileAt original r c) (fun r => tileAt state.1 r c) cursor
      (if c < j then i + 1 else i)

/-- No rounded rock of the platform has an empty space directly north of it. -/
def Settled (p : Platform) : Prop :=
  ∀ r c, tileAt p (r + 1) c = TileRoundedRock → tileAt p r c ≠ TileEmptySpace

/-- What holds when the loops of `tiltNorth` reach row `i` and column `j` on
a settled platform `settled`: the platform is as it was. -/
def StillInv (settled : Platform) (cols i j : Nat) (state : Platform × List Nat) : Prop :=
  state.1 = settled ∧ state.2.length = cols ∧
  ∀ c, c < cols → ∃ cursor, state.2[c]? = some cursor ∧
    cursor ≤ (if c < j then i + 1 else i) ∧
    ∀ r, cursor ≤ r → r < (if c < j then i + 1 else i) → tileAt settled r c = TileEmptySpace

/-- A platform of three rows and two columns. -/
def samplePlatform : Platform :=
  [[TileEmptySpace, TileRoundedRock], [TileRoundedRock, TileCubeShapedRock],
    [TileRoundedRock, TileRoundedRock]]

end ParabolicReflectorDish

namespace ClumsyCrucible
open Direction

/-! ## The queue: `container/heap` keeps the entries -/

theorem Swap_perm (d : DijkstraQueue) (i j : Nat) : (DijkstraQueue.Swap d i j).Perm d := by
  unfold DijkstraQueue.Swap
  split
  · rename_i a b ha hb
    obtain ⟨hi, hia⟩ := List.getElem?_eq_some_iff.mp ha
    obtain ⟨hj, hjb⟩ := List.getElem?_eq_some_iff.mp hb
    rw [List.perm_iff_count]
    intro x
    have hj2 : j < (d.set i b).length := by simpa using hj
    rw [List.count_set _ _ _ _ hj2, List.count_set _ _ _ _ hi, List.getElem_set, hia]
    have hb2 : (if i = j then b else d[j]) = b := by
      split
      · rfl
      · exact hjb
    rw [hb2]
    have hA : (if (a == x) = true then 1 else 0) ≤ d.count x := by
      split
      · rename_i h
        have : a = x := by simpa using h
        subst this
        exact List.count_pos_iff.mpr (hia ▸ List.getElem_mem hi)
      · exact Nat.zero_le _
    omega
  · exact List.Perm.refl _

theorem up_perm (fuel : Nat) (h : DijkstraQueue) (j : Nat) : (up fuel h j).Perm h := by
  induction fuel generalizing h j with
  | zero => exact List.Perm.refl _
  | succ fuel ih =>
    simp only [up]
    split
    · exact List.Perm.refl _
    · exact (ih _ _).trans (Swap_perm _ _ _)

theorem down_perm (fuel : Nat) (h : DijkstraQueue) (i n : Nat) : (down fuel h i n).Perm h := by
  induction fuel generalizing h i with
  | zero => exact List.Perm.refl _
  | succ fuel ih =>
    simp only [down]
    split_ifs
    all_goals first
      | exact List.Perm.refl _
      | exact (ih _ _).trans (Swap_perm _ _ _)

theorem heapPush_perm (h : DijkstraQueue) (x : DijkstraState) : (heapPush h x).Perm (x :: h) := by
  unfold heapPush
  refine (up_perm _ _ _).trans ?_
  exact List.perm_append_comm

theorem heapPop_perm {h : DijkstraQueue} {x : DijkstraState} {rest : DijkstraQueue}
    (hp : heapPop h = some (x, rest)) : h.Perm (x :: rest) := by
  unfold heapPop at hp
  simp only at hp
  split at hp
  · cases hp
  · rename_i item hlast
    cases hp
    have h1 := List.dropLast_append_getLast? _ hlast
    have h2 : (down (h.length - 1) (DijkstraQueue.Swap h 0 (h.length - 1)) 0 (h.length - 1)).Perm h :=
      (down_perm _ _ _ _).trans (Swap_perm _ _ _)
    refine h2.symm.trans ?_
    rw [← h1]
    simp

theorem heapPop_eq_none {h : DijkstraQueue} : heapPop h = none ↔ h = [] := by
  constructor
  · intro hp
    unfold heapPop at hp
    simp only at hp
    split at hp
    · rename_i hlast
      have h2 : (down (h.length - 1) (DijkstraQueue.Swap h 0 (h.length - 1)) 0 (h.length - 1)).Perm h :=
        (down_perm _ _ _ _).trans (Swap_perm _ _ _)
      rw [List.getLast?_eq_none_iff] at hlast
      rw [hlast] at h2
      exact List.Perm.nil_eq h2 ▸ rfl
    · cases hp
  · rintro rfl
    rfl

theorem heapInit_singleton (x : DijkstraState) : heapInit [x] = [x] := by
  simp [heapInit, heapInitLoop]

theorem mem_heapPush {h : DijkstraQueue} {x e : DijkstraState} :
    e ∈ heapPush h x ↔ e = x ∨ e ∈ h := by
  rw [(heapPush_perm h x).mem_iff]
  simp

theorem length_heapPush (h : DijkstraQueue) (x : DijkstraState) :
    (heapPush h x).length = h.length + 1 := by
  rw [(heapPush_perm h x).length_eq]
  simp

/-! ## The table: lookups after an assignment -/

theorem lookup_set (state : DijkstraStateMap) (key : DijkstraPoint) (value : DijkstraState)
    (q : DijkstraPoint) :
    (state.set key value).lookup q = if q = key then some value else state.lookup q := by
  induction state with
  | nil =>
    simp only [DijkstraStateMap.set, DijkstraStateMap.lookup]
    by_cases h : key = q
    · simp [h]
    · have : ¬ q = key := fun h2 => h h2.symm
      simp [h, this]
  | cons kv rest ih =>
    obtain ⟨k, v⟩ := kv
    simp only [DijkstraStateMap.set]
    by_cases hk : k = key
    · subst hk
      simp only [if_true, DijkstraStateMap.lookup]
      by_cases h : k = q
      · simp [h]
      · have : ¬ q = k := fun h2 => h h2.symm
        simp [h, this]
    · simp only [hk, if_false, DijkstraStateMap.lookup, ih]
      by_cases h : k = q
      · subst h
        simp [hk]
      · simp [h]

theorem lookup_empty (q : DijkstraPoint) : emptyStateMap.lookup q = none := rfl

/-! ## The loop body, case by case -/

theorem relaxOne_ok {maxRun : Int} {cityMap : CityMap} {point : DijkstraState}
    {nextPoint : DijkstraPoint} {queue queue1 : DijkstraQueue} {state state1 : DijkstraStateMap}
    (h : relaxOne maxRun cityMap point nextPoint queue state = Outcome.ok (queue1, state1)) :
    (skipped maxRun cityMap point.Point nextPoint = true ∧ queue1 = queue ∧ state1 = state) ∨
    (skipped maxRun cityMap point.Point nextPoint = false ∧
      ∃ c, cityMap.cell nextPoint.Coordinate = some c ∧
        ((improves state nextPoint (point.Distance + c) = false ∧ queue1 = queue ∧
            state1 = state) ∨
          (improves state nextPoint (point.Distance + c) = true ∧
            queue1 = heapPush queue (DijkstraState.link (point.Distance + c) nextPoint point) ∧
            state1 = state.set nextPoint
              (DijkstraState.link (point.Distance + c) nextPoint point)))) := by
  unfold relaxOne at h
  by_cases hs : skipped maxRun cityMap point.Point nextPoint = true
  · simp only [hs, if_true] at h
    cases h
    exact Or.inl ⟨hs, rfl, rfl⟩
  · have hs2 : skipped maxRun cityMap point.Point nextPoint = false := by simpa using hs
    simp only [hs2, Bool.false_eq_true, if_false] at h
    refine Or.inr ⟨hs2, ?_⟩
    cases hc : cityMap.cell nextPoint.Coordinate with
    | none => simp [hc] at h
    | some c =>
      simp only [hc] at h
      refine ⟨c, rfl, ?_⟩
      by_cases hi : improves state nextPoint (point.Distance + c) = true
      · simp only [hi, if_true] at h
        cases h
        exact Or.inr ⟨hi, rfl, rfl⟩
      · have hi2 : improves state nextPoint (point.Distance + c) = false := by simpa using hi
        simp only [hi2, Bool.false_eq_true, if_false] at h
        cases h
        exact Or.inl ⟨hi2, rfl, rfl⟩

theorem relax_nil {maxRun : Int} {cityMap : CityMap} {point : DijkstraState}
    {queue : DijkstraQueue} {state : DijkstraStateMap} :
    relax maxRun cityMap point [] queue state = Outcome.ok (queue, state) := rfl

theorem relax_cons_ok {maxRun : Int} {cityMap : CityMap} {point : DijkstraState}
    {nextPoint : DijkstraPoint} {rest : List DijkstraPoint}
    {queue queue2 : DijkstraQueue} {state state2 : DijkstraStateMap}
    (h : relax maxRun cityMap point (nextPoint :: rest) queue state = Outcome.ok (queue2, state2)) :
    ∃ queue1 state1,
      relaxOne maxRun cityMap point nextPoint queue state = Outcome.ok (queue1, state1) ∧
      relax maxRun cityMap point rest queue1 state1 = Outcome.ok (queue2, state2) := by
  simp only [relax] at h
  split at h
  · rename_i queue1 state1 h1
    exact ⟨queue1, state1, h1, h⟩
  · cases h
  · cases h

/-- A property of queue and table that every run of the loop body keeps holds
after the inner loop. -/
theorem relax_induction {maxRun : Int} {cityMap : CityMap} {point : DijkstraState}
    (J : DijkstraQueue → DijkstraStateMap → Prop) (pts : List DijkstraPoint)
    (hJ : ∀ nextPoint ∈ pts, ∀ q s q1 s1, J q s →
      relaxOne maxRun cityMap point nextPoint q s = Outcome.ok (q1, s1) → J q1 s1)
    {queue queue2 : DijkstraQueue} {state state2 : DijkstraStateMap}
    (h0 : J queue state)
    (h : relax maxRun cityMap point pts queue state = Outcome.ok (queue2, state2)) :
    J queue2 state2 := by
  induction pts generalizing queue state with
  | nil =>
    simp only [relax] at h
    cases h
    exact h0
  | cons nextPoint rest ih =>
    obtain ⟨queue1, state1, h1, h2⟩ := relax_cons_ok h
    have hJ1 := hJ nextPoint (List.mem_cons_self _ _) _ _ _ _ h0 h1
    exact ih (fun np hnp => hJ np (List.mem_cons_of_mem _ hnp)) hJ1 h2

theorem dijkstraLoop_ok {minRun maxRun : Int} {cityMap : CityMap} {fuel : Nat}
    {queue : DijkstraQueue} {state table : DijkstraStateMap}
    (h : dijkstraLoop minRun maxRun cityMap fuel queue state = Outcome.ok table) :
    (queue = [] ∧ table = state) ∨
    ∃ point queue1 fuel1 queue2 state2,
      heapPop queue = some (point, queue1) ∧ fuel = fuel1 + 1 ∧
      relax maxRun cityMap point (nextPoints minRun point.Point) queue1 state =
        Outcome.ok (queue2, state2) ∧
      dijkstraLoop minRun maxRun cityMap fuel1 queue2 state2 = Outcome.ok table := by
  unfold dijkstraLoop at h
  cases hp : heapPop queue with
  | none =>
    simp only [hp] at h
    cases h
    exact Or.inl ⟨heapPop_eq_none.mp hp, rfl⟩
  | some pq =>
    obtain ⟨point, queue1⟩ := pq
    simp only [hp] at h
    cases fuel with
    | zero => simp at h
    | succ fuel1 =>
      simp only at h
      cases hr : relax maxRun cityMap point (nextPoints minRun point.Point) queue1 state with
      | ok qs =>
        obtain ⟨queue2, state2⟩ := qs
        simp only [hr] at h
        exact Or.inr ⟨point, queue1, fuel1, queue2, state2, rfl, rfl, hr, h⟩
      | panicked => simp [hr] at h
      | outOfFuel => simp [hr] at h

/-- A property of queue and table that holds at the loop head again after one
iteration holds for the table the loop returns. -/
theorem dijkstraLoop_induction {minRun maxRun : Int} {cityMap : CityMap}
    (I : DijkstraQueue → DijkstraStateMap → Prop)
    (hI : ∀ q s point q1 q2 s2, I q s → heapPop q = some (point, q1) →
      relax maxRun cityMap point (nextPoints minRun point.Point) q1 s = Outcome.ok (q2, s2) →
      I q2 s2)
    {fuel : Nat} {queue : DijkstraQueue} {state table : DijkstraStateMap}
    (h0 : I queue state)
    (h : dijkstraLoop minRun maxRun cityMap fuel queue state = Outcome.ok table) :
    I [] table := by
  induction fuel generalizing queue state with
  | zero =>
    rcases dijkstraLoop_ok h with ⟨hq, ht⟩ | ⟨_, _, _, _, _, _, hf, _, _⟩
    · subst hq; subst ht; exact h0
    · cases hf
  | succ fuel ih =>
    rcases dijkstraLoop_ok h with ⟨hq, ht⟩ | ⟨point, q1, fuel1, q2, s2, hp, hf, hr, hl⟩
    · subst hq; subst ht; exact h0
    · cases hf
      exact ih (hI _ _ _ _ _ _ h0 hp hr) hl

theorem dijkstraWith_ok {minRun maxRun : Int} {cityMap : CityMap} {fuel : Nat}
    {start : DijkstraPoint} {table : DijkstraStateMap}
    (h : dijkstraWith minRun maxRun fuel cityMap start = Outcome.ok table) :
    dijkstraLoop minRun maxRun cityMap fuel [seedState start] emptyStateMap = Outcome.ok table := by
  unfold dijkstraWith at h
  cases cityMap with
  | nil => simp at h
  | cons row0 rows =>
    simp only at h
    split at h
    · cases h
    · rw [heapInit_singleton] at h
      exact h

/-! ## A property of the entries that every relaxation keeps -/

theorem relaxOne_entries {maxRun : Int} {cityMap : CityMap} {point : DijkstraState}
    (P : DijkstraState → Prop) {nextPoint : DijkstraPoint}
    (hstep : ∀ c, skipped maxRun cityMap point.Point nextPoint = false →
      cityMap.cell nextPoint.Coordinate = some c →
      P (DijkstraState.link (point.Distance + c) nextPoint point))
    {q q1 : DijkstraQueue} {s s1 : DijkstraStateMap} (h0 : AllEntries P q s)
    (h : relaxOne maxRun cityMap point nextPoint q s = Outcome.ok (q1, s1)) :
    AllEntries P q1 s1 := by
  rcases relaxOne_ok h with ⟨_, hq, hs⟩ | ⟨hsk, c, hc, ⟨_, hq, hs⟩ | ⟨_, hq, hs⟩⟩
  · subst hq; subst hs; exact h0
  · subst hq; subst hs; exact h0
  · subst hq; subst hs
    have hP := hstep c hsk hc
    constructor
    · intro e he
      rcases mem_heapPush.mp he with rfl | he
      · exact hP
      · exact h0.1 e he
    · intro k e hk
      rw [lookup_set] at hk
      split at hk
      · rename_i hkq
        cases hk
        exact ⟨hP, hkq.symm, by simp [DijkstraState.Previous]⟩
      · exact h0.2 k e hk

theorem dijkstraLoop_entries {minRun maxRun : Int} {cityMap : CityMap}
    (P : DijkstraState → Prop)
    (hstep : ∀ point nextPoint c, P point → nextPoint ∈ nextPoints minRun point.Point →
      skipped maxRun cityMap point.Point nextPoint = false →
      cityMap.cell nextPoint.Coordinate = some c →
      P (DijkstraState.link (point.Distance + c) nextPoint point))
    {fuel : Nat} {queue : DijkstraQueue} {state table : DijkstraStateMap}
    (h0 : AllEntries P queue state)
    (h : dijkstraLoop minRun maxRun cityMap fuel queue state = Outcome.ok table) :
    ∀ k e, table.lookup k = some e → P e ∧ e.Point = k ∧ e.Previous ≠ none := by
  have := dijkstraLoop_induction (AllEntries P) ?_ h0 h
  · exact this.2
  · intro q s point q1 q2 s2 hI hp hr
    have hperm := heapPop_perm hp
    have hpt : P point := hI.1 point (hperm.mem_iff.mpr (List.mem_cons_self _ _))
    have hq1 : AllEntries P q1 s :=
      ⟨fun e he => hI.1 e (hperm.mem_iff.mpr (List.mem_cons_of_mem _ he)), hI.2⟩
    refine relax_induction (AllEntries P) _ ?_ hq1 hr
    intro np hnp q s q1 s1 hJ h1
    exact relaxOne_entries P (fun c hsk hc => hstep point np c hpt hnp hsk hc) hJ h1

/-- The induction principle for the entries of the returned table: a property
that the seed entry has and that passes from a popped entry to every entry
made from it holds for every entry of the table. -/
theorem dijkstraWith_entries {minRun maxRun : Int} {cityMap : CityMap}
    (P : DijkstraState → Prop) {start : DijkstraPoint}
    (hseed : P (seedState start))
    (hstep : ∀ point nextPoint c, P point → nextPoint ∈ nextPoints minRun point.Point →
      skipped maxRun cityMap point.Point nextPoint = false →
      cityMap.cell nextPoint.Coordinate = some c →
      P (DijkstraState.link (point.Distance + c) nextPoint point))
    {fuel : Nat} {table : DijkstraStateMap}
    (h : dijkstraWith minRun maxRun fuel cityMap start = Outcome.ok table) :
    ∀ k e, table.lookup k = some e → P e ∧ e.Point = k ∧ e.Previous ≠ none := by
  refine dijkstraLoop_entries P hstep ?_ (dijkstraWith_ok h)
  constructor
  · intro e he
    simp only [List.mem_singleton] at he
    subst he
    exact hseed
  · intro k e hk
    simp [emptyStateMap, DijkstraStateMap.lookup] at hk

/-! ## Candidates and the skip test -/

theorem mem_nextPoints {minRun : Int} {p t : DijkstraPoint} (h : t ∈ nextPoints minRun p) :
    ∃ direction, t = p.Move direction ∧
      ((p.Count > 0 ∧ p.Count < minRun) → direction = p.Direction) := by
  unfold nextPoints at h
  split at h
  · rename_i hc
    simp only [List.mem_singleton] at h
    exact ⟨p.Direction, h, fun _ => rfl⟩
  · rename_i hc
    simp only [List.mem_cons, List.mem_singleton, List.mem_nil_iff, or_false] at h
    rcases h with h | h | h | h
    · exact ⟨DirectionRight, h, fun hh => absurd hh hc⟩
    · exact ⟨DirectionDown, h, fun hh => absurd hh hc⟩
    · exact ⟨DirectionLeft, h, fun hh => absurd hh hc⟩
    · exact ⟨DirectionUp, h, fun hh => absurd hh hc⟩

theorem move_mem_nextPoints {minRun : Int} (p : DijkstraPoint) (direction : Direction)
    (h : (p.Count > 0 ∧ p.Count < minRun) → direction = p.Direction) :
    p.Move direction ∈ nextPoints minRun p := by
  unfold nextPoints
  split
  · rename_i hc
    rw [h hc]
    exact List.mem_singleton_self _
  · cases direction <;> simp

theorem skipped_eq_false {maxRun : Int} {cityMap : CityMap} {p t : DijkstraPoint} :
    skipped maxRun cityMap p t = false ↔
      cityMap.InBounds t.Coordinate = true ∧ t.Count ≤ maxRun ∧
        t.Direction ≠ p.Direction.Reverse := by
  unfold skipped
  simp only [Bool.or_eq_false_iff, Bool.not_eq_false', decide_eq_false_iff_not, not_lt, gt_iff_lt,
    and_assoc]

theorem cost_of_cell {cityMap : CityMap} {p : Point2D} {c : Int}
    (h : cityMap.cell p = some c) : cost cityMap p = c := by
  simp [cost, h]

/-! ## The `Previous` chain -/

@[simp] theorem point_link (d : Int) (p : DijkstraPoint) (prev : DijkstraState) :
    (DijkstraState.link d p prev).Point = p := rfl

@[simp] theorem distance_link (d : Int) (p : DijkstraPoint) (prev : DijkstraState) :
    (DijkstraState.link d p prev).Distance = d := rfl

@[simp] theorem previous_link (d : Int) (p : DijkstraPoint) (prev : DijkstraState) :
    (DijkstraState.link d p prev).Previous = some prev := rfl

@[simp] theorem point_root (d : Int) (p : DijkstraPoint) :
    (DijkstraState.root d p).Point = p := rfl

@[simp] theorem distance_root (d : Int) (p : DijkstraPoint) :
    (DijkstraState.root d p).Distance = d := rfl

@[simp] theorem previous_root (d : Int) (p : DijkstraPoint) :
    (DijkstraState.root d p).Previous = none := rfl

@[simp] theorem move_direction (p : DijkstraPoint) (direction : Direction) :
    (p.Move direction).Direction = direction := rfl

@[simp] theorem move_coordinate (p : DijkstraPoint) (direction : Direction) :
    (p.Move direction).Coordinate = p.Coordinate.Add direction.ToVector := rfl

theorem move_count (p : DijkstraPoint) (direction : Direction) :
    (p.Move direction).Count = if p.Direction = direction then p.Count + 1 else 1 := rfl

theorem pathStates_link (d : Int) (p : DijkstraPoint) (prev : DijkstraState) :
    pathStates (DijkstraState.link d p prev) =
      DijkstraState.link d p prev :: pathStates prev := rfl

theorem previous_of_mem_pathStates {e s : DijkstraState} (h : s ∈ pathStates e) :
    ∃ d p prev, s = DijkstraState.link d p prev := by
  induction e with
  | root d p => simp [pathStates] at h
  | link d p prev ih =>
    rw [pathStates_link, List.mem_cons] at h
    rcases h with h | h
    · exact ⟨d, p, prev, h⟩
    · exact ih h

/-- The part of a chain from one of its states on is the chain of that state. -/
theorem pathStates_suffix {e s : DijkstraState} {before after : List DijkstraState}
    (h : pathStates e = before ++ s :: after) : pathStates s = s :: after := by
  induction e generalizing before with
  | root d p =>
    simp [pathStates] at h
  | link d p prev ih =>
    rw [pathStates_link] at h
    cases before with
    | nil =>
      simp only [List.nil_append, List.cons.injEq] at h
      obtain ⟨h1, h2⟩ := h
      rw [← h1, pathStates_link, h2]
    | cons b before1 =>
      simp only [List.cons_append, List.cons.injEq] at h
      exact ih h.2

/-- A relation `R` between a popped entry and every entry made from it, and a
property `Q` of entries that passes along, hold along the whole `Previous`
chain of every entry of the returned table. -/
theorem chain_steps {minRun maxRun : Int} {cityMap : CityMap} (start : DijkstraPoint)
    (R : DijkstraState → DijkstraState → Prop) (Q : DijkstraState → Prop)
    (hseed : Q (seedState start))
    (hstep : ∀ point nextPoint c, Q point → nextPoint ∈ nextPoints minRun point.Point →
      skipped maxRun cityMap point.Point nextPoint = false →
      cityMap.cell nextPoint.Coordinate = some c →
      Q (DijkstraState.link (point.Distance + c) nextPoint point) ∧
        R point (DijkstraState.link (point.Distance + c) nextPoint point))
    {fuel : Nat} {table : DijkstraStateMap}
    (h : dijkstraWith minRun maxRun fuel cityMap start = Outcome.ok table)
    {k : DijkstraPoint} {e : DijkstraState} (hk : table.lookup k = some e) :
    e.Point = k ∧ e.origin = seedState start ∧ pathStates e ≠ [] ∧ Q e ∧
      ∀ s ∈ pathStates e, ∀ prev, s.Previous = some prev → R prev s ∧ Q prev ∧ Q s := by
  have key := dijkstraWith_entries
    (fun e => e.origin = seedState start ∧ Q e ∧
      ∀ s ∈ pathStates e, ∀ prev, s.Previous = some prev → R prev s ∧ Q prev ∧ Q s)
    ?_ ?_ h k e hk
  · obtain ⟨⟨h1, h3, h4⟩, h5, h6⟩ := key
    refine ⟨h5, h1, ?_, h3, h4⟩
    cases e with
    | root d p => simp [DijkstraState.Previous] at h6
    | link d p prev => simp [pathStates]
  · refine ⟨rfl, hseed, ?_⟩
    intro s hs
    simp [seedState, pathStates] at hs
  · intro point np c hP hnp hsk hc
    obtain ⟨h1, h3, h4⟩ := hP
    obtain ⟨hQ, hR⟩ := hstep point np c h3 hnp hsk hc
    refine ⟨h1, hQ, ?_⟩
    · intro s hs prev hprev
      rw [pathStates_link, List.mem_cons] at hs
      rcases hs with rfl | hs
      · simp only [DijkstraState.Previous, Option.some.injEq] at hprev
        subst hprev
        exact ⟨hR, h3, hQ⟩
      · exact h4 s hs prev hprev

/-! ## The selection of `minState` in `runMain` -/

theorem foldl_selectStep_cases (state : DijkstraStateMap) (keys : List DijkstraPoint)
    (init : DijkstraState) :
    keys.foldl (selectStep state) init = init ∨
      ∃ k ∈ keys, state.lookup k = some (keys.foldl (selectStep state) init) ∧
        (keys.foldl (selectStep state) init).Distance < init.Distance := by
  induction keys generalizing init with
  | nil => exact Or.inl rfl
  | cons k rest ih =>
    simp only [List.foldl_cons]
    have hstep : selectStep state init k = init ∨
        (state.lookup k = some (selectStep state init k) ∧
          (selectStep state init k).Distance < init.Distance) := by
      unfold selectStep
      cases hl : state.lookup k with
      | none => exact Or.inl rfl
      | some item =>
        simp only
        split
        · rename_i hlt
          exact Or.inr ⟨rfl, hlt⟩
        · exact Or.inl rfl
    rcases ih (selectStep state init k) with h1 | ⟨k2, hk2, hl2, hd2⟩
    · rw [h1]
      rcases hstep with h2 | ⟨h2, h3⟩
      · exact Or.inl h2
      · exact Or.inr ⟨k, List.mem_cons_self _ _, h2, h3⟩
    · refine Or.inr ⟨k2, List.mem_cons_of_mem _ hk2, hl2, ?_⟩
      rcases hstep with h2 | ⟨_, h3⟩
      · exact lt_of_lt_of_le hd2 (le_of_eq (congrArg DijkstraState.Distance h2))
      · exact lt_trans hd2 h3

theorem foldl_selectStep_le (state : DijkstraStateMap) (keys : List DijkstraPoint)
    (init : DijkstraState) :
    (keys.foldl (selectStep state) init).Distance ≤ init.Distance ∧
      ∀ k ∈ keys, ∀ e, state.lookup k = some e →
        (keys.foldl (selectStep state) init).Distance ≤ e.Distance := by
  induction keys generalizing init with
  | nil =>
    refine ⟨le_refl _, ?_⟩
    intro k hk
    cases hk
  | cons k rest ih =>
    simp only [List.foldl_cons]
    obtain ⟨ih1, ih2⟩ := ih (selectStep state init k)
    have hstep : (selectStep state init k).Distance ≤ init.Distance ∧
        ∀ e, state.lookup k = some e → (selectStep state init k).Distance ≤ e.Distance := by
      unfold selectStep
      cases hl : state.lookup k with
      | none =>
        refine ⟨le_refl _, ?_⟩
        intro e he
        cases he
      | some item =>
        simp only
        split
        · rename_i hlt
          refine ⟨le_of_lt hlt, ?_⟩
          intro e he
          cases he
          exact le_refl _
        · rename_i hlt
          refine ⟨le_refl _, ?_⟩
          intro e he
          cases he
          exact not_lt.mp hlt
    refine ⟨le_trans ih1 hstep.1, ?_⟩
    intro k2 hk2 e he
    rcases List.mem_cons.mp hk2 with rfl | hk2
    · exact le_trans ih1 (hstep.2 e he)
    · exact ih2 k2 hk2 e he

theorem mem_runCounts {minRun maxRun count : Int} :
    count ∈ runCounts minRun maxRun ↔ minRun ≤ count ∧ count ≤ maxRun := by
  unfold runCounts
  simp only [List.mem_map, List.mem_range]
  constructor
  · rintro ⟨n, hn, rfl⟩
    omega
  · rintro ⟨h1, h2⟩
    refine ⟨(count - minRun).toNat, ?_, ?_⟩ <;> omega

theorem mem_endKeys {minRun maxRun : Int} {cityMap : CityMap} {k : DijkstraPoint} :
    k ∈ endKeys minRun maxRun cityMap ↔
      (k.Direction = DirectionRight ∨ k.Direction = DirectionDown) ∧
        minRun ≤ k.Count ∧ k.Count ≤ maxRun ∧
        k.Coordinate = { X := ((cityMap.headD []).length : Int) - 1,
                         Y := (cityMap.length : Int) - 1 } := by
  unfold endKeys
  simp only [List.mem_append, List.mem_map, mem_runCounts, endPoint]
  constructor
  · rintro (⟨c, hc, rfl⟩ | ⟨c, hc, rfl⟩)
    · exact ⟨Or.inl rfl, hc.1, hc.2, rfl⟩
    · exact ⟨Or.inr rfl, hc.1, hc.2, rfl⟩
  · rintro ⟨hd | hd, h1, h2, h3⟩
    · refine Or.inl ⟨k.Count, ⟨h1, h2⟩, ?_⟩
      cases k
      simp only at hd h3
      subst hd; subst h3
      rfl
    · refine Or.inr ⟨k.Count, ⟨h1, h2⟩, ?_⟩
      cases k
      simp only at hd h3
      subst hd; subst h3
      rfl

theorem runMainWith_ok {minRun maxRun : Int} {fuel : Nat} {cityMap : CityMap} {report : Report}
    (h : runMainWith minRun maxRun fuel cityMap = Outcome.ok report) :
    ∃ table, dijkstraWith minRun maxRun fuel cityMap zeroPoint = Outcome.ok table ∧
      report.minState = selectMin minRun maxRun cityMap table ∧
      markPath (pathStates report.minState) (cityMap.map (fun row => row.map toString)) =
        some report.solution := by
  unfold runMainWith at h
  cases hd : dijkstraWith minRun maxRun fuel cityMap zeroPoint with
  | panicked => simp [hd] at h
  | outOfFuel => simp [hd] at h
  | ok table =>
    simp only [hd] at h
    split at h
    · cases h
    · rename_i solution hm
      cases h
      exact ⟨table, rfl, rfl, hm⟩

/-- The selected state is the sentinel or an entry of the table at one of the
keys `runMain` looks up, with a distance below the sentinel's. -/
theorem selectMin_cases (minRun maxRun : Int) (cityMap : CityMap) (table : DijkstraStateMap) :
    selectMin minRun maxRun cityMap table = sentinelState ∨
      ∃ k ∈ endKeys minRun maxRun cityMap,
        table.lookup k = some (selectMin minRun maxRun cityMap table) ∧
        (selectMin minRun maxRun cityMap table).Distance < maxInt :=
  foldl_selectStep_cases table _ _

theorem sentinel_distance : sentinelState.Distance = maxInt := rfl

theorem sentinel_pathStates : pathStates sentinelState = [] := rfl

/-! ## Properties of the reconstructed path -/

theorem mem_pathStates_previous {e s : DijkstraState} (h : s ∈ pathStates e) :
    ∃ prev, s.Previous = some prev := by
  obtain ⟨d, p, prev, rfl⟩ := previous_of_mem_pathStates h
  exact ⟨prev, rfl⟩

theorem pathCost_link (cityMap : CityMap) (d : Int) (p : DijkstraPoint) (prev : DijkstraState) :
    pathCost cityMap (DijkstraState.link d p prev) =
      cost cityMap p.Coordinate + pathCost cityMap prev := by
  simp [pathCost, pathStates, DijkstraState.Point]

theorem recorded_distance_is_pathCost {minRun maxRun : Int} {cityMap : CityMap}
    {start : DijkstraPoint} {fuel : Nat} {table : DijkstraStateMap}
    (h : dijkstraWith minRun maxRun fuel cityMap start = Outcome.ok table)
    {k : DijkstraPoint} {e : DijkstraState} (hk : table.lookup k = some e) :
    e.origin = seedState start ∧ e.Distance = pathCost cityMap e ∧
      ∀ s ∈ pathStates e, ∃ c, cityMap.cell s.Point.Coordinate = some c := by
  have key := chain_steps start
    (fun _ s => ∃ c, cityMap.cell s.Point.Coordinate = some c)
    (fun e => e.Distance = pathCost cityMap e) rfl ?_ h hk
  · obtain ⟨_, h2, _, h4, h5⟩ := key
    refine ⟨h2, h4, ?_⟩
    intro s hs
    obtain ⟨prev, hprev⟩ := mem_pathStates_previous hs
    exact (h5 s hs prev hprev).1
  · intro point np c hQ _ _ hc
    refine ⟨?_, c, hc⟩
    beta_reduce
    rw [pathCost_link, cost_of_cell hc, ← hQ]
    simp only [DijkstraState.Distance]
    ring

theorem takeWhile_heading (e : DijkstraState) (direction : Direction) :
    ((pathStates e).takeWhile (fun s => decide (s.Point.Direction = direction))).length =
      if e.Point.Direction = direction then sameHeadingRun e else 0 := by
  by_cases hd : e.Point.Direction = direction
  · subst hd
    simp only [if_true]
    rfl
  · simp only [hd, if_false]
    cases e with
    | root d p => simp [pathStates]
    | link d p prev =>
      have : ¬ p.Direction = direction := hd
      simp [pathStates, DijkstraState.Point, this]

theorem sameHeadingRun_link (d : Int) (p : DijkstraPoint) (prev : DijkstraState) :
    sameHeadingRun (DijkstraState.link d p prev) =
      1 + if prev.Point.Direction = p.Direction then sameHeadingRun prev else 0 := by
  have h1 : sameHeadingRun (DijkstraState.link d p prev) =
      ((pathStates prev).takeWhile (fun s => decide (s.Point.Direction = p.Direction))).length
        + 1 := by
    simp [sameHeadingRun, pathStates, DijkstraState.Point]
  rw [h1, takeWhile_heading]
  omega

theorem length_le_takeWhile {α : Type} (p : α → Bool) (run rest : List α)
    (h : ∀ x ∈ run, p x = true) : run.length ≤ ((run ++ rest).takeWhile p).length := by
  induction run with
  | nil => simp
  | cons x run ih =>
    have hx : p x = true := h x (List.mem_cons_self _ _)
    simp only [List.cons_append, List.takeWhile_cons, hx, if_true, List.length_cons]
    have := ih (fun y hy => h y (List.mem_cons_of_mem _ hy))
    omega

theorem recorded_run_lengths {minRun maxRun : Int} {cityMap : CityMap}
    {start : DijkstraPoint} (h0 : start.Count = 0) {fuel : Nat} {table : DijkstraStateMap}
    (h : dijkstraWith minRun maxRun fuel cityMap start = Outcome.ok table)
    {k : DijkstraPoint} {e : DijkstraState} (hk : table.lookup k = some e) :
    ∀ s ∈ pathStates e, s.Point.Count = (sameHeadingRun s : Int) ∧ s.Point.Count ≤ maxRun := by
  have key := chain_steps start (fun _ s => s.Point.Count ≤ maxRun)
    (fun e => e.Point.Count = (sameHeadingRun e : Int)) ?_ ?_ h hk
  · intro s hs
    obtain ⟨prev, hprev⟩ := mem_pathStates_previous hs
    have := key.2.2.2.2 s hs prev hprev
    exact ⟨this.2.2, this.1⟩
  · simp [seedState, DijkstraState.Point, sameHeadingRun, pathStates, h0]
  · intro point np c hQ hnp hsk hc
    obtain ⟨direction, rfl, _⟩ := mem_nextPoints hnp
    refine ⟨?_, (skipped_eq_false.mp hsk).2.1⟩
    beta_reduce
    rw [sameHeadingRun_link]
    simp only [point_link, move_direction, move_count]
    split
    · rw [hQ]
      push_cast
      ring
    · simp

theorem below_refl (state : DijkstraStateMap) : Below state state :=
  fun _ e h => ⟨e, h, le_refl _⟩

theorem below_trans {s1 s2 s3 : DijkstraStateMap} (h12 : Below s1 s2) (h23 : Below s2 s3) :
    Below s1 s3 := by
  intro k e h
  obtain ⟨e2, h2, hd2⟩ := h12 k e h
  obtain ⟨e3, h3, hd3⟩ := h23 k e2 h2
  exact ⟨e3, h3, le_trans hd3 hd2⟩

theorem improves_eq_true {state : DijkstraStateMap} {p : DijkstraPoint} {d : Int} :
    improves state p d = true ↔
      state.lookup p = none ∨ ∃ old, state.lookup p = some old ∧ d < old.Distance := by
  unfold improves
  cases state.lookup p with
  | none => simp
  | some old => simp

theorem improves_eq_false {state : DijkstraStateMap} {p : DijkstraPoint} {d : Int} :
    improves state p d = false ↔ ∃ old, state.lookup p = some old ∧ old.Distance ≤ d := by
  unfold improves
  cases state.lookup p with
  | none => simp
  | some old => simp

theorem relaxOne_below {maxRun : Int} {cityMap : CityMap} {point : DijkstraState}
    {nextPoint : DijkstraPoint} {q q1 : DijkstraQueue} {s s1 : DijkstraStateMap}
    (h : relaxOne maxRun cityMap point nextPoint q s = Outcome.ok (q1, s1)) : Below s s1 := by
  rcases relaxOne_ok h with ⟨_, _, hs⟩ | ⟨_, c, _, ⟨_, _, hs⟩ | ⟨himp, _, hs⟩⟩
  · subst hs; exact below_refl _
  · subst hs; exact below_refl _
  · subst hs
    intro k e hk
    rw [lookup_set]
    split
    · rename_i hkn
      subst hkn
      refine ⟨_, rfl, ?_⟩
      rcases improves_eq_true.mp himp with hnone | ⟨old, hold, hlt⟩
      · rw [hnone] at hk
        cases hk
      · rw [hold] at hk
        cases hk
        exact le_of_lt hlt
    · exact ⟨e, hk, le_refl _⟩

theorem relax_below {maxRun : Int} {cityMap : CityMap} {point : DijkstraState}
    {pts : List DijkstraPoint} {q q2 : DijkstraQueue} {s s2 : DijkstraStateMap}
    (h : relax maxRun cityMap point pts q s = Outcome.ok (q2, s2)) : Below s s2 :=
  relax_induction (fun _ s1 => Below s s1) pts
    (fun _ _ _ _ _ _ hJ h1 => below_trans hJ (relaxOne_below h1)) (below_refl _) h

theorem processed_mono {minRun maxRun : Int} {cityMap : CityMap} {s1 s2 : DijkstraStateMap}
    (hb : Below s1 s2) {k : DijkstraPoint} {d : Int}
    (h : Processed minRun maxRun cityMap s1 k d) : Processed minRun maxRun cityMap s2 k d := by
  intro t ht
  obtain ⟨e, he, hd⟩ := h t ht
  obtain ⟨e2, he2, hd2⟩ := hb t e he
  exact ⟨e2, he2, le_trans hd2 hd⟩

/-! ## Every label is relaxed before the loop ends -/

theorem relaxOne_settled {minRun maxRun : Int} {cityMap : CityMap} {start : DijkstraPoint}
    {point : DijkstraState} {nextPoint : DijkstraPoint} {q q1 : DijkstraQueue}
    {s s1 : DijkstraStateMap}
    (h0 : Settled minRun maxRun cityMap start (some point) q s)
    (h : relaxOne maxRun cityMap point nextPoint q s = Outcome.ok (q1, s1)) :
    Settled minRun maxRun cityMap start (some point) q1 s1 := by
  have hb := relaxOne_below h
  rcases relaxOne_ok h with ⟨_, hq, hs⟩ | ⟨_, c, _, ⟨_, hq, hs⟩ | ⟨himp, hq, hs⟩⟩
  · subst hq; subst hs; exact h0
  · subst hq; subst hs; exact h0
  · have lift : ∀ k d, Labelled start s k d →
        Pending q1 k d ∨ Processed minRun maxRun cityMap s1 k d ∨
          ∃ pt, some point = some pt ∧ pt.Point = k ∧ pt.Distance = d := by
      intro k d hl
      rcases h0 k d hl with ⟨e, he, hp⟩ | hproc | hcur
      · left
        refine ⟨e, ?_, hp⟩
        rw [hq]
        exact mem_heapPush.mpr (Or.inr he)
      · exact Or.inr (Or.inl (processed_mono hb hproc))
      · exact Or.inr (Or.inr hcur)
    intro k d hl
    rcases hl with hseed | ⟨e, he, hd⟩
    · exact lift k d (Or.inl hseed)
    · rw [hs, lookup_set] at he
      split at he
      · rename_i hkn
        cases he
        left
        refine ⟨_, ?_, hkn.symm ▸ rfl, hd⟩
        rw [hq]
        exact mem_heapPush.mpr (Or.inl rfl)
      · exact lift k d (Or.inr ⟨e, he, hd⟩)

theorem relax_settled {minRun maxRun : Int} {cityMap : CityMap} {start : DijkstraPoint}
    {point : DijkstraState} {pts : List DijkstraPoint} {q q2 : DijkstraQueue}
    {s s2 : DijkstraStateMap}
    (h0 : Settled minRun maxRun cityMap start (some point) q s)
    (h : relax maxRun cityMap point pts q s = Outcome.ok (q2, s2)) :
    Settled minRun maxRun cityMap start (some point) q2 s2 :=
  relax_induction (Settled minRun maxRun cityMap start (some point)) pts
    (fun _ _ _ _ _ _ hJ h1 => relaxOne_settled hJ h1) h0 h

/-- After the inner loop every candidate that was not skipped is recorded at a
distance of at most the popped distance plus the cost of its cell. -/
theorem relax_handled {maxRun : Int} {cityMap : CityMap} {point : DijkstraState}
    {pts : List DijkstraPoint} {q q2 : DijkstraQueue} {s s2 : DijkstraStateMap}
    (h : relax maxRun cityMap point pts q s = Outcome.ok (q2, s2)) :
    ∀ t ∈ pts, skipped maxRun cityMap point.Point t = false →
      ∃ e, s2.lookup t = some e ∧ e.Distance ≤ point.Distance + cost cityMap t.Coordinate := by
  induction pts generalizing q s with
  | nil =>
    intro t ht
    cases ht
  | cons np rest ih =>
    obtain ⟨q1, s1, h1, h2⟩ := relax_cons_ok h
    intro t ht hsk
    rcases List.mem_cons.mp ht with rfl | ht
    · have hb := relax_below h2
      rcases relaxOne_ok h1 with ⟨hsk2, _, _⟩ | ⟨_, c, hc, ⟨himp, _, hs⟩ | ⟨_, _, hs⟩⟩
      · rw [hsk] at hsk2
        cases hsk2
      · obtain ⟨old, hold, hle⟩ := improves_eq_false.mp himp
        rw [← hs] at hold
        obtain ⟨e2, he2, hd2⟩ := hb _ _ hold
        exact ⟨e2, he2, by rw [cost_of_cell hc]; exact le_trans hd2 hle⟩
      · have hnew : s1.lookup t =
            some (DijkstraState.link (point.Distance + c) t point) := by
          rw [hs, lookup_set]
          simp
        obtain ⟨e2, he2, hd2⟩ := hb _ _ hnew
        exact ⟨e2, he2, by rw [cost_of_cell hc]; exact hd2⟩
    · exact ih h2 t ht hsk

theorem dijkstraLoop_settled {minRun maxRun : Int} {cityMap : CityMap} (start : DijkstraPoint)
    {fuel : Nat} {queue : DijkstraQueue} {state table : DijkstraStateMap}
    (h0 : Settled minRun maxRun cityMap start none queue state)
    (h : dijkstraLoop minRun maxRun cityMap fuel queue state = Outcome.ok table) :
    ∀ s d, Labelled start table s d → Processed minRun maxRun cityMap table s d := by
  have hend := dijkstraLoop_induction (Settled minRun maxRun cityMap start none) ?_ h0 h
  · intro s d hl
    rcases hend s d hl with ⟨e, he, _⟩ | hproc | ⟨pt, hpt, _⟩
    · cases he
    · exact hproc
    · cases hpt
  · intro q s point q1 q2 s2 hI hp hr
    have hperm := heapPop_perm hp
    have h1 : Settled minRun maxRun cityMap start (some point) q1 s := by
      intro k d hl
      rcases hI k d hl with ⟨e, he, hpe⟩ | hproc | ⟨pt, hpt, _⟩
      · rcases List.mem_cons.mp (hperm.mem_iff.mp he) with rfl | he1
        · exact Or.inr (Or.inr ⟨e, rfl, hpe⟩)
        · exact Or.inl ⟨e, he1, hpe⟩
      · exact Or.inr (Or.inl hproc)
      · cases hpt
    have h2 := relax_settled h1 hr
    have h3 := relax_handled hr
    intro k d hl
    rcases h2 k d hl with hpend | hproc | ⟨pt, hpt, hk, hd⟩
    · exact Or.inl hpend
    · exact Or.inr (Or.inl hproc)
    · cases hpt
      refine Or.inr (Or.inl ?_)
      intro t ht
      subst hk
      subst hd
      exact h3 t ht.1 ht.2

/-! ## Legal moves and the successors of the search -/

theorem point_eq_move {s t : DijkstraPoint}
    (hcoord : t.Coordinate = s.Coordinate.Add t.Direction.ToVector)
    (hcount : t.Count = if s.Direction = t.Direction then s.Count + 1 else 1) :
    t = s.Move t.Direction := by
  cases t
  simp only [DijkstraPoint.Move, DijkstraPoint.mk.injEq] at *
  exact ⟨hcount, trivial, hcoord⟩

theorem succ_of_legalMove {minRun maxRun : Int} {cityMap : CityMap} {isFirst : Bool}
    {s t : DijkstraPoint} (h : LegalMove minRun maxRun cityMap isFirst s t)
    (hfirst : isFirst = true → s.Count = 0) : Succ minRun maxRun cityMap s t := by
  obtain ⟨hcoord, hin, hrev, hmax, hkeep, hturn⟩ := h
  have hmove : t = s.Move t.Direction := by
    apply point_eq_move hcoord
    split
    · rename_i hd
      exact hkeep hd.symm
    · rename_i hd
      exact (hturn (fun h2 => hd h2.symm)).1
  refine ⟨?_, skipped_eq_false.mpr ⟨hin, hmax, hrev⟩⟩
  rw [hmove]
  apply move_mem_nextPoints
  intro hforced
  by_contra hd
  rcases (hturn hd).2 with h1 | h1
  · have := hfirst h1
    omega
  · omega

theorem legalMove_of_succ {minRun maxRun : Int} {cityMap : CityMap} {isFirst : Bool}
    {s t : DijkstraPoint} (h : Succ minRun maxRun cityMap s t) (hcount : 0 ≤ s.Count)
    (hfirst : s.Count = 0 → isFirst = true) : LegalMove minRun maxRun cityMap isFirst s t := by
  obtain ⟨hmem, hsk⟩ := h
  obtain ⟨direction, rfl, hforced⟩ := mem_nextPoints hmem
  obtain ⟨hin, hmax, hrev⟩ := skipped_eq_false.mp hsk
  refine ⟨rfl, hin, hrev, hmax, ?_, ?_⟩
  · intro hd
    simp only [move_direction] at hd
    rw [move_count]
    simp [hd]
  · intro hd
    simp only [move_direction] at hd
    rw [move_count]
    have hd2 : ¬ s.Direction = direction := fun h2 => hd h2.symm
    refine ⟨by simp [hd2], ?_⟩
    by_cases hz : s.Count = 0
    · exact Or.inl (hfirst hz)
    · right
      by_contra hlt
      exact hd (hforced ⟨by omega, by omega⟩)

/-- The recorded distance of the last state of a legal move sequence is at
most the label of the state the sequence starts from plus its cost. -/
theorem settled_le_seqCost {minRun maxRun : Int} {cityMap : CityMap} {start : DijkstraPoint}
    {table : DijkstraStateMap}
    (hall : ∀ s d, Labelled start table s d → Processed minRun maxRun cityMap table s d)
    (moves : List DijkstraPoint) :
    ∀ (isFirst : Bool) (s : DijkstraPoint) (d : Int), Labelled start table s d →
      (isFirst = true → s.Count = 0) →
      LegalSeq minRun maxRun cityMap isFirst s moves →
      ∀ p, moves.getLast? = some p →
        ∃ e, table.lookup p = some e ∧ e.Distance ≤ d + seqCost cityMap moves := by
  induction moves with
  | nil =>
    intro _ _ _ _ _ _ p hp
    cases hp
  | cons t rest ih =>
    intro isFirst s d hl hfirst hseq p hp
    obtain ⟨hmove, hrest⟩ := hseq
    obtain ⟨e, he, hd⟩ := hall s d hl t (succ_of_legalMove hmove hfirst)
    cases rest with
    | nil =>
      simp only [List.getLast?_singleton, Option.some.injEq] at hp
      subst hp
      refine ⟨e, he, ?_⟩
      simpa [seqCost] using hd
    | cons t2 rest2 =>
      have hp2 : (t2 :: rest2).getLast? = some p := by
        rw [List.getLast?_cons_cons] at hp
        exact hp
      obtain ⟨e2, he2, hd2⟩ := ih false t e.Distance (Or.inr ⟨e, he, rfl⟩)
        (fun hf => by cases hf) hrest p hp2
      refine ⟨e2, he2, ?_⟩
      have hc : seqCost cityMap (t :: t2 :: rest2) =
          cost cityMap t.Coordinate + seqCost cityMap (t2 :: rest2) := by
        simp [seqCost]
      rw [hc]
      omega

/-! ## The grid -/

theorem inBounds_iff (cityMap : CityMap) (p : Point2D) :
    cityMap.InBounds p = true ↔
      0 ≤ p.Y ∧ p.Y < (cityMap.length : Int) ∧ 0 ≤ p.X ∧
        p.X < ((cityMap.headD []).length : Int) := by
  cases cityMap with
  | nil =>
    simp only [CityMap.InBounds, List.length_nil, Nat.cast_zero]
    constructor
    · intro h
      cases h
    · rintro ⟨h1, h2, _⟩
      omega
  | cons row0 rows =>
    simp only [CityMap.InBounds, List.headD_cons, Bool.and_eq_true, decide_eq_true_eq, ge_iff_le,
      and_assoc]

theorem cell_mem {cityMap : CityMap} {p : Point2D} {c : Int} (h : cityMap.cell p = some c) :
    ∃ row ∈ cityMap, c ∈ row := by
  unfold CityMap.cell at h
  split at h
  · cases h
  · cases hrow : cityMap[p.Y.toNat]? with
    | none => simp [hrow] at h
    | some row =>
      simp only [hrow] at h
      obtain ⟨h1, h2⟩ := List.getElem?_eq_some_iff.mp hrow
      obtain ⟨h3, h4⟩ := List.getElem?_eq_some_iff.mp h
      exact ⟨row, h2 ▸ List.getElem_mem h1, h4 ▸ List.getElem_mem h3⟩

theorem cell_nonneg {cityMap : CityMap} (hnn : NonNeg cityMap) {p : Point2D} {c : Int}
    (h : cityMap.cell p = some c) : 0 ≤ c := by
  obtain ⟨row, hrow, hc⟩ := cell_mem h
  exact hnn row hrow c hc

theorem cell_of_inBounds {cityMap : CityMap} (hwf : WellFormed cityMap) {p : Point2D}
    (h : cityMap.InBounds p = true) : ∃ c, cityMap.cell p = some c := by
  obtain ⟨hy0, hy1, hx0, hx1⟩ := (inBounds_iff cityMap p).mp h
  have hy : p.Y.toNat < cityMap.length := by omega
  have hrow : cityMap[p.Y.toNat]? = some cityMap[p.Y.toNat] := List.getElem?_eq_getElem hy
  have hlen := (hwf.2 cityMap[p.Y.toNat] (List.getElem_mem hy)).2
  have hx : p.X.toNat < (cityMap[p.Y.toNat]).length := by omega
  refine ⟨(cityMap[p.Y.toNat])[p.X.toNat], ?_⟩
  unfold CityMap.cell
  have hneg : ¬ (p.Y < 0 ∨ p.X < 0) := by omega
  simp only [hneg, if_false, hrow]
  exact List.getElem?_eq_getElem hx

/-- The points in bounds with a run-length from 1 to `maxRun` are finitely many. -/
theorem exists_state_finset (maxRun : Int) (cityMap : CityMap) :
    ∃ V : Finset DijkstraPoint, ∀ k : DijkstraPoint,
      cityMap.InBounds k.Coordinate = true → 1 ≤ k.Count → k.Count ≤ maxRun → k ∈ V := by
  refine ⟨(Finset.Icc (1 : Int) maxRun ×ˢ
      (({DirectionRight, DirectionDown, DirectionLeft, DirectionUp} : Finset Direction) ×ˢ
        (Finset.Ico (0 : Int) ((cityMap.headD []).length : Int) ×ˢ
          Finset.Ico (0 : Int) (cityMap.length : Int)))).image
      (fun x => { Count := x.1, Direction := x.2.1,
                  Coordinate := { X := x.2.2.1, Y := x.2.2.2 } }), ?_⟩
  intro k hin h1 h2
  obtain ⟨hy0, hy1, hx0, hx1⟩ := (inBounds_iff cityMap k.Coordinate).mp hin
  rw [Finset.mem_image]
  refine ⟨(k.Count, k.Direction, k.Coordinate.X, k.Coordinate.Y), ?_, rfl⟩
  simp only [Finset.mem_product, Finset.mem_Icc, Finset.mem_Ico, Finset.mem_insert,
    Finset.mem_singleton]
  refine ⟨⟨h1, h2⟩, ?_, ⟨hx0, hx1⟩, ⟨hy0, hy1⟩⟩
  cases k.Direction <;> simp

/-! ## The inner loop never panics on a well-formed grid -/

theorem relaxOne_total (maxRun : Int) {cityMap : CityMap} (hwf : WellFormed cityMap)
    (point : DijkstraState) (nextPoint : DijkstraPoint) (q : DijkstraQueue)
    (s : DijkstraStateMap) :
    ∃ q1 s1, relaxOne maxRun cityMap point nextPoint q s = Outcome.ok (q1, s1) := by
  unfold relaxOne
  by_cases hsk : skipped maxRun cityMap point.Point nextPoint = true
  · simp only [hsk, if_true]
    exact ⟨_, _, rfl⟩
  · have hsk2 : skipped maxRun cityMap point.Point nextPoint = false := by simpa using hsk
    obtain ⟨c, hc⟩ := cell_of_inBounds hwf (skipped_eq_false.mp hsk2).1
    simp only [hsk2, Bool.false_eq_true, if_false, hc]
    split
    · exact ⟨_, _, rfl⟩
    · exact ⟨_, _, rfl⟩

theorem relax_total (maxRun : Int) {cityMap : CityMap} (hwf : WellFormed cityMap)
    (point : DijkstraState) (pts : List DijkstraPoint) (q : DijkstraQueue)
    (s : DijkstraStateMap) :
    ∃ q2 s2, relax maxRun cityMap point pts q s = Outcome.ok (q2, s2) := by
  induction pts generalizing q s with
  | nil => exact ⟨q, s, rfl⟩
  | cons np rest ih =>
    obtain ⟨q1, s1, h1⟩ := relaxOne_total maxRun hwf point np q s
    obtain ⟨q2, s2, h2⟩ := ih q1 s1
    refine ⟨q2, s2, ?_⟩
    simp only [relax, h1]
    exact h2

/-! ## Tame entries -/

theorem tame_seed {maxRun : Int} {cityMap : CityMap} {start : DijkstraPoint}
    (h0 : 0 ≤ start.Count) : Tame maxRun cityMap (seedState start) := by
  refine ⟨le_refl _, h0, ?_⟩
  intro h
  simp [seedState] at h

theorem tame_step {minRun maxRun : Int} {cityMap : CityMap} (hnn : NonNeg cityMap)
    {point : DijkstraState} {nextPoint : DijkstraPoint} {c : Int}
    (hpt : Tame maxRun cityMap point) (hnp : nextPoint ∈ nextPoints minRun point.Point)
    (hsk : skipped maxRun cityMap point.Point nextPoint = false)
    (hc : cityMap.cell nextPoint.Coordinate = some c) :
    Tame maxRun cityMap (DijkstraState.link (point.Distance + c) nextPoint point) := by
  obtain ⟨hd, hcount, _⟩ := hpt
  obtain ⟨hin, hmax, _⟩ := skipped_eq_false.mp hsk
  obtain ⟨direction, rfl, _⟩ := mem_nextPoints hnp
  have hc0 := cell_nonneg hnn hc
  have hone : 1 ≤ (point.Point.Move direction).Count := by
    rw [move_count]
    split <;> omega
  refine ⟨?_, ?_, fun _ => ⟨hin, ?_, hmax⟩⟩
  · simp only [distance_link]
    omega
  · simp only [point_link]
    omega
  · simp only [point_link]
    exact hone

/-! ## The loop terminates on a well-formed grid of non-negative costs -/

theorem measureLE_refl (V : Finset DijkstraPoint) (q : DijkstraQueue) (s : DijkstraStateMap) :
    MeasureLE V q s q s :=
  Or.inr ⟨rfl, le_refl _⟩

theorem measureLE_trans {V : Finset DijkstraPoint} {q1 q2 q3 : DijkstraQueue}
    {s1 s2 s3 : DijkstraStateMap} (h12 : MeasureLE V q1 s1 q2 s2)
    (h23 : MeasureLE V q2 s2 q3 s3) : MeasureLE V q1 s1 q3 s3 := by
  unfold MeasureLE at *
  omega

theorem absentCount_set_of_absent {V : Finset DijkstraPoint} {s : DijkstraStateMap}
    {k : DijkstraPoint} (e : DijkstraState) (hk : k ∈ V) (hnone : s.lookup k = none) :
    absentCount V (s.set k e) < absentCount V s := by
  unfold absentCount
  apply Finset.card_lt_card
  rw [Finset.ssubset_def]
  constructor
  · intro x hx
    simp only [Finset.mem_filter, lookup_set] at hx ⊢
    refine ⟨hx.1, ?_⟩
    by_cases hxk : x = k
    · simp [hxk] at hx
    · simpa [hxk] using hx.2
  · intro hsub
    have hmem : k ∈ V.filter (fun x => s.lookup x = none) := by
      simp [hk, hnone]
    have := hsub hmem
    simp [lookup_set] at this

theorem absentCount_set_of_present {V : Finset DijkstraPoint} {s : DijkstraStateMap}
    {k : DijkstraPoint} (e : DijkstraState) {old : DijkstraState}
    (hold : s.lookup k = some old) : absentCount V (s.set k e) = absentCount V s := by
  unfold absentCount
  congr 1
  apply Finset.filter_congr
  intro x _
  rw [lookup_set]
  by_cases hxk : x = k
  · subst hxk
    simp [hold]
  · simp [hxk]

theorem totalDistance_set_of_present {V : Finset DijkstraPoint} {s : DijkstraStateMap}
    {k : DijkstraPoint} (e : DijkstraState) {old : DijkstraState} (hk : k ∈ V)
    (hold : s.lookup k = some old) (h0 : 0 ≤ e.Distance) (hlt : e.Distance < old.Distance) :
    totalDistance V (s.set k e) < totalDistance V s := by
  unfold totalDistance
  apply Finset.sum_lt_sum
  · intro x _
    rw [lookup_set]
    by_cases hxk : x = k
    · subst hxk
      simp only [if_true, hold]
      omega
    · simp [hxk]
  · refine ⟨k, hk, ?_⟩
    rw [lookup_set]
    simp only [if_true, hold]
    omega

theorem relaxOne_measure {minRun maxRun : Int} {cityMap : CityMap} (hnn : NonNeg cityMap)
    {V : Finset DijkstraPoint}
    (hV : ∀ k : DijkstraPoint,
      cityMap.InBounds k.Coordinate = true → 1 ≤ k.Count → k.Count ≤ maxRun → k ∈ V)
    {point : DijkstraState} (hpt : Tame maxRun cityMap point) {nextPoint : DijkstraPoint}
    (hnp : nextPoint ∈ nextPoints minRun point.Point)
    {q q1 : DijkstraQueue} {s s1 : DijkstraStateMap}
    (h : relaxOne maxRun cityMap point nextPoint q s = Outcome.ok (q1, s1)) :
    MeasureLE V q s q1 s1 := by
  rcases relaxOne_ok h with ⟨_, hq, hs⟩ | ⟨hsk, c, hc, ⟨_, hq, hs⟩ | ⟨himp, hq, hs⟩⟩
  · subst hq; subst hs; exact measureLE_refl _ _ _
  · subst hq; subst hs; exact measureLE_refl _ _ _
  · have htame := tame_step hnn hpt hnp hsk hc
    have hmem : nextPoint ∈ V := by
      obtain ⟨_, _, h3⟩ := htame
      obtain ⟨hin, h1, h2⟩ := h3 (by simp)
      exact hV nextPoint hin h1 h2
    subst hq; subst hs
    rcases improves_eq_true.mp himp with hnone | ⟨old, hold, hlt⟩
    · exact Or.inl (absentCount_set_of_absent _ hmem hnone)
    · right
      refine ⟨absentCount_set_of_present _ hold, ?_⟩
      have := totalDistance_set_of_present
        (DijkstraState.link (point.Distance + c) nextPoint point) hmem hold htame.1 hlt
      rw [length_heapPush]
      omega

theorem relax_measure {minRun maxRun : Int} {cityMap : CityMap} (hnn : NonNeg cityMap)
    {V : Finset DijkstraPoint}
    (hV : ∀ k : DijkstraPoint,
      cityMap.InBounds k.Coordinate = true → 1 ≤ k.Count → k.Count ≤ maxRun → k ∈ V)
    {point : DijkstraState} (hpt : Tame maxRun cityMap point)
    {q q2 : DijkstraQueue} {s s2 : DijkstraStateMap}
    (h0 : AllEntries (Tame maxRun cityMap) q s)
    (h : relax maxRun cityMap point (nextPoints minRun point.Point) q s =
      Outcome.ok (q2, s2)) :
    AllEntries (Tame maxRun cityMap) q2 s2 ∧ MeasureLE V q s q2 s2 := by
  refine relax_induction
    (fun q1 s1 => AllEntries (Tame maxRun cityMap) q1 s1 ∧ MeasureLE V q s q1 s1) _ ?_
    ⟨h0, measureLE_refl _ _ _⟩ h
  intro np hnp qa sa qb sb hJ h1
  refine ⟨?_, measureLE_trans hJ.2 (relaxOne_measure hnn hV hpt hnp h1)⟩
  exact relaxOne_entries (Tame maxRun cityMap)
    (fun c hsk hc => tame_step hnn hpt hnp hsk hc) hJ.1 h1

theorem dijkstraLoop_zero_of_empty (minRun maxRun : Int) (cityMap : CityMap) (fuel : Nat)
    (state : DijkstraStateMap) :
    dijkstraLoop minRun maxRun cityMap fuel [] state = Outcome.ok state := by
  unfold dijkstraLoop
  rfl

theorem dijkstraLoop_succ {minRun maxRun : Int} {cityMap : CityMap} {fuel : Nat}
    {queue queue1 queue2 : DijkstraQueue} {state state2 : DijkstraStateMap}
    {point : DijkstraState} (hp : heapPop queue = some (point, queue1))
    (hr : relax maxRun cityMap point (nextPoints minRun point.Point) queue1 state =
      Outcome.ok (queue2, state2)) :
    dijkstraLoop minRun maxRun cityMap (fuel + 1) queue state =
      dijkstraLoop minRun maxRun cityMap fuel queue2 state2 := by
  rw [dijkstraLoop]
  simp only [hp, hr]

theorem dijkstraLoop_terminates (minRun : Int) {maxRun : Int} {cityMap : CityMap}
    (hwf : WellFormed cityMap) (hnn : NonNeg cityMap) {V : Finset DijkstraPoint}
    (hV : ∀ k : DijkstraPoint,
      cityMap.InBounds k.Coordinate = true → 1 ≤ k.Count → k.Count ≤ maxRun → k ∈ V) :
    ∀ (a n : Nat) (q : DijkstraQueue) (s : DijkstraStateMap),
      absentCount V s = a → q.length + totalDistance V s = n →
      AllEntries (Tame maxRun cityMap) q s →
      ∃ fuel table, dijkstraLoop minRun maxRun cityMap fuel q s = Outcome.ok table := by
  intro a
  induction a using Nat.strong_induction_on with
  | _ a iha =>
    intro n
    induction n using Nat.strong_induction_on with
    | _ n ihn =>
      intro q s ha hn hall
      cases hp : heapPop q with
      | none =>
        rw [heapPop_eq_none] at hp
        subst hp
        exact ⟨0, s, dijkstraLoop_zero_of_empty _ _ _ _ _⟩
      | some pq =>
        obtain ⟨point, q1⟩ := pq
        have hperm := heapPop_perm hp
        have hlen : q.length = q1.length + 1 := by
          rw [hperm.length_eq]
          simp
        have hpt : Tame maxRun cityMap point :=
          hall.1 point (hperm.mem_iff.mpr (List.mem_cons_self _ _))
        have hall1 : AllEntries (Tame maxRun cityMap) q1 s :=
          ⟨fun e he => hall.1 e (hperm.mem_iff.mpr (List.mem_cons_of_mem _ he)), hall.2⟩
        obtain ⟨q2, s2, hr⟩ :=
          relax_total maxRun hwf point (nextPoints minRun point.Point) q1 s
        obtain ⟨hall2, hm⟩ := relax_measure hnn hV hpt hall1 hr
        have hrec : ∃ fuel table,
            dijkstraLoop minRun maxRun cityMap fuel q2 s2 = Outcome.ok table := by
          rcases hm with hlt | ⟨heq, hle⟩
          · exact iha _ (ha ▸ hlt) _ q2 s2 rfl rfl hall2
          · exact ihn _ (by omega) q2 s2 (heq.trans ha) rfl hall2
        obtain ⟨fuel, table, hf⟩ := hrec
        exact ⟨fuel + 1, table, (dijkstraLoop_succ hp hr).trans hf⟩

theorem dijkstraLoop_fuel_mono {minRun maxRun : Int} {cityMap : CityMap} {fuel : Nat}
    {queue : DijkstraQueue} {state table : DijkstraStateMap}
    (h : dijkstraLoop minRun maxRun cityMap fuel queue state = Outcome.ok table)
    (extra : Nat) :
    dijkstraLoop minRun maxRun cityMap (fuel + extra) queue state = Outcome.ok table := by
  induction fuel generalizing queue state with
  | zero =>
    rcases dijkstraLoop_ok h with ⟨hq, ht⟩ | ⟨_, _, _, _, _, _, hf, _, _⟩
    · subst hq; subst ht
      exact dijkstraLoop_zero_of_empty _ _ _ _ _
    · cases hf
  | succ fuel ih =>
    rcases dijkstraLoop_ok h with ⟨hq, ht⟩ | ⟨point, q1, fuel1, q2, s2, hp, hf, hr, hl⟩
    · subst hq; subst ht
      exact dijkstraLoop_zero_of_empty _ _ _ _ _
    · cases hf
      have : fuel + 1 + extra = (fuel + extra) + 1 := by omega
      rw [this, dijkstraLoop_succ hp hr]
      exact ih hl

theorem dijkstraWith_eq_loop {minRun maxRun : Int} {cityMap : CityMap}
    (hwf : WellFormed cityMap) (fuel : Nat) (start : DijkstraPoint) :
    dijkstraWith minRun maxRun fuel cityMap start =
      dijkstraLoop minRun maxRun cityMap fuel [seedState start] emptyStateMap := by
  obtain ⟨hne, hrows⟩ := hwf
  cases cityMap with
  | nil => exact absurd rfl hne
  | cons row0 rows =>
    have hrow0 := (hrows row0 (List.mem_cons_self _ _)).1
    have hlen : 0 < row0.length := List.length_pos.mpr hrow0
    unfold dijkstraWith
    have hcap : ¬ (row0 :: rows).length * row0.length * 4 * 3 < 1 := by
      simp only [List.length_cons, not_lt]
      have : 1 ≤ (rows.length + 1) * row0.length := Nat.mul_pos (by omega) hlen
      omega
    simp only [hcap, if_false, heapInit_singleton]
    rfl

/-- On a well-formed grid of non-negative costs the search returns a table
when it is given enough fuel. -/
theorem dijkstraWith_terminates (minRun maxRun : Int) {cityMap : CityMap}
    (hwf : WellFormed cityMap) (hnn : NonNeg cityMap) (start : DijkstraPoint)
    (h0 : 0 ≤ start.Count) :
    ∃ fuel table, dijkstraWith minRun maxRun fuel cityMap start = Outcome.ok table := by
  obtain ⟨V, hV⟩ := exists_state_finset maxRun cityMap
  have hall : AllEntries (Tame maxRun cityMap) [seedState start] emptyStateMap := by
    constructor
    · intro e he
      simp only [List.mem_singleton] at he
      subst he
      exact tame_seed h0
    · intro k e hk
      simp [emptyStateMap, DijkstraStateMap.lookup] at hk
  obtain ⟨fuel, table, hf⟩ := dijkstraLoop_terminates minRun hwf hnn hV _ _ _ _
    rfl rfl hall
  exact ⟨fuel, table, (dijkstraWith_eq_loop hwf fuel start).trans hf⟩

/-- The table the search returns does not depend on the fuel. -/
theorem dijkstraWith_unique {minRun maxRun : Int} {cityMap : CityMap} {start : DijkstraPoint}
    {fuel1 fuel2 : Nat} {table1 table2 : DijkstraStateMap}
    (h1 : dijkstraWith minRun maxRun fuel1 cityMap start = Outcome.ok table1)
    (h2 : dijkstraWith minRun maxRun fuel2 cityMap start = Outcome.ok table2) :
    table1 = table2 := by
  have e1 := dijkstraLoop_fuel_mono (dijkstraWith_ok h1) fuel2
  have e2 := dijkstraLoop_fuel_mono (dijkstraWith_ok h2) fuel1
  rw [Nat.add_comm] at e2
  rw [e1] at e2
  cases e2
  rfl

/-! ## The chain of a recorded entry is a legal move sequence -/

theorem trail_link (d : Int) (p : DijkstraPoint) (prev : DijkstraState) :
    trail (DijkstraState.link d p prev) = trail prev ++ [p] := by
  simp [trail, pathStates]

theorem trail_root (d : Int) (p : DijkstraPoint) : trail (DijkstraState.root d p) = [] := rfl

theorem seqCost_append (cityMap : CityMap) (moves : List DijkstraPoint) (t : DijkstraPoint) :
    seqCost cityMap (moves ++ [t]) = seqCost cityMap moves + cost cityMap t.Coordinate := by
  simp [seqCost]

theorem legalSeq_append {minRun maxRun : Int} {cityMap : CityMap} (moves : List DijkstraPoint) :
    ∀ (isFirst : Bool) (s t : DijkstraPoint),
      LegalSeq minRun maxRun cityMap isFirst s moves →
      LegalMove minRun maxRun cityMap (isFirst && moves.isEmpty) (moves.getLast?.getD s) t →
      LegalSeq minRun maxRun cityMap isFirst s (moves ++ [t]) := by
  induction moves with
  | nil =>
    intro isFirst s t _ hmove
    simp only [List.isEmpty_nil, Bool.and_true, List.getLast?_nil, Option.getD_none] at hmove
    exact ⟨hmove, trivial⟩
  | cons x rest ih =>
    intro isFirst s t hseq hmove
    obtain ⟨hx, hrest⟩ := hseq
    refine ⟨hx, ih false x t hrest ?_⟩
    have hlast : (x :: rest).getLast?.getD s = rest.getLast?.getD x := by
      cases rest with
      | nil => rfl
      | cons y rest2 =>
        rw [List.getLast?_cons_cons]
        simp [List.getLast?_cons]
    rw [hlast] at hmove
    simpa using hmove

theorem recorded_trail_legal {minRun maxRun : Int} {cityMap : CityMap}
    {start : DijkstraPoint} (h0 : start.Count = 0) {fuel : Nat} {table : DijkstraStateMap}
    (h : dijkstraWith minRun maxRun fuel cityMap start = Outcome.ok table)
    {k : DijkstraPoint} {e : DijkstraState} (hk : table.lookup k = some e) :
    LegalSeq minRun maxRun cityMap true start (trail e) ∧ (trail e).getLast? = some k ∧
      seqCost cityMap (trail e) = e.Distance := by
  have key := chain_steps start (fun _ _ => True)
    (fun e => (e = seedState start ∨ 1 ≤ e.Point.Count) ∧
      LegalSeq minRun maxRun cityMap true start (trail e) ∧
      seqCost cityMap (trail e) = e.Distance ∧ (trail e).getLast?.getD start = e.Point)
    ?_ ?_ h hk
  · obtain ⟨hpoint, _, hne, ⟨_, hlegal, hcost, _⟩, _⟩ := key
    refine ⟨hlegal, ?_, hcost⟩
    cases e with
    | root d p => simp [pathStates] at hne
    | link d p prev =>
      rw [trail_link]
      simp only [point_link] at hpoint
      simp [hpoint]
  · exact ⟨Or.inl rfl, trivial, rfl, rfl⟩
  · intro point np c hQ hnp hsk hc
    obtain ⟨hseed, hlegal, hcost, hlast⟩ := hQ
    refine ⟨⟨?_, ?_, ?_, ?_⟩, trivial⟩
    · right
      obtain ⟨direction, rfl, _⟩ := mem_nextPoints hnp
      simp only [point_link, move_count]
      rcases hseed with hs | hs
      · rw [hs]
        simp only [seedState, point_root, h0]
        split <;> omega
      · split <;> omega
    · rw [trail_link]
      apply legalSeq_append _ _ _ _ hlegal
      rw [hlast]
      apply legalMove_of_succ ⟨hnp, hsk⟩
      · rcases hseed with hs | hs
        · rw [hs]
          simp [seedState, h0]
        · omega
      · intro hz
        rcases hseed with hs | hs
        · rw [hs]
          simp [seedState, trail_root]
        · omega
    · rw [trail_link, seqCost_append, hcost, cost_of_cell hc]
      rfl
    · rw [trail_link]
      simp

/-- With exact sums: on a non-empty rectangular grid of non-negative costs, `dijkstra`
started from the seed state (coordinate, heading Right, run-length 0) returns
a table (with enough fuel, and the same table whatever the fuel), and the
`Distance` of every entry of the table is the minimum of the costs of the
legal move sequences from the seed to the state of the entry: some legal
sequence has that cost and no legal sequence has a smaller one. A sequence
is legal (`LegalSeq 4 10`) when every move stays in bounds, no move reverses
the heading of the state it leaves (for the first move that is the heading
Right of the seed), no run-length exceeds 10, and a turn is made only from a
run-length of at least 4, the first move excepted. -/
theorem exact_distance_is_minimum (cityMap : CityMap) (hwf : WellFormed cityMap)
    (hnn : NonNeg cityMap) (coordinate : Point2D) :
    ∃ fuel table,
      dijkstra fuel cityMap
        { Count := 0, Direction := DirectionRight, Coordinate := coordinate } =
          Outcome.ok table ∧
      (∀ fuel2 table2,
        dijkstra fuel2 cityMap
          { Count := 0, Direction := DirectionRight, Coordinate := coordinate } =
            Outcome.ok table2 → table2 = table) ∧
      ∀ k e, table.lookup k = some e →
        (∃ moves,
          LegalSeq 4 10 cityMap true
            { Count := 0, Direction := DirectionRight, Coordinate := coordinate } moves ∧
          moves.getLast? = some k ∧ seqCost cityMap moves = e.Distance) ∧
        (∀ moves,
          LegalSeq 4 10 cityMap true
            { Count := 0, Direction := DirectionRight, Coordinate := coordinate } moves →
          moves.getLast? = some k → e.Distance ≤ seqCost cityMap moves) := by
  obtain ⟨fuel, table, hrun⟩ := dijkstraWith_terminates 4 10 hwf hnn
    { Count := 0, Direction := DirectionRight, Coordinate := coordinate } (le_refl _)
  refine ⟨fuel, table, hrun, fun fuel2 table2 h2 => dijkstraWith_unique h2 hrun, ?_⟩
  intro k e hk
  constructor
  · exact ⟨trail e, recorded_trail_legal rfl hrun hk⟩
  · intro moves hlegal hlast
    have hsettled := dijkstraLoop_settled
      { Count := 0, Direction := DirectionRight, Coordinate := coordinate } ?_
      (dijkstraWith_ok hrun)
    · obtain ⟨e2, he2, hd2⟩ := settled_le_seqCost hsettled moves true _ 0 (Or.inl ⟨rfl, rfl⟩)
        (fun _ => rfl) hlegal k hlast
      rw [hk] at he2
      cases he2
      omega
    · intro s d hl
      rcases hl with ⟨hs, hd⟩ | ⟨e3, he3, _⟩
      · left
        exact ⟨seedState _, List.mem_singleton_self _, hs.symm ▸ rfl, hd.symm ▸ rfl⟩
      · simp [emptyStateMap, DijkstraStateMap.lookup] at he3

/-! ## `runMain` marks the path without a panic -/

theorem sameShape_init (cityMap : CityMap) :
    SameShape (cityMap.map (fun row => row.map toString)) cityMap := by
  intro i
  rw [List.getElem?_map]
  cases cityMap[i]? with
  | none => rfl
  | some row => simp

theorem markCell_ok {solution : List (List String)} {cityMap : CityMap}
    (hshape : SameShape solution cityMap) {p : Point2D} {c : Int}
    (hc : cityMap.cell p = some c) (text : String) :
    ∃ solution1, markCell solution p text = some solution1 ∧ SameShape solution1 cityMap := by
  unfold CityMap.cell at hc
  split at hc
  · cases hc
  · rename_i hneg
    cases hrow : cityMap[p.Y.toNat]? with
    | none => simp [hrow] at hc
    | some row =>
      simp only [hrow] at hc
      obtain ⟨hx, _⟩ := List.getElem?_eq_some_iff.mp hc
      have hs := hshape p.Y.toNat
      rw [hrow] at hs
      cases hsrow : solution[p.Y.toNat]? with
      | none => simp [hsrow] at hs
      | some srow =>
        rw [hsrow] at hs
        simp only [Option.map_some', Option.some.injEq] at hs
        have hx2 : p.X.toNat < srow.length := by omega
        refine ⟨solution.set p.Y.toNat (srow.set p.X.toNat text), ?_, ?_⟩
        · unfold markCell
          simp only [hneg, if_false, hsrow, hx2, if_true]
        · intro i
          rw [List.getElem?_set]
          by_cases hi : p.Y.toNat = i
          · subst hi
            have hlt : p.Y.toNat < solution.length :=
              (List.getElem?_eq_some_iff.mp hsrow).1
            simp only [if_true, hlt, hrow, Option.map_some', List.length_set, hs]
          · simp only [hi, if_false]
            exact hshape i

theorem markPath_ok {cityMap : CityMap} (states : List DijkstraState) :
    ∀ solution : List (List String), SameShape solution cityMap →
      (∀ s ∈ states, ∃ c, cityMap.cell s.Point.Coordinate = some c) →
      ∃ solution1, markPath states solution = some solution1 := by
  induction states with
  | nil =>
    intro solution _ _
    exact ⟨solution, rfl⟩
  | cons s rest ih =>
    intro solution hshape hcells
    obtain ⟨c, hc⟩ := hcells s (List.mem_cons_self _ _)
    obtain ⟨solution1, h1, hshape1⟩ := markCell_ok hshape hc (marker s.Point.Direction)
    obtain ⟨solution2, h2⟩ := ih solution1 hshape1
      (fun t ht => hcells t (List.mem_cons_of_mem _ ht))
    refine ⟨solution2, ?_⟩
    simp only [markPath, h1]
    exact h2

/-- When the search returns a table, `runMain` returns a report. -/
theorem runMainWith_of_dijkstraWith {minRun maxRun : Int} {fuel : Nat} {cityMap : CityMap}
    {table : DijkstraStateMap}
    (h : dijkstraWith minRun maxRun fuel cityMap zeroPoint = Outcome.ok table) :
    ∃ report, runMainWith minRun maxRun fuel cityMap = Outcome.ok report ∧
      report.minState = selectMin minRun maxRun cityMap table := by
  have hcells : ∀ s ∈ pathStates (selectMin minRun maxRun cityMap table),
      ∃ c, cityMap.cell s.Point.Coordinate = some c := by
    rcases selectMin_cases minRun maxRun cityMap table with hs | ⟨k, _, hk, _⟩
    · rw [hs]
      intro s hs2
      simp [sentinel_pathStates] at hs2
    · exact (recorded_distance_is_pathCost h hk).2.2
  obtain ⟨solution, hm⟩ := markPath_ok _ _ (sameShape_init cityMap) hcells
  refine ⟨{ minState := selectMin minRun maxRun cityMap table, solution := solution }, ?_, rfl⟩
  unfold runMainWith
  simp only [h, hm]

/-- On a well-formed grid of non-negative costs `runMain` returns a report
when it is given enough fuel. -/
theorem runMainWith_terminates (minRun maxRun : Int) {cityMap : CityMap}
    (hwf : WellFormed cityMap) (hnn : NonNeg cityMap) :
    ∃ fuel report, runMainWith minRun maxRun fuel cityMap = Outcome.ok report := by
  obtain ⟨fuel, table, h⟩ := dijkstraWith_terminates minRun maxRun hwf hnn zeroPoint
    (le_refl _)
  obtain ⟨report, hr, _⟩ := runMainWith_of_dijkstraWith h
  exact ⟨fuel, report, hr⟩

/-! ## Terminal states -/

/-- A recorded state at the bottom-right cell was entered heading right or
down, with a run-length of at most `maxRun`. -/
theorem recorded_terminal_mem_endKeys {minRun maxRun : Int} {cityMap : CityMap} {fuel : Nat}
    {table : DijkstraStateMap}
    (h : dijkstraWith minRun maxRun fuel cityMap zeroPoint = Outcome.ok table)
    {k : DijkstraPoint} {e : DijkstraState} (hk : table.lookup k = some e)
    (hterm : IsTerminal minRun cityMap k) : k ∈ endKeys minRun maxRun cityMap := by
  have key := chain_steps zeroPoint
    (fun prev s => s.Point.Coordinate = prev.Point.Coordinate.Add s.Point.Direction.ToVector ∧
      s.Point.Count ≤ maxRun ∧ cityMap.InBounds s.Point.Coordinate = true)
    (fun e => e.Point = zeroPoint ∨ cityMap.InBounds e.Point.Coordinate = true)
    (Or.inl rfl) ?_ h hk
  · obtain ⟨hpoint, _, hne, _, hchain⟩ := key
    cases e with
    | root d p => simp [pathStates] at hne
    | link d p prev =>
      simp only [point_link] at hpoint
      subst hpoint
      obtain ⟨⟨hcoord, hmax, hin⟩, hprev, _⟩ :=
        hchain (DijkstraState.link d p prev) (by simp [pathStates]) prev rfl
      simp only [point_link] at hcoord hmax hin
      obtain ⟨hend, hmin⟩ := hterm
      rw [mem_endKeys]
      refine ⟨?_, hmin, hmax, hend⟩
      obtain ⟨hy0, hy1, hx0, hx1⟩ := (inBounds_iff cityMap p.Coordinate).mp hin
      have hendX : p.Coordinate.X = ((cityMap.headD []).length : Int) - 1 := by
        rw [hend]
        rfl
      have hendY : p.Coordinate.Y = (cityMap.length : Int) - 1 := by
        rw [hend]
        rfl
      have hcx : p.Coordinate.X = prev.Point.Coordinate.X + p.Direction.ToVector.X := by
        rw [hcoord]
        rfl
      have hcy : p.Coordinate.Y = prev.Point.Coordinate.Y + p.Direction.ToVector.Y := by
        rw [hcoord]
        rfl
      have hprevBounds : (prev.Point.Coordinate.X = 0 ∧ prev.Point.Coordinate.Y = 0) ∨
          (prev.Point.Coordinate.X < ((cityMap.headD []).length : Int) ∧
            prev.Point.Coordinate.Y < (cityMap.length : Int)) := by
        rcases hprev with hz | hb
        · left
          rw [hz]
          exact ⟨rfl, rfl⟩
        · right
          obtain ⟨_, h2, _, h4⟩ := (inBounds_iff cityMap prev.Point.Coordinate).mp hb
          exact ⟨h4, h2⟩
      cases hdir : p.Direction with
      | DirectionRight => exact Or.inl rfl
      | DirectionDown => exact Or.inr rfl
      | DirectionLeft =>
        rw [hdir] at hcx
        simp only [Direction.ToVector] at hcx
        omega
      | DirectionUp =>
        rw [hdir] at hcy
        simp only [Direction.ToVector] at hcy
        omega
  · intro point np c _ hnp hsk hc
    obtain ⟨hin, hmax, _⟩ := skipped_eq_false.mp hsk
    obtain ⟨direction, rfl, _⟩ := mem_nextPoints hnp
    exact ⟨Or.inr hin, rfl, hmax, hin⟩

theorem selectMin_le {minRun maxRun : Int} {cityMap : CityMap} {fuel : Nat}
    {table : DijkstraStateMap}
    (h : dijkstraWith minRun maxRun fuel cityMap zeroPoint = Outcome.ok table)
    {k : DijkstraPoint} {e : DijkstraState} (hk : table.lookup k = some e)
    (hterm : IsTerminal minRun cityMap k) :
    (selectMin minRun maxRun cityMap table).Distance ≤ e.Distance :=
  (foldl_selectStep_le table _ _).2 k (recorded_terminal_mem_endKeys h hk hterm) e hk

theorem isTerminal_of_mem_endKeys {minRun maxRun : Int} {cityMap : CityMap} {k : DijkstraPoint}
    (h : k ∈ endKeys minRun maxRun cityMap) : IsTerminal minRun cityMap k := by
  obtain ⟨_, hmin, _, hend⟩ := mem_endKeys.mp h
  exact ⟨hend, hmin⟩

theorem mem_of_lookup {state : DijkstraStateMap} {k : DijkstraPoint} {e : DijkstraState}
    (h : state.lookup k = some e) : (k, e) ∈ state := by
  induction state with
  | nil => cases h
  | cons kv rest ih =>
    obtain ⟨k2, v2⟩ := kv
    simp only [DijkstraStateMap.lookup] at h
    split at h
    · rename_i hk
      cases h
      subst hk
      exact List.mem_cons_self _ _
    · exact List.mem_cons_of_mem _ (ih h)

theorem selectMin_empty (minRun maxRun : Int) (cityMap : CityMap) :
    selectMin minRun maxRun cityMap emptyStateMap = sentinelState := by
  rcases selectMin_cases minRun maxRun cityMap emptyStateMap with h | ⟨k, _, hk, _⟩
  · exact h
  · simp [emptyStateMap, DijkstraStateMap.lookup] at hk

/-- C9: on every grid of a single cell, whatever its cost and whatever the
run bounds (4 and 10 in the code), the search started at `(0,0)` returns the
empty table after its one iteration, and `runMain` ends with the sentinel
state: distance `math.MaxInt`, nothing marked. -/
theorem single_cell_grid_reports_no_path (minRun maxRun c : Int) (fuel : Nat) :
    dijkstraWith minRun maxRun (fuel + 1) [[c]] zeroPoint = Outcome.ok emptyStateMap ∧
    dijkstra (fuel + 1) [[c]] zeroPoint = Outcome.ok emptyStateMap ∧
    runMain (fuel + 1) [[c]] =
      Outcome.ok { minState := sentinelState, solution := [[toString c]] } ∧
    sentinelState.Distance = maxInt ∧ pathStates sentinelState = [] := by
  have hloop : ∀ m x : Int,
      dijkstraWith m x (fuel + 1) [[c]] zeroPoint = Outcome.ok emptyStateMap := by
    intro m x
    have hpop : heapPop [seedState zeroPoint] = some (seedState zeroPoint, []) := by decide
    have hrelax : relax x [[c]] (seedState zeroPoint)
        (nextPoints m (seedState zeroPoint).Point) [] emptyStateMap =
          Outcome.ok ([], emptyStateMap) := by
      simp [nextPoints, seedState, zeroPoint, relax, relaxOne, skipped, CityMap.InBounds,
        DijkstraPoint.Move, Point2D.Add, Direction.ToVector]
    unfold dijkstraWith
    simp only [List.length_singleton, heapInit_singleton]
    rw [if_neg (by decide)]
    show dijkstraLoop m x [[c]] (fuel + 1) [seedState zeroPoint] emptyStateMap = _
    rw [dijkstraLoop_succ hpop hrelax]
    exact dijkstraLoop_zero_of_empty _ _ _ _ _
  refine ⟨hloop minRun maxRun, hloop 4 10, ?_, rfl, rfl⟩
  unfold runMain runMainWith
  rw [hloop 4 10]
  simp only [selectMin_empty, sentinel_pathStates, markPath]
  rfl

/-! ## The table as a map: every key once -/

theorem mem_keys_set {state : DijkstraStateMap} {key : DijkstraPoint} {value : DijkstraState}
    {k : DijkstraPoint} (h : k ∈ (state.set key value).map Prod.fst) :
    k = key ∨ k ∈ state.map Prod.fst := by
  induction state with
  | nil =>
    simp only [DijkstraStateMap.set, List.map_cons, List.map_nil, List.mem_singleton] at h
    exact Or.inl h
  | cons kv rest ih =>
    obtain ⟨k2, v2⟩ := kv
    simp only [DijkstraStateMap.set] at h
    split at h
    · rename_i hk
      simp only [List.map_cons, List.mem_cons] at h ⊢
      rcases h with h | h
      · exact Or.inl h
      · exact Or.inr (Or.inr h)
    · simp only [List.map_cons, List.mem_cons] at h ⊢
      rcases h with h | h
      · exact Or.inr (Or.inl h)
      · rcases ih h with h2 | h2
        · exact Or.inl h2
        · exact Or.inr (Or.inr h2)

theorem keys_nodup_set {state : DijkstraStateMap} (key : DijkstraPoint) (value : DijkstraState)
    (h : (state.map Prod.fst).Nodup) : ((state.set key value).map Prod.fst).Nodup := by
  induction state with
  | nil => simp [DijkstraStateMap.set]
  | cons kv rest ih =>
    obtain ⟨k2, v2⟩ := kv
    simp only [List.map_cons, List.nodup_cons] at h
    simp only [DijkstraStateMap.set]
    split
    · rename_i hk
      subst hk
      simp only [List.map_cons, List.nodup_cons]
      exact h
    · rename_i hk
      simp only [List.map_cons, List.nodup_cons]
      refine ⟨?_, ih h.2⟩
      intro hmem
      rcases mem_keys_set hmem with h2 | h2
      · exact hk h2
      · exact h.1 h2

/-- The table `dijkstra` returns holds every key once. -/
theorem table_keys_nodup {minRun maxRun : Int} {cityMap : CityMap} {start : DijkstraPoint}
    {fuel : Nat} {table : DijkstraStateMap}
    (h : dijkstraWith minRun maxRun fuel cityMap start = Outcome.ok table) :
    (table.map Prod.fst).Nodup := by
  refine dijkstraLoop_induction (fun _ s => (s.map Prod.fst).Nodup) ?_ ?_ (dijkstraWith_ok h)
  · intro q s point q1 q2 s2 hI _ hr
    refine relax_induction (fun _ s1 => (s1.map Prod.fst).Nodup) _ ?_ hI hr
    intro np _ qa sa qb sb hJ h1
    rcases relaxOne_ok h1 with ⟨_, _, hs⟩ | ⟨_, c, _, ⟨_, _, hs⟩ | ⟨_, _, hs⟩⟩
    · subst hs; exact hJ
    · subst hs; exact hJ
    · subst hs; exact keys_nodup_set _ _ hJ
  · simp [emptyStateMap]

/-- In a table that holds every key once, the pairs of the table are what the
lookup finds. -/
theorem lookup_of_mem {state : DijkstraStateMap} (hnd : (state.map Prod.fst).Nodup)
    {k : DijkstraPoint} {e : DijkstraState} (h : (k, e) ∈ state) :
    state.lookup k = some e := by
  induction state with
  | nil => cases h
  | cons kv rest ih =>
    obtain ⟨k2, v2⟩ := kv
    simp only [List.map_cons, List.nodup_cons] at hnd
    simp only [DijkstraStateMap.lookup]
    rcases List.mem_cons.mp h with h1 | h1
    · cases h1
      simp
    · have hne : ¬ k2 = k := by
        intro hk
        subst hk
        exact hnd.1 (List.mem_map.mpr ⟨(k2, e), h1, rfl⟩)
      simp only [hne, if_false]
      exact ih hnd.2 h1

/-! ## The first move from the top-left cell -/

/-- From the cell `(0,0)` the cell to the left is out of bounds on every
grid: the heading Right of the seed `DijkstraPoint{}` excludes no move that
is in bounds. -/
theorem left_of_zeroPoint_out_of_bounds (cityMap : CityMap) :
    cityMap.InBounds (zeroPoint.Move DirectionLeft).Coordinate = false := by
  cases hb : cityMap.InBounds (zeroPoint.Move DirectionLeft).Coordinate with
  | false => rfl
  | true =>
    obtain ⟨_, _, hx, _⟩ := (inBounds_iff cityMap _).mp hb
    simp [zeroPoint, Point2D.Add, Direction.ToVector] at hx

/-! ## Recorded distances and legal move sequences -/

/-- The table records the last state of every legal move sequence from a seed
of run-length 0, at a distance of at most the cost of the sequence. -/
theorem recorded_le_seqCost {minRun maxRun : Int} {cityMap : CityMap} {start : DijkstraPoint}
    (h0 : start.Count = 0) {fuel : Nat} {table : DijkstraStateMap}
    (h : dijkstraWith minRun maxRun fuel cityMap start = Outcome.ok table)
    {moves : List DijkstraPoint}
    (hlegal : LegalSeq minRun maxRun cityMap true start moves) {p : DijkstraPoint}
    (hlast : moves.getLast? = some p) :
    ∃ e, table.lookup p = some e ∧ e.Distance ≤ seqCost cityMap moves := by
  have hsettled := dijkstraLoop_settled start ?_ (dijkstraWith_ok h)
  · obtain ⟨e, he, hd⟩ := settled_le_seqCost hsettled moves true start 0 (Or.inl ⟨rfl, rfl⟩)
      (fun _ => h0) hlegal p hlast
    exact ⟨e, he, by omega⟩
  · intro s d hl
    rcases hl with ⟨hs, hd⟩ | ⟨e3, he3, _⟩
    · left
      exact ⟨seedState start, List.mem_singleton_self _, hs.symm ▸ rfl, hd.symm ▸ rfl⟩
    · simp [emptyStateMap, DijkstraStateMap.lookup] at he3

theorem legalMove_mono {minRun1 maxRun1 minRun2 maxRun2 : Int} (hmin : minRun2 ≤ minRun1)
    (hmax : maxRun1 ≤ maxRun2) {cityMap : CityMap} {isFirst : Bool} {s t : DijkstraPoint}
    (h : LegalMove minRun1 maxRun1 cityMap isFirst s t) :
    LegalMove minRun2 maxRun2 cityMap isFirst s t := by
  obtain ⟨h1, h2, h3, h4, h5, h6⟩ := h
  refine ⟨h1, h2, h3, le_trans h4 hmax, h5, ?_⟩
  intro hd
  obtain ⟨h7, h8⟩ := h6 hd
  refine ⟨h7, ?_⟩
  rcases h8 with h8 | h8
  · exact Or.inl h8
  · exact Or.inr (le_trans hmin h8)

theorem legalSeq_mono {minRun1 maxRun1 minRun2 maxRun2 : Int} (hmin : minRun2 ≤ minRun1)
    (hmax : maxRun1 ≤ maxRun2) {cityMap : CityMap} (moves : List DijkstraPoint) :
    ∀ (isFirst : Bool) (s : DijkstraPoint),
      LegalSeq minRun1 maxRun1 cityMap isFirst s moves →
      LegalSeq minRun2 maxRun2 cityMap isFirst s moves := by
  induction moves with
  | nil =>
    intro _ _ _
    trivial
  | cons t rest ih =>
    intro isFirst s h
    exact ⟨legalMove_mono hmin hmax h.1, ih false t h.2⟩

/-- Looser run bounds record every state the tighter bounds record, at a
distance that is not larger. -/
theorem table_mono {minRun1 maxRun1 minRun2 maxRun2 : Int} (hmin : minRun2 ≤ minRun1)
    (hmax : maxRun1 ≤ maxRun2) {cityMap : CityMap} {start : DijkstraPoint}
    (h0 : start.Count = 0) {fuel1 fuel2 : Nat} {table1 table2 : DijkstraStateMap}
    (h1 : dijkstraWith minRun1 maxRun1 fuel1 cityMap start = Outcome.ok table1)
    (h2 : dijkstraWith minRun2 maxRun2 fuel2 cityMap start = Outcome.ok table2) :
    Below table1 table2 := by
  intro k e hk
  obtain ⟨hlegal, hlast, hcost⟩ := recorded_trail_legal h0 h1 hk
  obtain ⟨e2, he2, hd2⟩ := recorded_le_seqCost h0 h2
    (legalSeq_mono hmin hmax _ _ _ hlegal) hlast
  exact ⟨e2, he2, hcost ▸ hd2⟩

theorem endKeys_mono {minRun1 maxRun1 minRun2 maxRun2 : Int} (hmin : minRun2 ≤ minRun1)
    (hmax : maxRun1 ≤ maxRun2) {cityMap : CityMap} {k : DijkstraPoint}
    (h : k ∈ endKeys minRun1 maxRun1 cityMap) : k ∈ endKeys minRun2 maxRun2 cityMap := by
  rw [mem_endKeys] at h ⊢
  obtain ⟨hd, h1, h2, h3⟩ := h
  exact ⟨hd, le_trans hmin h1, le_trans h2 hmax, h3⟩

theorem selectMin_mono {minRun1 maxRun1 minRun2 maxRun2 : Int} (hmin : minRun2 ≤ minRun1)
    (hmax : maxRun1 ≤ maxRun2) {cityMap : CityMap} {table1 table2 : DijkstraStateMap}
    (hb : Below table1 table2) :
    (selectMin minRun2 maxRun2 cityMap table2).Distance ≤
      (selectMin minRun1 maxRun1 cityMap table1).Distance := by
  rcases selectMin_cases minRun1 maxRun1 cityMap table1 with hs | ⟨k, hk, hl, _⟩
  · rw [hs]
    exact (foldl_selectStep_le table2 _ _).1
  · obtain ⟨e2, he2, hd2⟩ := hb k _ hl
    exact le_trans
      ((foldl_selectStep_le table2 _ _).2 k (endKeys_mono hmin hmax hk) e2 he2) hd2

/-- Looser run bounds report a cost that is not larger, and a path whenever
the tighter bounds report one. -/
theorem runMainWith_mono {minRun1 maxRun1 minRun2 maxRun2 : Int} (hmin : minRun2 ≤ minRun1)
    (hmax : maxRun1 ≤ maxRun2) {cityMap : CityMap} {fuel1 fuel2 : Nat} {report1 report2 : Report}
    (h1 : runMainWith minRun1 maxRun1 fuel1 cityMap = Outcome.ok report1)
    (h2 : runMainWith minRun2 maxRun2 fuel2 cityMap = Outcome.ok report2) :
    report2.minState.Distance ≤ report1.minState.Distance ∧
      (report2.minState = sentinelState → report1.minState = sentinelState) := by
  obtain ⟨table1, hd1, hmin1, _⟩ := runMainWith_ok h1
  obtain ⟨table2, hd2, hmin2, _⟩ := runMainWith_ok h2
  have hle : report2.minState.Distance ≤ report1.minState.Distance := by
    rw [hmin1, hmin2]
    exact selectMin_mono hmin hmax (table_mono hmin hmax rfl hd1 hd2)
  refine ⟨hle, ?_⟩
  intro hs
  rcases selectMin_cases minRun1 maxRun1 cityMap table1 with hs1 | ⟨_, _, _, hlt⟩
  · exact hmin1.trans hs1
  · rw [← hmin1] at hlt
    rw [hs, sentinel_distance] at hle
    omega

theorem origin_previous (e : DijkstraState) : e.origin.Previous = none := by
  induction e with
  | root d p => rfl
  | link d p prev ih => exact ih

theorem follow_pathStates (e : DijkstraState) :
    follow (pathStates e).length e = some e.origin ∧
      ∀ m, m < (pathStates e).length → ∃ s, follow m e = some s ∧ s.Previous ≠ none := by
  induction e with
  | root d p =>
    refine ⟨rfl, ?_⟩
    intro m hm
    simp [pathStates] at hm
  | link d p prev ih =>
    obtain ⟨ih1, ih2⟩ := ih
    constructor
    · simp only [pathStates_link, List.length_cons, follow, previous_link]
      exact ih1
    · intro m hm
      cases m with
      | zero => exact ⟨_, rfl, by simp⟩
      | succ m =>
        simp only [pathStates_link, List.length_cons] at hm
        simp only [follow, previous_link]
        exact ih2 m (by omega)

theorem succ_iff {minRun maxRun : Int} {cityMap : CityMap} {p t : DijkstraPoint} :
    Succ minRun maxRun cityMap p t ↔
      ∃ direction, t = p.Move direction ∧
        ((p.Count > 0 ∧ p.Count < minRun) → direction = p.Direction) ∧
        cityMap.InBounds t.Coordinate = true ∧ t.Count ≤ maxRun ∧
        direction ≠ p.Direction.Reverse := by
  constructor
  · rintro ⟨hmem, hsk⟩
    obtain ⟨direction, rfl, hforced⟩ := mem_nextPoints hmem
    obtain ⟨hin, hmax, hrev⟩ := skipped_eq_false.mp hsk
    exact ⟨direction, rfl, hforced, hin, hmax, hrev⟩
  · rintro ⟨direction, rfl, hforced, hin, hmax, hrev⟩
    exact ⟨move_mem_nextPoints p direction hforced, skipped_eq_false.mpr ⟨hin, hmax, hrev⟩⟩

theorem reverse_ne (direction : Direction) : direction ≠ direction.Reverse := by
  cases direction <;> decide

/-- The counterexample to C16 as stated: a grid with a negative cost is not
rejected; `runMain` searches it and reports the cost 2 with 4 cells marked. -/
theorem negative_cost_is_searched :
    reportSummary (runMain 5 negativeMap) = some (2, 4) := by
  decide

/-- C16, amended: the engine validates nothing. On a grid without rows, and
on a grid whose first row is empty, `dijkstra` panics at its first statement,
before the loop. A grid with a negative cost, a non-rectangular grid and a
start coordinate outside the grid are searched like any other input:
`runMain` reports the cost 2 for `negativeMap` and the cost 4 for
`raggedMap`, and `dijkstra` records 5 states from `outsideSeed`; the
non-rectangular `shortRowMap` makes `runMain` panic in the middle of the
search, when it reads a cell the short row lacks. -/
theorem malformed_input_is_not_validated :
    (∀ fuel start, dijkstra fuel [] start = Outcome.panicked) ∧
    (∀ fuel start rows, dijkstra fuel ([] :: rows) start = Outcome.panicked) ∧
    (∀ fuel, runMain fuel [] = Outcome.panicked) ∧
    reportSummary (runMain 5 negativeMap) = some (2, 4) ∧
    reportSummary (runMain 5 raggedMap) = some (4, 4) ∧
    recordedCount (dijkstra 6 exampleMap outsideSeed) = some 5 ∧
    panics (runMain 6 shortRowMap) = true := by
  refine ⟨?_, ?_, ?_, by decide, by decide, by decide, by decide⟩
  · intro fuel start
    rfl
  · intro fuel start rows
    simp [dijkstra, dijkstraWith]
  · intro fuel
    rfl

/-- C19: a popped state with run-length `0 < Count < 4` has one candidate:
the move that keeps the heading, with run-length `Count + 1`. The successors
the loop relaxes are that move when its cell is in bounds and none otherwise,
in which case the inner loop leaves queue and table as they are. -/
theorem forced_straight_run (cityMap : CityMap) (p : DijkstraPoint)
    (h1 : 0 < p.Count) (h2 : p.Count < 4) :
    nextPoints 4 p = [p.Move p.Direction] ∧
    (p.Move p.Direction).Direction = p.Direction ∧
    (p.Move p.Direction).Count = p.Count + 1 ∧
    (∀ t, Succ 4 10 cityMap p t ↔
      t = p.Move p.Direction ∧ cityMap.InBounds t.Coordinate = true) ∧
    (cityMap.InBounds (p.Move p.Direction).Coordinate = false →
      (∀ t, ¬ Succ 4 10 cityMap p t) ∧
      ∀ point queue state, point.Point = p →
        relax 10 cityMap point (nextPoints 4 p) queue state = Outcome.ok (queue, state)) := by
  have hnext : nextPoints 4 p = [p.Move p.Direction] := by
    unfold nextPoints
    rw [if_pos ⟨h1, h2⟩]
  have hcount : (p.Move p.Direction).Count = p.Count + 1 := by
    rw [move_count]
    simp
  have hsucc : ∀ t, Succ 4 10 cityMap p t ↔
      t = p.Move p.Direction ∧ cityMap.InBounds t.Coordinate = true := by
    intro t
    rw [succ_iff]
    constructor
    · rintro ⟨direction, rfl, hforced, hin, _, _⟩
      rw [hforced ⟨h1, h2⟩] at hin ⊢
      exact ⟨rfl, hin⟩
    · rintro ⟨rfl, hin⟩
      refine ⟨p.Direction, rfl, fun _ => rfl, hin, ?_, reverse_ne _⟩
      rw [hcount]
      omega
  refine ⟨hnext, rfl, hcount, hsucc, ?_⟩
  intro hout
  constructor
  · intro t ht
    obtain ⟨rfl, hin⟩ := (hsucc t).mp ht
    rw [hout] at hin
    cases hin
  · intro point queue state hpoint
    rw [hnext]
    simp only [relax, relaxOne, skipped, hout, hpoint]
    rfl

/-- An instance of C19: the state after one step to the right on the one-row grid. -/
theorem forced_straight_run_witness :
    (0 : Int) < (exampleEntry 1).Point.Count ∧ (exampleEntry 1).Point.Count < 4 ∧
    nextPoints 4 (exampleEntry 1).Point =
      [(exampleEntry 1).Point.Move (exampleEntry 1).Point.Direction] ∧
    ((exampleEntry 1).Point.Move (exampleEntry 1).Point.Direction).Direction =
      (exampleEntry 1).Point.Direction ∧
    ((exampleEntry 1).Point.Move (exampleEntry 1).Point.Direction).Count =
      (exampleEntry 1).Point.Count + 1 ∧
    (∀ t, Succ 4 10 exampleMap (exampleEntry 1).Point t ↔
      t = (exampleEntry 1).Point.Move (exampleEntry 1).Point.Direction ∧
        exampleMap.InBounds t.Coordinate = true) ∧
    (exampleMap.InBounds
        ((exampleEntry 1).Point.Move (exampleEntry 1).Point.Direction).Coordinate = false →
      (∀ t, ¬ Succ 4 10 exampleMap (exampleEntry 1).Point t) ∧
      ∀ point queue state, point.Point = (exampleEntry 1).Point →
        relax 10 exampleMap point (nextPoints 4 (exampleEntry 1).Point) queue state =
          Outcome.ok (queue, state)) :=
  ⟨by decide, by decide,
    forced_straight_run exampleMap (exampleEntry 1).Point (by decide) (by decide)⟩

/-! ## Termination from any seed -/

theorem exists_state_finset_from (lo maxRun : Int) (cityMap : CityMap) :
    ∃ V : Finset DijkstraPoint, ∀ k : DijkstraPoint,
      cityMap.InBounds k.Coordinate = true → lo + 1 ≤ k.Count → k.Count ≤ maxRun → k ∈ V := by
  refine ⟨(Finset.Icc (lo + 1) maxRun ×ˢ
      (({DirectionRight, DirectionDown, DirectionLeft, DirectionUp} : Finset Direction) ×ˢ
        (Finset.Ico (0 : Int) ((cityMap.headD []).length : Int) ×ˢ
          Finset.Ico (0 : Int) (cityMap.length : Int)))).image
      (fun x => { Count := x.1, Direction := x.2.1,
                  Coordinate := { X := x.2.2.1, Y := x.2.2.2 } }), ?_⟩
  intro k hin h1 h2
  obtain ⟨hy0, hy1, hx0, hx1⟩ := (inBounds_iff cityMap k.Coordinate).mp hin
  rw [Finset.mem_image]
  refine ⟨(k.Count, k.Direction, k.Coordinate.X, k.Coordinate.Y), ?_, rfl⟩
  simp only [Finset.mem_product, Finset.mem_Icc, Finset.mem_Ico, Finset.mem_insert,
    Finset.mem_singleton]
  refine ⟨⟨h1, h2⟩, ?_, ⟨hx0, hx1⟩, ⟨hy0, hy1⟩⟩
  cases k.Direction <;> simp

theorem tameFrom_seed {lo maxRun : Int} {cityMap : CityMap} {start : DijkstraPoint}
    (h0 : lo ≤ start.Count) : TameFrom lo maxRun cityMap (seedState start) := by
  refine ⟨le_refl _, h0, ?_⟩
  intro h
  simp [seedState] at h

theorem tameFrom_step {lo minRun maxRun : Int} (hlo : lo ≤ 0) {cityMap : CityMap}
    (hnn : NonNeg cityMap) {point : DijkstraState} {nextPoint : DijkstraPoint} {c : Int}
    (hpt : TameFrom lo maxRun cityMap point)
    (hnp : nextPoint ∈ nextPoints minRun point.Point)
    (hsk : skipped maxRun cityMap point.Point nextPoint = false)
    (hc : cityMap.cell nextPoint.Coordinate = some c) :
    TameFrom lo maxRun cityMap (DijkstraState.link (point.Distance + c) nextPoint point) := by
  obtain ⟨hd, hcount, _⟩ := hpt
  obtain ⟨hin, hmax, _⟩ := skipped_eq_false.mp hsk
  obtain ⟨direction, rfl, _⟩ := mem_nextPoints hnp
  have hc0 := cell_nonneg hnn hc
  have hone : lo + 1 ≤ (point.Point.Move direction).Count := by
    rw [move_count]
    split <;> omega
  refine ⟨?_, ?_, fun _ => ⟨hin, ?_, hmax⟩⟩
  · simp only [distance_link]
    omega
  · simp only [point_link]
    omega
  · simp only [point_link]
    exact hone

theorem relaxOne_measure_from {lo minRun maxRun : Int} (hlo : lo ≤ 0) {cityMap : CityMap}
    (hnn : NonNeg cityMap) {V : Finset DijkstraPoint}
    (hV : ∀ k : DijkstraPoint,
      cityMap.InBounds k.Coordinate = true → lo + 1 ≤ k.Count → k.Count ≤ maxRun → k ∈ V)
    {point : DijkstraState} (hpt : TameFrom lo maxRun cityMap point)
    {nextPoint : DijkstraPoint} (hnp : nextPoint ∈ nextPoints minRun point.Point)
    {q q1 : DijkstraQueue} {s s1 : DijkstraStateMap}
    (h : relaxOne maxRun cityMap point nextPoint q s = Outcome.ok (q1, s1)) :
    MeasureLE V q s q1 s1 := by
  rcases relaxOne_ok h with ⟨_, hq, hs⟩ | ⟨hsk, c, hc, ⟨_, hq, hs⟩ | ⟨himp, hq, hs⟩⟩
  · subst hq; subst hs; exact measureLE_refl _ _ _
  · subst hq; subst hs; exact measureLE_refl _ _ _
  · have htame := tameFrom_step hlo hnn hpt hnp hsk hc
    have hmem : nextPoint ∈ V := by
      obtain ⟨_, _, h3⟩ := htame
      obtain ⟨hin, h1, h2⟩ := h3 (by simp)
      exact hV nextPoint hin h1 h2
    subst hq; subst hs
    rcases improves_eq_true.mp himp with hnone | ⟨old, hold, hlt⟩
    · exact Or.inl (absentCount_set_of_absent _ hmem hnone)
    · right
      refine ⟨absentCount_set_of_present _ hold, ?_⟩
      have := totalDistance_set_of_present
        (DijkstraState.link (point.Distance + c) nextPoint point) hmem hold htame.1 hlt
      rw [length_heapPush]
      omega

theorem relax_measure_from {lo minRun maxRun : Int} (hlo : lo ≤ 0) {cityMap : CityMap}
    (hnn : NonNeg cityMap) {V : Finset DijkstraPoint}
    (hV : ∀ k : DijkstraPoint,
      cityMap.InBounds k.Coordinate = true → lo + 1 ≤ k.Count → k.Count ≤ maxRun → k ∈ V)
    {point : DijkstraState} (hpt : TameFrom lo maxRun cityMap point)
    {q q2 : DijkstraQueue} {s s2 : DijkstraStateMap}
    (h0 : AllEntries (TameFrom lo maxRun cityMap) q s)
    (h : relax maxRun cityMap point (nextPoints minRun point.Point) q s =
      Outcome.ok (q2, s2)) :
    AllEntries (TameFrom lo maxRun cityMap) q2 s2 ∧ MeasureLE V q s q2 s2 := by
  refine relax_induction
    (fun q1 s1 => AllEntries (TameFrom lo maxRun cityMap) q1 s1 ∧ MeasureLE V q s q1 s1) _ ?_
    ⟨h0, measureLE_refl _ _ _⟩ h
  intro np hnp qa sa qb sb hJ h1
  refine ⟨?_, measureLE_trans hJ.2 (relaxOne_measure_from hlo hnn hV hpt hnp h1)⟩
  exact relaxOne_entries (TameFrom lo maxRun cityMap)
    (fun c hsk hc => tameFrom_step hlo hnn hpt hnp hsk hc) hJ.1 h1

theorem dijkstraLoop_terminates_from (lo minRun : Int) {maxRun : Int} (hlo : lo ≤ 0)
    {cityMap : CityMap} (hwf : WellFormed cityMap) (hnn : NonNeg cityMap)
    {V : Finset DijkstraPoint}
    (hV : ∀ k : DijkstraPoint,
      cityMap.InBounds k.Coordinate = true → lo + 1 ≤ k.Count → k.Count ≤ maxRun → k ∈ V) :
    ∀ (a n : Nat) (q : DijkstraQueue) (s : DijkstraStateMap),
      absentCount V s = a → q.length + totalDistance V s = n →
      AllEntries (TameFrom lo maxRun cityMap) q s →
      ∃ fuel table, dijkstraLoop minRun maxRun cityMap fuel q s = Outcome.ok table ∧
        ∀ k e, table.lookup k = some e → k ∈ V ∧ 0 ≤ e.Distance := by
  intro a
  induction a using Nat.strong_induction_on with
  | _ a iha =>
    intro n
    induction n using Nat.strong_induction_on with
    | _ n ihn =>
      intro q s ha hn hall
      cases hp : heapPop q with
      | none =>
        rw [heapPop_eq_none] at hp
        subst hp
        refine ⟨0, s, dijkstraLoop_zero_of_empty _ _ _ _ _, ?_⟩
        intro k e hk
        obtain ⟨⟨hd, _, h3⟩, hpoint, hprev⟩ := hall.2 k e hk
        obtain ⟨hin, h1, h2⟩ := h3 hprev
        rw [hpoint] at hin h1 h2
        exact ⟨hV k hin h1 h2, hd⟩
      | some pq =>
        obtain ⟨point, q1⟩ := pq
        have hperm := heapPop_perm hp
        have hlen : q.length = q1.length + 1 := by
          rw [hperm.length_eq]
          simp
        have hpt : TameFrom lo maxRun cityMap point :=
          hall.1 point (hperm.mem_iff.mpr (List.mem_cons_self _ _))
        have hall1 : AllEntries (TameFrom lo maxRun cityMap) q1 s :=
          ⟨fun e he => hall.1 e (hperm.mem_iff.mpr (List.mem_cons_of_mem _ he)), hall.2⟩
        obtain ⟨q2, s2, hr⟩ :=
          relax_total maxRun hwf point (nextPoints minRun point.Point) q1 s
        obtain ⟨hall2, hm⟩ := relax_measure_from hlo hnn hV hpt hall1 hr
        have hrec : ∃ fuel table,
            dijkstraLoop minRun maxRun cityMap fuel q2 s2 = Outcome.ok table ∧
              ∀ k e, table.lookup k = some e → k ∈ V ∧ 0 ≤ e.Distance := by
          rcases hm with hlt | ⟨heq, hle⟩
          · exact iha _ (ha ▸ hlt) _ q2 s2 rfl rfl hall2
          · exact ihn _ (by omega) q2 s2 (heq.trans ha) rfl hall2
        obtain ⟨fuel, table, hf, hkeys⟩ := hrec
        exact ⟨fuel + 1, table, (dijkstraLoop_succ hp hr).trans hf, hkeys⟩

/-! ## The search under any queue discipline -/

theorem keepsEntries_heap : KeepsEntries heapPop heapPush :=
  ⟨fun _ => heapPop_eq_none, fun _ _ _ h => heapPop_perm h, heapPush_perm⟩

theorem relaxOneBy_heapPush (maxRun : Int) (cityMap : CityMap) (point : DijkstraState)
    (nextPoint : DijkstraPoint) (queue : DijkstraQueue) (state : DijkstraStateMap) :
    relaxOneBy heapPush maxRun cityMap point nextPoint queue state =
      relaxOne maxRun cityMap point nextPoint queue state := rfl

theorem relaxBy_heapPush (maxRun : Int) (cityMap : CityMap) (point : DijkstraState)
    (pts : List DijkstraPoint) (queue : DijkstraQueue) (state : DijkstraStateMap) :
    relaxBy heapPush maxRun cityMap point pts queue state =
      relax maxRun cityMap point pts queue state := by
  induction pts generalizing queue state with
  | nil => rfl
  | cons np rest ih =>
    simp only [relaxBy, relax, relaxOneBy_heapPush]
    cases relaxOne maxRun cityMap point np queue state with
    | ok qs =>
      obtain ⟨q1, s1⟩ := qs
      exact ih q1 s1
    | panicked => rfl
    | outOfFuel => rfl

theorem dijkstraLoopBy_heap (minRun maxRun : Int) (cityMap : CityMap) (fuel : Nat)
    (queue : DijkstraQueue) (state : DijkstraStateMap) :
    dijkstraLoopBy heapPop heapPush minRun maxRun cityMap fuel queue state =
      dijkstraLoop minRun maxRun cityMap fuel queue state := by
  induction fuel generalizing queue state with
  | zero =>
    unfold dijkstraLoopBy dijkstraLoop
    cases heapPop queue <;> rfl
  | succ fuel ih =>
    rw [dijkstraLoopBy, dijkstraLoop]
    cases heapPop queue with
    | none => rfl
    | some pq =>
      obtain ⟨point, q1⟩ := pq
      simp only [relaxBy_heapPush]
      cases relax maxRun cityMap point (nextPoints minRun point.Point) q1 state with
      | ok qs =>
        obtain ⟨q2, s2⟩ := qs
        exact ih q2 s2
      | panicked => rfl
      | outOfFuel => rfl

/-- With `heap.Pop` and `heap.Push` the search under a queue discipline is
the search of the code. -/
theorem dijkstraBy_heap (minRun maxRun : Int) (fuel : Nat) (cityMap : CityMap)
    (start : DijkstraPoint) :
    dijkstraBy heapPop heapPush minRun maxRun fuel cityMap start =
      dijkstraWith minRun maxRun fuel cityMap start := by
  unfold dijkstraBy dijkstraWith
  cases cityMap with
  | nil => rfl
  | cons row0 rows =>
    simp only [dijkstraLoopBy_heap, heapInit_singleton]

theorem relaxOneBy_sim {push : DijkstraQueue → DijkstraState → DijkstraQueue}
    (hpush : ∀ q x, (push q x).Perm (x :: q)) {maxRun : Int} {cityMap : CityMap}
    {point : DijkstraState} {nextPoint : DijkstraPoint} {qa qb qa1 : DijkstraQueue}
    {s s1 : DijkstraStateMap} (hmem : ∀ e, e ∈ qa ↔ e ∈ qb)
    (h : relaxOneBy push maxRun cityMap point nextPoint qa s = Outcome.ok (qa1, s1)) :
    ∃ qb1, relaxOne maxRun cityMap point nextPoint qb s = Outcome.ok (qb1, s1) ∧
      ∀ e, e ∈ qa1 ↔ e ∈ qb1 := by
  unfold relaxOneBy at h
  unfold relaxOne
  by_cases hs : skipped maxRun cityMap point.Point nextPoint = true
  · simp only [hs, if_true] at h ⊢
    cases h
    exact ⟨qb, rfl, hmem⟩
  · have hs2 : skipped maxRun cityMap point.Point nextPoint = false := by simpa using hs
    simp only [hs2, Bool.false_eq_true, if_false] at h ⊢
    cases hc : cityMap.cell nextPoint.Coordinate with
    | none => simp [hc] at h
    | some c =>
      simp only [hc] at h ⊢
      by_cases hi : improves s nextPoint (point.Distance + c) = true
      · simp only [hi, if_true] at h ⊢
        cases h
        refine ⟨_, rfl, ?_⟩
        intro e
        rw [(hpush _ _).mem_iff, mem_heapPush, List.mem_cons, hmem]
      · have hi2 : improves s nextPoint (point.Distance + c) = false := by simpa using hi
        simp only [hi2, Bool.false_eq_true, if_false] at h ⊢
        cases h
        exact ⟨qb, rfl, hmem⟩

theorem relaxBy_sim {push : DijkstraQueue → DijkstraState → DijkstraQueue}
    (hpush : ∀ q x, (push q x).Perm (x :: q)) {maxRun : Int} {cityMap : CityMap}
    {point : DijkstraState} (pts : List DijkstraPoint) :
    ∀ {qa qb qa2 : DijkstraQueue} {s s2 : DijkstraStateMap}, (∀ e, e ∈ qa ↔ e ∈ qb) →
      relaxBy push maxRun cityMap point pts qa s = Outcome.ok (qa2, s2) →
      ∃ qb2, relax maxRun cityMap point pts qb s = Outcome.ok (qb2, s2) ∧
        ∀ e, e ∈ qa2 ↔ e ∈ qb2 := by
  induction pts with
  | nil =>
    intro qa qb qa2 s s2 hmem h
    simp only [relaxBy] at h
    cases h
    exact ⟨qb, rfl, hmem⟩
  | cons np rest ih =>
    intro qa qb qa2 s s2 hmem h
    simp only [relaxBy] at h
    cases h1 : relaxOneBy push maxRun cityMap point np qa s with
    | panicked => simp [h1] at h
    | outOfFuel => simp [h1] at h
    | ok qs =>
      obtain ⟨qa1, s1⟩ := qs
      simp only [h1] at h
      obtain ⟨qb1, hb1, hmem1⟩ := relaxOneBy_sim hpush hmem h1
      obtain ⟨qb2, hb2, hmem2⟩ := ih hmem1 h
      refine ⟨qb2, ?_, hmem2⟩
      simp only [relax, hb1]
      exact hb2

theorem dijkstraLoopBy_ok {pop : DijkstraQueue → Option (DijkstraState × DijkstraQueue)}
    {push : DijkstraQueue → DijkstraState → DijkstraQueue} (hkeep : KeepsEntries pop push)
    {minRun maxRun : Int} {cityMap : CityMap} {fuel : Nat}
    {queue : DijkstraQueue} {state table : DijkstraStateMap}
    (h : dijkstraLoopBy pop push minRun maxRun cityMap fuel queue state = Outcome.ok table) :
    (queue = [] ∧ table = state) ∨
    ∃ point queue1 fuel1 queue2 state2,
      pop queue = some (point, queue1) ∧ fuel = fuel1 + 1 ∧
      relaxBy push maxRun cityMap point (nextPoints minRun point.Point) queue1 state =
        Outcome.ok (queue2, state2) ∧
      dijkstraLoopBy pop push minRun maxRun cityMap fuel1 queue2 state2 = Outcome.ok table := by
  unfold dijkstraLoopBy at h
  cases hp : pop queue with
  | none =>
    simp only [hp] at h
    cases h
    exact Or.inl ⟨(hkeep.1 queue).mp hp, rfl⟩
  | some pq =>
    obtain ⟨point, queue1⟩ := pq
    simp only [hp] at h
    cases fuel with
    | zero => simp at h
    | succ fuel1 =>
      simp only at h
      cases hr : relaxBy push maxRun cityMap point (nextPoints minRun point.Point) queue1 state with
      | ok qs =>
        obtain ⟨queue2, state2⟩ := qs
        simp only [hr] at h
        exact Or.inr ⟨point, queue1, fuel1, queue2, state2, rfl, rfl, hr, h⟩
      | panicked => simp [hr] at h
      | outOfFuel => simp [hr] at h

/-- A property of queue and table that depends on the queue only through its
entries and that one iteration of the code's loop body keeps, holds for the
table the search returns under any queue discipline. -/
theorem dijkstraLoopBy_induction {pop : DijkstraQueue → Option (DijkstraState × DijkstraQueue)}
    {push : DijkstraQueue → DijkstraState → DijkstraQueue} (hkeep : KeepsEntries pop push)
    {minRun maxRun : Int} {cityMap : CityMap}
    (I : DijkstraQueue → DijkstraStateMap → Prop)
    (hmemI : ∀ qa qb s, (∀ e, e ∈ qa ↔ e ∈ qb) → I qb s → I qa s)
    (hI : ∀ q s point q1 q2 s2, I q s → q.Perm (point :: q1) →
      relax maxRun cityMap point (nextPoints minRun point.Point) q1 s = Outcome.ok (q2, s2) →
      I q2 s2)
    {fuel : Nat} {queue : DijkstraQueue} {state table : DijkstraStateMap}
    (h0 : I queue state)
    (h : dijkstraLoopBy pop push minRun maxRun cityMap fuel queue state = Outcome.ok table) :
    I [] table := by
  induction fuel generalizing queue state with
  | zero =>
    rcases dijkstraLoopBy_ok hkeep h with ⟨hq, ht⟩ | ⟨_, _, _, _, _, _, hf, _, _⟩
    · subst hq; subst ht; exact h0
    · cases hf
  | succ fuel ih =>
    rcases dijkstraLoopBy_ok hkeep h with ⟨hq, ht⟩ | ⟨point, q1, fuel1, q2, s2, hp, hf, hr, hl⟩
    · subst hq; subst ht; exact h0
    · cases hf
      obtain ⟨qb2, hb2, hmem2⟩ := relaxBy_sim hkeep.2.2 _ (fun _ => Iff.rfl) hr
      exact ih (hmemI _ _ _ hmem2 (hI _ _ _ _ _ _ h0 (hkeep.2.1 _ _ _ hp) hb2)) hl

theorem dijkstraBy_ok {pop : DijkstraQueue → Option (DijkstraState × DijkstraQueue)}
    {push : DijkstraQueue → DijkstraState → DijkstraQueue}
    {minRun maxRun : Int} {cityMap : CityMap} {fuel : Nat}
    {start : DijkstraPoint} {table : DijkstraStateMap}
    (h : dijkstraBy pop push minRun maxRun fuel cityMap start = Outcome.ok table) :
    dijkstraLoopBy pop push minRun maxRun cityMap fuel [seedState start] emptyStateMap =
      Outcome.ok table := by
  unfold dijkstraBy at h
  cases cityMap with
  | nil => simp at h
  | cons row0 rows =>
    simp only at h
    split at h
    · cases h
    · exact h

theorem legalEntry_seed (minRun maxRun : Int) (cityMap : CityMap) (start : DijkstraPoint) :
    LegalEntry minRun maxRun cityMap start (seedState start) :=
  ⟨Or.inl rfl, trivial, rfl, rfl⟩

theorem legalEntry_step {minRun maxRun : Int} {cityMap : CityMap} {start : DijkstraPoint}
    (h0 : start.Count = 0) {point : DijkstraState} {nextPoint : DijkstraPoint} {c : Int}
    (hQ : LegalEntry minRun maxRun cityMap start point)
    (hnp : nextPoint ∈ nextPoints minRun point.Point)
    (hsk : skipped maxRun cityMap point.Point nextPoint = false)
    (hc : cityMap.cell nextPoint.Coordinate = some c) :
    LegalEntry minRun maxRun cityMap start
      (DijkstraState.link (point.Distance + c) nextPoint point) := by
  obtain ⟨hseed, hlegal, hcost, hlast⟩ := hQ
  refine ⟨?_, ?_, ?_, ?_⟩
  · right
    obtain ⟨direction, rfl, _⟩ := mem_nextPoints hnp
    simp only [point_link, move_count]
    rcases hseed with hs | hs
    · rw [hs]
      simp only [seedState, point_root, h0]
      split <;> omega
    · split <;> omega
  · rw [trail_link]
    apply legalSeq_append _ _ _ _ hlegal
    rw [hlast]
    apply legalMove_of_succ ⟨hnp, hsk⟩
    · rcases hseed with hs | hs
      · rw [hs]
        simp [seedState, h0]
      · omega
    · intro hz
      rcases hseed with hs | hs
      · rw [hs]
        simp [seedState, trail_root]
      · omega
  · rw [trail_link, seqCost_append, hcost, cost_of_cell hc]
    rfl
  · rw [trail_link]
    simp

/-- Under any queue discipline, every entry of the returned table is the end
of a legal move sequence of its own distance, and the table records the last
state of every legal move sequence at a distance of at most its cost. -/
theorem dijkstraBy_characterised
    {pop : DijkstraQueue → Option (DijkstraState × DijkstraQueue)}
    {push : DijkstraQueue → DijkstraState → DijkstraQueue} (hkeep : KeepsEntries pop push)
    {minRun maxRun : Int} {cityMap : CityMap} {start : DijkstraPoint} (h0 : start.Count = 0)
    {fuel : Nat} {table : DijkstraStateMap}
    (h : dijkstraBy pop push minRun maxRun fuel cityMap start = Outcome.ok table) :
    (∀ k e, table.lookup k = some e →
      LegalSeq minRun maxRun cityMap true start (trail e) ∧ (trail e).getLast? = some k ∧
        seqCost cityMap (trail e) = e.Distance) ∧
    (∀ moves p, LegalSeq minRun maxRun cityMap true start moves → moves.getLast? = some p →
      ∃ e, table.lookup p = some e ∧ e.Distance ≤ seqCost cityMap moves) := by
  have hloop := dijkstraBy_ok h
  constructor
  · have hall := dijkstraLoopBy_induction hkeep
      (AllEntries (LegalEntry minRun maxRun cityMap start)) ?_ ?_ ?_ hloop
    · intro k e hk
      obtain ⟨⟨_, hlegal, hcost, _⟩, hpoint, hprev⟩ := hall.2 k e hk
      refine ⟨hlegal, ?_, hcost⟩
      cases e with
      | root d p => simp at hprev
      | link d p prev =>
        rw [trail_link]
        simp only [point_link] at hpoint
        simp [hpoint]
    · intro qa qb s hmem hI
      exact ⟨fun e he => hI.1 e ((hmem e).mp he), hI.2⟩
    · intro q s point q1 q2 s2 hI hperm hr
      have hpt := hI.1 point (hperm.mem_iff.mpr (List.mem_cons_self _ _))
      have hq1 : AllEntries (LegalEntry minRun maxRun cityMap start) q1 s :=
        ⟨fun e he => hI.1 e (hperm.mem_iff.mpr (List.mem_cons_of_mem _ he)), hI.2⟩
      refine relax_induction (AllEntries (LegalEntry minRun maxRun cityMap start)) _ ?_ hq1 hr
      intro np hnp qa sa qb sb hJ h1
      exact relaxOne_entries _ (fun c hsk hc => legalEntry_step h0 hpt hnp hsk hc) hJ h1
    · constructor
      · intro e he
        simp only [List.mem_singleton] at he
        subst he
        exact legalEntry_seed _ _ _ _
      · intro k e hk
        simp [emptyStateMap, DijkstraStateMap.lookup] at hk
  · have hend := dijkstraLoopBy_induction hkeep
      (Settled minRun maxRun cityMap start none) ?_ ?_ ?_ hloop
    · have hsettled : ∀ s d, Labelled start table s d →
          Processed minRun maxRun cityMap table s d := by
        intro s d hl
        rcases hend s d hl with ⟨e, he, _⟩ | hproc | ⟨pt, hpt, _⟩
        · cases he
        · exact hproc
        · cases hpt
      intro moves p hlegal hlast
      obtain ⟨e, he, hd⟩ := settled_le_seqCost hsettled moves true start 0
        (Or.inl ⟨rfl, rfl⟩) (fun _ => h0) hlegal p hlast
      exact ⟨e, he, by omega⟩
    · intro qa qb s hmem hI k d hl
      rcases hI k d hl with ⟨e, he, hpe⟩ | hproc | hcur
      · exact Or.inl ⟨e, (hmem e).mpr he, hpe⟩
      · exact Or.inr (Or.inl hproc)
      · exact Or.inr (Or.inr hcur)
    · intro q s point q1 q2 s2 hI hperm hr
      have h1 : Settled minRun maxRun cityMap start (some point) q1 s := by
        intro k d hl
        rcases hI k d hl with ⟨e, he, hpe⟩ | hproc | ⟨pt, hpt, _⟩
        · rcases List.mem_cons.mp (hperm.mem_iff.mp he) with rfl | he1
          · exact Or.inr (Or.inr ⟨e, rfl, hpe⟩)
          · exact Or.inl ⟨e, he1, hpe⟩
        · exact Or.inr (Or.inl hproc)
        · cases hpt
      have h2 := relax_settled h1 hr
      have h3 := relax_handled hr
      intro k d hl
      rcases h2 k d hl with hpend | hproc | ⟨pt, hpt, hk, hd⟩
      · exact Or.inl hpend
      · exact Or.inr (Or.inl hproc)
      · cases hpt
        refine Or.inr (Or.inl ?_)
        intro t ht
        subst hk
        subst hd
        exact h3 t ht.1 ht.2
    · intro s d hl
      rcases hl with ⟨hs, hd⟩ | ⟨e3, he3, _⟩
      · left
        exact ⟨seedState start, List.mem_singleton_self _, hs.symm ▸ rfl, hd.symm ▸ rfl⟩
      · simp [emptyStateMap, DijkstraStateMap.lookup] at he3

theorem dijkstraBy_below
    {pop1 pop2 : DijkstraQueue → Option (DijkstraState × DijkstraQueue)}
    {push1 push2 : DijkstraQueue → DijkstraState → DijkstraQueue}
    (hkeep1 : KeepsEntries pop1 push1) (hkeep2 : KeepsEntries pop2 push2)
    {minRun maxRun : Int} {cityMap : CityMap} {start : DijkstraPoint} (h0 : start.Count = 0)
    {fuel1 fuel2 : Nat} {table1 table2 : DijkstraStateMap}
    (h1 : dijkstraBy pop1 push1 minRun maxRun fuel1 cityMap start = Outcome.ok table1)
    (h2 : dijkstraBy pop2 push2 minRun maxRun fuel2 cityMap start = Outcome.ok table2) :
    Below table1 table2 := by
  intro k e hk
  obtain ⟨hlegal, hlast, hcost⟩ := (dijkstraBy_characterised hkeep1 h0 h1).1 k e hk
  obtain ⟨e2, he2, hd2⟩ := (dijkstraBy_characterised hkeep2 h0 h2).2 _ _ hlegal hlast
  exact ⟨e2, he2, hcost ▸ hd2⟩

theorem keepsEntries_first_last : KeepsEntries popFirst pushLast := by
  refine ⟨?_, ?_, ?_⟩
  · intro q
    cases q with
    | nil => simp [popFirst]
    | cons x rest => simp [popFirst]
  · intro q x rest h
    cases q with
    | nil => simp [popFirst] at h
    | cons y rest2 =>
      simp only [popFirst, Option.some.injEq, Prod.mk.injEq] at h
      obtain ⟨rfl, rfl⟩ := h
      exact List.Perm.refl _
  · intro q x
    unfold pushLast
    exact List.perm_append_comm

theorem getElem?_Swap (d : DijkstraQueue) (i j k : Nat) (hi : i < d.length) (hj : j < d.length) :
    (DijkstraQueue.Swap d i j)[k]? = if k = j then d[i]? else if k = i then d[j]? else d[k]? := by
  unfold DijkstraQueue.Swap
  rw [List.getElem?_eq_getElem hi, List.getElem?_eq_getElem hj]
  simp only
  rw [List.getElem?_set, List.getElem?_set]
  by_cases hkj : k = j
  · subst hkj
    simp [hj]
  · have hjk : ¬ j = k := fun h => hkj h.symm
    simp only [hjk, hkj, if_false]
    by_cases hki : k = i
    · subst hki
      simp [hi]
    · have hik : ¬ i = k := fun h => hki h.symm
      simp only [hik, hki, if_false]

theorem length_Swap (d : DijkstraQueue) (i j : Nat) : (DijkstraQueue.Swap d i j).length = d.length :=
  (Swap_perm d i j).length_eq

theorem distAt_Swap (d : DijkstraQueue) (i j k : Nat) (hi : i < d.length) (hj : j < d.length) :
    distAt (DijkstraQueue.Swap d i j) k =
      if k = j then distAt d i else if k = i then distAt d j else distAt d k := by
  unfold distAt
  rw [getElem?_Swap d i j k hi hj]
  split_ifs <;> rfl

theorem less_iff (d : DijkstraQueue) (i j : Nat) (hi : i < d.length) (hj : j < d.length) :
    DijkstraQueue.Less d i j = true ↔ distAt d i < distAt d j := by
  unfold DijkstraQueue.Less distAt
  rw [List.getElem?_eq_getElem hi, List.getElem?_eq_getElem hj]
  simp

theorem length_up (fuel : Nat) (h : DijkstraQueue) (j : Nat) : (up fuel h j).length = h.length :=
  (up_perm fuel h j).length_eq

theorem length_down (fuel : Nat) (h : DijkstraQueue) (i n : Nat) :
    (down fuel h i n).length = h.length :=
  (down_perm fuel h i n).length_eq

theorem up_isHeap : ∀ (fuel : Nat) (h : DijkstraQueue) (j : Nat), j < h.length → j < fuel →
    HeapExceptUp h j → IsHeap (up fuel h j) := by
  intro fuel
  induction fuel with
  | zero =>
    intro h j _ hf
    omega
  | succ fuel ih =>
    intro h j hj hf hex
    unfold up
    simp only
    by_cases hstop : (j - 1) / 2 = j ∨ (!(DijkstraQueue.Less h j ((j - 1) / 2))) = true
    · rw [if_pos hstop]
      intro k hk0 hkn
      by_cases hkj : k = j
      · subst hkj
        rcases hstop with h1 | h1
        · omega
        · have hnl : ¬ DijkstraQueue.Less h k ((k - 1) / 2) = true := by simpa using h1
          rw [less_iff h k ((k - 1) / 2) hj (by omega)] at hnl
          exact not_lt.mp hnl
      · exact hex.1 k hk0 hkn hkj
    · rw [if_neg hstop]
      have hij : (j - 1) / 2 ≠ j := fun h1 => hstop (Or.inl h1)
      have hless : DijkstraQueue.Less h j ((j - 1) / 2) = true := by
        by_contra h1
        exact hstop (Or.inr (by simpa using h1))
      have hi : (j - 1) / 2 < h.length := by omega
      rw [less_iff h j ((j - 1) / 2) hj hi] at hless
      have key := ih (DijkstraQueue.Swap h ((j - 1) / 2) j) ((j - 1) / 2)
        (by rw [length_Swap]; exact hi) (by omega) ?_
      · exact key
      · have hd := fun k => distAt_Swap h ((j - 1) / 2) j k hi hj
        constructor
        · intro k hk0 hkn hki
          rw [length_Swap] at hkn
          rw [hd k, hd ((k - 1) / 2)]
          by_cases hkj : k = j
          · subst hkj
            rw [if_pos rfl, if_neg hij, if_pos rfl]
            exact le_of_lt hless
          · rw [if_neg hkj, if_neg hki]
            by_cases hpj : (k - 1) / 2 = j
            · rw [if_pos hpj]
              exact hex.2 k hk0 hkn hpj (by omega)
            · rw [if_neg hpj]
              by_cases hpi : (k - 1) / 2 = (j - 1) / 2
              · rw [if_pos hpi]
                have := hex.1 k hk0 hkn hkj
                rw [hpi] at this
                exact le_trans (le_of_lt hless) this
              · rw [if_neg hpi]
                exact hex.1 k hk0 hkn hkj
        · intro k hk0 hkn hpk hi0
          rw [length_Swap] at hkn
          rw [hd k, hd (((j - 1) / 2 - 1) / 2)]
          have hpp1 : ¬ ((j - 1) / 2 - 1) / 2 = j := by omega
          have hpp2 : ¬ ((j - 1) / 2 - 1) / 2 = (j - 1) / 2 := by omega
          rw [if_neg hpp1, if_neg hpp2]
          have hpi := hex.1 ((j - 1) / 2) hi0 hi hij
          by_cases hkj : k = j
          · rw [if_pos hkj]
            exact hpi
          · rw [if_neg hkj]
            have hki : ¬ k = (j - 1) / 2 := by omega
            rw [if_neg hki]
            have := hex.1 k hk0 hkn hkj
            rw [hpk] at this
            exact le_trans hpi this

theorem getElem?_append_lt (h : DijkstraQueue) (x : DijkstraState) (k : Nat) (hk : k < h.length) :
    distAt (h ++ [x]) k = distAt h k := by
  unfold distAt
  rw [List.getElem?_append_left hk]

/-- Go `heap.Push` keeps the heap order. -/
theorem heapPush_isHeap {h : DijkstraQueue} (x : DijkstraState) (hh : IsHeap h) :
    IsHeap (heapPush h x) := by
  unfold heapPush
  apply up_isHeap
  · simp
  · omega
  · constructor
    · intro k hk0 hkn hkj
      have hkn2 : k < h.length := by
        simp at hkn
        omega
      rw [getElem?_append_lt h x k hkn2, getElem?_append_lt h x _ (by omega)]
      exact hh k hk0 hkn2
    · intro k hk0 hkn hpk _
      simp at hkn
      omega

theorem down_isHeap : ∀ (fuel : Nat) (h : DijkstraQueue) (i n : Nat), n ≤ h.length →
    n ≤ fuel + i → HeapExceptDown h i n → IsHeapPrefix (down fuel h i n) n := by
  intro fuel
  induction fuel with
  | zero =>
    intro h i n _ hf hex
    unfold down
    intro k hk0 hkn
    exact hex.1 k hk0 hkn (by omega)
  | succ fuel ih =>
    intro h i n hn hf hex
    unfold down
    simp only
    by_cases hleaf : 2 * i + 1 ≥ n
    · rw [if_pos hleaf]
      intro k hk0 hkn
      exact hex.1 k hk0 hkn (by omega)
    · rw [if_neg hleaf]
      have hj1 : 2 * i + 1 < n := by omega
      have hi : i < h.length := by omega
      generalize hjdef : (if 2 * i + 1 + 1 < n ∧
        DijkstraQueue.Less h (2 * i + 1 + 1) (2 * i + 1) = true then 2 * i + 1 + 1
          else 2 * i + 1) = j
      have hjp : j < n ∧ (j - 1) / 2 = i ∧ i < j ∧
          ∀ k, 0 < k → k < n → (k - 1) / 2 = i → distAt h j ≤ distAt h k := by
        by_cases hc : 2 * i + 1 + 1 < n ∧
            DijkstraQueue.Less h (2 * i + 1 + 1) (2 * i + 1) = true
        · rw [if_pos hc] at hjdef
          subst hjdef
          refine ⟨hc.1, by omega, by omega, ?_⟩
          intro k hk0 hkn hpk
          have hl := (less_iff h _ _ (by omega) (by omega)).mp hc.2
          rcases (by omega : k = 2 * i + 1 ∨ k = 2 * i + 1 + 1) with rfl | rfl
          · exact le_of_lt hl
          · exact le_refl _
        · rw [if_neg hc] at hjdef
          subst hjdef
          refine ⟨hj1, by omega, by omega, ?_⟩
          intro k hk0 hkn hpk
          rcases (by omega : k = 2 * i + 1 ∨ k = 2 * i + 1 + 1) with rfl | rfl
          · exact le_refl _
          · have hnl : ¬ DijkstraQueue.Less h (2 * i + 1 + 1) (2 * i + 1) = true :=
              fun h1 => hc ⟨hkn, h1⟩
            rw [less_iff h _ _ (by omega) (by omega)] at hnl
            exact not_lt.mp hnl
      obtain ⟨hjn, hpj, hij, hmin⟩ := hjp
      have hj : j < h.length := by omega
      by_cases hstop : (!(DijkstraQueue.Less h j i)) = true
      · rw [if_pos hstop]
        have hnl : ¬ DijkstraQueue.Less h j i = true := by simpa using hstop
        rw [less_iff h j i hj hi] at hnl
        intro k hk0 hkn
        by_cases hpk : (k - 1) / 2 = i
        · rw [hpk]
          exact le_trans (not_lt.mp hnl) (hmin k hk0 hkn hpk)
        · exact hex.1 k hk0 hkn hpk
      · rw [if_neg hstop]
        have hless : DijkstraQueue.Less h j i = true := by
          by_contra h1
          exact hstop (by simpa using h1)
        rw [less_iff h j i hj hi] at hless
        apply ih (DijkstraQueue.Swap h i j) j n (by rw [length_Swap]; exact hn) (by omega)
        have hd := fun k => distAt_Swap h i j k hi hj
        have hij2 : ¬ i = j := by omega
        constructor
        · intro k hk0 hkn hpk
          rw [hd k, hd ((k - 1) / 2), if_neg hpk]
          by_cases hkj : k = j
          · rw [if_pos hkj]
            subst hkj
            rw [if_pos hpj]
            exact le_of_lt hless
          · rw [if_neg hkj]
            by_cases hki : k = i
            · rw [if_pos hki]
              subst hki
              have hpp : ¬ (k - 1) / 2 = k := by omega
              rw [if_neg hpp]
              exact hex.2 j (by omega) hjn hpj hk0
            · rw [if_neg hki]
              by_cases hpi : (k - 1) / 2 = i
              · rw [if_pos hpi]
                exact hmin k hk0 hkn hpi
              · rw [if_neg hpi]
                exact hex.1 k hk0 hkn hpi
        · intro k hk0 hkn hpk hj0
          rw [hd k, hd ((j - 1) / 2)]
          have h1 : ¬ (j - 1) / 2 = j := by omega
          have h2 : ¬ k = j := by omega
          have h3 : ¬ k = i := by omega
          rw [if_neg h1, if_pos hpj, if_neg h2, if_neg h3]
          have := hex.1 k hk0 hkn (by omega)
          rw [hpk] at this
          exact this

theorem getElem?_down_ge : ∀ (fuel : Nat) (h : DijkstraQueue) (i n m : Nat), n ≤ h.length →
    n ≤ m → (down fuel h i n)[m]? = h[m]? := by
  intro fuel
  induction fuel with
  | zero =>
    intro h i n m _ _
    rfl
  | succ fuel ih =>
    intro h i n m hn hm
    unfold down
    simp only
    split_ifs with h1 h2 h3 h4
    · rfl
    · rfl
    · rw [ih _ _ _ _ (by rw [length_Swap]; exact hn) hm,
        getElem?_Swap h i _ m (by omega) (by omega)]
      rw [if_neg (by omega), if_neg (by omega)]
    · rfl
    · rw [ih _ _ _ _ (by rw [length_Swap]; exact hn) hm,
        getElem?_Swap h i _ m (by omega) (by omega)]
      rw [if_neg (by omega), if_neg (by omega)]

/-- In a queue in heap order no entry is below the first one. -/
theorem isHeap_root_le {h : DijkstraQueue} (hh : IsHeap h) :
    ∀ k, k < h.length → distAt h 0 ≤ distAt h k := by
  intro k
  induction k using Nat.strong_induction_on with
  | _ k ih =>
    intro hk
    by_cases hk0 : k = 0
    · subst hk0
      exact le_refl _
    · exact le_trans (ih ((k - 1) / 2) (by omega) (by omega)) (hh k (by omega) hk)

/-- Go `heap.Pop` returns the first entry of the queue. -/
theorem heapPop_first {h : DijkstraQueue} {x : DijkstraState} {rest : DijkstraQueue}
    (hp : heapPop h = some (x, rest)) : h[0]? = some x := by
  have hne : h ≠ [] := by
    intro h0
    rw [heapPop_eq_none.mpr h0] at hp
    cases hp
  have hlen : 0 < h.length := List.length_pos.mpr hne
  unfold heapPop at hp
  simp only at hp
  split at hp
  · cases hp
  · rename_i item hlast
    cases hp
    rw [List.getLast?_eq_getElem?, length_down, length_Swap] at hlast
    rw [getElem?_down_ge _ _ _ _ _ (by rw [length_Swap]; omega) (le_refl _),
      getElem?_Swap h 0 (h.length - 1) (h.length - 1) hlen (by omega), if_pos rfl] at hlast
    exact hlast

theorem distAt_of_getElem? {h : DijkstraQueue} {k : Nat} {e : DijkstraState}
    (hk : h[k]? = some e) : distAt h k = e.Distance := by
  unfold distAt
  rw [hk]

/-- Go `heap.Pop` on a queue in heap order returns an entry of the least
distance. -/
theorem heapPop_min {h : DijkstraQueue} {x : DijkstraState} {rest : DijkstraQueue}
    (hh : IsHeap h) (hp : heapPop h = some (x, rest)) : ∀ y ∈ h, x.Distance ≤ y.Distance := by
  intro y hy
  obtain ⟨k, hk⟩ := List.mem_iff_getElem?.mp hy
  have hkl : k < h.length := (List.getElem?_eq_some_iff.mp hk).1
  have := isHeap_root_le hh k hkl
  rw [distAt_of_getElem? hk, distAt_of_getElem? (heapPop_first hp)] at this
  exact this

/-- Go `heap.Pop` keeps the heap order. -/
theorem heapPop_isHeap {h : DijkstraQueue} {x : DijkstraState} {rest : DijkstraQueue}
    (hh : IsHeap h) (hp : heapPop h = some (x, rest)) : IsHeap rest := by
  have hne : h ≠ [] := by
    intro h0
    rw [heapPop_eq_none.mpr h0] at hp
    cases hp
  have hlen : 0 < h.length := List.length_pos.mpr hne
  unfold heapPop at hp
  simp only at hp
  split at hp
  · cases hp
  · rename_i item hlast
    cases hp
    have hn : h.length - 1 < h.length := by omega
    have hpre := down_isHeap (h.length - 1) (DijkstraQueue.Swap h 0 (h.length - 1)) 0
      (h.length - 1) (by rw [length_Swap]; omega) (by omega) ?_
    · intro k hk0 hkn
      rw [List.length_dropLast, length_down, length_Swap] at hkn
      have h1 := hpre k hk0 hkn
      unfold distAt at h1 ⊢
      rw [List.getElem?_dropLast, List.getElem?_dropLast, length_down, length_Swap,
        if_pos hkn, if_pos (by omega)]
      exact h1
    · constructor
      · intro k hk0 hkn hpk
        have e1 : ¬ k = h.length - 1 := by omega
        have e2 : ¬ k = 0 := by omega
        have e3 : ¬ (k - 1) / 2 = h.length - 1 := by omega
        rw [distAt_Swap h 0 _ k hlen hn, distAt_Swap h 0 _ ((k - 1) / 2) hlen hn,
          if_neg e1, if_neg e2, if_neg e3, if_neg hpk]
        exact hh k hk0 (by omega)
      · intro k _ _ _ h0
        omega

theorem isHeap_singleton (x : DijkstraState) : IsHeap [x] := by
  intro k hk0 hkn
  simp at hkn
  omega

theorem isHeap_nil : IsHeap [] := by
  intro k _ hkn
  simp at hkn

/-! ## What holds at the head of every iteration -/

theorem relaxOne_isHeap {maxRun : Int} {cityMap : CityMap} {point : DijkstraState}
    {nextPoint : DijkstraPoint} {q q1 : DijkstraQueue} {s s1 : DijkstraStateMap}
    (h0 : IsHeap q)
    (h : relaxOne maxRun cityMap point nextPoint q s = Outcome.ok (q1, s1)) : IsHeap q1 := by
  rcases relaxOne_ok h with ⟨_, hq, _⟩ | ⟨_, c, _, ⟨_, hq, _⟩ | ⟨_, hq, _⟩⟩
  · subst hq; exact h0
  · subst hq; exact h0
  · subst hq; exact heapPush_isHeap _ h0

theorem relax_isHeap {maxRun : Int} {cityMap : CityMap} {point : DijkstraState}
    {pts : List DijkstraPoint} {q q2 : DijkstraQueue} {s s2 : DijkstraStateMap}
    (h0 : IsHeap q)
    (h : relax maxRun cityMap point pts q s = Outcome.ok (q2, s2)) : IsHeap q2 :=
  relax_induction (fun q1 _ => IsHeap q1) pts
    (fun _ _ _ _ _ _ hJ h1 => relaxOne_isHeap hJ h1) h0 h

/-- The queue is in heap order at the head of every iteration. -/
theorem run_isHeap {minRun maxRun : Int} {cityMap : CityMap} {start : DijkstraPoint}
    {pops : List DijkstraState} {q : DijkstraQueue} {s : DijkstraStateMap}
    (h : Run minRun maxRun cityMap start pops q s) : IsHeap q := by
  induction h with
  | init =>
    rw [heapInit_singleton]
    exact isHeap_singleton _
  | step _ hp hr ih => exact relax_isHeap (heapPop_isHeap ih hp) hr

theorem settled_step {minRun maxRun : Int} {cityMap : CityMap} {start : DijkstraPoint}
    {q q1 q2 : DijkstraQueue} {s s2 : DijkstraStateMap} {point : DijkstraState}
    (hI : Settled minRun maxRun cityMap start none q s)
    (hperm : q.Perm (point :: q1))
    (hr : relax maxRun cityMap point (nextPoints minRun point.Point) q1 s =
      Outcome.ok (q2, s2)) :
    Settled minRun maxRun cityMap start none q2 s2 := by
  have h1 : Settled minRun maxRun cityMap start (some point) q1 s := by
    intro k d hl
    rcases hI k d hl with ⟨e, he, hpe⟩ | hproc | ⟨pt, hpt, _⟩
    · rcases List.mem_cons.mp (hperm.mem_iff.mp he) with rfl | he1
      · exact Or.inr (Or.inr ⟨e, rfl, hpe⟩)
      · exact Or.inl ⟨e, he1, hpe⟩
    · exact Or.inr (Or.inl hproc)
    · cases hpt
  have h2 := relax_settled h1 hr
  have h3 := relax_handled hr
  intro k d hl
  rcases h2 k d hl with hpend | hproc | ⟨pt, hpt, hk, hd⟩
  · exact Or.inl hpend
  · exact Or.inr (Or.inl hproc)
  · cases hpt
    refine Or.inr (Or.inl ?_)
    intro t ht
    subst hk
    subst hd
    exact h3 t ht.1 ht.2

/-- At the head of every iteration every label is in the queue or has been
relaxed. -/
theorem run_settled {minRun maxRun : Int} {cityMap : CityMap} {start : DijkstraPoint}
    {pops : List DijkstraState} {q : DijkstraQueue} {s : DijkstraStateMap}
    (h : Run minRun maxRun cityMap start pops q s) :
    Settled minRun maxRun cityMap start none q s := by
  induction h with
  | init =>
    rw [heapInit_singleton]
    intro s d hl
    rcases hl with ⟨hs, hd⟩ | ⟨e3, he3, _⟩
    · left
      exact ⟨seedState start, List.mem_singleton_self _, hs.symm ▸ rfl, hd.symm ▸ rfl⟩
    · simp [emptyStateMap, DijkstraStateMap.lookup] at he3
  | step _ hp hr ih => exact settled_step ih (heapPop_perm hp) hr

/-- The table only records points whose cell the grid has. -/
theorem run_cells {minRun maxRun : Int} {cityMap : CityMap} {start : DijkstraPoint}
    {pops : List DijkstraState} {q : DijkstraQueue} {s : DijkstraStateMap}
    (h : Run minRun maxRun cityMap start pops q s) :
    ∀ k e, s.lookup k = some e → ∃ c, cityMap.cell k.Coordinate = some c := by
  induction h with
  | init =>
    intro k e hk
    simp [emptyStateMap, DijkstraStateMap.lookup] at hk
  | step _ hp hr ih =>
    refine relax_induction
      (fun _ s1 => ∀ k e, s1.lookup k = some e → ∃ c, cityMap.cell k.Coordinate = some c)
      _ ?_ ih hr
    intro np _ qa sa qb sb hJ h1
    rcases relaxOne_ok h1 with ⟨_, _, hs⟩ | ⟨_, c, hc, ⟨_, _, hs⟩ | ⟨_, _, hs⟩⟩
    · subst hs; exact hJ
    · subst hs; exact hJ
    · subst hs
      intro k e hk
      rw [lookup_set] at hk
      split at hk
      · rename_i hkn
        subst hkn
        exact ⟨c, hc⟩
      · exact hJ k e hk

/-! ## Entries that change nothing, and the loop of the specification -/

theorem relax_noop {maxRun : Int} {cityMap : CityMap} {point : DijkstraState}
    {q : DijkstraQueue} {s : DijkstraStateMap} :
    ∀ pts : List DijkstraPoint,
      (∀ t ∈ pts, relaxOne maxRun cityMap point t q s = Outcome.ok (q, s)) →
      relax maxRun cityMap point pts q s = Outcome.ok (q, s) := by
  intro pts
  induction pts with
  | nil =>
    intro _
    rfl
  | cons t rest ih =>
    intro h
    simp only [relax]
    rw [h t (List.mem_cons_self _ _)]
    exact ih (fun u hu => h u (List.mem_cons_of_mem _ hu))

theorem isStale_eq_true {s : DijkstraStateMap} {point : DijkstraState} :
    isStale s point = true ↔
      ∃ e, s.lookup point.Point = some e ∧ e.Distance < point.Distance := by
  unfold isStale
  cases s.lookup point.Point with
  | none => simp
  | some e => simp

/-- Expanding a popped entry whose state is recorded at a strictly lower
distance leaves the queue and the table as they are. -/
theorem relax_of_stale {minRun maxRun : Int} {cityMap : CityMap} {start : DijkstraPoint}
    {pops : List DijkstraState} {q q1 : DijkstraQueue} {s : DijkstraStateMap}
    {point : DijkstraState}
    (hrun : Run minRun maxRun cityMap start pops q s)
    (hp : heapPop q = some (point, q1)) (hst : isStale s point = true) :
    relax maxRun cityMap point (nextPoints minRun point.Point) q1 s = Outcome.ok (q1, s) := by
  obtain ⟨e, he, hlt⟩ := isStale_eq_true.mp hst
  have hproc : Processed minRun maxRun cityMap s point.Point e.Distance := by
    rcases run_settled hrun point.Point e.Distance (Or.inr ⟨e, he, rfl⟩) with
      ⟨y, hy, _, hyd⟩ | hproc | ⟨pt, hpt, _⟩
    · have := heapPop_min (run_isHeap hrun) hp y hy
      omega
    · exact hproc
    · cases hpt
  apply relax_noop
  intro t ht
  unfold relaxOne
  by_cases hsk : skipped maxRun cityMap point.Point t = true
  · rw [if_pos hsk]
  · have hsk2 : skipped maxRun cityMap point.Point t = false := by simpa using hsk
    rw [if_neg hsk]
    obtain ⟨et, het, hle⟩ := hproc t ⟨ht, hsk2⟩
    obtain ⟨c, hc⟩ := run_cells hrun t et het
    rw [cost_of_cell hc] at hle
    have himp : improves s t (point.Distance + c) = false :=
      improves_eq_false.mpr ⟨et, het, by omega⟩
    simp only [hc, himp, Bool.false_eq_true, if_false]

/-- From the head of an iteration on, the loop that discards stale entries
and the loop of the code give the same outcome with the same fuel. -/
theorem lazyDeletionLoop_eq {minRun maxRun : Int} {cityMap : CityMap} {start : DijkstraPoint} :
    ∀ (fuel : Nat) (pops : List DijkstraState) (q : DijkstraQueue) (s : DijkstraStateMap),
      Run minRun maxRun cityMap start pops q s →
      lazyDeletionLoop minRun maxRun cityMap fuel q s =
        dijkstraLoop minRun maxRun cityMap fuel q s := by
  intro fuel
  induction fuel with
  | zero =>
    intro pops q s _
    unfold lazyDeletionLoop dijkstraLoop
    cases heapPop q <;> rfl
  | succ fuel ih =>
    intro pops q s hrun
    rw [lazyDeletionLoop, dijkstraLoop]
    cases hp : heapPop q with
    | none => rfl
    | some pq =>
      obtain ⟨point, q1⟩ := pq
      simp only
      by_cases hst : isStale s point = true
      · have hr := relax_of_stale hrun hp hst
        rw [if_pos hst, hr]
        exact ih _ _ _ (Run.step hrun hp hr)
      · rw [if_neg hst]
        cases hr : relax maxRun cityMap point (nextPoints minRun point.Point) q1 s with
        | ok qs =>
          obtain ⟨q2, s2⟩ := qs
          exact ih _ _ _ (Run.step hrun hp hr)
        | panicked => rfl
        | outOfFuel => rfl

theorem lazyDeletionDijkstra_eq (fuel : Nat) (cityMap : CityMap) (start : DijkstraPoint) :
    lazyDeletionDijkstra fuel cityMap start = dijkstra fuel cityMap start := by
  unfold lazyDeletionDijkstra dijkstra dijkstraWith
  cases cityMap with
  | nil => rfl
  | cons row0 rows =>
    simp only
    split
    · rfl
    · exact lazyDeletionLoop_eq fuel [] _ _ Run.init

/-- The loop ends at a head of an iteration with the empty queue. -/
theorem run_of_dijkstraLoop {minRun maxRun : Int} {cityMap : CityMap} {start : DijkstraPoint} :
    ∀ (fuel : Nat) (pops : List DijkstraState) (q : DijkstraQueue) (s table : DijkstraStateMap),
      Run minRun maxRun cityMap start pops q s →
      dijkstraLoop minRun maxRun cityMap fuel q s = Outcome.ok table →
      ∃ pops2, Run minRun maxRun cityMap start (pops2 ++ pops) [] table := by
  intro fuel
  induction fuel with
  | zero =>
    intro pops q s table hrun h
    unfold dijkstraLoop at h
    cases hp : heapPop q with
    | none =>
      rw [hp] at h
      simp only at h
      cases h
      rw [heapPop_eq_none.mp hp] at hrun
      exact ⟨[], hrun⟩
    | some pq =>
      rw [hp] at h
      simp at h
  | succ fuel ih =>
    intro pops q s table hrun h
    rw [dijkstraLoop] at h
    cases hp : heapPop q with
    | none =>
      rw [hp] at h
      simp only at h
      cases h
      rw [heapPop_eq_none.mp hp] at hrun
      exact ⟨[], hrun⟩
    | some pq =>
      obtain ⟨point, q1⟩ := pq
      rw [hp] at h
      simp only at h
      cases hr : relax maxRun cityMap point (nextPoints minRun point.Point) q1 s with
      | ok qs =>
        obtain ⟨q2, s2⟩ := qs
        rw [hr] at h
        obtain ⟨pops2, h2⟩ := ih _ _ _ _ (Run.step hrun hp hr) h
        exact ⟨pops2 ++ [point], by simpa using h2⟩
      | panicked =>
        rw [hr] at h
        cases h
      | outOfFuel =>
        rw [hr] at h
        cases h

/-! ## Popped distances do not decrease on a grid of non-negative costs -/

theorem relaxOne_floor {maxRun : Int} {cityMap : CityMap} (hnn : NonNeg cityMap)
    {point : DijkstraState} {d : Int} (hd : d ≤ point.Distance)
    {nextPoint : DijkstraPoint} {q q1 : DijkstraQueue} {s s1 : DijkstraStateMap}
    (h0 : ∀ y ∈ q, d ≤ y.Distance)
    (h : relaxOne maxRun cityMap point nextPoint q s = Outcome.ok (q1, s1)) :
    ∀ y ∈ q1, d ≤ y.Distance := by
  rcases relaxOne_ok h with ⟨_, hq, _⟩ | ⟨_, c, hc, ⟨_, hq, _⟩ | ⟨_, hq, _⟩⟩
  · subst hq; exact h0
  · subst hq; exact h0
  · subst hq
    intro y hy
    rcases mem_heapPush.mp hy with rfl | hy
    · have := cell_nonneg hnn hc
      simp only [distance_link]
      omega
    · exact h0 y hy

theorem relax_floor {maxRun : Int} {cityMap : CityMap} (hnn : NonNeg cityMap)
    {point : DijkstraState} {d : Int} (hd : d ≤ point.Distance)
    {pts : List DijkstraPoint} {q q2 : DijkstraQueue} {s s2 : DijkstraStateMap}
    (h0 : ∀ y ∈ q, d ≤ y.Distance)
    (h : relax maxRun cityMap point pts q s = Outcome.ok (q2, s2)) :
    ∀ y ∈ q2, d ≤ y.Distance :=
  relax_induction (fun q1 _ => ∀ y ∈ q1, d ≤ y.Distance) pts
    (fun _ _ _ _ _ _ hJ h1 => relaxOne_floor hnn hd hJ h1) h0 h

theorem relaxOne_keeps {maxRun : Int} {cityMap : CityMap} (hnn : NonNeg cityMap)
    {point : DijkstraState} {k : DijkstraPoint} {e : DijkstraState}
    (hd : e.Distance ≤ point.Distance)
    {nextPoint : DijkstraPoint} {q q1 : DijkstraQueue} {s s1 : DijkstraStateMap}
    (h0 : s.lookup k = some e)
    (h : relaxOne maxRun cityMap point nextPoint q s = Outcome.ok (q1, s1)) :
    s1.lookup k = some e := by
  rcases relaxOne_ok h with ⟨_, _, hs⟩ | ⟨_, c, hc, ⟨_, _, hs⟩ | ⟨himp, _, hs⟩⟩
  · subst hs; exact h0
  · subst hs; exact h0
  · subst hs
    rw [lookup_set]
    split
    · rename_i hkn
      subst hkn
      have hc0 := cell_nonneg hnn hc
      rcases improves_eq_true.mp himp with hnone | ⟨old, hold, hlt⟩
      · rw [hnone] at h0
        cases h0
      · rw [hold] at h0
        cases h0
        omega
    · exact h0

theorem relax_keeps {maxRun : Int} {cityMap : CityMap} (hnn : NonNeg cityMap)
    {point : DijkstraState} {k : DijkstraPoint} {e : DijkstraState}
    (hd : e.Distance ≤ point.Distance)
    {pts : List DijkstraPoint} {q q2 : DijkstraQueue} {s s2 : DijkstraStateMap}
    (h0 : s.lookup k = some e)
    (h : relax maxRun cityMap point pts q s = Outcome.ok (q2, s2)) :
    s2.lookup k = some e :=
  relax_induction (fun _ s1 => s1.lookup k = some e) pts
    (fun _ _ _ _ _ _ hJ h1 => relaxOne_keeps hnn hd hJ h1) h0 h

/-- Once every entry of the queue is at a distance of at least that of a table
entry, the entry stays in the table for the rest of the loop. -/
theorem later_keeps {minRun maxRun : Int} {cityMap : CityMap} (hnn : NonNeg cityMap)
    {k : DijkstraPoint} {e : DijkstraState}
    {q q3 : DijkstraQueue} {s s3 : DijkstraStateMap}
    (hfloor : ∀ y ∈ q, e.Distance ≤ y.Distance) (hk : s.lookup k = some e)
    (h : Later minRun maxRun cityMap q s q3 s3) :
    (∀ y ∈ q3, e.Distance ≤ y.Distance) ∧ s3.lookup k = some e := by
  induction h with
  | refl => exact ⟨hfloor, hk⟩
  | step _ hp hr ih =>
    rename_i qa qb qc sa sb point _
    have hperm := heapPop_perm hp
    have hpt := ih.1 _ (hperm.mem_iff.mpr (List.mem_cons_self _ _))
    have hq1 : ∀ y ∈ qb, e.Distance ≤ y.Distance :=
      fun y hy => ih.1 y (hperm.mem_iff.mpr (List.mem_cons_of_mem _ hy))
    exact ⟨relax_floor hnn hpt hq1 hr, relax_keeps hnn hpt ih.2 hr⟩

/-- On a grid of non-negative costs the popped distances do not decrease, and
no entry of the queue is below a popped distance. -/
theorem run_sorted {minRun maxRun : Int} {cityMap : CityMap} (hnn : NonNeg cityMap)
    {start : DijkstraPoint} {pops : List DijkstraState} {q : DijkstraQueue}
    {s : DijkstraStateMap} (h : Run minRun maxRun cityMap start pops q s) :
    pops.Pairwise (fun later earlier => earlier.Distance ≤ later.Distance) ∧
      ∀ x ∈ pops, ∀ y ∈ q, x.Distance ≤ y.Distance := by
  induction h with
  | init =>
    refine ⟨List.Pairwise.nil, ?_⟩
    intro x hx
    cases hx
  | step hrun hp hr ih =>
    rename_i pops q q1 q2 s s2 point
    have hperm := heapPop_perm hp
    have hmin := heapPop_min (run_isHeap hrun) hp
    have hpt : ∀ x ∈ pops, x.Distance ≤ point.Distance :=
      fun x hx => ih.2 x hx point (hperm.mem_iff.mpr (List.mem_cons_self _ _))
    have hq1 : ∀ y ∈ q1, point.Distance ≤ y.Distance :=
      fun y hy => hmin y (hperm.mem_iff.mpr (List.mem_cons_of_mem _ hy))
    have hq2 := relax_floor hnn (le_refl _) hq1 hr
    refine ⟨List.Pairwise.cons hpt ih.1, ?_⟩
    intro x hx y hy
    rcases List.mem_cons.mp hx with rfl | hx
    · exact hq2 y hy
    · exact le_trans (hpt x hx) (hq2 y hy)

/-! ## Queue entries are recorded in the table -/

theorem relaxOne_recorded {maxRun : Int} {cityMap : CityMap} {start : DijkstraPoint}
    {point : DijkstraState} {nextPoint : DijkstraPoint} {q q1 : DijkstraQueue}
    {s s1 : DijkstraStateMap} (h0 : Recorded start q s)
    (h : relaxOne maxRun cityMap point nextPoint q s = Outcome.ok (q1, s1)) :
    Recorded start q1 s1 := by
  have hb := relaxOne_below h
  rcases relaxOne_ok h with ⟨_, hq, hs⟩ | ⟨_, c, _, ⟨_, hq, hs⟩ | ⟨_, hq, hs⟩⟩
  · subst hq; subst hs; exact h0
  · subst hq; subst hs; exact h0
  · intro e he
    rw [hq] at he
    rcases mem_heapPush.mp he with rfl | he
    · right
      refine ⟨_, ?_, le_refl _⟩
      rw [hs, lookup_set]
      simp
    · rcases h0 e he with hseed | ⟨e2, he2, hle⟩
      · exact Or.inl hseed
      · obtain ⟨e3, he3, hle3⟩ := hb _ _ he2
        exact Or.inr ⟨e3, he3, le_trans hle3 hle⟩

theorem relax_recorded {maxRun : Int} {cityMap : CityMap} {start : DijkstraPoint}
    {point : DijkstraState} {pts : List DijkstraPoint} {q q2 : DijkstraQueue}
    {s s2 : DijkstraStateMap} (h0 : Recorded start q s)
    (h : relax maxRun cityMap point pts q s = Outcome.ok (q2, s2)) :
    Recorded start q2 s2 :=
  relax_induction (Recorded start) pts
    (fun _ _ _ _ _ _ hJ h1 => relaxOne_recorded hJ h1) h0 h

theorem run_recorded {minRun maxRun : Int} {cityMap : CityMap} {start : DijkstraPoint}
    {pops : List DijkstraState} {q : DijkstraQueue} {s : DijkstraStateMap}
    (h : Run minRun maxRun cityMap start pops q s) : Recorded start q s := by
  induction h with
  | init =>
    rw [heapInit_singleton]
    intro e he
    simp only [List.mem_singleton] at he
    exact Or.inl he
  | step _ hp hr ih =>
    have hperm := heapPop_perm hp
    exact relax_recorded
      (fun e he => ih e (hperm.mem_iff.mpr (List.mem_cons_of_mem _ he))) hr

/-! ## No lookup outside the grid -/

theorem dijkstraLoop_never_panics {minRun maxRun : Int} {cityMap : CityMap}
    (hwf : WellFormed cityMap) :
    ∀ (fuel : Nat) (q : DijkstraQueue) (s : DijkstraStateMap),
      dijkstraLoop minRun maxRun cityMap fuel q s ≠ Outcome.panicked := by
  intro fuel
  induction fuel with
  | zero =>
    intro q s
    unfold dijkstraLoop
    cases heapPop q <;> simp
  | succ fuel ih =>
    intro q s
    rw [dijkstraLoop]
    cases heapPop q with
    | none => simp
    | some pq =>
      obtain ⟨point, q1⟩ := pq
      obtain ⟨q2, s2, hr⟩ := relax_total maxRun hwf point (nextPoints minRun point.Point) q1 s
      simp only [hr]
      exact ih q2 s2

/-- The first iteration of the loop on `cornerMap`. -/
theorem corner_run :
    Run 4 10 cornerMap zeroPoint [seedState zeroPoint] cornerQueue cornerTable := by
  have hp : heapPop (heapInit [DijkstraState.root 0 zeroPoint]) =
      some (seedState zeroPoint, []) := by decide
  have hr : relax 10 cornerMap (seedState zeroPoint)
      (nextPoints 4 (seedState zeroPoint).Point) [] emptyStateMap =
        Outcome.ok (cornerQueue, cornerTable) := by decide
  exact Run.step Run.init hp hr

/-! ## The guard of the cost lookup, the relaxation step and the moves -/

/-- C21: on a non-empty rectangular grid, for every start state, `dijkstra`
reads a cost `cityMap[y][x]` only for a candidate that passed the `InBounds`
test: a candidate out of bounds is skipped without a read, every candidate
that is not skipped is in bounds and its read finds the row `y` and the
column `x` within their index ranges, and so no run of `dijkstra` panics. -/
theorem cost_lookup_is_in_bounds (cityMap : CityMap) (hwf : WellFormed cityMap) :
    (∀ (maxRun : Int) (point : DijkstraState) (nextPoint : DijkstraPoint)
        (q : DijkstraQueue) (s : DijkstraStateMap),
        cityMap.InBounds nextPoint.Coordinate = false →
          relaxOne maxRun cityMap point nextPoint q s = Outcome.ok (q, s)) ∧
    (∀ (maxRun : Int) (point nextPoint : DijkstraPoint),
        skipped maxRun cityMap point nextPoint = false →
          cityMap.InBounds nextPoint.Coordinate = true ∧
            ∃ row c, cityMap[nextPoint.Coordinate.Y.toNat]? = some row ∧
              row[nextPoint.Coordinate.X.toNat]? = some c ∧
              cityMap.cell nextPoint.Coordinate = some c) ∧
    (∀ (fuel : Nat) (start : DijkstraPoint),
        dijkstra fuel cityMap start ≠ Outcome.panicked) := by
  refine ⟨?_, ?_, ?_⟩
  · intro maxRun point nextPoint q s hout
    unfold relaxOne
    have hsk : skipped maxRun cityMap point.Point nextPoint = true := by
      unfold skipped
      rw [hout]
      rfl
    rw [if_pos hsk]
  · intro maxRun point nextPoint hsk
    have hin := (skipped_eq_false.mp hsk).1
    refine ⟨hin, ?_⟩
    obtain ⟨c, hc⟩ := cell_of_inBounds hwf hin
    have hc2 := hc
    unfold CityMap.cell at hc2
    split at hc2
    · cases hc2
    · cases hrow : cityMap[nextPoint.Coordinate.Y.toNat]? with
      | none => simp [hrow] at hc2
      | some row =>
        simp only [hrow] at hc2
        exact ⟨row, c, rfl, hc2, hc⟩
  · intro fuel start
    rw [dijkstra, dijkstraWith_eq_loop hwf]
    exact dijkstraLoop_never_panics hwf _ _ _

/-- An instance of C21: the grid of two rows and two columns. -/
theorem cost_lookup_is_in_bounds_witness :
    WellFormed cornerMap ∧
    (∀ (maxRun : Int) (point : DijkstraState) (nextPoint : DijkstraPoint)
        (q : DijkstraQueue) (s : DijkstraStateMap),
        cornerMap.InBounds nextPoint.Coordinate = false →
          relaxOne maxRun cornerMap point nextPoint q s = Outcome.ok (q, s)) ∧
    (∀ (maxRun : Int) (point nextPoint : DijkstraPoint),
        skipped maxRun cornerMap point nextPoint = false →
          cornerMap.InBounds nextPoint.Coordinate = true ∧
            ∃ row c, cornerMap[nextPoint.Coordinate.Y.toNat]? = some row ∧
              row[nextPoint.Coordinate.X.toNat]? = some c ∧
              cornerMap.cell nextPoint.Coordinate = some c) ∧
    (∀ (fuel : Nat) (start : DijkstraPoint),
        dijkstra fuel cornerMap start ≠ Outcome.panicked) :=
  ⟨by unfold WellFormed; decide,
    cost_lookup_is_in_bounds cornerMap (by unfold WellFormed; decide)⟩

/-- C27: for each of the four headings `d`, `Reverse` of `d` differs from `d`,
`Reverse` of `Reverse` of `d` is `d`, `Reverse` swaps Right with Left and Down
with Up, and `ToVector` of `Reverse` of `d` is the negation of `ToVector` of `d`. -/
theorem reverse_is_the_opposite_heading :
    (∀ d : Direction, d.Reverse ≠ d ∧ d.Reverse.Reverse = d ∧
      d.Reverse.ToVector = d.ToVector.neg) ∧
    DirectionRight.Reverse = DirectionLeft ∧ DirectionLeft.Reverse = DirectionRight ∧
    DirectionDown.Reverse = DirectionUp ∧ DirectionUp.Reverse = DirectionDown := by
  refine ⟨?_, rfl, rfl, rfl, rfl⟩
  intro d
  cases d <;> exact ⟨by decide, rfl, rfl⟩

/-- C28: on a rectangular grid of `rows` rows and `cols` columns, `InBounds`
of `p` is true exactly when `0 ≤ p.Y < rows` and `0 ≤ p.X < cols`; on a
coordinate in bounds the read `cityMap[p.Y][p.X]` finds the row with index
`p.Y` and in it the column with index `p.X`. -/
theorem inBounds_is_the_in_grid_predicate (cityMap : CityMap) (rows cols : Nat)
    (hne : 0 < rows) (hrows : cityMap.length = rows)
    (hcols : ∀ row ∈ cityMap, row.length = cols) (p : Point2D) :
    (cityMap.InBounds p = true ↔
      0 ≤ p.Y ∧ p.Y < (rows : Int) ∧ 0 ≤ p.X ∧ p.X < (cols : Int)) ∧
    (cityMap.InBounds p = true →
      ∃ row c, cityMap[p.Y.toNat]? = some row ∧ row[p.X.toNat]? = some c ∧
        cityMap.cell p = some c) := by
  have hhead : (cityMap.headD []).length = cols := by
    cases cityMap with
    | nil =>
      simp at hrows
      omega
    | cons row0 rest => exact hcols row0 (List.mem_cons_self _ _)
  have hiff : cityMap.InBounds p = true ↔
      0 ≤ p.Y ∧ p.Y < (rows : Int) ∧ 0 ≤ p.X ∧ p.X < (cols : Int) := by
    rw [inBounds_iff, hrows, hhead]
  refine ⟨hiff, ?_⟩
  intro hin
  obtain ⟨hy0, hy1, hx0, hx1⟩ := hiff.mp hin
  have hy : p.Y.toNat < cityMap.length := by omega
  have hx : p.X.toNat < (cityMap[p.Y.toNat]).length := by
    rw [hcols _ (List.getElem_mem hy)]
    omega
  refine ⟨cityMap[p.Y.toNat], (cityMap[p.Y.toNat])[p.X.toNat], List.getElem?_eq_getElem hy,
    List.getElem?_eq_getElem hx, ?_⟩
  unfold CityMap.cell
  rw [if_neg (by omega), List.getElem?_eq_getElem hy]
  exact List.getElem?_eq_getElem hx

/-- An instance of C28: the grid of two rows and two columns and its
bottom-right cell. -/
theorem inBounds_is_the_in_grid_predicate_witness :
    (0 : Nat) < 2 ∧ cornerMap.length = 2 ∧ (∀ row ∈ cornerMap, row.length = 2) ∧
    ((cornerMap.InBounds { X := 1, Y := 1 } = true ↔
      0 ≤ ({ X := 1, Y := 1 } : Point2D).Y ∧ ({ X := 1, Y := 1 } : Point2D).Y < ((2 : Nat) : Int) ∧
        0 ≤ ({ X := 1, Y := 1 } : Point2D).X ∧
        ({ X := 1, Y := 1 } : Point2D).X < ((2 : Nat) : Int)) ∧
    (cornerMap.InBounds { X := 1, Y := 1 } = true →
      ∃ row c, cornerMap[({ X := 1, Y := 1 } : Point2D).Y.toNat]? = some row ∧
        row[({ X := 1, Y := 1 } : Point2D).X.toNat]? = some c ∧
        cornerMap.cell { X := 1, Y := 1 } = some c)) :=
  ⟨by decide, rfl, by decide,
    inBounds_is_the_in_grid_predicate cornerMap 2 2 (by decide) rfl (by decide)
      { X := 1, Y := 1 }⟩

/-! ## The order of the pops and the entries they make redundant -/

theorem relaxOne_exact {maxRun : Int} {cityMap : CityMap} {point : DijkstraState}
    {pops : List DijkstraState} (hpops : ∀ x ∈ pops, x.Distance ≤ point.Distance)
    {nextPoint : DijkstraPoint} {q q1 : DijkstraQueue} {s s1 : DijkstraStateMap}
    (h0 : (∀ y ∈ q, s.lookup y.Point = some y) ∧
      ∀ k e, s.lookup k = some e →
        ∃ x ∈ point :: pops, e.Distance = x.Distance + cost cityMap k.Coordinate)
    (h : relaxOne maxRun cityMap point nextPoint q s = Outcome.ok (q1, s1)) :
    (∀ y ∈ q1, s1.lookup y.Point = some y) ∧
      ∀ k e, s1.lookup k = some e →
        ∃ x ∈ point :: pops, e.Distance = x.Distance + cost cityMap k.Coordinate := by
  rcases relaxOne_ok h with ⟨_, hq, hs⟩ | ⟨_, c, hc, ⟨_, hq, hs⟩ | ⟨himp, hq, hs⟩⟩
  · subst hq; subst hs; exact h0
  · subst hq; subst hs; exact h0
  · have hnone : s.lookup nextPoint = none := by
      rcases improves_eq_true.mp himp with hnone | ⟨old, hold, hlt⟩
      · exact hnone
      · obtain ⟨x, hx, hxd⟩ := h0.2 _ _ hold
        rw [cost_of_cell hc] at hxd
        have hle : x.Distance ≤ point.Distance := by
          rcases List.mem_cons.mp hx with rfl | hx
          · exact le_refl _
          · exact hpops x hx
        omega
    subst hq
    subst hs
    constructor
    · intro y hy
      rcases mem_heapPush.mp hy with rfl | hy
      · rw [lookup_set]
        simp
      · have hy2 := h0.1 y hy
        rw [lookup_set]
        split
        · rename_i hyn
          rw [hyn, hnone] at hy2
          cases hy2
        · exact hy2
    · intro k e hk
      rw [lookup_set] at hk
      split at hk
      · rename_i hkn
        cases hk
        subst hkn
        exact ⟨point, List.mem_cons_self _ _, by
          rw [cost_of_cell hc]
          rfl⟩
      · exact h0.2 k e hk

/-- On a grid of non-negative costs, at the head of every iteration after the
first the entries of the queue are the records of their states, and every
record is at the distance of a popped entry plus the cost of its cell. -/
theorem run_exact {minRun maxRun : Int} {cityMap : CityMap} (hnn : NonNeg cityMap)
    {start : DijkstraPoint} {pops : List DijkstraState} {q : DijkstraQueue}
    {s : DijkstraStateMap} (h : Run minRun maxRun cityMap start pops q s) :
    ((q = [seedState start] ∧ s = emptyStateMap) ∨ ∀ y ∈ q, s.lookup y.Point = some y) ∧
      ∀ k e, s.lookup k = some e →
        ∃ x ∈ pops, e.Distance = x.Distance + cost cityMap k.Coordinate := by
  induction h with
  | init =>
    rw [heapInit_singleton]
    refine ⟨Or.inl ⟨rfl, rfl⟩, ?_⟩
    intro k e hk
    simp [emptyStateMap, DijkstraStateMap.lookup] at hk
  | step hrun hp hr ih =>
    rename_i pops q q1 q2 s s2 point
    have hperm := heapPop_perm hp
    have hq1 : ∀ y ∈ q1, s.lookup y.Point = some y := by
      rcases ih.1 with ⟨hq, _⟩ | hall
      · rw [hq] at hperm
        have hlen : [seedState start].length = (point :: q1).length := hperm.length_eq
        rw [List.length_singleton, List.length_cons] at hlen
        have : q1 = [] := List.length_eq_zero.mp (by omega)
        rw [this]
        intro y hy
        cases hy
      · exact fun y hy => hall y (hperm.mem_iff.mpr (List.mem_cons_of_mem _ hy))
    have hpops : ∀ x ∈ pops, x.Distance ≤ point.Distance :=
      fun x hx => (run_sorted hnn hrun).2 x hx point
        (hperm.mem_iff.mpr (List.mem_cons_self _ _))
    have hrec : ∀ k e, s.lookup k = some e →
        ∃ x ∈ point :: pops, e.Distance = x.Distance + cost cityMap k.Coordinate := by
      intro k e hk
      obtain ⟨x, hx, hxd⟩ := ih.2 k e hk
      exact ⟨x, List.mem_cons_of_mem _ hx, hxd⟩
    have hend := relax_induction
      (fun qa sa => (∀ y ∈ qa, sa.lookup y.Point = some y) ∧
        ∀ k e, sa.lookup k = some e →
          ∃ x ∈ point :: pops, e.Distance = x.Distance + cost cityMap k.Coordinate)
      _ (fun _ _ _ _ _ _ hJ h1 => relaxOne_exact hpops hJ h1) ⟨hq1, hrec⟩ hr
    exact ⟨Or.inr hend.1, hend.2⟩

/-- On a grid of non-negative costs no popped entry is stale: the table never
records a strictly lower distance for the state of the entry the loop pops. -/
theorem no_stale_pop {minRun maxRun : Int} {cityMap : CityMap} (hnn : NonNeg cityMap)
    {start : DijkstraPoint} {pops : List DijkstraState} {q q1 : DijkstraQueue}
    {s : DijkstraStateMap} {point : DijkstraState}
    (h : Run minRun maxRun cityMap start pops q s)
    (hp : heapPop q = some (point, q1)) : isStale s point = false := by
  rcases (run_exact hnn h).1 with ⟨_, hs⟩ | hall
  · rw [hs]
    rfl
  · have := hall point ((heapPop_perm hp).mem_iff.mpr (List.mem_cons_self _ _))
    unfold isStale
    rw [this]
    simp

/-! ## Turns, run bounds and the first move: instances where they matter -/

/-- The inner loop does to queue and table what it does on the candidates that
the test of lines 230-232 does not skip. -/
theorem relax_filter_skipped (maxRun : Int) (cityMap : CityMap) (point : DijkstraState)
    (pts : List DijkstraPoint) :
    ∀ (queue : DijkstraQueue) (state : DijkstraStateMap),
      relax maxRun cityMap point pts queue state =
        relax maxRun cityMap point
          (pts.filter (fun t => !(skipped maxRun cityMap point.Point t))) queue state := by
  induction pts with
  | nil =>
    intro queue state
    rfl
  | cons t rest ih =>
    intro queue state
    cases hsk : skipped maxRun cityMap point.Point t with
    | true =>
      have hone : relaxOne maxRun cityMap point t queue state = Outcome.ok (queue, state) := by
        unfold relaxOne
        rw [if_pos hsk]
      rw [List.filter_cons_of_neg (by simp [hsk])]
      rw [← ih queue state]
      simp only [relax, hone]
    | false =>
      rw [List.filter_cons_of_pos (by simp [hsk])]
      simp only [relax]
      cases relaxOne maxRun cityMap point t queue state with
      | ok value =>
        obtain ⟨queue1, state1⟩ := value
        exact ih queue1 state1
      | panicked => rfl
      | outOfFuel => rfl

/-! ## No path, and the cost of the 3×3 grid -/

/-- The counterexample to C8 as stated: on the one-row grid whose second cell
has the cost `math.MaxInt` the table holds a state at the end cell with
run-length 4, at the distance `math.MaxInt` (no sum wraps: the search on the
64-bit `int` returns the same table), and `runMain` reports no path: the
test `item.Distance < minState.Distance` of line 50 fails for it. -/
theorem terminal_state_at_maxInt_is_no_path :
    WellFormed maxCostMap ∧ NonNeg maxCostMap ∧
    IsTerminal 4 maxCostMap (exampleEntry 4).Point ∧
    recordedDistance (dijkstra 5 maxCostMap zeroPoint) (exampleEntry 4).Point = some maxInt ∧
    dijkstra64 5 maxCostMap zeroPoint = dijkstra 5 maxCostMap zeroPoint ∧
    reportSummary (runMain 5 maxCostMap) = some (maxInt, 0) ∧
    reportSummary (runMain64 5 maxCostMap) = some (maxInt, 0) := by
  refine ⟨by unfold WellFormed; decide, by unfold NonNeg; decide, ⟨by decide, by decide⟩,
    by decide, by decide, by decide, by decide⟩

/-- With the run bounds 4 and 10 of the program no run of `runMain` finds a
path on the 3×3 grid of ones: no state reaches run-length 4. -/
theorem all_ones_grid_has_no_path_with_4_and_10 :
    ∀ fuel report, runMain fuel allOnesMap = Outcome.ok report →
      report.minState = sentinelState ∧ report.minState.Distance = maxInt ∧
        pathStates report.minState = [] := by
  intro fuel report hr
  obtain ⟨table, hd, hmin, _⟩ := runMainWith_ok hr
  have h5 : dijkstraWith 4 10 5 allOnesMap zeroPoint = Outcome.ok allOnesTable := by decide
  have htable : table = allOnesTable := dijkstraWith_unique hd h5
  subst htable
  have hsel : selectMin 4 10 allOnesMap allOnesTable = sentinelState := by decide
  rw [hmin, hsel]
  exact ⟨rfl, rfl, rfl⟩

theorem length_trail (e : DijkstraState) : (trail e).length = (pathStates e).length := by
  simp [trail]

set_option maxRecDepth 100000 in
/-- C10: on the 3×3 grid whose costs are all 1, searched from `(0,0)` for the
cell `(2,2)` with the run bounds `M = 1` and `K = 3` in the place of the
literals 4 and 10, `runMain` reports the cost 4, and the path it reconstructs
has 5 coordinates, from `(0,0)` to `(2,2)`: the 4 cells it marks and the
start cell. This holds for every run that returns, and the run with fuel 37
returns. -/
theorem all_ones_grid_cost_is_four :
    reportSummary (runMainWith 1 3 37 allOnesMap) = some (4, 4) ∧
    reportPath (runMainWith 1 3 37 allOnesMap) =
      some [{ X := 0, Y := 0 }, { X := 1, Y := 0 }, { X := 1, Y := 1 }, { X := 1, Y := 2 },
        { X := 2, Y := 2 }] ∧
    ∀ fuel report, runMainWith 1 3 fuel allOnesMap = Outcome.ok report →
      report.minState.Distance = 4 ∧ (pathCoordinates report.minState).length = 5 := by
  have hsum : reportSummary (runMainWith 1 3 37 allOnesMap) = some (4, 4) := by decide
  refine ⟨hsum, by decide, ?_⟩
  intro fuel report hr
  cases h37 : runMainWith 1 3 37 allOnesMap with
  | ok report37 =>
    rw [h37] at hsum
    simp only [reportSummary, Option.some.injEq, Prod.mk.injEq] at hsum
    obtain ⟨table, hd, hmin, _⟩ := runMainWith_ok hr
    obtain ⟨table37, hd37, hmin37, _⟩ := runMainWith_ok h37
    have htable : table = table37 := dijkstraWith_unique hd hd37
    subst htable
    have heq : report.minState = report37.minState := hmin.trans hmin37.symm
    rw [heq]
    refine ⟨hsum.1, ?_⟩
    simp only [pathCoordinates, List.length_cons, List.length_map, length_trail]
    omega
  | panicked =>
    rw [h37] at hsum
    cases hsum
  | outOfFuel =>
    rw [h37] at hsum
    cases hsum

/-! ## The first move -/

/-- The counterexample to C15 as stated: on the grid of two cells, started on
the right cell, the cell to the left is in bounds, yet the move Left is not a
successor of the seed, and the search records nothing. -/
theorem seed_drops_the_left_move :
    twoCellMap.InBounds (rightCellSeed.Move64 DirectionLeft).Coordinate = true ∧
    rightCellSeed.Move64 DirectionLeft ∈ nextPoints64 rightCellSeed ∧
    ¬ Succ64 twoCellMap rightCellSeed (rightCellSeed.Move64 DirectionLeft) ∧
    dijkstra64 1 twoCellMap rightCellSeed = Outcome.ok emptyStateMap ∧
    dijkstra 1 twoCellMap rightCellSeed = Outcome.ok emptyStateMap := by
  refine ⟨by decide, by decide, ?_, by decide, by decide⟩
  unfold Succ64
  decide

theorem wrapInt_one : wrapInt (0 + 1) = 1 := by decide

/-- C15, amended: a seed has run-length 0 and the zero-value heading Right,
and the reverse test of line 232 applies to it. For every grid and every
start coordinate, the moves of the seed that the loop relaxes are the moves
Right, Down and Up whose cell is in bounds, with run-length 1; the move Left
is never among them. From the coordinate `(0,0)`, which `runMain` passes,
the cell to the left is out of bounds, so there every move that is in bounds
is relaxed. -/
theorem seed_moves_all_but_left (cityMap : CityMap) (coordinate : Point2D)
    (direction : Direction) :
    (Succ64 cityMap { Count := 0, Direction := DirectionRight, Coordinate := coordinate }
        (DijkstraPoint.Move64
          { Count := 0, Direction := DirectionRight, Coordinate := coordinate } direction) ↔
      cityMap.InBounds
          (DijkstraPoint.Move64
            { Count := 0, Direction := DirectionRight, Coordinate := coordinate }
            direction).Coordinate = true ∧
        direction ≠ DirectionLeft) ∧
    (DijkstraPoint.Move64
      { Count := 0, Direction := DirectionRight, Coordinate := coordinate } direction).Count = 1 ∧
    (cityMap.InBounds (zeroPoint.Move64 direction).Coordinate = true →
      Succ64 cityMap zeroPoint (zeroPoint.Move64 direction)) ∧
    cityMap.InBounds (zeroPoint.Move64 DirectionLeft).Coordinate = false := by
  have hcount : ∀ (c : Point2D) (d : Direction),
      (DijkstraPoint.Move64 { Count := 0, Direction := DirectionRight, Coordinate := c } d).Count
        = 1 := by
    intro c d
    simp only [DijkstraPoint.Move64]
    split
    · exact wrapInt_one
    · rfl
  have hmem : ∀ (c : Point2D) (d : Direction),
      DijkstraPoint.Move64 { Count := 0, Direction := DirectionRight, Coordinate := c } d ∈
        nextPoints64 { Count := 0, Direction := DirectionRight, Coordinate := c } := by
    intro c d
    unfold nextPoints64
    rw [if_neg (by simp)]
    cases d <;> simp
  have hiff : ∀ (c : Point2D) (d : Direction),
      Succ64 cityMap { Count := 0, Direction := DirectionRight, Coordinate := c }
        (DijkstraPoint.Move64 { Count := 0, Direction := DirectionRight, Coordinate := c } d) ↔
      cityMap.InBounds
          (DijkstraPoint.Move64 { Count := 0, Direction := DirectionRight, Coordinate := c }
            d).Coordinate = true ∧ d ≠ DirectionLeft := by
    intro c d
    unfold Succ64
    rw [skipped_eq_false, hcount]
    constructor
    · rintro ⟨_, hin, _, hrev⟩
      exact ⟨hin, hrev⟩
    · rintro ⟨hin, hrev⟩
      exact ⟨hmem c d, hin, by decide, hrev⟩
  have hleft : cityMap.InBounds (zeroPoint.Move64 DirectionLeft).Coordinate = false := by
    have hx : (zeroPoint.Move64 DirectionLeft).Coordinate.X = -1 := by decide
    cases hin : cityMap.InBounds (zeroPoint.Move64 DirectionLeft).Coordinate with
    | false => rfl
    | true =>
      obtain ⟨_, _, h3, _⟩ := (inBounds_iff cityMap _).mp hin
      rw [hx] at h3
      exact absurd h3 (by decide)
  refine ⟨hiff coordinate direction, hcount coordinate direction, ?_, hleft⟩
  intro hin
  refine (hiff { X := 0, Y := 0 } direction).mpr ⟨hin, ?_⟩
  intro hd
  subst hd
  rw [hleft] at hin
  cases hin

/-! ## The 64-bit `int`: wrapping -/

theorem isInt_wrapInt (x : Int) : IsInt (wrapInt x) := by
  unfold IsInt wrapInt
  omega

theorem wrapInt_of_isInt {x : Int} (h : IsInt x) : wrapInt x = x := by
  unfold IsInt at h
  unfold wrapInt
  omega

theorem wrapInt_modEq (x : Int) : wrapInt x ≡ x [ZMOD 2 ^ 64] := by
  unfold Int.ModEq wrapInt
  omega

theorem eq_of_modEq_of_isInt {a b : Int} (ha : IsInt a) (hb : IsInt b)
    (h : a ≡ b [ZMOD 2 ^ 64]) : a = b := by
  unfold IsInt at ha hb
  unfold Int.ModEq at h
  omega

theorem eq_wrapInt_of_modEq {r x : Int} (hr : IsInt r) (h : r ≡ x [ZMOD 2 ^ 64]) :
    r = wrapInt x :=
  eq_of_modEq_of_isInt hr (isInt_wrapInt x) (h.trans (wrapInt_modEq x).symm)

theorem wrapInt_add_left (a c : Int) : wrapInt (wrapInt a + c) = wrapInt (a + c) := by
  unfold wrapInt
  omega

theorem isInt_zero : IsInt 0 := by
  unfold IsInt
  omega

/-! ## `Move` and the relaxation step on the 64-bit `int` -/

/-- The counterexample to C26 as stated: for the state with run-length and
column `math.MaxInt` and the heading Right, the move Right has the run-length
and the column `math.MinInt`, not `math.MaxInt + 1`. -/
theorem move_wraps_around :
    IsInt extremePoint.Count ∧ IsInt extremePoint.Coordinate.X ∧
    IsInt extremePoint.Coordinate.Y ∧
    extremePoint.Move64 DirectionRight =
      { Count := -9223372036854775808, Direction := DirectionRight,
        Coordinate := { X := -9223372036854775808, Y := 0 } } ∧
    extremePoint.Count + 1 = 9223372036854775808 ∧
    extremePoint.Coordinate.X + DirectionRight.ToVector.X = 9223372036854775808 := by
  decide

/-- C26, amended: for every state `p` and heading `d`, `p.Move(d)` has heading
`d`, the coordinate of `p` plus `d.ToVector()`, added by component, and the
run-length `p.Count + 1` when `d` is the heading of `p` and 1 otherwise, the
sums taken in the 64-bit `int`: a sum that is not a value of the 64-bit `int`
wraps around, and a sum that is one is exact. -/
theorem move64_semantics (p : DijkstraPoint) (d : Direction) :
    (p.Move64 d).Direction = d ∧
    (p.Move64 d).Coordinate.X = wrapInt (p.Coordinate.X + d.ToVector.X) ∧
    (p.Move64 d).Coordinate.Y = wrapInt (p.Coordinate.Y + d.ToVector.Y) ∧
    (d = p.Direction → (p.Move64 d).Count = wrapInt (p.Count + 1)) ∧
    (d ≠ p.Direction → (p.Move64 d).Count = 1) ∧
    (IsInt (p.Coordinate.X + d.ToVector.X) → IsInt (p.Coordinate.Y + d.ToVector.Y) →
      (p.Move64 d).Coordinate = p.Coordinate.Add d.ToVector) ∧
    (IsInt (p.Count + 1) → d = p.Direction → (p.Move64 d).Count = p.Count + 1) ∧
    (IsInt (p.Count + 1) → IsInt (p.Coordinate.X + d.ToVector.X) →
      IsInt (p.Coordinate.Y + d.ToVector.Y) → p.Move64 d = p.Move d) := by
  have hcount : IsInt (p.Count + 1) → (p.Move64 d).Count = (p.Move d).Count := by
    intro h
    simp only [DijkstraPoint.Move64, DijkstraPoint.Move]
    split
    · exact wrapInt_of_isInt h
    · rfl
  have hcoord : IsInt (p.Coordinate.X + d.ToVector.X) → IsInt (p.Coordinate.Y + d.ToVector.Y) →
      (p.Move64 d).Coordinate = p.Coordinate.Add d.ToVector := by
    intro hx hy
    simp only [DijkstraPoint.Move64, Point2D.Add64, Point2D.Add, wrapInt_of_isInt hx,
      wrapInt_of_isInt hy]
  refine ⟨rfl, rfl, rfl, ?_, ?_, hcoord, ?_, ?_⟩
  · intro hd
    simp only [DijkstraPoint.Move64]
    rw [if_pos hd.symm]
  · intro hd
    simp only [DijkstraPoint.Move64]
    rw [if_neg (fun h => hd h.symm)]
  · intro h hd
    rw [hcount h, move_count, if_pos hd.symm]
  · intro hc hx hy
    have h1 := hcount hc
    have h2 := hcoord hx hy
    cases hm : p.Move64 d with
    | mk count direction coordinate =>
      rw [hm] at h1 h2
      simp only at h1 h2
      have h3 : direction = d := by
        have : (p.Move64 d).Direction = d := rfl
        rw [hm] at this
        exact this
      subst h3
      rw [h1, h2]
      rfl

theorem relaxOne64_ok {cityMap : CityMap} {point : DijkstraState}
    {nextPoint : DijkstraPoint} {queue queue1 : DijkstraQueue} {state state1 : DijkstraStateMap}
    (h : relaxOne64 cityMap point nextPoint queue state = Outcome.ok (queue1, state1)) :
    (skipped 10 cityMap point.Point nextPoint = true ∧ queue1 = queue ∧ state1 = state) ∨
    (skipped 10 cityMap point.Point nextPoint = false ∧
      ∃ c, cityMap.cell nextPoint.Coordinate = some c ∧
        ((improves state nextPoint (wrapInt (point.Distance + c)) = false ∧ queue1 = queue ∧
            state1 = state) ∨
          (improves state nextPoint (wrapInt (point.Distance + c)) = true ∧
            queue1 = heapPush queue
              (DijkstraState.link (wrapInt (point.Distance + c)) nextPoint point) ∧
            state1 = state.set nextPoint
              (DijkstraState.link (wrapInt (point.Distance + c)) nextPoint point)))) := by
  unfold relaxOne64 at h
  cases hsk : skipped 10 cityMap point.Point nextPoint with
  | true =>
    rw [hsk] at h
    simp only [if_true, Outcome.ok.injEq, Prod.mk.injEq] at h
    exact Or.inl ⟨rfl, h.1.symm, h.2.symm⟩
  | false =>
    rw [hsk] at h
    simp only [Bool.false_eq_true, if_false] at h
    refine Or.inr ⟨rfl, ?_⟩
    cases hc : cityMap.cell nextPoint.Coordinate with
    | none =>
      rw [hc] at h
      cases h
    | some c =>
      rw [hc] at h
      simp only at h
      refine ⟨c, rfl, ?_⟩
      cases himp : improves state nextPoint (wrapInt (point.Distance + c)) with
      | true =>
        rw [himp] at h
        simp only [if_true, Outcome.ok.injEq, Prod.mk.injEq] at h
        exact Or.inr ⟨rfl, h.1.symm, h.2.symm⟩
      | false =>
        rw [himp] at h
        simp only [Bool.false_eq_true, if_false, Outcome.ok.injEq, Prod.mk.injEq] at h
        exact Or.inl ⟨rfl, h.1.symm, h.2.symm⟩

/-- The counterexample to C22 as stated: on the one-row grid whose second
cell has the cost `math.MaxInt`, the search records the distance
`math.MaxInt` for the cell `(1, 0)`; the candidate for the cell `(2, 0)`, of
cost 1, is not skipped, and the distance recorded for it is `math.MinInt`,
not the sum `math.MaxInt + 1`. -/
theorem candidate_cost_wraps_around :
    WellFormed overflowMap ∧ NonNeg overflowMap ∧
    recordedDistance (dijkstra64 5 overflowMap zeroPoint) overflowEntry.Point = some maxInt ∧
    skipped 10 overflowMap overflowEntry.Point wrappedEntry.Point = false ∧
    overflowMap.cell wrappedEntry.Point.Coordinate = some 1 ∧
    relaxOne64 overflowMap overflowEntry wrappedEntry.Point []
        [(overflowEntry.Point, overflowEntry)] =
      Outcome.ok ([wrappedEntry],
        [(overflowEntry.Point, overflowEntry), (wrappedEntry.Point, wrappedEntry)]) ∧
    wrappedEntry.Distance = -9223372036854775808 ∧
    overflowEntry.Distance + 1 = 9223372036854775808 ∧
    recordedDistance (dijkstra64 5 overflowMap zeroPoint) wrappedEntry.Point =
      some (-9223372036854775808) := by
  refine ⟨by unfold WellFormed; decide, by unfold NonNeg; decide, by decide, by decide,
    by decide, by decide, by decide, by decide, by decide⟩

/-- C22, amended: for a candidate that is not skipped, with `c` the cost of
its cell, the candidate distance is the popped distance plus `c`, taken in
the 64-bit `int`: the sum itself when that is a value of the 64-bit `int`,
and the sum wrapped around otherwise. When the table has no entry for the
candidate or records a strictly larger distance, the entry with the candidate
distance and the popped entry as predecessor replaces the table entry of the
candidate, and of no other state, and joins the queue; otherwise the table
and the queue stay as they are. -/
theorem relaxation_step_64 (cityMap : CityMap) (point : DijkstraState)
    (nextPoint : DijkstraPoint) (c : Int) (q : DijkstraQueue) (s : DijkstraStateMap)
    (hadm : skipped 10 cityMap point.Point nextPoint = false)
    (hc : cityMap.cell nextPoint.Coordinate = some c) :
    (IsInt (point.Distance + c) → wrapInt (point.Distance + c) = point.Distance + c) ∧
    ((s.lookup nextPoint = none ∨
        ∃ old, s.lookup nextPoint = some old ∧
          wrapInt (point.Distance + c) < old.Distance) →
      ∃ entry : DijkstraState,
        entry.Distance = wrapInt (point.Distance + c) ∧ entry.Point = nextPoint ∧
        entry.Previous = some point ∧
        relaxOne64 cityMap point nextPoint q s =
          Outcome.ok (heapPush q entry, s.set nextPoint entry) ∧
        (s.set nextPoint entry).lookup nextPoint = some entry ∧
        (∀ k, k ≠ nextPoint → (s.set nextPoint entry).lookup k = s.lookup k) ∧
        (heapPush q entry).Perm (entry :: q)) ∧
    (¬ (s.lookup nextPoint = none ∨
        ∃ old, s.lookup nextPoint = some old ∧
          wrapInt (point.Distance + c) < old.Distance) →
      relaxOne64 cityMap point nextPoint q s = Outcome.ok (q, s)) := by
  refine ⟨fun h => wrapInt_of_isInt h, ?_, ?_⟩
  · intro himp
    have himp2 := improves_eq_true.mpr himp
    refine ⟨DijkstraState.link (wrapInt (point.Distance + c)) nextPoint point, rfl, rfl, rfl,
      ?_, ?_, ?_, heapPush_perm _ _⟩
    · unfold relaxOne64
      simp only [hadm, hc, himp2, Bool.false_eq_true, if_false, if_true]
    · rw [lookup_set, if_pos rfl]
    · intro k hk
      rw [lookup_set, if_neg hk]
  · intro himp
    have himp2 : improves s nextPoint (wrapInt (point.Distance + c)) = false := by
      cases h : improves s nextPoint (wrapInt (point.Distance + c)) with
      | false => rfl
      | true => exact absurd (improves_eq_true.mp h) himp
    unfold relaxOne64
    simp only [hadm, hc, himp2, Bool.false_eq_true, if_false]

/-- An instance of C22, amended: the step to the right from the seed on the
grid of two rows and two columns, with the empty queue and the empty table;
the candidate distance is `0 + 2`, and the entry is recorded and pushed. -/
theorem relaxation_step_64_witness :
    skipped 10 cornerMap (seedState zeroPoint).Point (zeroPoint.Move64 DirectionRight) = false ∧
    cornerMap.cell (zeroPoint.Move64 DirectionRight).Coordinate = some 2 ∧
    relaxOne64 cornerMap (seedState zeroPoint) (zeroPoint.Move64 DirectionRight) []
        emptyStateMap = Outcome.ok (cornerQueue.take 1, cornerTable.take 1) ∧
    ((IsInt ((seedState zeroPoint).Distance + 2) →
      wrapInt ((seedState zeroPoint).Distance + 2) = (seedState zeroPoint).Distance + 2) ∧
    ((emptyStateMap.lookup (zeroPoint.Move64 DirectionRight) = none ∨
        ∃ old, emptyStateMap.lookup (zeroPoint.Move64 DirectionRight) = some old ∧
          wrapInt ((seedState zeroPoint).Distance + 2) < old.Distance) →
      ∃ entry : DijkstraState,
        entry.Distance = wrapInt ((seedState zeroPoint).Distance + 2) ∧
        entry.Point = zeroPoint.Move64 DirectionRight ∧
        entry.Previous = some (seedState zeroPoint) ∧
        relaxOne64 cornerMap (seedState zeroPoint) (zeroPoint.Move64 DirectionRight) []
            emptyStateMap =
          Outcome.ok (heapPush [] entry,
            emptyStateMap.set (zeroPoint.Move64 DirectionRight) entry) ∧
        (emptyStateMap.set (zeroPoint.Move64 DirectionRight) entry).lookup
            (zeroPoint.Move64 DirectionRight) = some entry ∧
        (∀ k, k ≠ zeroPoint.Move64 DirectionRight →
          (emptyStateMap.set (zeroPoint.Move64 DirectionRight) entry).lookup k =
            emptyStateMap.lookup k) ∧
        (heapPush [] entry).Perm (entry :: [])) ∧
    (¬ (emptyStateMap.lookup (zeroPoint.Move64 DirectionRight) = none ∨
        ∃ old, emptyStateMap.lookup (zeroPoint.Move64 DirectionRight) = some old ∧
          wrapInt ((seedState zeroPoint).Distance + 2) < old.Distance) →
      relaxOne64 cornerMap (seedState zeroPoint) (zeroPoint.Move64 DirectionRight) []
          emptyStateMap = Outcome.ok ([], emptyStateMap))) :=
  ⟨by decide, by decide, by decide,
    relaxation_step_64 cornerMap (seedState zeroPoint) (zeroPoint.Move64 DirectionRight) 2 []
      emptyStateMap (by decide) (by decide)⟩

/-! ## The loop on the 64-bit `int`, case by case -/

theorem relax64_nil {cityMap : CityMap} {point : DijkstraState}
    {queue : DijkstraQueue} {state : DijkstraStateMap} :
    relax64 cityMap point [] queue state = Outcome.ok (queue, state) := rfl

theorem relax64_cons_ok {cityMap : CityMap} {point : DijkstraState}
    {nextPoint : DijkstraPoint} {rest : List DijkstraPoint}
    {queue queue2 : DijkstraQueue} {state state2 : DijkstraStateMap}
    (h : relax64 cityMap point (nextPoint :: rest) queue state = Outcome.ok (queue2, state2)) :
    ∃ queue1 state1,
      relaxOne64 cityMap point nextPoint queue state = Outcome.ok (queue1, state1) ∧
      relax64 cityMap point rest queue1 state1 = Outcome.ok (queue2, state2) := by
  simp only [relax64] at h
  split at h
  · rename_i queue1 state1 h1
    exact ⟨queue1, state1, h1, h⟩
  · cases h
  · cases h

/-- A property of queue and table that every run of the loop body keeps holds
after the inner loop. -/
theorem relax64_induction {cityMap : CityMap} {point : DijkstraState}
    (J : DijkstraQueue → DijkstraStateMap → Prop) (pts : List DijkstraPoint)
    (hJ : ∀ nextPoint ∈ pts, ∀ q s q1 s1, J q s →
      relaxOne64 cityMap point nextPoint q s = Outcome.ok (q1, s1) → J q1 s1)
    {queue queue2 : DijkstraQueue} {state state2 : DijkstraStateMap}
    (h0 : J queue state)
    (h : relax64 cityMap point pts queue state = Outcome.ok (queue2, state2)) :
    J queue2 state2 := by
  induction pts generalizing queue state with
  | nil =>
    simp only [relax64] at h
    cases h
    exact h0
  | cons nextPoint rest ih =>
    obtain ⟨queue1, state1, h1, h2⟩ := relax64_cons_ok h
    have hJ1 := hJ nextPoint (List.mem_cons_self _ _) _ _ _ _ h0 h1
    exact ih (fun np hnp => hJ np (List.mem_cons_of_mem _ hnp)) hJ1 h2

theorem dijkstraLoop64_ok {cityMap : CityMap} {fuel : Nat}
    {queue : DijkstraQueue} {state table : DijkstraStateMap}
    (h : dijkstraLoop64 cityMap fuel queue state = Outcome.ok table) :
    (queue = [] ∧ table = state) ∨
    ∃ point queue1 fuel1 queue2 state2,
      heapPop queue = some (point, queue1) ∧ fuel = fuel1 + 1 ∧
      relax64 cityMap point (nextPoints64 point.Point) queue1 state =
        Outcome.ok (queue2, state2) ∧
      dijkstraLoop64 cityMap fuel1 queue2 state2 = Outcome.ok table := by
  unfold dijkstraLoop64 at h
  cases hp : heapPop queue with
  | none =>
    simp only [hp] at h
    cases h
    exact Or.inl ⟨heapPop_eq_none.mp hp, rfl⟩
  | some pq =>
    obtain ⟨point, queue1⟩ := pq
    simp only [hp] at h
    cases fuel with
    | zero => simp at h
    | succ fuel1 =>
      simp only at h
      cases hr : relax64 cityMap point (nextPoints64 point.Point) queue1 state with
      | ok qs =>
        obtain ⟨queue2, state2⟩ := qs
        simp only [hr] at h
        exact Or.inr ⟨point, queue1, fuel1, queue2, state2, rfl, rfl, hr, h⟩
      | panicked => simp [hr] at h
      | outOfFuel => simp [hr] at h

/-- A property of queue and table that holds at the loop head again after one
iteration holds for the table the loop returns. -/
theorem dijkstraLoop64_induction {cityMap : CityMap}
    (I : DijkstraQueue → DijkstraStateMap → Prop)
    (hI : ∀ q s point q1 q2 s2, I q s → heapPop q = some (point, q1) →
      relax64 cityMap point (nextPoints64 point.Point) q1 s = Outcome.ok (q2, s2) →
      I q2 s2)
    {fuel : Nat} {queue : DijkstraQueue} {state table : DijkstraStateMap}
    (h0 : I queue state)
    (h : dijkstraLoop64 cityMap fuel queue state = Outcome.ok table) :
    I [] table := by
  induction fuel generalizing queue state with
  | zero =>
    rcases dijkstraLoop64_ok h with ⟨hq, ht⟩ | ⟨_, _, _, _, _, _, hf, _, _⟩
    · subst hq; subst ht; exact h0
    · cases hf
  | succ fuel ih =>
    rcases dijkstraLoop64_ok h with ⟨hq, ht⟩ | ⟨point, q1, fuel1, q2, s2, hp, hf, hr, hl⟩
    · subst hq; subst ht; exact h0
    · cases hf
      exact ih (hI _ _ _ _ _ _ h0 hp hr) hl

theorem dijkstra64_ok {cityMap : CityMap} {fuel : Nat}
    {start : DijkstraPoint} {table : DijkstraStateMap}
    (h : dijkstra64 fuel cityMap start = Outcome.ok table) :
    dijkstraLoop64 cityMap fuel [seedState start] emptyStateMap = Outcome.ok table := by
  unfold dijkstra64 at h
  cases cityMap with
  | nil => simp at h
  | cons row0 rows =>
    simp only at h
    split at h
    · cases h
    · rw [heapInit_singleton] at h
      exact h

theorem relaxOne64_entries {cityMap : CityMap} {point : DijkstraState}
    (P : DijkstraState → Prop) {nextPoint : DijkstraPoint}
    (hstep : ∀ c, skipped 10 cityMap point.Point nextPoint = false →
      cityMap.cell nextPoint.Coordinate = some c →
      P (DijkstraState.link (wrapInt (point.Distance + c)) nextPoint point))
    {q q1 : DijkstraQueue} {s s1 : DijkstraStateMap} (h0 : AllEntries P q s)
    (h : relaxOne64 cityMap point nextPoint q s = Outcome.ok (q1, s1)) :
    AllEntries P q1 s1 := by
  rcases relaxOne64_ok h with ⟨_, hq, hs⟩ | ⟨hsk, c, hc, ⟨_, hq, hs⟩ | ⟨_, hq, hs⟩⟩
  · subst hq; subst hs; exact h0
  · subst hq; subst hs; exact h0
  · subst hq; subst hs
    have hP := hstep c hsk hc
    constructor
    · intro e he
      rcases mem_heapPush.mp he with rfl | he
      · exact hP
      · exact h0.1 e he
    · intro k e hk
      rw [lookup_set] at hk
      split at hk
      · rename_i hkq
        cases hk
        exact ⟨hP, hkq.symm, by simp [DijkstraState.Previous]⟩
      · exact h0.2 k e hk

theorem dijkstraLoop64_entries {cityMap : CityMap}
    (P : DijkstraState → Prop)
    (hstep : ∀ point nextPoint c, P point → nextPoint ∈ nextPoints64 point.Point →
      skipped 10 cityMap point.Point nextPoint = false →
      cityMap.cell nextPoint.Coordinate = some c →
      P (DijkstraState.link (wrapInt (point.Distance + c)) nextPoint point))
    {fuel : Nat} {queue : DijkstraQueue} {state table : DijkstraStateMap}
    (h0 : AllEntries P queue state)
    (h : dijkstraLoop64 cityMap fuel queue state = Outcome.ok table) :
    ∀ k e, table.lookup k = some e → P e ∧ e.Point = k ∧ e.Previous ≠ none := by
  have := dijkstraLoop64_induction (AllEntries P) ?_ h0 h
  · exact this.2
  · intro q s point q1 q2 s2 hI hp hr
    have hperm := heapPop_perm hp
    have hpt : P point := hI.1 point (hperm.mem_iff.mpr (List.mem_cons_self _ _))
    have hq1 : AllEntries P q1 s :=
      ⟨fun e he => hI.1 e (hperm.mem_iff.mpr (List.mem_cons_of_mem _ he)), hI.2⟩
    refine relax64_induction (AllEntries P) _ ?_ hq1 hr
    intro np hnp q s q1 s1 hJ h1
    exact relaxOne64_entries P (fun c hsk hc => hstep point np c hpt hnp hsk hc) hJ h1

/-- The induction principle for the entries of the returned table: a property
that the seed entry has and that passes from a popped entry to every entry
made from it holds for every entry of the table. -/
theorem dijkstra64_entries {cityMap : CityMap}
    (P : DijkstraState → Prop) {start : DijkstraPoint}
    (hseed : P (seedState start))
    (hstep : ∀ point nextPoint c, P point → nextPoint ∈ nextPoints64 point.Point →
      skipped 10 cityMap point.Point nextPoint = false →
      cityMap.cell nextPoint.Coordinate = some c →
      P (DijkstraState.link (wrapInt (point.Distance + c)) nextPoint point))
    {fuel : Nat} {table : DijkstraStateMap}
    (h : dijkstra64 fuel cityMap start = Outcome.ok table) :
    ∀ k e, table.lookup k = some e → P e ∧ e.Point = k ∧ e.Previous ≠ none := by
  refine dijkstraLoop64_entries P hstep ?_ (dijkstra64_ok h)
  constructor
  · intro e he
    simp only [List.mem_singleton] at he
    subst he
    exact hseed
  · intro k e hk
    simp [emptyStateMap, DijkstraStateMap.lookup] at hk

/-- A relation `R` between a popped entry and every entry made from it, and a
property `Q` of entries that passes along, hold along the whole `Previous`
chain of every entry of the returned table. -/
theorem chain_steps64 {cityMap : CityMap} (start : DijkstraPoint)
    (R : DijkstraState → DijkstraState → Prop) (Q : DijkstraState → Prop)
    (hseed : Q (seedState start))
    (hstep : ∀ point nextPoint c, Q point → nextPoint ∈ nextPoints64 point.Point →
      skipped 10 cityMap point.Point nextPoint = false →
      cityMap.cell nextPoint.Coordinate = some c →
      Q (DijkstraState.link (wrapInt (point.Distance + c)) nextPoint point) ∧
        R point (DijkstraState.link (wrapInt (point.Distance + c)) nextPoint point))
    {fuel : Nat} {table : DijkstraStateMap}
    (h : dijkstra64 fuel cityMap start = Outcome.ok table)
    {k : DijkstraPoint} {e : DijkstraState} (hk : table.lookup k = some e) :
    e.Point = k ∧ e.origin = seedState start ∧ pathStates e ≠ [] ∧ Q e ∧
      ∀ s ∈ pathStates e, ∀ prev, s.Previous = some prev → R prev s ∧ Q prev ∧ Q s := by
  have key := dijkstra64_entries
    (fun e => e.origin = seedState start ∧ Q e ∧
      ∀ s ∈ pathStates e, ∀ prev, s.Previous = some prev → R prev s ∧ Q prev ∧ Q s)
    ?_ ?_ h k e hk
  · obtain ⟨⟨h1, h3, h4⟩, h5, h6⟩ := key
    refine ⟨h5, h1, ?_, h3, h4⟩
    cases e with
    | root d p => simp [DijkstraState.Previous] at h6
    | link d p prev => simp [pathStates]
  · refine ⟨rfl, hseed, ?_⟩
    intro s hs
    simp [seedState, pathStates] at hs
  · intro point np c hP hnp hsk hc
    obtain ⟨h1, h3, h4⟩ := hP
    obtain ⟨hQ, hR⟩ := hstep point np c h3 hnp hsk hc
    refine ⟨h1, hQ, ?_⟩
    · intro s hs prev hprev
      rw [pathStates_link, List.mem_cons] at hs
      rcases hs with rfl | hs
      · simp only [DijkstraState.Previous, Option.some.injEq] at hprev
        subst hprev
        exact ⟨hR, h3, hQ⟩
      · exact h4 s hs prev hprev

theorem relaxOne64_total {cityMap : CityMap} (hwf : WellFormed cityMap)
    (point : DijkstraState) (nextPoint : DijkstraPoint) (q : DijkstraQueue)
    (s : DijkstraStateMap) :
    ∃ q1 s1, relaxOne64 cityMap point nextPoint q s = Outcome.ok (q1, s1) := by
  unfold relaxOne64
  by_cases hsk : skipped 10 cityMap point.Point nextPoint = true
  · simp only [hsk, if_true]
    exact ⟨_, _, rfl⟩
  · have hsk2 : skipped 10 cityMap point.Point nextPoint = false := by simpa using hsk
    obtain ⟨c, hc⟩ := cell_of_inBounds hwf (skipped_eq_false.mp hsk2).1
    simp only [hsk2, Bool.false_eq_true, if_false, hc]
    split
    · exact ⟨_, _, rfl⟩
    · exact ⟨_, _, rfl⟩

theorem relax64_total {cityMap : CityMap} (hwf : WellFormed cityMap)
    (point : DijkstraState) (pts : List DijkstraPoint) (q : DijkstraQueue)
    (s : DijkstraStateMap) :
    ∃ q2 s2, relax64 cityMap point pts q s = Outcome.ok (q2, s2) := by
  induction pts generalizing q s with
  | nil => exact ⟨q, s, rfl⟩
  | cons np rest ih =>
    obtain ⟨q1, s1, h1⟩ := relaxOne64_total hwf point np q s
    obtain ⟨q2, s2, h2⟩ := ih q1 s1
    refine ⟨q2, s2, ?_⟩
    simp only [relax64, h1]
    exact h2

theorem dijkstraLoop64_zero_of_empty (cityMap : CityMap) (fuel : Nat)
    (state : DijkstraStateMap) :
    dijkstraLoop64 cityMap fuel [] state = Outcome.ok state := by
  unfold dijkstraLoop64
  rfl

theorem dijkstraLoop64_succ {cityMap : CityMap} {fuel : Nat}
    {queue queue1 queue2 : DijkstraQueue} {state state2 : DijkstraStateMap}
    {point : DijkstraState} (hp : heapPop queue = some (point, queue1))
    (hr : relax64 cityMap point (nextPoints64 point.Point) queue1 state =
      Outcome.ok (queue2, state2)) :
    dijkstraLoop64 cityMap (fuel + 1) queue state =
      dijkstraLoop64 cityMap fuel queue2 state2 := by
  rw [dijkstraLoop64]
  simp only [hp, hr]

theorem dijkstraLoop64_fuel_mono {cityMap : CityMap} {fuel : Nat}
    {queue : DijkstraQueue} {state table : DijkstraStateMap}
    (h : dijkstraLoop64 cityMap fuel queue state = Outcome.ok table)
    (extra : Nat) :
    dijkstraLoop64 cityMap (fuel + extra) queue state = Outcome.ok table := by
  induction fuel generalizing queue state with
  | zero =>
    rcases dijkstraLoop64_ok h with ⟨hq, ht⟩ | ⟨_, _, _, _, _, _, hf, _, _⟩
    · subst hq; subst ht
      exact dijkstraLoop64_zero_of_empty _ _ _
    · cases hf
  | succ fuel ih =>
    rcases dijkstraLoop64_ok h with ⟨hq, ht⟩ | ⟨point, q1, fuel1, q2, s2, hp, hf, hr, hl⟩
    · subst hq; subst ht
      exact dijkstraLoop64_zero_of_empty _ _ _
    · cases hf
      have : fuel + 1 + extra = (fuel + extra) + 1 := by omega
      rw [this, dijkstraLoop64_succ hp hr]
      exact ih hl

theorem dijkstra64_eq_loop {cityMap : CityMap}
    (hwf : WellFormed cityMap) (fuel : Nat) (start : DijkstraPoint) :
    dijkstra64 fuel cityMap start =
      dijkstraLoop64 cityMap fuel [seedState start] emptyStateMap := by
  obtain ⟨hne, hrows⟩ := hwf
  cases cityMap with
  | nil => exact absurd rfl hne
  | cons row0 rows =>
    have hrow0 := (hrows row0 (List.mem_cons_self _ _)).1
    have hlen : 0 < row0.length := List.length_pos.mpr hrow0
    unfold dijkstra64
    have hcap : ¬ (row0 :: rows).length * row0.length * 4 * 3 < 1 := by
      simp only [List.length_cons, not_lt]
      have : 1 ≤ (rows.length + 1) * row0.length := Nat.mul_pos (by omega) hlen
      omega
    simp only [hcap, if_false, heapInit_singleton]
    rfl

/-- The table the search returns does not depend on the fuel. -/
theorem dijkstra64_unique {cityMap : CityMap} {start : DijkstraPoint}
    {fuel1 fuel2 : Nat} {table1 table2 : DijkstraStateMap}
    (h1 : dijkstra64 fuel1 cityMap start = Outcome.ok table1)
    (h2 : dijkstra64 fuel2 cityMap start = Outcome.ok table2) :
    table1 = table2 := by
  have e1 := dijkstraLoop64_fuel_mono (dijkstra64_ok h1) fuel2
  have e2 := dijkstraLoop64_fuel_mono (dijkstra64_ok h2) fuel1
  rw [Nat.add_comm] at e2
  rw [e1] at e2
  cases e2
  rfl

theorem relaxOne64_below {cityMap : CityMap} {point : DijkstraState}
    {nextPoint : DijkstraPoint} {q q1 : DijkstraQueue} {s s1 : DijkstraStateMap}
    (h : relaxOne64 cityMap point nextPoint q s = Outcome.ok (q1, s1)) : Below s s1 := by
  rcases relaxOne64_ok h with ⟨_, _, hs⟩ | ⟨_, c, _, ⟨_, _, hs⟩ | ⟨himp, _, hs⟩⟩
  · subst hs; exact below_refl _
  · subst hs; exact below_refl _
  · subst hs
    intro k e hk
    rw [lookup_set]
    split
    · rename_i hkn
      subst hkn
      refine ⟨_, rfl, ?_⟩
      rcases improves_eq_true.mp himp with hnone | ⟨old, hold, hlt⟩
      · rw [hnone] at hk
        cases hk
      · rw [hold] at hk
        cases hk
        exact le_of_lt hlt
    · exact ⟨e, hk, le_refl _⟩

theorem relax64_below {cityMap : CityMap} {point : DijkstraState}
    {pts : List DijkstraPoint} {q q2 : DijkstraQueue} {s s2 : DijkstraStateMap}
    (h : relax64 cityMap point pts q s = Outcome.ok (q2, s2)) : Below s s2 :=
  relax64_induction (fun _ s1 => Below s s1) pts
    (fun _ _ _ _ _ _ hJ h1 => below_trans hJ (relaxOne64_below h1)) (below_refl _) h

theorem runMain64_ok {fuel : Nat} {cityMap : CityMap} {report : Report}
    (h : runMain64 fuel cityMap = Outcome.ok report) :
    ∃ table, dijkstra64 fuel cityMap zeroPoint = Outcome.ok table ∧
      report.minState = selectMin 4 10 cityMap table ∧
      markPath (pathStates report.minState) (cityMap.map (fun row => row.map toString)) =
        some report.solution := by
  unfold runMain64 at h
  cases hd : dijkstra64 fuel cityMap zeroPoint with
  | panicked => simp [hd] at h
  | outOfFuel => simp [hd] at h
  | ok table =>
    simp only [hd] at h
    split at h
    · cases h
    · rename_i solution hm
      cases h
      exact ⟨table, rfl, rfl, hm⟩

/-! ## The recorded distance is the sum of the entered costs, wrapped -/

theorem wrapInt_zero : wrapInt 0 = 0 := by decide

theorem recorded_distance_is_wrapped_pathCost {cityMap : CityMap}
    {start : DijkstraPoint} {fuel : Nat} {table : DijkstraStateMap}
    (h : dijkstra64 fuel cityMap start = Outcome.ok table)
    {k : DijkstraPoint} {e : DijkstraState} (hk : table.lookup k = some e) :
    e.origin = seedState start ∧ e.Distance = wrapInt (pathCost cityMap e) ∧
      ∀ s ∈ pathStates e, (∃ c, cityMap.cell s.Point.Coordinate = some c) ∧
        s.Distance = wrapInt (pathCost cityMap s) := by
  have key := chain_steps64 start
    (fun _ s => ∃ c, cityMap.cell s.Point.Coordinate = some c)
    (fun e => e.Distance = wrapInt (pathCost cityMap e)) wrapInt_zero.symm ?_ h hk
  · obtain ⟨_, h2, _, h4, h5⟩ := key
    refine ⟨h2, h4, ?_⟩
    intro s hs
    obtain ⟨prev, hprev⟩ := mem_pathStates_previous hs
    exact ⟨(h5 s hs prev hprev).1, (h5 s hs prev hprev).2.2⟩
  · intro point np c hQ _ _ hc
    refine ⟨?_, c, hc⟩
    beta_reduce at hQ ⊢
    rw [pathCost_link, cost_of_cell hc, distance_link, hQ, wrapInt_add_left, add_comm]

/-- The counterexample to C3 as stated: on the one-row grid whose second cell
has the cost `math.MaxInt` the search records, for the cell `(2, 0)`, the
distance `math.MinInt`, and the costs of the two cells entered on its chain
sum to `math.MaxInt + 1`; `runMain` reports the cost `math.MinInt + 2` with
four cells marked, whose costs sum to `math.MaxInt + 3`. -/
theorem recorded_distance_wraps_around :
    WellFormed overflowMap ∧ NonNeg overflowMap ∧
    recordedEntry (dijkstra64 5 overflowMap zeroPoint) wrappedEntry.Point = some wrappedEntry ∧
    wrappedEntry.Distance = -9223372036854775808 ∧
    pathCost overflowMap wrappedEntry = 9223372036854775808 ∧
    reportSummary (runMain64 5 overflowMap) = some (-9223372036854775806, 4) ∧
    (∀ report, runMain64 5 overflowMap = Outcome.ok report →
      pathCost overflowMap report.minState = 9223372036854775810) := by
  refine ⟨by unfold WellFormed; decide, by unfold NonNeg; decide, by decide, by decide,
    by decide, by decide, ?_⟩
  intro report hr
  have hsum : (match runMain64 5 overflowMap with
      | Outcome.ok r => some (pathCost overflowMap r.minState)
      | _ => none) = some 9223372036854775810 := by decide
  rw [hr] at hsum
  simpa using hsum

/-- C3, amended: the `Distance` of every entry of the table `dijkstra`
returns is the sum of the grid costs of the coordinates of the states on its
`Previous` chain, the seed state at the end of the chain left out (so each
cell entered is counted once and the start cell is not counted), taken in the
64-bit `int`: the sum wrapped around, which is the sum itself when the sum is
a value of the 64-bit `int`. Every such coordinate is a cell of the grid. In
particular, when `runMain` finds a terminal state, the cost it reports is
the sum of the costs along the reconstructed path, wrapped in the same way. -/
theorem distance_is_wrapped_sum_of_entered_costs (cityMap : CityMap) :
    (∀ start fuel table, dijkstra64 fuel cityMap start = Outcome.ok table →
      ∀ k e, table.lookup k = some e →
        e.origin = seedState start ∧ e.Distance = wrapInt (pathCost cityMap e) ∧
          (IsInt (pathCost cityMap e) → e.Distance = pathCost cityMap e) ∧
          ∀ s ∈ pathStates e, ∃ c, cityMap.cell s.Point.Coordinate = some c) ∧
    (∀ fuel report, runMain64 fuel cityMap = Outcome.ok report →
      pathStates report.minState ≠ [] →
        report.minState.Distance = wrapInt (pathCost cityMap report.minState) ∧
        (IsInt (pathCost cityMap report.minState) →
          report.minState.Distance = pathCost cityMap report.minState)) := by
  constructor
  · intro start fuel table h k e hk
    obtain ⟨h1, h2, h3⟩ := recorded_distance_is_wrapped_pathCost h hk
    refine ⟨h1, h2, ?_, fun s hs => (h3 s hs).1⟩
    intro hfit
    rw [h2, wrapInt_of_isInt hfit]
  · intro fuel report h hne
    obtain ⟨table, hd, hmin, _⟩ := runMain64_ok h
    rcases selectMin_cases 4 10 cityMap table with hs | ⟨k, _, hk, _⟩
    · rw [hmin, hs] at hne
      exact absurd rfl hne
    · rw [← hmin] at hk
      have h2 := (recorded_distance_is_wrapped_pathCost hd hk).2.1
      refine ⟨h2, ?_⟩
      intro hfit
      rw [h2, wrapInt_of_isInt hfit]

/-! ## The loop on the 64-bit `int` terminates on every well-formed grid -/

theorem mem_nextPoints64 {p t : DijkstraPoint} (h : t ∈ nextPoints64 p) :
    ∃ direction, t = p.Move64 direction ∧
      ((p.Count > 0 ∧ p.Count < 4) → direction = p.Direction) := by
  unfold nextPoints64 at h
  split at h
  · rename_i hc
    simp only [List.mem_singleton] at h
    exact ⟨p.Direction, h, fun _ => rfl⟩
  · rename_i hc
    simp only [List.mem_cons, List.mem_singleton, List.mem_nil_iff, or_false] at h
    rcases h with h | h | h | h
    · exact ⟨DirectionRight, h, fun hh => absurd hh hc⟩
    · exact ⟨DirectionDown, h, fun hh => absurd hh hc⟩
    · exact ⟨DirectionLeft, h, fun hh => absurd hh hc⟩
    · exact ⟨DirectionUp, h, fun hh => absurd hh hc⟩

theorem move64_count (p : DijkstraPoint) (direction : Direction) :
    (p.Move64 direction).Count = if p.Direction = direction then wrapInt (p.Count + 1) else 1 :=
  rfl

theorem isInt_one : IsInt 1 := by
  unfold IsInt
  omega

theorem isInt_move64_count (p : DijkstraPoint) (direction : Direction) :
    IsInt (p.Move64 direction).Count := by
  rw [move64_count]
  split
  · exact isInt_wrapInt _
  · exact isInt_one

theorem tame64_seed (cityMap : CityMap) (start : DijkstraPoint) :
    Tame64 cityMap (seedState start) := by
  refine ⟨isInt_zero, ?_⟩
  intro h
  simp [seedState] at h

theorem tame64_step {cityMap : CityMap} {point : DijkstraState} {nextPoint : DijkstraPoint}
    {c : Int} (hnp : nextPoint ∈ nextPoints64 point.Point)
    (hsk : skipped 10 cityMap point.Point nextPoint = false) :
    Tame64 cityMap (DijkstraState.link (wrapInt (point.Distance + c)) nextPoint point) := by
  obtain ⟨hin, hmax, _⟩ := skipped_eq_false.mp hsk
  obtain ⟨direction, rfl, _⟩ := mem_nextPoints64 hnp
  exact ⟨isInt_wrapInt _, fun _ => ⟨hin, isInt_move64_count _ _, hmax⟩⟩

theorem totalDistance64_set_of_present {V : Finset DijkstraPoint} {s : DijkstraStateMap}
    {k : DijkstraPoint} (e : DijkstraState) {old : DijkstraState} (hk : k ∈ V)
    (hold : s.lookup k = some old) (h0 : IsInt e.Distance) (hlt : e.Distance < old.Distance) :
    totalDistance64 V (s.set k e) < totalDistance64 V s := by
  unfold IsInt at h0
  unfold totalDistance64
  apply Finset.sum_lt_sum
  · intro x _
    rw [lookup_set]
    by_cases hxk : x = k
    · subst hxk
      simp only [if_true, hold]
      omega
    · simp [hxk]
  · refine ⟨k, hk, ?_⟩
    rw [lookup_set]
    simp only [if_true, hold]
    omega

theorem measureLE64_refl (V : Finset DijkstraPoint) (q : DijkstraQueue) (s : DijkstraStateMap) :
    MeasureLE64 V q s q s :=
  Or.inr ⟨rfl, le_refl _⟩

theorem measureLE64_trans {V : Finset DijkstraPoint} {q1 q2 q3 : DijkstraQueue}
    {s1 s2 s3 : DijkstraStateMap} (h12 : MeasureLE64 V q1 s1 q2 s2)
    (h23 : MeasureLE64 V q2 s2 q3 s3) : MeasureLE64 V q1 s1 q3 s3 := by
  unfold MeasureLE64 at *
  omega

theorem relaxOne64_measure {cityMap : CityMap} {V : Finset DijkstraPoint}
    (hV : ∀ k : DijkstraPoint,
      cityMap.InBounds k.Coordinate = true → IsInt k.Count → k.Count ≤ 10 → k ∈ V)
    {point : DijkstraState} {nextPoint : DijkstraPoint}
    (hnp : nextPoint ∈ nextPoints64 point.Point)
    {q q1 : DijkstraQueue} {s s1 : DijkstraStateMap}
    (h : relaxOne64 cityMap point nextPoint q s = Outcome.ok (q1, s1)) :
    MeasureLE64 V q s q1 s1 := by
  rcases relaxOne64_ok h with ⟨_, hq, hs⟩ | ⟨hsk, c, hc, ⟨_, hq, hs⟩ | ⟨himp, hq, hs⟩⟩
  · subst hq; subst hs; exact measureLE64_refl _ _ _
  · subst hq; subst hs; exact measureLE64_refl _ _ _
  · have htame : Tame64 cityMap
        (DijkstraState.link (wrapInt (point.Distance + c)) nextPoint point) :=
      tame64_step hnp hsk
    have hmem : nextPoint ∈ V := by
      obtain ⟨_, h3⟩ := htame
      obtain ⟨hin, h1, h2⟩ := h3 (by simp)
      exact hV nextPoint hin h1 h2
    subst hq; subst hs
    rcases improves_eq_true.mp himp with hnone | ⟨old, hold, hlt⟩
    · exact Or.inl (absentCount_set_of_absent _ hmem hnone)
    · right
      refine ⟨absentCount_set_of_present _ hold, ?_⟩
      have := totalDistance64_set_of_present
        (DijkstraState.link (wrapInt (point.Distance + c)) nextPoint point) hmem hold
        htame.1 hlt
      rw [length_heapPush]
      omega

theorem relax64_measure {cityMap : CityMap} {V : Finset DijkstraPoint}
    (hV : ∀ k : DijkstraPoint,
      cityMap.InBounds k.Coordinate = true → IsInt k.Count → k.Count ≤ 10 → k ∈ V)
    {point : DijkstraState} {q q2 : DijkstraQueue} {s s2 : DijkstraStateMap}
    (h0 : AllEntries (Tame64 cityMap) q s)
    (h : relax64 cityMap point (nextPoints64 point.Point) q s = Outcome.ok (q2, s2)) :
    AllEntries (Tame64 cityMap) q2 s2 ∧ MeasureLE64 V q s q2 s2 := by
  refine relax64_induction
    (fun q1 s1 => AllEntries (Tame64 cityMap) q1 s1 ∧ MeasureLE64 V q s q1 s1) _ ?_
    ⟨h0, measureLE64_refl _ _ _⟩ h
  intro np hnp qa sa qb sb hJ h1
  refine ⟨?_, measureLE64_trans hJ.2 (relaxOne64_measure hV hnp h1)⟩
  exact relaxOne64_entries (Tame64 cityMap) (fun c hsk _ => tame64_step hnp hsk) hJ.1 h1

theorem exists_state_finset64 (cityMap : CityMap) :
    ∃ V : Finset DijkstraPoint, ∀ k : DijkstraPoint,
      cityMap.InBounds k.Coordinate = true → IsInt k.Count → k.Count ≤ 10 → k ∈ V := by
  obtain ⟨V, hV⟩ := exists_state_finset_from (-(2 ^ 63) - 1) 10 cityMap
  refine ⟨V, ?_⟩
  intro k hin hint hmax
  unfold IsInt at hint
  exact hV k hin (by omega) hmax

theorem dijkstraLoop64_terminates {cityMap : CityMap} (hwf : WellFormed cityMap)
    {V : Finset DijkstraPoint}
    (hV : ∀ k : DijkstraPoint,
      cityMap.InBounds k.Coordinate = true → IsInt k.Count → k.Count ≤ 10 → k ∈ V) :
    ∀ (a n : Nat) (q : DijkstraQueue) (s : DijkstraStateMap),
      absentCount V s = a → q.length + totalDistance64 V s = n →
      AllEntries (Tame64 cityMap) q s →
      ∃ fuel table, dijkstraLoop64 cityMap fuel q s = Outcome.ok table ∧
        ∀ k e, table.lookup k = some e → k ∈ V ∧ IsInt e.Distance := by
  intro a
  induction a using Nat.strong_induction_on with
  | _ a iha =>
    intro n
    induction n using Nat.strong_induction_on with
    | _ n ihn =>
      intro q s ha hn hall
      cases hp : heapPop q with
      | none =>
        rw [heapPop_eq_none] at hp
        subst hp
        refine ⟨0, s, dijkstraLoop64_zero_of_empty _ _ _, ?_⟩
        intro k e hk
        obtain ⟨⟨hd, h3⟩, hpoint, hprev⟩ := hall.2 k e hk
        obtain ⟨hin, h1, h2⟩ := h3 hprev
        rw [hpoint] at hin h1 h2
        exact ⟨hV k hin h1 h2, hd⟩
      | some pq =>
        obtain ⟨point, q1⟩ := pq
        have hperm := heapPop_perm hp
        have hlen : q.length = q1.length + 1 := by
          rw [hperm.length_eq]
          simp
        have hall1 : AllEntries (Tame64 cityMap) q1 s :=
          ⟨fun e he => hall.1 e (hperm.mem_iff.mpr (List.mem_cons_of_mem _ he)), hall.2⟩
        obtain ⟨q2, s2, hr⟩ := relax64_total hwf point (nextPoints64 point.Point) q1 s
        obtain ⟨hall2, hm⟩ := relax64_measure hV hall1 hr
        have hrec : ∃ fuel table,
            dijkstraLoop64 cityMap fuel q2 s2 = Outcome.ok table ∧
              ∀ k e, table.lookup k = some e → k ∈ V ∧ IsInt e.Distance := by
          rcases hm with hlt | ⟨heq, hle⟩
          · exact iha _ (ha ▸ hlt) _ q2 s2 rfl rfl hall2
          · exact ihn _ (by omega) q2 s2 (heq.trans ha) rfl hall2
        obtain ⟨fuel, table, hf, hkeys⟩ := hrec
        exact ⟨fuel + 1, table, (dijkstraLoop64_succ hp hr).trans hf, hkeys⟩

/-- On a well-formed grid the search on the 64-bit `int` returns a table when
it is given enough fuel, whatever the costs and the seed. -/
theorem dijkstra64_returns {cityMap : CityMap} (hwf : WellFormed cityMap)
    (start : DijkstraPoint) :
    ∃ (V : Finset DijkstraPoint) (fuel : Nat) (table : DijkstraStateMap),
      (∀ extra, dijkstra64 (fuel + extra) cityMap start = Outcome.ok table) ∧
      ∀ k e, table.lookup k = some e → k ∈ V ∧ IsInt e.Distance := by
  obtain ⟨V, hV⟩ := exists_state_finset64 cityMap
  have hall : AllEntries (Tame64 cityMap) [seedState start] emptyStateMap := by
    constructor
    · intro e he
      simp only [List.mem_singleton] at he
      subst he
      exact tame64_seed cityMap start
    · intro k e hk
      simp [emptyStateMap, DijkstraStateMap.lookup] at hk
  obtain ⟨fuel, table, hf, hkeys⟩ :=
    dijkstraLoop64_terminates hwf hV _ _ _ _ rfl rfl hall
  refine ⟨V, fuel, table, ?_, hkeys⟩
  intro extra
  exact (dijkstra64_eq_loop hwf (fuel + extra) start).trans (dijkstraLoop64_fuel_mono hf extra)

/-! ## On a grid that fits, no sum of the search wraps around -/

theorem cell_le_bound {cityMap : CityMap} {bound : Int}
    (hb : ∀ row ∈ cityMap, ∀ c ∈ row, c ≤ bound) {p : Point2D} {c : Int}
    (h : cityMap.cell p = some c) : c ≤ bound := by
  obtain ⟨row, hrow, hc⟩ := cell_mem h
  exact hb row hrow c hc

theorem simple_mono {bound : Int} {s s1 : DijkstraStateMap} (hb : Below s s1)
    {e : DijkstraState} (h : Simple bound s e) : Simple bound s1 e := by
  refine ⟨h.1, h.2.1, ?_⟩
  intro a ha
  obtain ⟨r, hr, hd⟩ := h.2.2 a ha
  obtain ⟨r1, hr1, hd1⟩ := hb _ _ hr
  exact ⟨r1, hr1, le_trans hd1 hd⟩

theorem simple_seed (bound : Int) (s : DijkstraStateMap) (start : DijkstraPoint) :
    Simple bound s (seedState start) := by
  refine ⟨?_, ?_, ?_⟩
  · simp [seedState, pathStates]
  · simp [seedState, pathStates]
  · intro a ha
    simp [seedState, pathStates] at ha

theorem relaxOne_simple {cityMap : CityMap} (hnn : NonNeg cityMap) {bound : Int}
    (hbound : ∀ row ∈ cityMap, ∀ c ∈ row, c ≤ bound)
    {point : DijkstraState} {nextPoint : DijkstraPoint} {q q1 : DijkstraQueue}
    {s s1 : DijkstraStateMap}
    (h0 : Simple bound s point ∧ (∀ e ∈ q, Simple bound s e) ∧
      ∀ k e, s.lookup k = some e → Simple bound s e)
    (h : relaxOne 10 cityMap point nextPoint q s = Outcome.ok (q1, s1)) :
    Simple bound s1 point ∧ (∀ e ∈ q1, Simple bound s1 e) ∧
      ∀ k e, s1.lookup k = some e → Simple bound s1 e := by
  have hb := relaxOne_below h
  rcases relaxOne_ok h with ⟨_, hq, hs⟩ | ⟨_, c, hc, ⟨_, hq, hs⟩ | ⟨himp, hq, hs⟩⟩
  · subst hq; subst hs; exact h0
  · subst hq; subst hs; exact h0
  · obtain ⟨hpt, hqs, hss⟩ := h0
    have hc0 := cell_nonneg hnn hc
    have hcb := cell_le_bound hbound hc
    have hnew : Simple bound s1 (DijkstraState.link (point.Distance + c) nextPoint point) := by
      refine ⟨?_, ?_, ?_⟩
      · rw [pathStates_link, distance_link, List.length_cons]
        have h1 := hpt.1
        push_cast
        rw [add_mul, one_mul]
        linarith
      · rw [pathStates_link, List.map_cons, point_link, List.nodup_cons]
        refine ⟨?_, hpt.2.1⟩
        intro hmem
        obtain ⟨a, ha, hap⟩ := List.mem_map.mp hmem
        obtain ⟨r, hr, hd⟩ := hpt.2.2 a ha
        rw [hap] at hr
        rcases improves_eq_true.mp himp with hnone | ⟨old, hold, hlt⟩
        · rw [hnone] at hr
          cases hr
        · rw [hold] at hr
          cases hr
          omega
      · intro a ha
        rw [pathStates_link] at ha
        rcases List.mem_cons.mp ha with rfl | ha
        · refine ⟨_, ?_, le_refl _⟩
          rw [hs, lookup_set]
          simp
        · obtain ⟨r, hr, hd⟩ := hpt.2.2 a ha
          obtain ⟨r1, hr1, hd1⟩ := hb _ _ hr
          refine ⟨r1, hr1, ?_⟩
          rw [distance_link]
          omega
    refine ⟨simple_mono hb hpt, ?_, ?_⟩
    · intro e he
      rw [hq] at he
      rcases mem_heapPush.mp he with rfl | he
      · exact hnew
      · exact simple_mono hb (hqs e he)
    · intro k e hk
      rw [hs, lookup_set] at hk
      split at hk
      · cases hk
        exact hnew
      · exact simple_mono hb (hss k e hk)

/-- On a grid of non-negative costs, at the head of every iteration the chain
of every entry visits no state twice. -/
theorem run_simple {cityMap : CityMap} (hnn : NonNeg cityMap) {bound : Int}
    (hbound : ∀ row ∈ cityMap, ∀ c ∈ row, c ≤ bound)
    {start : DijkstraPoint} {pops : List DijkstraState} {q : DijkstraQueue}
    {s : DijkstraStateMap} (h : Run 4 10 cityMap start pops q s) :
    (∀ e ∈ q, Simple bound s e) ∧ ∀ k e, s.lookup k = some e → Simple bound s e := by
  induction h with
  | init =>
    rw [heapInit_singleton]
    constructor
    · intro e he
      simp only [List.mem_singleton] at he
      subst he
      exact simple_seed _ _ _
    · intro k e hk
      simp [emptyStateMap, DijkstraStateMap.lookup] at hk
  | step hrun hp hr ih =>
    rename_i pops q q1 q2 s s2 point
    have hperm := heapPop_perm hp
    have hpt := ih.1 point (hperm.mem_iff.mpr (List.mem_cons_self _ _))
    have hq1 : ∀ e ∈ q1, Simple bound s e :=
      fun e he => ih.1 e (hperm.mem_iff.mpr (List.mem_cons_of_mem _ he))
    exact (relax_induction
      (fun qa sa => Simple bound sa point ∧ (∀ e ∈ qa, Simple bound sa e) ∧
        ∀ k e, sa.lookup k = some e → Simple bound sa e) _
      (fun _ _ _ _ _ _ hJ h1 => relaxOne_simple hnn hbound hJ h1) ⟨hpt, hq1, ih.2⟩ hr).2

theorem dims_lt_of_inBounds {cityMap : CityMap}
    (hprod : (cityMap.length : Int) * ((cityMap.headD []).length : Int) < 2 ^ 63)
    {p : Point2D} (h : cityMap.InBounds p = true) :
    (cityMap.length : Int) < 2 ^ 63 ∧ ((cityMap.headD []).length : Int) < 2 ^ 63 := by
  obtain ⟨hy0, hy1, hx0, hx1⟩ := (inBounds_iff cityMap p).mp h
  have h1 : (cityMap.length : Int) ≤
      (cityMap.length : Int) * ((cityMap.headD []).length : Int) :=
    le_mul_of_one_le_right (by omega) (by omega)
  have h2 : ((cityMap.headD []).length : Int) ≤
      (cityMap.length : Int) * ((cityMap.headD []).length : Int) :=
    le_mul_of_one_le_left (by omega) (by omega)
  omega

theorem isInt_of_inBounds {cityMap : CityMap}
    (hprod : (cityMap.length : Int) * ((cityMap.headD []).length : Int) < 2 ^ 63)
    {p : Point2D} (h : cityMap.InBounds p = true) : IsInt p.X ∧ IsInt p.Y := by
  obtain ⟨hrows, hcols⟩ := dims_lt_of_inBounds hprod h
  obtain ⟨hy0, hy1, hx0, hx1⟩ := (inBounds_iff cityMap p).mp h
  unfold IsInt
  omega

theorem small_seed (cityMap : CityMap) {start : DijkstraPoint} (hc : 0 ≤ start.Count ∧ start.Count ≤ 10)
    (hx : IsInt start.Coordinate.X) (hy : IsInt start.Coordinate.Y) :
    Small cityMap (seedState start) := by
  refine ⟨le_refl _, hc.1, hc.2, hx, hy, ?_⟩
  · intro h
    simp [seedState] at h

theorem small_step {cityMap : CityMap} (hnn : NonNeg cityMap)
    (hprod : (cityMap.length : Int) * ((cityMap.headD []).length : Int) < 2 ^ 63)
    {point : DijkstraState} {nextPoint : DijkstraPoint} {c : Int}
    (hpt : Small cityMap point) (hnp : nextPoint ∈ nextPoints 4 point.Point)
    (hsk : skipped 10 cityMap point.Point nextPoint = false)
    (hc : cityMap.cell nextPoint.Coordinate = some c) :
    Small cityMap (DijkstraState.link (point.Distance + c) nextPoint point) := by
  obtain ⟨hd, hcount, _, _, _, _⟩ := hpt
  obtain ⟨hin, hmax, _⟩ := skipped_eq_false.mp hsk
  obtain ⟨hx, hy⟩ := isInt_of_inBounds hprod hin
  obtain ⟨direction, rfl, _⟩ := mem_nextPoints hnp
  have hc0 := cell_nonneg hnn hc
  have hone : 1 ≤ (point.Point.Move direction).Count := by
    rw [move_count]
    split <;> omega
  refine ⟨?_, ?_, ?_, ?_, ?_, fun _ => ⟨hin, ?_⟩⟩
  · simp only [distance_link]
    omega
  · simp only [point_link]
    omega
  · simp only [point_link]
    exact hmax
  · simp only [point_link]
    exact hx
  · simp only [point_link]
    exact hy
  · simp only [point_link]
    exact hone

/-- From a seed of run-length 0 to 10 on a grid of non-negative costs, every
entry at the head of every iteration is small. -/
theorem run_small {cityMap : CityMap} (hnn : NonNeg cityMap)
    (hprod : (cityMap.length : Int) * ((cityMap.headD []).length : Int) < 2 ^ 63)
    {start : DijkstraPoint} (hc : 0 ≤ start.Count ∧ start.Count ≤ 10)
    (hx : IsInt start.Coordinate.X) (hy : IsInt start.Coordinate.Y)
    {pops : List DijkstraState} {q : DijkstraQueue}
    {s : DijkstraStateMap} (h : Run 4 10 cityMap start pops q s) :
    AllEntries (Small cityMap) q s := by
  induction h with
  | init =>
    rw [heapInit_singleton]
    constructor
    · intro e he
      simp only [List.mem_singleton] at he
      subst he
      exact small_seed cityMap hc hx hy
    · intro k e hk
      simp [emptyStateMap, DijkstraStateMap.lookup] at hk
  | step hrun hp hr ih =>
    rename_i pops q q1 q2 s s2 point
    have hperm := heapPop_perm hp
    have hpt := ih.1 point (hperm.mem_iff.mpr (List.mem_cons_self _ _))
    have hall1 : AllEntries (Small cityMap) q1 s :=
      ⟨fun e he => ih.1 e (hperm.mem_iff.mpr (List.mem_cons_of_mem _ he)), ih.2⟩
    exact relax_induction (AllEntries (Small cityMap)) _
      (fun np hnp _ _ _ _ hJ h1 =>
        relaxOne_entries (Small cityMap)
          (fun c hsk hc => small_step hnn hprod hpt hnp hsk hc) hJ h1) hall1 hr

theorem exists_state_finset_card (cityMap : CityMap) :
    ∃ V : Finset DijkstraPoint,
      (∀ k : DijkstraPoint,
        cityMap.InBounds k.Coordinate = true → 1 ≤ k.Count → k.Count ≤ 10 → k ∈ V) ∧
      (V.card : Int) ≤
        40 * ((cityMap.length : Int) * ((cityMap.headD []).length : Int)) := by
  refine ⟨(Finset.Icc (1 : Int) 10 ×ˢ
      (({DirectionRight, DirectionDown, DirectionLeft, DirectionUp} : Finset Direction) ×ˢ
        (Finset.Ico (0 : Int) ((cityMap.headD []).length : Int) ×ˢ
          Finset.Ico (0 : Int) (cityMap.length : Int)))).image
      (fun x => { Count := x.1, Direction := x.2.1,
                  Coordinate := { X := x.2.2.1, Y := x.2.2.2 } }), ?_, ?_⟩
  · intro k hin h1 h2
    obtain ⟨hy0, hy1, hx0, hx1⟩ := (inBounds_iff cityMap k.Coordinate).mp hin
    rw [Finset.mem_image]
    refine ⟨(k.Count, k.Direction, k.Coordinate.X, k.Coordinate.Y), ?_, rfl⟩
    simp only [Finset.mem_product, Finset.mem_Icc, Finset.mem_Ico, Finset.mem_insert,
      Finset.mem_singleton]
    refine ⟨⟨h1, h2⟩, ?_, ⟨hx0, hx1⟩, ⟨hy0, hy1⟩⟩
    cases k.Direction <;> simp
  · have h4 : ({DirectionRight, DirectionDown, DirectionLeft, DirectionUp} :
        Finset Direction).card = 4 := by decide
    refine le_trans (Int.ofNat_le.mpr Finset.card_image_le) ?_
    rw [Finset.card_product, Finset.card_product, Finset.card_product, h4, Int.card_Icc,
      Int.card_Ico, Int.card_Ico]
    simp only [sub_zero, Int.toNat_ofNat]
    have h10 : ((10 : Int) + 1 - 1).toNat = 10 := by decide
    rw [h10]
    push_cast
    linarith

theorem simple_length_le {cityMap : CityMap} {V : Finset DijkstraPoint}
    (hV : ∀ k : DijkstraPoint,
      cityMap.InBounds k.Coordinate = true → 1 ≤ k.Count → k.Count ≤ 10 → k ∈ V)
    {bound : Int} {q : DijkstraQueue} {s : DijkstraStateMap}
    (hall : AllEntries (Small cityMap) q s) {e : DijkstraState} (h : Simple bound s e) :
    (pathStates e).length ≤ V.card := by
  have hsub : ((pathStates e).map DijkstraState.Point).toFinset ⊆ V := by
    intro k hk
    rw [List.mem_toFinset] at hk
    obtain ⟨a, ha, hap⟩ := List.mem_map.mp hk
    obtain ⟨r, hr, _⟩ := h.2.2 a ha
    rw [hap] at hr
    obtain ⟨⟨_, _, h10, _, _, hprev⟩, hpoint, hne⟩ := hall.2 k r hr
    obtain ⟨hin, h1⟩ := hprev hne
    rw [hpoint] at hin h1 h10
    exact hV k hin h1 h10
  have hcard := Finset.card_le_card hsub
  rw [List.toFinset_card_of_nodup h.2.1, List.length_map] at hcard
  exact hcard

/-- The constants a grid that fits provides: a bound on the costs, and the
number of cells as a value of the 64-bit `int`. -/
theorem fits_unfold {cityMap : CityMap} (hfit : Fits cityMap) :
    ∃ bound : Int, 1 ≤ bound ∧ (∀ row ∈ cityMap, ∀ c ∈ row, c ≤ bound) ∧
      (40 * ((cityMap.length : Int) * ((cityMap.headD []).length : Int)) + 1) * bound <
        2 ^ 63 ∧
      (cityMap.length : Int) * ((cityMap.headD []).length : Int) < 2 ^ 63 := by
  obtain ⟨bound, hb1, hbound, hprod⟩ := hfit
  refine ⟨bound, hb1, hbound, hprod, ?_⟩
  have h0 : (0 : Int) ≤ (cityMap.length : Int) * ((cityMap.headD []).length : Int) :=
    mul_nonneg (by omega) (by omega)
  have h2 : 40 * ((cityMap.length : Int) * ((cityMap.headD []).length : Int)) + 1 ≤
      (40 * ((cityMap.length : Int) * ((cityMap.headD []).length : Int)) + 1) * bound :=
    le_mul_of_one_le_right (by omega) hb1
  omega

/-- On a grid that fits, the distance of every entry at the head of an
iteration plus a cost of the grid is a value of the 64-bit `int`. -/
theorem run_distance_fits {cityMap : CityMap}
    (hnn : NonNeg cityMap) (hfit : Fits cityMap)
    {start : DijkstraPoint} (hc : 0 ≤ start.Count ∧ start.Count ≤ 10)
    (hx : IsInt start.Coordinate.X) (hy : IsInt start.Coordinate.Y)
    {pops : List DijkstraState} {q : DijkstraQueue}
    {s : DijkstraStateMap} (h : Run 4 10 cityMap start pops q s)
    {e : DijkstraState} (he : e ∈ q) {p : Point2D} {c : Int}
    (hcell : cityMap.cell p = some c) : IsInt (e.Distance + c) := by
  obtain ⟨bound, hb1, hbound, hfull, hprod⟩ := fits_unfold hfit
  obtain ⟨V, hV, hcard⟩ := exists_state_finset_card cityMap
  have hall := run_small hnn hprod hc hx hy h
  have hsimple := (run_simple hnn hbound h).1 e he
  have hlen := simple_length_le hV hall hsimple
  have hlen2 : ((pathStates e).length : Int) ≤ (V.card : Int) := by exact_mod_cast hlen
  have hd0 := (hall.1 e he).1
  have hd1 := hsimple.1
  have hc0 := cell_nonneg hnn hcell
  have hcb := cell_le_bound hbound hcell
  have h2 : ((pathStates e).length : Int) * bound ≤
      40 * ((cityMap.length : Int) * ((cityMap.headD []).length : Int)) * bound :=
    mul_le_mul_of_nonneg_right (le_trans hlen2 hcard) (by omega)
  unfold IsInt
  constructor
  · omega
  · have h3 : (40 * ((cityMap.length : Int) * ((cityMap.headD []).length : Int)) + 1) * bound =
        40 * ((cityMap.length : Int) * ((cityMap.headD []).length : Int)) * bound + bound := by
      ring
    rw [h3] at hfull
    linarith

theorem toVector_small (d : Direction) :
    -1 ≤ d.ToVector.X ∧ d.ToVector.X ≤ 1 ∧ -1 ≤ d.ToVector.Y ∧ d.ToVector.Y ≤ 1 := by
  cases d <;> decide

theorem inBounds_eq_false {cityMap : CityMap} {p : Point2D}
    (h : p.Y < 0 ∨ (cityMap.length : Int) ≤ p.Y ∨ p.X < 0 ∨
      ((cityMap.headD []).length : Int) ≤ p.X) : cityMap.InBounds p = false := by
  cases hb : cityMap.InBounds p with
  | false => rfl
  | true =>
    obtain ⟨hy0, hy1, hx0, hx1⟩ := (inBounds_iff cityMap p).mp hb
    omega

/-- A move on the 64-bit `int` from a state of the search is the exact move,
or both leave the grid. -/
theorem move64_eq_or_outside {cityMap : CityMap}
    (hprod : (cityMap.length : Int) * ((cityMap.headD []).length : Int) < 2 ^ 63)
    {p : DijkstraPoint}
    (h0 : 0 ≤ p.Count) (h10 : p.Count ≤ 10) (hx : IsInt p.Coordinate.X)
    (hy : IsInt p.Coordinate.Y) (d : Direction) :
    p.Move64 d = p.Move d ∨
      (cityMap.InBounds (p.Move64 d).Coordinate = false ∧
        cityMap.InBounds (p.Move d).Coordinate = false) := by
  obtain ⟨v1, v2, v3, v4⟩ := toVector_small d
  unfold IsInt at hx hy
  by_cases hfit : IsInt (p.Coordinate.X + d.ToVector.X) ∧ IsInt (p.Coordinate.Y + d.ToVector.Y)
  · left
    have hcount : IsInt (p.Count + 1) := by
      unfold IsInt
      omega
    unfold DijkstraPoint.Move64 DijkstraPoint.Move Point2D.Add64 Point2D.Add
    rw [wrapInt_of_isInt hfit.1, wrapInt_of_isInt hfit.2, wrapInt_of_isInt hcount]
  · right
    unfold IsInt at hfit
    constructor
    · cases hb : cityMap.InBounds (p.Move64 d).Coordinate with
      | false => rfl
      | true =>
        obtain ⟨hrows, hcols⟩ := dims_lt_of_inBounds hprod hb
        obtain ⟨hy0, hy1, hx0, hx1⟩ := (inBounds_iff cityMap _).mp hb
        simp only [DijkstraPoint.Move64, Point2D.Add64] at hy0 hy1 hx0 hx1
        unfold wrapInt at hy0 hy1 hx0 hx1
        omega
    · cases hb : cityMap.InBounds (p.Move d).Coordinate with
      | false => rfl
      | true =>
        obtain ⟨hrows, hcols⟩ := dims_lt_of_inBounds hprod hb
        obtain ⟨hy0, hy1, hx0, hx1⟩ := (inBounds_iff cityMap _).mp hb
        simp only [DijkstraPoint.Move, Point2D.Add] at hy0 hy1 hx0 hx1
        omega

theorem skipped_of_outside {cityMap : CityMap} {p t : DijkstraPoint}
    (h : cityMap.InBounds t.Coordinate = false) : skipped 10 cityMap p t = true := by
  unfold skipped
  simp [h]

theorem relaxOne64_eq_relaxOne {cityMap : CityMap}
    (hprod : (cityMap.length : Int) * ((cityMap.headD []).length : Int) < 2 ^ 63)
    {point : DijkstraState} (hsmall : Small cityMap point)
    (hdist : ∀ (p : Point2D) (c : Int), cityMap.cell p = some c → IsInt (point.Distance + c))
    (d : Direction) (q : DijkstraQueue) (s : DijkstraStateMap) :
    relaxOne64 cityMap point (point.Point.Move64 d) q s =
      relaxOne 10 cityMap point (point.Point.Move d) q s := by
  obtain ⟨_, h0, h10, hx, hy, _⟩ := hsmall
  rcases move64_eq_or_outside hprod h0 h10 hx hy d with heq | ⟨h64, hex⟩
  · rw [heq]
    unfold relaxOne64 relaxOne
    split
    · rfl
    · cases hc : cityMap.cell (point.Point.Move d).Coordinate with
      | none => rfl
      | some c =>
        simp only
        rw [wrapInt_of_isInt (hdist _ c hc)]
  · unfold relaxOne64 relaxOne
    rw [skipped_of_outside h64, skipped_of_outside hex]
    rfl

theorem relax64_cons_eq {cityMap : CityMap} {point : DijkstraState}
    {t64 t : DijkstraPoint} {rest64 rest : List DijkstraPoint}
    (h1 : ∀ q s, relaxOne64 cityMap point t64 q s = relaxOne 10 cityMap point t q s)
    (h2 : ∀ q s, relax64 cityMap point rest64 q s = relax 10 cityMap point rest q s)
    (q : DijkstraQueue) (s : DijkstraStateMap) :
    relax64 cityMap point (t64 :: rest64) q s = relax 10 cityMap point (t :: rest) q s := by
  simp only [relax64, relax]
  rw [h1]
  cases relaxOne 10 cityMap point t q s with
  | ok qs =>
    obtain ⟨q1, s1⟩ := qs
    exact h2 q1 s1
  | panicked => rfl
  | outOfFuel => rfl

theorem relax64_eq_relax {cityMap : CityMap}
    (hprod : (cityMap.length : Int) * ((cityMap.headD []).length : Int) < 2 ^ 63)
    {point : DijkstraState} (hsmall : Small cityMap point)
    (hdist : ∀ (p : Point2D) (c : Int), cityMap.cell p = some c → IsInt (point.Distance + c))
    (q : DijkstraQueue) (s : DijkstraStateMap) :
    relax64 cityMap point (nextPoints64 point.Point) q s =
      relax 10 cityMap point (nextPoints 4 point.Point) q s := by
  have hone := relaxOne64_eq_relaxOne hprod hsmall hdist
  have hnil : ∀ q s, relax64 cityMap point [] q s = relax 10 cityMap point [] q s :=
    fun _ _ => rfl
  unfold nextPoints64 nextPoints
  by_cases hc : point.Point.Count > 0 ∧ point.Point.Count < 4
  · rw [if_pos hc, if_pos hc]
    exact relax64_cons_eq (hone _) hnil q s
  · rw [if_neg hc, if_neg hc]
    exact relax64_cons_eq (hone _) (relax64_cons_eq (hone _)
      (relax64_cons_eq (hone _) (relax64_cons_eq (hone _) hnil))) q s

/-- On a grid of non-negative costs that fits, an iteration of the loop on
the 64-bit `int` is the iteration of the exact loop. -/
theorem run_step_eq {cityMap : CityMap}
    (hnn : NonNeg cityMap) (hfit : Fits cityMap)
    {start : DijkstraPoint} (hc : 0 ≤ start.Count ∧ start.Count ≤ 10)
    (hx : IsInt start.Coordinate.X) (hy : IsInt start.Coordinate.Y)
    {pops : List DijkstraState} {q : DijkstraQueue}
    {s : DijkstraStateMap} (h : Run 4 10 cityMap start pops q s)
    {point : DijkstraState} {q1 : DijkstraQueue} (hp : heapPop q = some (point, q1))
    (qa : DijkstraQueue) (sa : DijkstraStateMap) :
    relax64 cityMap point (nextPoints64 point.Point) qa sa =
      relax 10 cityMap point (nextPoints 4 point.Point) qa sa := by
  obtain ⟨bound, hb1, hbound, hfull, hprod⟩ := fits_unfold hfit
  have hmem : point ∈ q := (heapPop_perm hp).mem_iff.mpr (List.mem_cons_self _ _)
  exact relax64_eq_relax hprod ((run_small hnn hprod hc hx hy h).1 point hmem)
    (fun p c hcell => run_distance_fits hnn hfit hc hx hy h hmem hcell) qa sa

/-- On a grid of non-negative costs that fits, the loop on the 64-bit `int`
passes through the loop heads of the exact loop. -/
theorem run64_iff_run {cityMap : CityMap}
    (hnn : NonNeg cityMap) (hfit : Fits cityMap)
    {start : DijkstraPoint} (hc : 0 ≤ start.Count ∧ start.Count ≤ 10)
    (hx : IsInt start.Coordinate.X) (hy : IsInt start.Coordinate.Y)
    {pops : List DijkstraState} {q : DijkstraQueue} {s : DijkstraStateMap} :
    Run64 cityMap start pops q s ↔ Run 4 10 cityMap start pops q s := by
  constructor
  · intro h
    induction h with
    | init => exact Run.init
    | step hrun hp hr ih =>
      rw [run_step_eq hnn hfit hc hx hy ih hp] at hr
      exact Run.step ih hp hr
  · intro h
    induction h with
    | init => exact Run64.init
    | step hrun hp hr ih =>
      rw [← run_step_eq hnn hfit hc hx hy hrun hp] at hr
      exact Run64.step ih hp hr

theorem run_later {cityMap : CityMap} {start : DijkstraPoint}
    {pops : List DijkstraState} {q q3 : DijkstraQueue} {s s3 : DijkstraStateMap}
    (hrun : Run 4 10 cityMap start pops q s) (h : Later 4 10 cityMap q s q3 s3) :
    ∃ pops3, Run 4 10 cityMap start pops3 q3 s3 := by
  induction h with
  | refl => exact ⟨pops, hrun⟩
  | step _ hp hr ih =>
    obtain ⟨pops2, h2⟩ := ih
    exact ⟨_, Run.step h2 hp hr⟩

/-- On a grid of non-negative costs that fits, the later loop heads on the
64-bit `int` are the later loop heads of the exact loop. -/
theorem later64_iff_later {cityMap : CityMap}
    (hnn : NonNeg cityMap) (hfit : Fits cityMap)
    {start : DijkstraPoint} (hc : 0 ≤ start.Count ∧ start.Count ≤ 10)
    (hx : IsInt start.Coordinate.X) (hy : IsInt start.Coordinate.Y)
    {pops : List DijkstraState} {q q3 : DijkstraQueue} {s s3 : DijkstraStateMap}
    (hrun : Run 4 10 cityMap start pops q s) :
    Later64 cityMap q s q3 s3 ↔ Later 4 10 cityMap q s q3 s3 := by
  constructor
  · intro h
    induction h with
    | refl => exact Later.refl
    | step _ hp hr ih =>
      obtain ⟨pops2, h2⟩ := run_later hrun ih
      rw [run_step_eq hnn hfit hc hx hy h2 hp] at hr
      exact Later.step ih hp hr
  · intro h
    induction h with
    | refl => exact Later64.refl
    | step hl hp hr ih =>
      obtain ⟨pops2, h2⟩ := run_later hrun hl
      rw [← run_step_eq hnn hfit hc hx hy h2 hp] at hr
      exact Later64.step ih hp hr

theorem dijkstraLoop64_eq_of_run {cityMap : CityMap}
    (hnn : NonNeg cityMap) (hfit : Fits cityMap)
    {start : DijkstraPoint} (hc : 0 ≤ start.Count ∧ start.Count ≤ 10)
    (hx : IsInt start.Coordinate.X) (hy : IsInt start.Coordinate.Y) :
    ∀ (fuel : Nat) (pops : List DijkstraState) (q : DijkstraQueue) (s : DijkstraStateMap),
      Run 4 10 cityMap start pops q s →
      dijkstraLoop64 cityMap fuel q s = dijkstraLoop 4 10 cityMap fuel q s := by
  intro fuel
  induction fuel with
  | zero =>
    intro pops q s _
    unfold dijkstraLoop64 dijkstraLoop
    cases heapPop q <;> rfl
  | succ fuel ih =>
    intro pops q s hrun
    rw [dijkstraLoop64, dijkstraLoop]
    cases hp : heapPop q with
    | none => rfl
    | some pq =>
      obtain ⟨point, q1⟩ := pq
      simp only
      rw [run_step_eq hnn hfit hc hx hy hrun hp]
      cases hr : relax 10 cityMap point (nextPoints 4 point.Point) q1 s with
      | ok qs =>
        obtain ⟨q2, s2⟩ := qs
        exact ih _ _ _ (Run.step hrun hp hr)
      | panicked => rfl
      | outOfFuel => rfl

/-- On a grid of non-negative costs that fits, from a seed of run-length 0
to 10, the search on the 64-bit `int` is the exact search. -/
theorem dijkstra64_eq_dijkstra {cityMap : CityMap}
    (hnn : NonNeg cityMap) (hfit : Fits cityMap)
    {start : DijkstraPoint} (hc : 0 ≤ start.Count ∧ start.Count ≤ 10)
    (hx : IsInt start.Coordinate.X) (hy : IsInt start.Coordinate.Y) (fuel : Nat) :
    dijkstra64 fuel cityMap start = dijkstra fuel cityMap start := by
  unfold dijkstra64 dijkstra dijkstraWith
  cases cityMap with
  | nil => rfl
  | cons row0 rows =>
    simp only
    split
    · rfl
    · exact dijkstraLoop64_eq_of_run hnn hfit hc hx hy fuel [] _ _ Run.init

theorem lazyDeletionLoop64_eq_of_run {cityMap : CityMap}
    (hnn : NonNeg cityMap) (hfit : Fits cityMap)
    {start : DijkstraPoint} (hc : 0 ≤ start.Count ∧ start.Count ≤ 10)
    (hx : IsInt start.Coordinate.X) (hy : IsInt start.Coordinate.Y) :
    ∀ (fuel : Nat) (pops : List DijkstraState) (q : DijkstraQueue) (s : DijkstraStateMap),
      Run 4 10 cityMap start pops q s →
      lazyDeletionLoop64 cityMap fuel q s = dijkstraLoop64 cityMap fuel q s := by
  intro fuel
  induction fuel with
  | zero =>
    intro pops q s _
    unfold lazyDeletionLoop64 dijkstraLoop64
    cases heapPop q <;> rfl
  | succ fuel ih =>
    intro pops q s hrun
    rw [lazyDeletionLoop64, dijkstraLoop64]
    cases hp : heapPop q with
    | none => rfl
    | some pq =>
      obtain ⟨point, q1⟩ := pq
      simp only
      have hst : isStale s point = false := no_stale_pop hnn hrun hp
      rw [hst]
      simp only [Bool.false_eq_true, if_false]
      cases hr : relax64 cityMap point (nextPoints64 point.Point) q1 s with
      | ok qs =>
        obtain ⟨q2, s2⟩ := qs
        rw [run_step_eq hnn hfit hc hx hy hrun hp] at hr
        exact ih _ _ _ (Run.step hrun hp hr)
      | panicked => rfl
      | outOfFuel => rfl

theorem lazyDeletionDijkstra64_eq {cityMap : CityMap}
    (hnn : NonNeg cityMap) (hfit : Fits cityMap)
    {start : DijkstraPoint} (hc : 0 ≤ start.Count ∧ start.Count ≤ 10)
    (hx : IsInt start.Coordinate.X) (hy : IsInt start.Coordinate.Y) (fuel : Nat) :
    lazyDeletionDijkstra64 fuel cityMap start = dijkstra64 fuel cityMap start := by
  unfold lazyDeletionDijkstra64 dijkstra64
  cases cityMap with
  | nil => rfl
  | cons row0 rows =>
    simp only
    split
    · rfl
    · exact lazyDeletionLoop64_eq_of_run hnn hfit hc hx hy fuel [] _ _ Run.init

/-! ## The heads of the iterations on the 64-bit `int` -/

theorem relaxOne64_isHeap {cityMap : CityMap} {point : DijkstraState}
    {nextPoint : DijkstraPoint} {q q1 : DijkstraQueue} {s s1 : DijkstraStateMap}
    (h0 : IsHeap q)
    (h : relaxOne64 cityMap point nextPoint q s = Outcome.ok (q1, s1)) : IsHeap q1 := by
  rcases relaxOne64_ok h with ⟨_, hq, _⟩ | ⟨_, c, _, ⟨_, hq, _⟩ | ⟨_, hq, _⟩⟩
  · subst hq; exact h0
  · subst hq; exact h0
  · subst hq; exact heapPush_isHeap _ h0

theorem relax64_isHeap {cityMap : CityMap} {point : DijkstraState}
    {pts : List DijkstraPoint} {q q2 : DijkstraQueue} {s s2 : DijkstraStateMap}
    (h0 : IsHeap q)
    (h : relax64 cityMap point pts q s = Outcome.ok (q2, s2)) : IsHeap q2 :=
  relax64_induction (fun q1 _ => IsHeap q1) pts
    (fun _ _ _ _ _ _ hJ h1 => relaxOne64_isHeap hJ h1) h0 h

/-- The queue is in heap order at the head of every iteration on the 64-bit `int`. -/
theorem run64_isHeap {cityMap : CityMap} {start : DijkstraPoint}
    {pops : List DijkstraState} {q : DijkstraQueue} {s : DijkstraStateMap}
    (h : Run64 cityMap start pops q s) : IsHeap q := by
  induction h with
  | init =>
    rw [heapInit_singleton]
    exact isHeap_singleton _
  | step _ hp hr ih => exact relax64_isHeap (heapPop_isHeap ih hp) hr

/-- Every entry at the head of an iteration on the 64-bit `int` holds values of
the 64-bit `int`. -/
theorem run64_tame {cityMap : CityMap} {start : DijkstraPoint}
    {pops : List DijkstraState} {q : DijkstraQueue} {s : DijkstraStateMap}
    (h : Run64 cityMap start pops q s) : AllEntries (Tame64 cityMap) q s := by
  induction h with
  | init =>
    rw [heapInit_singleton]
    constructor
    · intro e he
      simp only [List.mem_singleton] at he
      subst he
      exact tame64_seed cityMap start
    · intro k e hk
      simp [emptyStateMap, DijkstraStateMap.lookup] at hk
  | step hrun hp hr ih =>
    rename_i pops q q1 q2 s s2 point
    have hperm := heapPop_perm hp
    have hall1 : AllEntries (Tame64 cityMap) q1 s :=
      ⟨fun e he => ih.1 e (hperm.mem_iff.mpr (List.mem_cons_of_mem _ he)), ih.2⟩
    exact relax64_induction (AllEntries (Tame64 cityMap)) _
      (fun np hnp _ _ _ _ hJ h1 =>
        relaxOne64_entries (Tame64 cityMap) (fun c hsk _ => tame64_step hnp hsk) hJ h1)
      hall1 hr

/-- The table on the 64-bit `int` only records points whose cell the grid has. -/
theorem run64_cells {cityMap : CityMap} {start : DijkstraPoint}
    {pops : List DijkstraState} {q : DijkstraQueue} {s : DijkstraStateMap}
    (h : Run64 cityMap start pops q s) :
    ∀ k e, s.lookup k = some e → ∃ c, cityMap.cell k.Coordinate = some c := by
  induction h with
  | init =>
    intro k e hk
    simp [emptyStateMap, DijkstraStateMap.lookup] at hk
  | step _ hp hr ih =>
    refine relax64_induction
      (fun _ s1 => ∀ k e, s1.lookup k = some e → ∃ c, cityMap.cell k.Coordinate = some c)
      _ ?_ ih hr
    intro np _ qa sa qb sb hJ h1
    rcases relaxOne64_ok h1 with ⟨_, _, hs⟩ | ⟨_, c, hc, ⟨_, _, hs⟩ | ⟨_, _, hs⟩⟩
    · subst hs; exact hJ
    · subst hs; exact hJ
    · subst hs
      intro k e hk
      rw [lookup_set] at hk
      split at hk
      · rename_i hkn
        subst hkn
        exact ⟨c, hc⟩
      · exact hJ k e hk

theorem processed64_mono {cityMap : CityMap} {s1 s2 : DijkstraStateMap}
    (hb : Below s1 s2) {k : DijkstraPoint} {d : Int}
    (h : Processed64 cityMap s1 k d) : Processed64 cityMap s2 k d := by
  intro t ht
  obtain ⟨e, he, hd⟩ := h t ht
  obtain ⟨e2, he2, hd2⟩ := hb t e he
  exact ⟨e2, he2, le_trans hd2 hd⟩

theorem relaxOne64_settled {cityMap : CityMap} {start : DijkstraPoint}
    {point : DijkstraState} {nextPoint : DijkstraPoint} {q q1 : DijkstraQueue}
    {s s1 : DijkstraStateMap}
    (h0 : Settled64 cityMap start (some point) q s)
    (h : relaxOne64 cityMap point nextPoint q s = Outcome.ok (q1, s1)) :
    Settled64 cityMap start (some point) q1 s1 := by
  have hb := relaxOne64_below h
  rcases relaxOne64_ok h with ⟨_, hq, hs⟩ | ⟨_, c, _, ⟨_, hq, hs⟩ | ⟨himp, hq, hs⟩⟩
  · subst hq; subst hs; exact h0
  · subst hq; subst hs; exact h0
  · have lift : ∀ k d, Labelled start s k d →
        Pending q1 k d ∨ Processed64 cityMap s1 k d ∨
          ∃ pt, some point = some pt ∧ pt.Point = k ∧ pt.Distance = d := by
      intro k d hl
      rcases h0 k d hl with ⟨e, he, hp⟩ | hproc | hcur
      · left
        refine ⟨e, ?_, hp⟩
        rw [hq]
        exact mem_heapPush.mpr (Or.inr he)
      · exact Or.inr (Or.inl (processed64_mono hb hproc))
      · exact Or.inr (Or.inr hcur)
    intro k d hl
    rcases hl with hseed | ⟨e, he, hd⟩
    · exact lift k d (Or.inl hseed)
    · rw [hs, lookup_set] at he
      split at he
      · rename_i hkn
        cases he
        left
        refine ⟨_, ?_, hkn.symm ▸ rfl, hd⟩
        rw [hq]
        exact mem_heapPush.mpr (Or.inl rfl)
      · exact lift k d (Or.inr ⟨e, he, hd⟩)

theorem relax64_settled {cityMap : CityMap} {start : DijkstraPoint}
    {point : DijkstraState} {pts : List DijkstraPoint} {q q2 : DijkstraQueue}
    {s s2 : DijkstraStateMap}
    (h0 : Settled64 cityMap start (some point) q s)
    (h : relax64 cityMap point pts q s = Outcome.ok (q2, s2)) :
    Settled64 cityMap start (some point) q2 s2 :=
  relax64_induction (Settled64 cityMap start (some point)) pts
    (fun _ _ _ _ _ _ hJ h1 => relaxOne64_settled hJ h1) h0 h

/-- After the inner loop on the 64-bit `int` every candidate that was not
skipped is recorded at a distance of at most the wrapped sum of the popped
distance and the cost of its cell. -/
theorem relax64_handled {cityMap : CityMap} {point : DijkstraState}
    {pts : List DijkstraPoint} {q q2 : DijkstraQueue} {s s2 : DijkstraStateMap}
    (h : relax64 cityMap point pts q s = Outcome.ok (q2, s2)) :
    ∀ t ∈ pts, skipped 10 cityMap point.Point t = false →
      ∃ e, s2.lookup t = some e ∧
        e.Distance ≤ wrapInt (point.Distance + cost cityMap t.Coordinate) := by
  induction pts generalizing q s with
  | nil =>
    intro t ht
    cases ht
  | cons np rest ih =>
    obtain ⟨q1, s1, h1, h2⟩ := relax64_cons_ok h
    intro t ht hsk
    rcases List.mem_cons.mp ht with rfl | ht
    · have hb := relax64_below h2
      rcases relaxOne64_ok h1 with ⟨hsk2, _, _⟩ | ⟨_, c, hc, ⟨himp, _, hs⟩ | ⟨_, _, hs⟩⟩
      · rw [hsk] at hsk2
        cases hsk2
      · obtain ⟨old, hold, hle⟩ := improves_eq_false.mp himp
        rw [← hs] at hold
        obtain ⟨e2, he2, hd2⟩ := hb _ _ hold
        exact ⟨e2, he2, by rw [cost_of_cell hc]; exact le_trans hd2 hle⟩
      · have hnew : s1.lookup t =
            some (DijkstraState.link (wrapInt (point.Distance + c)) t point) := by
          rw [hs, lookup_set]
          simp
        obtain ⟨e2, he2, hd2⟩ := hb _ _ hnew
        exact ⟨e2, he2, by rw [cost_of_cell hc]; exact hd2⟩
    · exact ih h2 t ht hsk

theorem settled64_step {cityMap : CityMap} {start : DijkstraPoint}
    {q q1 q2 : DijkstraQueue} {s s2 : DijkstraStateMap} {point : DijkstraState}
    (hI : Settled64 cityMap start none q s)
    (hperm : q.Perm (point :: q1))
    (hr : relax64 cityMap point (nextPoints64 point.Point) q1 s = Outcome.ok (q2, s2)) :
    Settled64 cityMap start none q2 s2 := by
  have h1 : Settled64 cityMap start (some point) q1 s := by
    intro k d hl
    rcases hI k d hl with ⟨e, he, hpe⟩ | hproc | ⟨pt, hpt, _⟩
    · rcases List.mem_cons.mp (hperm.mem_iff.mp he) with rfl | he1
      · exact Or.inr (Or.inr ⟨e, rfl, hpe⟩)
      · exact Or.inl ⟨e, he1, hpe⟩
    · exact Or.inr (Or.inl hproc)
    · cases hpt
  have h2 := relax64_settled h1 hr
  have h3 := relax64_handled hr
  intro k d hl
  rcases h2 k d hl with hpend | hproc | ⟨pt, hpt, hk, hd⟩
  · exact Or.inl hpend
  · exact Or.inr (Or.inl hproc)
  · cases hpt
    refine Or.inr (Or.inl ?_)
    intro t ht
    subst hk
    subst hd
    exact h3 t ht.1 ht.2

/-- At the head of every iteration on the 64-bit `int` every label is in the
queue or has been relaxed. -/
theorem run64_settled {cityMap : CityMap} {start : DijkstraPoint}
    {pops : List DijkstraState} {q : DijkstraQueue} {s : DijkstraStateMap}
    (h : Run64 cityMap start pops q s) : Settled64 cityMap start none q s := by
  induction h with
  | init =>
    rw [heapInit_singleton]
    intro s d hl
    rcases hl with ⟨hs, hd⟩ | ⟨e3, he3, _⟩
    · left
      exact ⟨seedState start, List.mem_singleton_self _, hs.symm ▸ rfl, hd.symm ▸ rfl⟩
    · simp [emptyStateMap, DijkstraStateMap.lookup] at he3
  | step _ hp hr ih => exact settled64_step ih (heapPop_perm hp) hr

theorem relax64_noop {cityMap : CityMap} {point : DijkstraState}
    {q : DijkstraQueue} {s : DijkstraStateMap} :
    ∀ pts : List DijkstraPoint,
      (∀ t ∈ pts, relaxOne64 cityMap point t q s = Outcome.ok (q, s)) →
      relax64 cityMap point pts q s = Outcome.ok (q, s) := by
  intro pts
  induction pts with
  | nil =>
    intro _
    rfl
  | cons t rest ih =>
    intro h
    simp only [relax64]
    rw [h t (List.mem_cons_self _ _)]
    exact ih (fun u hu => h u (List.mem_cons_of_mem _ hu))

theorem noOverflow_eq_true {cityMap : CityMap} {point : DijkstraState}
    (h : noOverflow cityMap point = true) {t : DijkstraPoint}
    (ht : t ∈ nextPoints64 point.Point) (hsk : skipped 10 cityMap point.Point t = false)
    {c : Int} (hc : cityMap.cell t.Coordinate = some c) : IsInt (point.Distance + c) := by
  unfold noOverflow at h
  rw [List.all_eq_true] at h
  have h1 := h t ht
  rw [hsk, hc] at h1
  simpa using h1

/-- On a grid of non-negative costs, expanding on the 64-bit `int` a popped
entry whose state is recorded at a strictly lower distance leaves the queue
and the table as they are when none of its sums wraps around. -/
theorem relax64_of_stale {cityMap : CityMap} (hnn : NonNeg cityMap) {start : DijkstraPoint}
    {pops : List DijkstraState} {q q1 : DijkstraQueue} {s : DijkstraStateMap}
    {point : DijkstraState}
    (hrun : Run64 cityMap start pops q s)
    (hp : heapPop q = some (point, q1)) (hst : isStale s point = true)
    (hno : noOverflow cityMap point = true) :
    relax64 cityMap point (nextPoints64 point.Point) q1 s = Outcome.ok (q1, s) := by
  obtain ⟨e, he, hlt⟩ := isStale_eq_true.mp hst
  have hproc : Processed64 cityMap s point.Point e.Distance := by
    rcases run64_settled hrun point.Point e.Distance (Or.inr ⟨e, he, rfl⟩) with
      ⟨y, hy, _, hyd⟩ | hproc | ⟨pt, hpt, _⟩
    · have := heapPop_min (run64_isHeap hrun) hp y hy
      omega
    · exact hproc
    · cases hpt
  have heint : IsInt e.Distance := ((run64_tame hrun).2 _ _ he).1.1
  apply relax64_noop
  intro t ht
  unfold relaxOne64
  by_cases hsk : skipped 10 cityMap point.Point t = true
  · rw [if_pos hsk]
  · have hsk2 : skipped 10 cityMap point.Point t = false := by simpa using hsk
    rw [if_neg hsk]
    obtain ⟨et, het, hle⟩ := hproc t ⟨ht, hsk2⟩
    obtain ⟨c, hc⟩ := run64_cells hrun t et het
    rw [cost_of_cell hc] at hle
    have hc0 := cell_nonneg hnn hc
    have hsum := noOverflow_eq_true hno ht hsk2 hc
    have hsum2 : IsInt (e.Distance + c) := by
      unfold IsInt at *
      omega
    rw [wrapInt_of_isInt hsum2] at hle
    have himp : improves s t (wrapInt (point.Distance + c)) = false := by
      rw [wrapInt_of_isInt hsum]
      exact improves_eq_false.mpr ⟨et, het, by omega⟩
    simp only [hc, himp, Bool.false_eq_true, if_false]

/-- The loop heads `loopHead64` computes are loop heads of the search. -/
theorem run64_of_loopHead64 {cityMap : CityMap} {start : DijkstraPoint} :
    ∀ (n : Nat) (pops : List DijkstraState) (q : DijkstraQueue) (s : DijkstraStateMap),
      loopHead64 cityMap start n = some (pops, q, s) → Run64 cityMap start pops q s := by
  intro n
  induction n with
  | zero =>
    intro pops q s h
    simp only [loopHead64, Option.some.injEq, Prod.mk.injEq] at h
    obtain ⟨rfl, rfl, rfl⟩ := h
    exact Run64.init
  | succ n ih =>
    intro pops q s h
    rw [loopHead64] at h
    cases hn : loopHead64 cityMap start n with
    | none =>
      rw [hn] at h
      cases h
    | some head =>
      obtain ⟨pops0, q0, s0⟩ := head
      rw [hn] at h
      simp only at h
      cases hp : heapPop q0 with
      | none =>
        rw [hp] at h
        cases h
      | some pq =>
        obtain ⟨point, q1⟩ := pq
        rw [hp] at h
        simp only at h
        cases hr : relax64 cityMap point (nextPoints64 point.Point) q1 s0 with
        | ok qs =>
          obtain ⟨q2, s2⟩ := qs
          rw [hr] at h
          simp only [Option.some.injEq, Prod.mk.injEq] at h
          obtain ⟨rfl, rfl, rfl⟩ := h
          exact Run64.step (ih _ _ _ hn) hp hr
        | panicked =>
          rw [hr] at h
          cases h
        | outOfFuel =>
          rw [hr] at h
          cases h

theorem heapPop_of_isSome {q : DijkstraQueue} (h : (heapPop q).isSome = true) :
    heapPop q = some (popped q, afterPop q) := by
  unfold popped afterPop
  cases hp : heapPop q with
  | none =>
    rw [hp] at h
    cases h
  | some pq => rfl

theorem run64_of_isSome {cityMap : CityMap} {start : DijkstraPoint} {n : Nat}
    (h : (loopHead64 cityMap start n).isSome = true) :
    Run64 cityMap start ((loopHead64 cityMap start n).getD ([], [], [])).1
      ((loopHead64 cityMap start n).getD ([], [], [])).2.1
      ((loopHead64 cityMap start n).getD ([], [], [])).2.2 := by
  cases hn : loopHead64 cityMap start n with
  | none =>
    rw [hn] at h
    cases h
  | some head =>
    obtain ⟨pops, q, s⟩ := head
    exact run64_of_loopHead64 n pops q s hn

/-! ## The minimum, the order of the pops and termination on the 64-bit `int` -/

theorem seqCost_nonneg {cityMap : CityMap} (hnn : NonNeg cityMap)
    (moves : List DijkstraPoint) : 0 ≤ seqCost cityMap moves := by
  unfold seqCost
  apply List.sum_nonneg
  intro x hx
  obtain ⟨t, _, rfl⟩ := List.mem_map.mp hx
  unfold cost
  cases hc : cityMap.cell t.Coordinate with
  | none => simp
  | some c => simpa using cell_nonneg hnn hc

/-- The counterexample to C1 as stated: on the one-row grid of non-negative
costs whose second cell has the cost `math.MaxInt`, `dijkstra` started from
`(0, 0)` records the distance `math.MinInt` for the state at the cell
`(2, 0)`, while no move sequence has a negative cost: the recorded distance
is below the cost of every legal move sequence to that state. -/
theorem recorded_distance_is_below_the_minimum :
    WellFormed overflowMap ∧ NonNeg overflowMap ∧
    recordedDistance (dijkstra64 5 overflowMap zeroPoint) wrappedEntry.Point =
      some (-9223372036854775808) ∧
    ∀ moves, LegalSeq 4 10 overflowMap true zeroPoint moves →
      moves.getLast? = some wrappedEntry.Point →
      -9223372036854775808 < seqCost overflowMap moves := by
  refine ⟨by unfold WellFormed; decide, by unfold NonNeg; decide, by decide, ?_⟩
  intro moves _ _
  have h := seqCost_nonneg (by unfold NonNeg; decide : NonNeg overflowMap) moves
  omega

/-- C1, amended: on a non-empty rectangular grid of non-negative costs that
fits (its costs are small enough for no sum of the search to leave the 64-bit
`int`), `dijkstra` started from the seed state (coordinate, heading Right,
run-length 0) returns a table (with enough fuel, and the same table whatever
the fuel), and the `Distance` of every entry of the table is the minimum of
the costs of the legal move sequences from the seed to the state of the
entry: some legal sequence has that cost and no legal sequence has a smaller
one. A sequence is legal (`LegalSeq 4 10`) when every move stays in bounds,
no move reverses the heading of the state it leaves (for the first move that
is the heading Right of the seed), no run-length exceeds 10, and a turn is
made only from a run-length of at least 4, the first move excepted. -/
theorem dijkstra64_distance_is_minimum (cityMap : CityMap) (hwf : WellFormed cityMap)
    (hnn : NonNeg cityMap) (hfit : Fits cityMap) (coordinate : Point2D)
    (hx : IsInt coordinate.X) (hy : IsInt coordinate.Y) :
    ∃ fuel table,
      dijkstra64 fuel cityMap
        { Count := 0, Direction := DirectionRight, Coordinate := coordinate } =
          Outcome.ok table ∧
      (∀ fuel2 table2,
        dijkstra64 fuel2 cityMap
          { Count := 0, Direction := DirectionRight, Coordinate := coordinate } =
            Outcome.ok table2 → table2 = table) ∧
      ∀ k e, table.lookup k = some e →
        (∃ moves,
          LegalSeq 4 10 cityMap true
            { Count := 0, Direction := DirectionRight, Coordinate := coordinate } moves ∧
          moves.getLast? = some k ∧ seqCost cityMap moves = e.Distance) ∧
        (∀ moves,
          LegalSeq 4 10 cityMap true
            { Count := 0, Direction := DirectionRight, Coordinate := coordinate } moves →
          moves.getLast? = some k → e.Distance ≤ seqCost cityMap moves) := by
  have heq := dijkstra64_eq_dijkstra hnn hfit
    (⟨le_refl _, by norm_num⟩ :
      0 ≤ ({ Count := 0, Direction := DirectionRight, Coordinate := coordinate } :
        DijkstraPoint).Count ∧
      ({ Count := 0, Direction := DirectionRight, Coordinate := coordinate } :
        DijkstraPoint).Count ≤ 10) hx hy
  obtain ⟨fuel, table, hrun, huniq, hmin⟩ := exact_distance_is_minimum cityMap hwf hnn coordinate
  refine ⟨fuel, table, (heq fuel).trans hrun, ?_, hmin⟩
  intro fuel2 table2 h2
  exact huniq fuel2 table2 ((heq fuel2).symm.trans h2)

/-- An instance of C1, amended: the grid of two rows and five columns of
ones, searched from `(0, 0)`; the state at the cell `(4, 1)` after the turn
down is recorded at the distance 5. -/
theorem dijkstra64_distance_is_minimum_witness :
    WellFormed turnMap ∧ NonNeg turnMap ∧ Fits turnMap ∧
    recordedDistance (dijkstra64 7 turnMap zeroPoint) turnEntry.Point = some 5 ∧
    ∃ fuel table,
      dijkstra64 fuel turnMap
        { Count := 0, Direction := DirectionRight, Coordinate := { X := 0, Y := 0 } } =
          Outcome.ok table ∧
      (∀ fuel2 table2,
        dijkstra64 fuel2 turnMap
          { Count := 0, Direction := DirectionRight, Coordinate := { X := 0, Y := 0 } } =
            Outcome.ok table2 → table2 = table) ∧
      ∀ k e, table.lookup k = some e →
        (∃ moves,
          LegalSeq 4 10 turnMap true
            { Count := 0, Direction := DirectionRight, Coordinate := { X := 0, Y := 0 } } moves ∧
          moves.getLast? = some k ∧ seqCost turnMap moves = e.Distance) ∧
        (∀ moves,
          LegalSeq 4 10 turnMap true
            { Count := 0, Direction := DirectionRight, Coordinate := { X := 0, Y := 0 } } moves →
          moves.getLast? = some k → e.Distance ≤ seqCost turnMap moves) :=
  ⟨by unfold WellFormed; decide, by unfold NonNeg; decide,
    ⟨1, by decide, by decide, by decide⟩, by decide,
    dijkstra64_distance_is_minimum turnMap (by unfold WellFormed; decide)
      (by unfold NonNeg; decide) ⟨1, by decide, by decide, by decide⟩ { X := 0, Y := 0 }
      (by unfold IsInt; decide) (by unfold IsInt; decide)⟩

/-- The counterexample to C30 as stated: on the one-row grid of non-negative
costs whose second cell has the cost `math.MaxInt`, the first three entries
`dijkstra` pops from `(0, 0)` have the distances 0, `math.MaxInt` and
`math.MinInt`: the third is below the second. -/
theorem popped_distances_decrease_after_overflow :
    NonNeg overflowMap ∧
    ∃ pops q s, Run64 overflowMap zeroPoint pops q s ∧
      pops.map DijkstraState.Distance =
        [-9223372036854775808, 9223372036854775807, 0] ∧
      ¬ pops.Pairwise (fun later earlier => earlier.Distance ≤ later.Distance) :=
  ⟨by unfold NonNeg; decide, _, _, _,
    run64_of_isSome (by decide : (loopHead64 overflowMap zeroPoint 3).isSome = true),
    by decide, by decide⟩

/-- C30, amended: on a grid of non-negative costs that fits (its costs are
small enough for no sum of the search to leave the 64-bit `int`), from a
seed with a run-length from 0 to 10, at the head of every
iteration of `dijkstra` the distances of the entries popped so far, the
latest first, do not increase along the list, that is, they were popped in
non-decreasing order; and when the iteration pops an entry for a state whose
recorded distance is the distance of the entry, the table keeps that record
of the state at the end of this iteration and at the head of every later
one. -/
theorem popped_distances_never_decrease (cityMap : CityMap)
    (hnn : NonNeg cityMap) (hfit : Fits cityMap) (start : DijkstraPoint)
    (hc : 0 ≤ start.Count ∧ start.Count ≤ 10)
    (hx : IsInt start.Coordinate.X) (hy : IsInt start.Coordinate.Y)
    (pops : List DijkstraState) (q : DijkstraQueue)
    (s : DijkstraStateMap) (hrun : Run64 cityMap start pops q s) :
    pops.Pairwise (fun later earlier => earlier.Distance ≤ later.Distance) ∧
    (∀ x q1, heapPop q = some (x, q1) → ∀ earlier ∈ pops, earlier.Distance ≤ x.Distance) ∧
    ∀ (x e : DijkstraState) (q1 q2 q3 : DijkstraQueue) (s2 s3 : DijkstraStateMap),
      heapPop q = some (x, q1) → s.lookup x.Point = some e → e.Distance = x.Distance →
      relax64 cityMap x (nextPoints64 x.Point) q1 s = Outcome.ok (q2, s2) →
      Later64 cityMap q2 s2 q3 s3 → s3.lookup x.Point = some e := by
  have hexact := (run64_iff_run hnn hfit hc hx hy).mp hrun
  have hsorted := run_sorted hnn hexact
  refine ⟨hsorted.1, ?_, ?_⟩
  · intro x q1 hp earlier hearlier
    exact hsorted.2 earlier hearlier x ((heapPop_perm hp).mem_iff.mpr (List.mem_cons_self _ _))
  · intro x e q1 q2 q3 s2 s3 hp he hd hr hlater
    rw [run_step_eq hnn hfit hc hx hy hexact hp] at hr
    have hlater2 := (later64_iff_later hnn hfit hc hx hy (Run.step hexact hp hr)).mp hlater
    have hperm := heapPop_perm hp
    have hmin := heapPop_min (run_isHeap hexact) hp
    have hq1 : ∀ y ∈ q1, e.Distance ≤ y.Distance := by
      intro y hy
      rw [hd]
      exact hmin y (hperm.mem_iff.mpr (List.mem_cons_of_mem _ hy))
    have hq2 := relax_floor hnn (le_of_eq hd) hq1 hr
    have hs2 := relax_keeps hnn (le_of_eq hd) he hr
    exact (later_keeps hnn hq2 hs2 hlater2).2

/-- The first iteration of the loop on the 64-bit `int` on `cornerMap`. -/
theorem corner_run64 :
    Run64 cornerMap zeroPoint [seedState zeroPoint] cornerQueue cornerTable := by
  have hp : heapPop (heapInit [DijkstraState.root 0 zeroPoint]) =
      some (seedState zeroPoint, []) := by decide
  have hr : relax64 cornerMap (seedState zeroPoint)
      (nextPoints64 (seedState zeroPoint).Point) [] emptyStateMap =
        Outcome.ok (cornerQueue, cornerTable) := by decide
  exact Run64.step Run64.init hp hr

/-- An instance of C30, amended: the head of the second iteration on the grid
of two rows and two columns. -/
theorem popped_distances_never_decrease_witness :
    NonNeg cornerMap ∧ Fits cornerMap ∧
    Run64 cornerMap zeroPoint [seedState zeroPoint] cornerQueue cornerTable ∧
    ([seedState zeroPoint].Pairwise (fun later earlier => earlier.Distance ≤ later.Distance) ∧
    (∀ x q1, heapPop cornerQueue = some (x, q1) →
      ∀ earlier ∈ [seedState zeroPoint], earlier.Distance ≤ x.Distance) ∧
    ∀ (x e : DijkstraState) (q1 q2 q3 : DijkstraQueue) (s2 s3 : DijkstraStateMap),
      heapPop cornerQueue = some (x, q1) → cornerTable.lookup x.Point = some e →
      e.Distance = x.Distance →
      relax64 cornerMap x (nextPoints64 x.Point) q1 cornerTable = Outcome.ok (q2, s2) →
      Later64 cornerMap q2 s2 q3 s3 → s3.lookup x.Point = some e) :=
  ⟨by unfold NonNeg; decide,
    ⟨4, by decide, by decide, by decide⟩, corner_run64,
    popped_distances_never_decrease cornerMap
      (by unfold NonNeg; decide) ⟨4, by decide, by decide, by decide⟩ zeroPoint
      (by decide) (by unfold IsInt; decide) (by unfold IsInt; decide)
      [seedState zeroPoint] cornerQueue cornerTable corner_run64⟩

/-! ## Termination and stale entries on the 64-bit `int` -/

/-- The counterexample to C17 as stated: on the one-row grid of non-negative
costs whose second cell has the cost `math.MaxInt`, the second iteration of
`dijkstra` from `(0, 0)` pushes an entry for the cell `(2, 0)` that records
the negative distance `math.MinInt`, and the table `dijkstra` returns keeps
it. -/
theorem push_records_a_negative_distance :
    WellFormed overflowMap ∧ NonNeg overflowMap ∧
    (∃ pops s, Run64 overflowMap zeroPoint pops [wrappedEntry] s ∧
      s.lookup wrappedEntry.Point = some wrappedEntry) ∧
    wrappedEntry.Distance = -9223372036854775808 ∧ wrappedEntry.Distance < 0 ∧
    recordedDistance (dijkstra64 5 overflowMap zeroPoint) wrappedEntry.Point =
      some (-9223372036854775808) := by
  refine ⟨by unfold WellFormed; decide, by unfold NonNeg; decide, ?_, by decide, by decide,
    by decide⟩
  have hrun := run64_of_isSome
    (by decide : (loopHead64 overflowMap zeroPoint 2).isSome = true)
  have hq : ((loopHead64 overflowMap zeroPoint 2).getD ([], [], [])).2.1 = [wrappedEntry] := by
    decide
  rw [hq] at hrun
  exact ⟨_, _, hrun, by decide⟩

/-- C17, amended: on every non-empty rectangular grid, of non-negative costs
or not, from every seed, `dijkstra` returns a table once it is given enough
fuel, and the same table with more: the queue becomes empty. The reason: an
iteration of the loop body that pushes an entry either records its state for
the first time or records a distance strictly below the one recorded before;
the recorded distances are values of the 64-bit `int`, so none is below
`math.MinInt`, and the recorded states lie in a finite set. The recorded
distances are non-negative when the costs are non-negative and the grid fits
(no sum leaves the 64-bit `int`), from a seed with a run-length from 0 to 10. -/
theorem dijkstra64_terminates (cityMap : CityMap) (hwf : WellFormed cityMap)
    (start : DijkstraPoint) :
    (∃ (V : Finset DijkstraPoint) (fuel : Nat) (table : DijkstraStateMap),
      (∀ extra, dijkstra64 (fuel + extra) cityMap start = Outcome.ok table) ∧
      ∀ k e, table.lookup k = some e →
        k ∈ V ∧ -9223372036854775808 ≤ e.Distance ∧ e.Distance ≤ 9223372036854775807) ∧
    (∀ point nextPoint queue state queue1 state1,
      relaxOne64 cityMap point nextPoint queue state = Outcome.ok (queue1, state1) →
      (queue1 = queue ∧ state1 = state) ∨
      ∃ entry, queue1 = heapPush queue entry ∧ state1 = state.set nextPoint entry ∧
        -9223372036854775808 ≤ entry.Distance ∧
        (state.lookup nextPoint = none ∨
          ∃ old, state.lookup nextPoint = some old ∧ entry.Distance < old.Distance)) ∧
    (NonNeg cityMap → Fits cityMap → 0 ≤ start.Count ∧ start.Count ≤ 10 →
      IsInt start.Coordinate.X → IsInt start.Coordinate.Y →
      ∀ fuel table, dijkstra64 fuel cityMap start = Outcome.ok table →
        ∀ k e, table.lookup k = some e → 0 ≤ e.Distance) := by
  refine ⟨?_, ?_, ?_⟩
  · obtain ⟨V, fuel, table, hf, hkeys⟩ := dijkstra64_returns hwf start
    refine ⟨V, fuel, table, hf, ?_⟩
    intro k e hk
    obtain ⟨hV, hint⟩ := hkeys k e hk
    unfold IsInt at hint
    exact ⟨hV, by omega, by omega⟩
  · intro point nextPoint queue state queue1 state1 h
    rcases relaxOne64_ok h with ⟨_, hq, hs⟩ | ⟨_, c, _, ⟨_, hq, hs⟩ | ⟨himp, hq, hs⟩⟩
    · exact Or.inl ⟨hq, hs⟩
    · exact Or.inl ⟨hq, hs⟩
    · right
      refine ⟨_, hq, hs, ?_, ?_⟩
      · have hint := isInt_wrapInt (point.Distance + c)
        unfold IsInt at hint
        rw [distance_link]
        omega
      · rcases improves_eq_true.mp himp with hnone | ⟨old, hold, hlt⟩
        · exact Or.inl hnone
        · exact Or.inr ⟨old, hold, hlt⟩
  · intro hnn hfit hc hx hy fuel table h k e hk
    rw [dijkstra64_eq_dijkstra hnn hfit hc hx hy fuel] at h
    have h0 : Run 4 10 cityMap start [] [seedState start] emptyStateMap := by
      have hinit : Run 4 10 cityMap start [] (heapInit [DijkstraState.root 0 start])
        emptyStateMap := Run.init
      rw [heapInit_singleton] at hinit
      exact hinit
    obtain ⟨pops2, hrun⟩ := run_of_dijkstraLoop fuel [] _ _ table h0 (dijkstraWith_ok h)
    obtain ⟨bound, hb1, hbound, hfull, hprod⟩ := fits_unfold hfit
    exact ((run_small hnn hprod hc hx hy hrun).2 k e hk).1.1

/-- An instance of C17, amended: the one-row grid whose second cell has the
cost `math.MaxInt`, searched from `(0, 0)`; the loop ends after five
iterations. -/
theorem dijkstra64_terminates_witness :
    WellFormed overflowMap ∧
    recordedCount (dijkstra64 5 overflowMap zeroPoint) = some 4 ∧
    ((∃ (V : Finset DijkstraPoint) (fuel : Nat) (table : DijkstraStateMap),
      (∀ extra, dijkstra64 (fuel + extra) overflowMap zeroPoint = Outcome.ok table) ∧
      ∀ k e, table.lookup k = some e →
        k ∈ V ∧ -9223372036854775808 ≤ e.Distance ∧ e.Distance ≤ 9223372036854775807) ∧
    (∀ point nextPoint queue state queue1 state1,
      relaxOne64 overflowMap point nextPoint queue state = Outcome.ok (queue1, state1) →
      (queue1 = queue ∧ state1 = state) ∨
      ∃ entry, queue1 = heapPush queue entry ∧ state1 = state.set nextPoint entry ∧
        -9223372036854775808 ≤ entry.Distance ∧
        (state.lookup nextPoint = none ∨
          ∃ old, state.lookup nextPoint = some old ∧ entry.Distance < old.Distance)) ∧
    (NonNeg overflowMap → Fits overflowMap → 0 ≤ zeroPoint.Count ∧ zeroPoint.Count ≤ 10 →
      IsInt zeroPoint.Coordinate.X → IsInt zeroPoint.Coordinate.Y →
      ∀ fuel table, dijkstra64 fuel overflowMap zeroPoint = Outcome.ok table →
        ∀ k e, table.lookup k = some e → 0 ≤ e.Distance)) :=
  ⟨by unfold WellFormed; decide, by decide,
    dijkstra64_terminates overflowMap (by unfold WellFormed; decide) zeroPoint⟩

/-- From the head of an iteration on, the loop that discards stale entries
and the loop of the code, both on the 64-bit `int`, give the same outcome
with the same fuel when no sum wraps around at a stale entry. -/
theorem lazyDeletionLoop64_eq {cityMap : CityMap} (hnn : NonNeg cityMap)
    {start : DijkstraPoint}
    (hno : ∀ (pops : List DijkstraState) (q q1 : DijkstraQueue) (s : DijkstraStateMap)
      (point : DijkstraState), Run64 cityMap start pops q s →
      heapPop q = some (point, q1) → isStale s point = true →
      noOverflow cityMap point = true) :
    ∀ (fuel : Nat) (pops : List DijkstraState) (q : DijkstraQueue) (s : DijkstraStateMap),
      Run64 cityMap start pops q s →
      lazyDeletionLoop64 cityMap fuel q s = dijkstraLoop64 cityMap fuel q s := by
  intro fuel
  induction fuel with
  | zero =>
    intro pops q s _
    unfold lazyDeletionLoop64 dijkstraLoop64
    cases heapPop q <;> rfl
  | succ fuel ih =>
    intro pops q s hrun
    rw [lazyDeletionLoop64, dijkstraLoop64]
    cases hp : heapPop q with
    | none => rfl
    | some pq =>
      obtain ⟨point, q1⟩ := pq
      simp only
      by_cases hst : isStale s point = true
      · have hr := relax64_of_stale hnn hrun hp hst (hno _ _ _ _ _ hrun hp hst)
        rw [if_pos hst, hr]
        exact ih _ _ _ (Run64.step hrun hp hr)
      · rw [if_neg hst]
        cases hr : relax64 cityMap point (nextPoints64 point.Point) q1 s with
        | ok qs =>
          obtain ⟨q2, s2⟩ := qs
          exact ih _ _ _ (Run64.step hrun hp hr)
        | panicked => rfl
        | outOfFuel => rfl

/-- What the 92nd iteration of `dijkstra64` on `staleMap` from `(0, 0)` finds
and does: the loop gets that far, the queue is not empty, the popped entry is
recorded at a lower distance, and the inner loop changes queue or table. -/
theorem wrapHead_facts :
    (loopHead64 staleMap zeroPoint 91).isSome = true ∧
    (heapPop wrapHead.2.1).isSome = true ∧
    isStale wrapHead.2.2 (popped wrapHead.2.1) = true ∧
    (popped wrapHead.2.1).Point =
      { Count := 4, Direction := DirectionUp, Coordinate := { X := 4, Y := 0 } } ∧
    (popped wrapHead.2.1).Distance = 12 ∧
    noOverflow staleMap (popped wrapHead.2.1) = false ∧
    relax64 staleMap (popped wrapHead.2.1) (nextPoints64 (popped wrapHead.2.1).Point)
      (afterPop wrapHead.2.1) wrapHead.2.2 ≠
        Outcome.ok (afterPop wrapHead.2.1, wrapHead.2.2) := by decide!

/-- The loop of `dijkstra64` on `staleMap` from `(0, 0)` reaches the head of a
92nd iteration. -/
theorem wrapHead_run : Run64 staleMap zeroPoint wrapHead.1 wrapHead.2.1 wrapHead.2.2 := by
  have hsome := wrapHead_facts.1
  unfold wrapHead
  exact run64_of_isSome hsome

/-- What the 45th iteration of `dijkstra64` on `staleMap` from `(0, 0)`
finds: the loop gets that far, the queue is not empty, the popped entry is
the entry of distance 5 for the state at the cell `(4, 1)` after a turn down,
which the table records at the distance `math.MinInt + 21`, and no sum of the
iteration wraps around. -/
theorem staleHead_facts :
    (loopHead64 staleMap zeroPoint 44).isSome = true ∧
    (heapPop staleHead.2.1).isSome = true ∧
    (popped staleHead.2.1).Point = turnDownPoint ∧
    (popped staleHead.2.1).Distance = 5 ∧
    (staleHead.2.2.lookup turnDownPoint).map DijkstraState.Distance =
      some (-9223372036854775787) ∧
    isStale staleHead.2.2 (popped staleHead.2.1) = true ∧
    noOverflow staleMap (popped staleHead.2.1) = true := by decide!

/-- The loop of `dijkstra64` on `staleMap` from `(0, 0)` reaches the head of a
45th iteration. -/
theorem staleHead_run : Run64 staleMap zeroPoint staleHead.1 staleHead.2.1 staleHead.2.2 := by
  have hsome := staleHead_facts.1
  unfold staleHead
  exact run64_of_isSome hsome

/-- A state at the bottom-right cell that the search on the 64-bit `int`
records was entered heading right or down, with a run-length of at most 10. -/
theorem recorded_terminal_mem_endKeys64 {cityMap : CityMap} {fuel : Nat}
    {table : DijkstraStateMap}
    (h : dijkstra64 fuel cityMap zeroPoint = Outcome.ok table)
    {k : DijkstraPoint} {e : DijkstraState} (hk : table.lookup k = some e)
    (hterm : IsTerminal 4 cityMap k) : k ∈ endKeys 4 10 cityMap := by
  have key := chain_steps64 zeroPoint
    (fun prev s => s.Point.Coordinate = prev.Point.Coordinate.Add64 s.Point.Direction.ToVector ∧
      s.Point.Count ≤ 10 ∧ cityMap.InBounds s.Point.Coordinate = true)
    (fun e => e.Point = zeroPoint ∨ cityMap.InBounds e.Point.Coordinate = true)
    (Or.inl rfl) ?_ h hk
  · obtain ⟨hpoint, _, hne, _, hchain⟩ := key
    cases e with
    | root d p => simp [pathStates] at hne
    | link d p prev =>
      simp only [point_link] at hpoint
      subst hpoint
      obtain ⟨⟨hcoord, hmax, hin⟩, hprev, _⟩ :=
        hchain (DijkstraState.link d p prev) (by simp [pathStates]) prev rfl
      simp only [point_link] at hcoord hmax hin
      obtain ⟨hend, hmin⟩ := hterm
      rw [mem_endKeys]
      refine ⟨?_, hmin, hmax, hend⟩
      obtain ⟨hy0, hy1, hx0, hx1⟩ := (inBounds_iff cityMap p.Coordinate).mp hin
      have hendX : p.Coordinate.X = ((cityMap.headD []).length : Int) - 1 := by
        rw [hend]
        rfl
      have hendY : p.Coordinate.Y = (cityMap.length : Int) - 1 := by
        rw [hend]
        rfl
      have hcx : p.Coordinate.X =
          wrapInt (prev.Point.Coordinate.X + p.Direction.ToVector.X) := by
        rw [hcoord]
        rfl
      have hcy : p.Coordinate.Y =
          wrapInt (prev.Point.Coordinate.Y + p.Direction.ToVector.Y) := by
        rw [hcoord]
        rfl
      have hprevBounds : (prev.Point.Coordinate.X = 0 ∧ prev.Point.Coordinate.Y = 0) ∨
          (0 ≤ prev.Point.Coordinate.X ∧ 0 ≤ prev.Point.Coordinate.Y ∧
            prev.Point.Coordinate.X < ((cityMap.headD []).length : Int) ∧
            prev.Point.Coordinate.Y < (cityMap.length : Int)) := by
        rcases hprev with hz | hb
        · left
          rw [hz]
          exact ⟨rfl, rfl⟩
        · right
          obtain ⟨h1, h2, h3, h4⟩ := (inBounds_iff cityMap prev.Point.Coordinate).mp hb
          exact ⟨h3, h1, h4, h2⟩
      cases hdir : p.Direction with
      | DirectionRight => exact Or.inl rfl
      | DirectionDown => exact Or.inr rfl
      | DirectionLeft =>
        rw [hdir] at hcx
        simp only [Direction.ToVector] at hcx
        unfold wrapInt at hcx
        omega
      | DirectionUp =>
        rw [hdir] at hcy
        simp only [Direction.ToVector] at hcy
        unfold wrapInt at hcy
        omega
  · intro point np c _ hnp hsk hc
    obtain ⟨hin, hmax, _⟩ := skipped_eq_false.mp hsk
    obtain ⟨direction, rfl, _⟩ := mem_nextPoints64 hnp
    exact ⟨Or.inr hin, rfl, hmax, hin⟩

theorem selectMin_le64 {cityMap : CityMap} {fuel : Nat} {table : DijkstraStateMap}
    (h : dijkstra64 fuel cityMap zeroPoint = Outcome.ok table)
    {k : DijkstraPoint} {e : DijkstraState} (hk : table.lookup k = some e)
    (hterm : IsTerminal 4 cityMap k) :
    (selectMin 4 10 cityMap table).Distance ≤ e.Distance :=
  (foldl_selectStep_le table _ _).2 k (recorded_terminal_mem_endKeys64 h hk hterm) e hk

/-- When the search on the 64-bit `int` returns a table, `runMain` returns a
report. -/
theorem runMain64_of_dijkstra64 {fuel : Nat} {cityMap : CityMap} {table : DijkstraStateMap}
    (h : dijkstra64 fuel cityMap zeroPoint = Outcome.ok table) :
    ∃ report, runMain64 fuel cityMap = Outcome.ok report ∧
      report.minState = selectMin 4 10 cityMap table := by
  have hcells : ∀ s ∈ pathStates (selectMin 4 10 cityMap table),
      ∃ c, cityMap.cell s.Point.Coordinate = some c := by
    rcases selectMin_cases 4 10 cityMap table with hs | ⟨k, _, hk, _⟩
    · rw [hs]
      intro s hs2
      simp [sentinel_pathStates] at hs2
    · intro s hs
      exact ((recorded_distance_is_wrapped_pathCost h hk).2.2 s hs).1
  obtain ⟨solution, hm⟩ := markPath_ok _ _ (sameShape_init cityMap) hcells
  refine ⟨{ minState := selectMin 4 10 cityMap table, solution := solution }, ?_, rfl⟩
  unfold runMain64
  simp only [h, hm]

/-- C8, amended: `runMain` ends with the sentinel state exactly when the
table holds no state at the bottom-right cell with run-length at least 4 and
a distance below `math.MaxInt`. The sentinel has distance `math.MaxInt` and
an empty reconstructed path; otherwise the selected state is such a terminal
state of the table, with a non-empty reconstructed path and a distance below
`math.MaxInt`; so a reported cost of zero always comes with a path. -/
theorem no_path_iff_no_terminal_state (cityMap : CityMap) (fuel : Nat)
    (table : DijkstraStateMap) (report : Report)
    (hd : dijkstra64 fuel cityMap zeroPoint = Outcome.ok table)
    (hr : runMain64 fuel cityMap = Outcome.ok report) :
    (report.minState = sentinelState ↔
      ¬ ∃ k e, table.lookup k = some e ∧ IsTerminal 4 cityMap k ∧ e.Distance < maxInt) ∧
    (report.minState = sentinelState →
      report.minState.Distance = maxInt ∧ pathStates report.minState = []) ∧
    (report.minState ≠ sentinelState →
      ∃ k, IsTerminal 4 cityMap k ∧ table.lookup k = some report.minState ∧
        pathStates report.minState ≠ [] ∧ report.minState.Distance < maxInt) ∧
    (report.minState.Distance = 0 → pathStates report.minState ≠ []) := by
  obtain ⟨table2, hd2, hmin, _⟩ := runMain64_ok hr
  have htable : table2 = table := dijkstra64_unique hd2 hd
  subst htable
  have hfound : report.minState ≠ sentinelState →
      ∃ k, IsTerminal 4 cityMap k ∧ table2.lookup k = some report.minState ∧
        pathStates report.minState ≠ [] ∧ report.minState.Distance < maxInt := by
    intro hne
    rcases selectMin_cases 4 10 cityMap table2 with hs | ⟨k, hk, hl, hlt⟩
    · exact absurd (hmin.trans hs) hne
    · rw [← hmin] at hl hlt
      have hchain := chain_steps64 zeroPoint (fun _ _ => True) (fun _ => True)
        trivial (fun _ _ _ _ _ _ _ => ⟨trivial, trivial⟩) hd hl
      exact ⟨k, isTerminal_of_mem_endKeys hk, hl, hchain.2.2.1, hlt⟩
  refine ⟨⟨?_, ?_⟩, ?_, hfound, ?_⟩
  · rintro hs ⟨k, e, hk, hterm, hlt⟩
    have h1 := selectMin_le64 hd hk hterm
    rw [← hmin, hs, sentinel_distance] at h1
    omega
  · intro hnone
    by_contra hne
    obtain ⟨k, hterm, hl, _, hlt⟩ := hfound hne
    exact hnone ⟨k, _, hl, hterm, hlt⟩
  · intro hs
    rw [hs]
    exact ⟨rfl, rfl⟩
  · intro hzero
    by_cases hs : report.minState = sentinelState
    · rw [hs, sentinel_distance] at hzero
      exact absurd hzero (by decide)
    · obtain ⟨_, _, _, hne, _⟩ := hfound hs
      exact hne

/-- Two instances of C8, amended: the one-row grid of five cells, where a
path is found, and the one-row grid with the cost `math.MaxInt`, where the
table holds a terminal state and no path is reported. -/
theorem no_path_iff_no_terminal_state_witness :
    (∃ report, runMain64 5 exampleMap = Outcome.ok report ∧
      dijkstra64 5 exampleMap zeroPoint = Outcome.ok exampleTable ∧
      report.minState ≠ sentinelState ∧
      (report.minState = sentinelState ↔
        ¬ ∃ k e, exampleTable.lookup k = some e ∧ IsTerminal 4 exampleMap k ∧
          e.Distance < maxInt) ∧
      (report.minState = sentinelState →
        report.minState.Distance = maxInt ∧ pathStates report.minState = []) ∧
      (report.minState ≠ sentinelState →
        ∃ k, IsTerminal 4 exampleMap k ∧ exampleTable.lookup k = some report.minState ∧
          pathStates report.minState ≠ [] ∧ report.minState.Distance < maxInt) ∧
      (report.minState.Distance = 0 → pathStates report.minState ≠ [])) ∧
    (∃ table report, runMain64 5 maxCostMap = Outcome.ok report ∧
      dijkstra64 5 maxCostMap zeroPoint = Outcome.ok table ∧
      report.minState = sentinelState ∧
      (∃ e, table.lookup (exampleEntry 4).Point = some e ∧
        IsTerminal 4 maxCostMap (exampleEntry 4).Point ∧ e.Distance = maxInt) ∧
      (report.minState = sentinelState ↔
        ¬ ∃ k e, table.lookup k = some e ∧ IsTerminal 4 maxCostMap k ∧
          e.Distance < maxInt) ∧
      (report.minState = sentinelState →
        report.minState.Distance = maxInt ∧ pathStates report.minState = []) ∧
      (report.minState ≠ sentinelState →
        ∃ k, IsTerminal 4 maxCostMap k ∧ table.lookup k = some report.minState ∧
          pathStates report.minState ≠ [] ∧ report.minState.Distance < maxInt) ∧
      (report.minState.Distance = 0 → pathStates report.minState ≠ [])) := by
  constructor
  · have hd : dijkstra64 5 exampleMap zeroPoint = Outcome.ok exampleTable := by decide
    obtain ⟨report, hr, hmin⟩ := runMain64_of_dijkstra64 hd
    have hsel : selectMin 4 10 exampleMap exampleTable = exampleEntry 4 := by decide
    have hne : report.minState ≠ sentinelState := by
      rw [hmin, hsel]
      decide
    exact ⟨report, hr, hd, hne,
      no_path_iff_no_terminal_state exampleMap 5 exampleTable report hd hr⟩
  · cases hd : dijkstra64 5 maxCostMap zeroPoint with
    | ok table =>
      obtain ⟨report, hr, hmin⟩ := runMain64_of_dijkstra64 hd
      have hsum : reportSummary (runMain64 5 maxCostMap) = some (maxInt, 0) := by decide
      have hs : report.minState = sentinelState := by
        rw [hr] at hsum
        simp only [reportSummary, Option.some.injEq, Prod.mk.injEq] at hsum
        rcases selectMin_cases 4 10 maxCostMap table with h1 | ⟨_, _, _, hlt⟩
        · exact hmin.trans h1
        · rw [← hmin, hsum.1] at hlt
          exact absurd hlt (lt_irrefl _)
      have hrec : recordedDistance (dijkstra64 5 maxCostMap zeroPoint) (exampleEntry 4).Point =
          some maxInt := by decide
      have hterm : IsTerminal 4 maxCostMap (exampleEntry 4).Point := ⟨by decide, by decide⟩
      have hentry : ∃ e, table.lookup (exampleEntry 4).Point = some e ∧
          IsTerminal 4 maxCostMap (exampleEntry 4).Point ∧ e.Distance = maxInt := by
        rw [hd] at hrec
        simp only [recordedDistance, Option.map_eq_some'] at hrec
        obtain ⟨e, he, hdist⟩ := hrec
        exact ⟨e, he, hterm, hdist⟩
      exact ⟨table, report, hr, rfl, hs, hentry,
        no_path_iff_no_terminal_state maxCostMap 5 table report hd hr⟩
    | panicked =>
      have : panics (dijkstra64 5 maxCostMap zeroPoint) = false := by decide
      rw [hd] at this
      cases this
    | outOfFuel =>
      have : recordedCount (dijkstra64 5 maxCostMap zeroPoint) = some 4 := by decide
      rw [hd] at this
      cases this

/-! ## The successors of a state that may turn -/

theorem move64_mem_nextPoints64 (p : DijkstraPoint) (direction : Direction)
    (h : (p.Count > 0 ∧ p.Count < 4) → direction = p.Direction) :
    p.Move64 direction ∈ nextPoints64 p := by
  unfold nextPoints64
  split
  · rename_i hc
    rw [h hc]
    exact List.mem_singleton_self _
  · cases direction <;> simp

theorem succ64_iff {cityMap : CityMap} {p t : DijkstraPoint} :
    Succ64 cityMap p t ↔
      ∃ direction, t = p.Move64 direction ∧
        ((p.Count > 0 ∧ p.Count < 4) → direction = p.Direction) ∧
        cityMap.InBounds t.Coordinate = true ∧ t.Count ≤ 10 ∧
        direction ≠ p.Direction.Reverse := by
  constructor
  · rintro ⟨hmem, hsk⟩
    obtain ⟨direction, rfl, hforced⟩ := mem_nextPoints64 hmem
    obtain ⟨hin, hmax, hrev⟩ := skipped_eq_false.mp hsk
    exact ⟨direction, rfl, hforced, hin, hmax, hrev⟩
  · rintro ⟨direction, rfl, hforced, hin, hmax, hrev⟩
    exact ⟨move64_mem_nextPoints64 p direction hforced, skipped_eq_false.mpr ⟨hin, hmax, hrev⟩⟩

/-- The inner loop on the 64-bit `int` does to queue and table what it does on
the candidates that the test of lines 230-232 does not skip. -/
theorem relax64_filter_skipped (cityMap : CityMap) (point : DijkstraState)
    (pts : List DijkstraPoint) :
    ∀ (queue : DijkstraQueue) (state : DijkstraStateMap),
      relax64 cityMap point pts queue state =
        relax64 cityMap point
          (pts.filter (fun t => !(skipped 10 cityMap point.Point t))) queue state := by
  induction pts with
  | nil =>
    intro queue state
    rfl
  | cons t rest ih =>
    intro queue state
    cases hsk : skipped 10 cityMap point.Point t with
    | true =>
      have hone : relaxOne64 cityMap point t queue state = Outcome.ok (queue, state) := by
        unfold relaxOne64
        rw [if_pos hsk]
      rw [List.filter_cons_of_neg (by simp [hsk])]
      rw [← ih queue state]
      simp only [relax64, hone]
    | false =>
      rw [List.filter_cons_of_pos (by simp [hsk])]
      simp only [relax64]
      cases relaxOne64 cityMap point t queue state with
      | ok value =>
        obtain ⟨queue1, state1⟩ := value
        exact ih queue1 state1
      | panicked => rfl
      | outOfFuel => rfl

/-- C20: for a popped state with run-length `Count ≥ 4`, the successors the
loop relaxes are exactly the moves whose cell is in bounds among: the move
that keeps the heading, with run-length `Count + 1`, when `Count < 10`; and
the moves in the two headings that are neither the heading nor its reverse,
with run-length 1. The reverse heading is never among them. The inner loop
relaxes these successors and no other candidate: it does to queue and table
what it does on the list of the candidates that are successors. This is
stated for the functions with exact sums, for every run-length from 4 on, and
for the functions on the 64-bit `int`, for the run-lengths from 4 to 10,
which are the run-lengths of the states the search records and pops. -/
theorem free_state_successors (cityMap : CityMap) (p : DijkstraPoint) (h : 4 ≤ p.Count) :
    (∀ t, Succ 4 10 cityMap p t ↔
      cityMap.InBounds t.Coordinate = true ∧
        ((t = p.Move p.Direction ∧ t.Count = p.Count + 1 ∧ p.Count < 10) ∨
          ∃ direction, direction ≠ p.Direction ∧ direction ≠ p.Direction.Reverse ∧
            t = p.Move direction ∧ t.Count = 1)) ∧
    (∀ t, Succ 4 10 cityMap p t → t.Direction ≠ p.Direction.Reverse) ∧
    ([DirectionRight, DirectionDown, DirectionLeft, DirectionUp].filter
      (fun direction =>
        decide (direction ≠ p.Direction ∧ direction ≠ p.Direction.Reverse))).length = 2 ∧
    (∀ t, t ∈ (nextPoints 4 p).filter (fun t => !(skipped 10 cityMap p t)) ↔
      Succ 4 10 cityMap p t) ∧
    (∀ point queue state, point.Point = p →
      relax 10 cityMap point (nextPoints 4 p) queue state =
        relax 10 cityMap point
          ((nextPoints 4 p).filter (fun t => !(skipped 10 cityMap p t))) queue state) ∧
    (p.Count ≤ 10 →
      (∀ t, Succ64 cityMap p t ↔
        cityMap.InBounds t.Coordinate = true ∧
          ((t = p.Move64 p.Direction ∧ t.Count = p.Count + 1 ∧ p.Count < 10) ∨
            ∃ direction, direction ≠ p.Direction ∧ direction ≠ p.Direction.Reverse ∧
              t = p.Move64 direction ∧ t.Count = 1)) ∧
      (∀ t, Succ64 cityMap p t → t.Direction ≠ p.Direction.Reverse) ∧
      (∀ t, t ∈ (nextPoints64 p).filter (fun t => !(skipped 10 cityMap p t)) ↔
        Succ64 cityMap p t) ∧
      (∀ point queue state, point.Point = p →
        relax64 cityMap point (nextPoints64 p) queue state =
          relax64 cityMap point
            ((nextPoints64 p).filter (fun t => !(skipped 10 cityMap p t))) queue state)) := by
  refine ⟨?_, ?_, ?_, ?_, ?_, ?_⟩
  · intro t
    rw [succ_iff]
    constructor
    · rintro ⟨direction, rfl, _, hin, hmax, hrev⟩
      refine ⟨hin, ?_⟩
      by_cases hd : direction = p.Direction
      · left
        subst hd
        have hc : (p.Move p.Direction).Count = p.Count + 1 := by
          rw [move_count]
          simp
        rw [hc] at hmax
        exact ⟨rfl, hc, by omega⟩
      · right
        refine ⟨direction, hd, hrev, rfl, ?_⟩
        rw [move_count]
        exact if_neg (fun h2 => hd h2.symm)
    · rintro ⟨hin, ⟨rfl, hc, hlt⟩ | ⟨direction, hd, hrev, rfl, hc⟩⟩
      · refine ⟨p.Direction, rfl, fun _ => rfl, hin, ?_, reverse_ne _⟩
        rw [hc]
        omega
      · refine ⟨direction, rfl, ?_, hin, ?_, hrev⟩
        · intro hforced
          omega
        · rw [hc]
          decide
  · intro t ht
    exact (skipped_eq_false.mp ht.2).2.2
  · cases p.Direction <;> decide
  · intro t
    unfold Succ
    rw [List.mem_filter]
    simp
  · intro point queue state hpoint
    subst hpoint
    exact relax_filter_skipped 10 cityMap point _ queue state
  · intro h10
    have hwrap : wrapInt (p.Count + 1) = p.Count + 1 :=
      wrapInt_of_isInt (by unfold IsInt; omega)
    refine ⟨?_, ?_, ?_, ?_⟩
    · intro t
      rw [succ64_iff]
      constructor
      · rintro ⟨direction, rfl, _, hin, hmax, hrev⟩
        refine ⟨hin, ?_⟩
        by_cases hd : direction = p.Direction
        · left
          subst hd
          have hc : (p.Move64 p.Direction).Count = p.Count + 1 := by
            rw [move64_count, if_pos rfl, hwrap]
          rw [hc] at hmax
          exact ⟨rfl, hc, by omega⟩
        · right
          refine ⟨direction, hd, hrev, rfl, ?_⟩
          rw [move64_count]
          exact if_neg (fun h2 => hd h2.symm)
      · rintro ⟨hin, ⟨rfl, hc, hlt⟩ | ⟨direction, hd, hrev, rfl, hc⟩⟩
        · refine ⟨p.Direction, rfl, fun _ => rfl, hin, ?_, reverse_ne _⟩
          rw [hc]
          omega
        · refine ⟨direction, rfl, ?_, hin, ?_, hrev⟩
          · intro hforced
            omega
          · rw [hc]
            decide
    · intro t ht
      exact (skipped_eq_false.mp ht.2).2.2
    · intro t
      unfold Succ64
      rw [List.mem_filter]
      simp
    · intro point queue state hpoint
      subst hpoint
      exact relax64_filter_skipped cityMap point _ queue state

/-- An instance of C20: the state after four steps to the right on the grid
of two rows and six columns. It has two successors: the step ahead, with
run-length 5, and the step down, with run-length 1. -/
theorem free_state_successors_witness :
    (4 : Int) ≤ (exampleEntry 4).Point.Count ∧ (exampleEntry 4).Point.Count ≤ 10 ∧
    (nextPoints64 (exampleEntry 4).Point).filter
        (fun t => !(skipped 10 wideMap (exampleEntry 4).Point t)) =
      [{ Count := 5, Direction := DirectionRight, Coordinate := { X := 5, Y := 0 } },
        { Count := 1, Direction := DirectionDown, Coordinate := { X := 4, Y := 1 } }] ∧
    Succ64 wideMap (exampleEntry 4).Point
      { Count := 5, Direction := DirectionRight, Coordinate := { X := 5, Y := 0 } } ∧
    Succ64 wideMap (exampleEntry 4).Point
      { Count := 1, Direction := DirectionDown, Coordinate := { X := 4, Y := 1 } } ∧
    Succ 4 10 wideMap (exampleEntry 4).Point
      { Count := 5, Direction := DirectionRight, Coordinate := { X := 5, Y := 0 } } ∧
    Succ 4 10 wideMap (exampleEntry 4).Point
      { Count := 1, Direction := DirectionDown, Coordinate := { X := 4, Y := 1 } } ∧
    ((∀ t, Succ 4 10 wideMap (exampleEntry 4).Point t ↔
      wideMap.InBounds t.Coordinate = true ∧
        ((t = (exampleEntry 4).Point.Move (exampleEntry 4).Point.Direction ∧
            t.Count = (exampleEntry 4).Point.Count + 1 ∧ (exampleEntry 4).Point.Count < 10) ∨
          ∃ direction, direction ≠ (exampleEntry 4).Point.Direction ∧
            direction ≠ (exampleEntry 4).Point.Direction.Reverse ∧
            t = (exampleEntry 4).Point.Move direction ∧ t.Count = 1)) ∧
    (∀ t, Succ 4 10 wideMap (exampleEntry 4).Point t →
      t.Direction ≠ (exampleEntry 4).Point.Direction.Reverse) ∧
    ([DirectionRight, DirectionDown, DirectionLeft, DirectionUp].filter
      (fun direction =>
        decide (direction ≠ (exampleEntry 4).Point.Direction ∧
          direction ≠ (exampleEntry 4).Point.Direction.Reverse))).length = 2 ∧
    (∀ t, t ∈ (nextPoints 4 (exampleEntry 4).Point).filter
        (fun t => !(skipped 10 wideMap (exampleEntry 4).Point t)) ↔
      Succ 4 10 wideMap (exampleEntry 4).Point t) ∧
    (∀ point queue state, point.Point = (exampleEntry 4).Point →
      relax 10 wideMap point (nextPoints 4 (exampleEntry 4).Point) queue state =
        relax 10 wideMap point
          ((nextPoints 4 (exampleEntry 4).Point).filter
            (fun t => !(skipped 10 wideMap (exampleEntry 4).Point t))) queue state) ∧
    ((exampleEntry 4).Point.Count ≤ 10 →
      (∀ t, Succ64 wideMap (exampleEntry 4).Point t ↔
        wideMap.InBounds t.Coordinate = true ∧
          ((t = (exampleEntry 4).Point.Move64 (exampleEntry 4).Point.Direction ∧
              t.Count = (exampleEntry 4).Point.Count + 1 ∧
              (exampleEntry 4).Point.Count < 10) ∨
            ∃ direction, direction ≠ (exampleEntry 4).Point.Direction ∧
              direction ≠ (exampleEntry 4).Point.Direction.Reverse ∧
              t = (exampleEntry 4).Point.Move64 direction ∧ t.Count = 1)) ∧
      (∀ t, Succ64 wideMap (exampleEntry 4).Point t →
        t.Direction ≠ (exampleEntry 4).Point.Direction.Reverse) ∧
      (∀ t, t ∈ (nextPoints64 (exampleEntry 4).Point).filter
          (fun t => !(skipped 10 wideMap (exampleEntry 4).Point t)) ↔
        Succ64 wideMap (exampleEntry 4).Point t) ∧
      (∀ point queue state, point.Point = (exampleEntry 4).Point →
        relax64 wideMap point (nextPoints64 (exampleEntry 4).Point) queue state =
          relax64 wideMap point
            ((nextPoints64 (exampleEntry 4).Point).filter
              (fun t => !(skipped 10 wideMap (exampleEntry 4).Point t))) queue state))) :=
  ⟨by decide, by decide, by decide, by unfold Succ64; decide, by unfold Succ64; decide,
    by unfold Succ; decide, by unfold Succ; decide,
    free_state_successors wideMap (exampleEntry 4).Point (by decide)⟩

end ClumsyCrucible

namespace Aplenty
open ClumsyCrucible (wrapInt)

/-! ## `aplenty`: `MaxRange.Subtract` on the targets of the rules -/

theorem mem_intersect (r other : Range) (x : Int) :
    (r.Intersect other).Mem x ↔ r.Mem x ∧ other.Mem x := by
  unfold Range.Mem Range.Intersect
  simp only [max_le_iff, lt_min_iff]
  constructor
  · rintro ⟨⟨h1, h2⟩, h3, h4⟩
    exact ⟨⟨h1, h3⟩, h2, h4⟩
  · rintro ⟨⟨h1, h3⟩, h2, h4⟩
    exact ⟨⟨h1, h2⟩, h3, h4⟩

theorem within_intersect (r other : Range) (h : r.Within) : (r.Intersect other).Within := by
  unfold Range.Within Range.Intersect at *
  simp only [le_max_iff, min_le_iff]
  exact ⟨Or.inl h.1, Or.inl h.2⟩

/-- The rule is skipped exactly when no value lies in both ranges. -/
theorem skipsRule_eq_true (p target : Range) :
    skipsRule p target = true ↔ ∀ x, ¬ (p.Mem x ∧ target.Mem x) := by
  unfold skipsRule
  rw [decide_eq_true_iff]
  constructor
  · intro h x hx
    have hm := (mem_intersect p target x).mpr hx
    have h1 := hm.1
    have h2 := hm.2
    omega
  · intro h
    by_contra hlt
    have hlt2 : (p.Intersect target).Min < (p.Intersect target).Max := by omega
    exact h (p.Intersect target).Min
      ((mem_intersect p target _).mp ⟨le_refl _, hlt2⟩)

/-- The range `MaxRange.Subtract` returns for the target of a rule. -/
theorem subtract_conditionTarget (symbol : Char) (v : Int)
    (hs : symbol = '<' ∨ symbol = '>') :
    MaxRange.Subtract (conditionTarget symbol v) =
      some (if symbol = '<' then { Min := v, Max := 4001 }
        else if wrapInt (v + 1) = 1 then { Min := 4001, Max := 4001 }
        else { Min := 1, Max := wrapInt (v + 1) }) := by
  rcases hs with rfl | rfl
  · simp [conditionTarget, Range.Subtract, MaxRange]
  · have hne : ¬ ('>' = '<') := by decide
    by_cases hv : wrapInt (v + 1) = 1
    · simp [conditionTarget, Range.Subtract, MaxRange, hv]
    · have h1 : ¬ (1 : Int) = wrapInt (v + 1) := fun h => hv h.symm
      simp [conditionTarget, Range.Subtract, MaxRange, hv, h1]

/-- C37: for the target of a rule with the symbol `<` or `>` and any value,
`MaxRange.Subtract` does not reach its panic. Where `countAcceptedParts`
calls it, that is, for a range of the pattern (which lies within `MaxRange`)
that the test of lines 172-175 does not skip, it returns the complement of
the target within `MaxRange`. The range passed on to the following rules,
after the `continue` as well as after the call, holds exactly the values of
the current range that fail the condition, and lies within `MaxRange` again. -/
theorem subtract_never_panics_where_used (symbol : Char) (v : Int)
    (hs : symbol = '<' ∨ symbol = '>') (p : Range) (hp : p.Within) :
    (∃ rest, MaxRange.Subtract (conditionTarget symbol v) = some rest) ∧
    (skipsRule p (conditionTarget symbol v) = false →
      ∃ rest, MaxRange.Subtract (conditionTarget symbol v) = some rest ∧
        (∀ x, rest.Mem x ↔ MaxRange.Mem x ∧ ¬ (conditionTarget symbol v).Mem x) ∧
        passOn p (conditionTarget symbol v) = some (p.Intersect rest)) ∧
    ∃ next, passOn p (conditionTarget symbol v) = some next ∧ next.Within ∧
      ∀ x, next.Mem x ↔ p.Mem x ∧ ¬ (conditionTarget symbol v).Mem x := by
  have hsub := subtract_conditionTarget symbol v hs
  have hp1 : (1 : Int) ≤ p.Min := hp.1
  have hp2 : p.Max ≤ 4001 := hp.2
  have hused : skipsRule p (conditionTarget symbol v) = false →
      ∃ rest, MaxRange.Subtract (conditionTarget symbol v) = some rest ∧
        (∀ x, rest.Mem x ↔ MaxRange.Mem x ∧ ¬ (conditionTarget symbol v).Mem x) ∧
        passOn p (conditionTarget symbol v) = some (p.Intersect rest) := by
    intro hskip
    refine ⟨_, hsub, ?_, by simp [passOn, hskip, hsub]⟩
    have hex : ∃ y, p.Mem y ∧ (conditionTarget symbol v).Mem y := by
      by_contra hno
      have := (skipsRule_eq_true p (conditionTarget symbol v)).mpr
        (fun x hx => hno ⟨x, hx⟩)
      rw [hskip] at this
      cases this
    obtain ⟨y, hpy, hty⟩ := hex
    have hy1 : p.Min ≤ y := hpy.1
    have hy2 : y < p.Max := hpy.2
    intro x
    rcases hs with rfl | rfl
    · simp only [Range.Mem, conditionTarget, MaxRange, if_true] at hty ⊢
      constructor
      · rintro ⟨h1, h2⟩
        exact ⟨⟨by omega, h2⟩, by omega⟩
      · rintro ⟨⟨h1, h2⟩, h3⟩
        exact ⟨by omega, h2⟩
    · have hne : ¬ ('>' = '<') := by decide
      simp only [Range.Mem, conditionTarget, MaxRange, if_neg hne, if_true] at hty ⊢
      by_cases hv : wrapInt (v + 1) = 1
      · rw [if_pos hv]
        simp only
        constructor
        · rintro ⟨h1, h2⟩
          omega
        · rintro ⟨⟨h1, h2⟩, h3⟩
          omega
      · rw [if_neg hv]
        simp only
        constructor
        · rintro ⟨h1, h2⟩
          exact ⟨⟨h1, by omega⟩, by omega⟩
        · rintro ⟨⟨h1, h2⟩, h3⟩
          exact ⟨h1, by omega⟩
  refine ⟨⟨_, hsub⟩, hused, ?_⟩
  cases hskip : skipsRule p (conditionTarget symbol v) with
  | true =>
    refine ⟨p, by simp [passOn, hskip], hp, ?_⟩
    intro x
    have hno := (skipsRule_eq_true p (conditionTarget symbol v)).mp hskip x
    constructor
    · intro hx
      exact ⟨hx, fun ht => hno ⟨hx, ht⟩⟩
    · intro hx
      exact hx.1
  | false =>
    obtain ⟨rest, _, hrest, hpass⟩ := hused hskip
    refine ⟨_, hpass, within_intersect _ _ hp, ?_⟩
    intro x
    rw [mem_intersect, hrest]
    constructor
    · rintro ⟨h1, _, h3⟩
      exact ⟨h1, h3⟩
    · rintro ⟨h1, h3⟩
      refine ⟨h1, ⟨?_, ?_⟩, h3⟩
      · exact le_trans hp1 h1.1
      · exact lt_of_lt_of_le h1.2 hp2

/-- An instance of C37: the condition `<2000` on the range `MaxRange`, the
first call `countAcceptedParts` makes for such a rule of the workflow `in`;
the call is made, and the range passed on is `[2000, 4001)`. -/
theorem subtract_never_panics_where_used_witness :
    ('<' = '<' ∨ '<' = '>') ∧ MaxRange.Within ∧
    skipsRule MaxRange (conditionTarget '<' 2000) = false ∧
    passOn MaxRange (conditionTarget '<' 2000) = some { Min := 2000, Max := 4001 } ∧
    ((∃ rest, MaxRange.Subtract (conditionTarget '<' 2000) = some rest) ∧
    (skipsRule MaxRange (conditionTarget '<' 2000) = false →
      ∃ rest, MaxRange.Subtract (conditionTarget '<' 2000) = some rest ∧
        (∀ x, rest.Mem x ↔ MaxRange.Mem x ∧ ¬ (conditionTarget '<' 2000).Mem x) ∧
        passOn MaxRange (conditionTarget '<' 2000) = some (MaxRange.Intersect rest)) ∧
    ∃ next, passOn MaxRange (conditionTarget '<' 2000) = some next ∧ next.Within ∧
      ∀ x, next.Mem x ↔ MaxRange.Mem x ∧ ¬ (conditionTarget '<' 2000).Mem x) :=
  ⟨Or.inl rfl, by unfold Range.Within; decide, by decide, by decide,
    subtract_never_panics_where_used '<' 2000 (Or.inl rfl) MaxRange
      (by unfold Range.Within; decide)⟩

end Aplenty

namespace HauntedWasteland
open ClumsyCrucible (Outcome)

/-! ## `haunted-wasteland`: `gcd`, `lcm` and the fold of `runMain` -/

theorem gcdLoop_nat : ∀ (fuel m n : Nat), n < fuel →
    gcdLoop fuel (m : Int) (n : Int) = Outcome.ok ((Nat.gcd m n : Nat) : Int) := by
  intro fuel
  induction fuel with
  | zero =>
    intro m n h
    omega
  | succ fuel ih =>
    intro m n h
    rw [gcdLoop]
    by_cases hn : n = 0
    · subst hn
      simp
    · have hn2 : ((n : Int) ≠ 0) := by exact_mod_cast hn
      rw [if_pos hn2]
      rw [← Int.ofNat_tmod, ih n (m % n) (by
        have := Nat.mod_lt m (Nat.pos_of_ne_zero hn)
        omega)]
      rw [Nat.gcd_comm n (m % n), ← Nat.gcd_rec, Nat.gcd_comm]

theorem wrapInt_of_fits {x : Int} (h0 : 0 ≤ x) (h1 : x < 2 ^ 63) : wrapInt x = x := by
  unfold wrapInt
  omega

theorem lcm_nat (fuel m n : Nat) (hm : 0 < m) (hn : 0 < n) (hfit : m * n < 2 ^ 63)
    (hfuel : n < fuel) :
    lcm fuel (m : Int) (n : Int) = Outcome.ok ((Nat.lcm m n : Nat) : Int) := by
  unfold lcm gcd
  rw [gcdLoop_nat fuel m n hfuel]
  have hg : 0 < Nat.gcd m n := Nat.gcd_pos_of_pos_left n hm
  have hg2 : ¬ ((Nat.gcd m n : Nat) : Int) = 0 := by
    have : ((Nat.gcd m n : Nat) : Int) ≠ 0 := by exact_mod_cast (Nat.pos_iff_ne_zero.mp hg)
    exact this
  simp only [hg2, if_false]
  have hfitZ : (m : Int) * (n : Int) < 2 ^ 63 := by
    have := Int.ofNat_lt.mpr hfit
    push_cast at this
    exact this
  have hprod : wrapInt ((m : Int) * (n : Int)) = ((m * n : Nat) : Int) := by
    rw [wrapInt_of_fits (by positivity) hfitZ]
    push_cast
    rfl
  rw [hprod, ← Int.ofNat_tdiv]
  have hle : m * n / Nat.gcd m n ≤ m * n := Nat.div_le_self _ _
  have hleZ : ((m * n / Nat.gcd m n : Nat) : Int) ≤ (m : Int) * (n : Int) := by
    have := Int.ofNat_le.mpr hle
    push_cast at this ⊢
    exact this
  rw [wrapInt_of_fits (Int.ofNat_nonneg _) (lt_of_le_of_lt hleZ hfitZ)]
  rfl

theorem lcmLoop_nat (fuel : Nat) : ∀ (counts : List Nat) (res : Nat), 0 < res →
    (∀ c ∈ counts, 0 < c ∧ c < fuel) → ProductsFit res counts →
    lcmLoop fuel (res : Int) (counts.map (fun c => (c : Int))) =
      Outcome.ok ((counts.foldl Nat.lcm res : Nat) : Int) := by
  intro counts
  induction counts with
  | nil =>
    intro res _ _ _
    rfl
  | cons c rest ih =>
    intro res hres hall hfit
    obtain ⟨hc0, hcf⟩ := hall c (List.mem_cons_self _ _)
    simp only [List.map_cons, lcmLoop, List.foldl_cons]
    rw [lcm_nat fuel res c hres hc0 hfit.1 hcf]
    exact ih (Nat.lcm res c) (Nat.lcm_pos hres hc0)
      (fun d hd => hall d (List.mem_cons_of_mem _ hd)) hfit.2

theorem foldl_lcm_pos : ∀ (counts : List Nat) (res : Nat), 0 < res → (∀ c ∈ counts, 0 < c) →
    0 < counts.foldl Nat.lcm res := by
  intro counts
  induction counts with
  | nil =>
    intro res h _
    exact h
  | cons c rest ih =>
    intro res h hall
    exact ih _ (Nat.lcm_pos h (hall c (List.mem_cons_self _ _)))
      (fun d hd => hall d (List.mem_cons_of_mem _ hd))

theorem foldl_lcm_dvd_iff : ∀ (counts : List Nat) (res m : Nat),
    counts.foldl Nat.lcm res ∣ m ↔ res ∣ m ∧ ∀ c ∈ counts, c ∣ m := by
  intro counts
  induction counts with
  | nil =>
    intro res m
    simp
  | cons c rest ih =>
    intro res m
    rw [List.foldl_cons, ih, Nat.lcm_dvd_iff]
    simp only [List.mem_cons, forall_eq_or_imp]
    tauto

/-- C36: for positive integers `a` and `b` whose product is below `2^63`, the
loop of `gcd` ends within `b + 1` iterations and `gcd` returns the greatest
common divisor of `a` and `b`; `lcm` returns the least positive integer that
`a` and `b` both divide; and for a list of positive step counts, with no
product of the loop leaving the range of Go `int`, the fold of `lcm` from 1
returns the least positive integer that every count divides. -/
theorem gcd_and_lcm_compute (a b : Nat) (ha : 0 < a) (hb : 0 < b) (hfit : a * b < 2 ^ 63)
    (counts : List Nat) (hpos : ∀ c ∈ counts, 0 < c) (hfits : ProductsFit 1 counts) :
    (∃ g : Nat, (∀ fuel, b < fuel → gcd fuel (a : Int) (b : Int) = Outcome.ok (g : Int)) ∧
      0 < g ∧ g ∣ a ∧ g ∣ b ∧ ∀ d, d ∣ a → d ∣ b → d ≤ g) ∧
    (∃ l : Nat, (∀ fuel, b < fuel → lcm fuel (a : Int) (b : Int) = Outcome.ok (l : Int)) ∧
      0 < l ∧ a ∣ l ∧ b ∣ l ∧ ∀ m, 0 < m → a ∣ m → b ∣ m → l ≤ m) ∧
    ∃ L : Nat,
      (∀ fuel, (∀ c ∈ counts, c < fuel) →
        lcmOfSteps fuel (counts.map (fun c => (c : Int))) = Outcome.ok (L : Int)) ∧
      0 < L ∧ (∀ c ∈ counts, c ∣ L) ∧ ∀ m, 0 < m → (∀ c ∈ counts, c ∣ m) → L ≤ m := by
  refine ⟨⟨Nat.gcd a b, fun fuel hf => gcdLoop_nat fuel a b hf,
      Nat.gcd_pos_of_pos_left b ha, Nat.gcd_dvd_left a b, Nat.gcd_dvd_right a b, ?_⟩,
    ⟨Nat.lcm a b, fun fuel hf => lcm_nat fuel a b ha hb hfit hf, Nat.lcm_pos ha hb,
      Nat.dvd_lcm_left a b, Nat.dvd_lcm_right a b, ?_⟩,
    ⟨counts.foldl Nat.lcm 1, ?_, foldl_lcm_pos counts 1 Nat.one_pos hpos, ?_, ?_⟩⟩
  · intro d hda hdb
    exact Nat.le_of_dvd (Nat.gcd_pos_of_pos_left b ha) (Nat.dvd_gcd hda hdb)
  · intro m hm ham hbm
    exact Nat.le_of_dvd hm (Nat.lcm_dvd ham hbm)
  · intro fuel hfuel
    have := lcmLoop_nat fuel counts 1 Nat.one_pos (fun c hc => ⟨hpos c hc, hfuel c hc⟩) hfits
    simpa [lcmOfSteps] using this
  · intro c hc
    exact ((foldl_lcm_dvd_iff counts 1 _).mp (dvd_refl _)).2 c hc
  · intro m hm hall
    exact Nat.le_of_dvd hm ((foldl_lcm_dvd_iff counts 1 m).mpr ⟨one_dvd _, hall⟩)

/-- An instance of C36: `a = 4`, `b = 6` and the step counts 4 and 6. -/
theorem gcd_and_lcm_compute_witness :
    (0 : Nat) < 4 ∧ (0 : Nat) < 6 ∧ (4 : Nat) * 6 < 2 ^ 63 ∧ (∀ c ∈ [4, 6], 0 < c) ∧
    ProductsFit 1 [4, 6] ∧
    ((∃ g : Nat, (∀ fuel, 6 < fuel →
        gcd fuel ((4 : Nat) : Int) ((6 : Nat) : Int) = Outcome.ok (g : Int)) ∧
      0 < g ∧ g ∣ 4 ∧ g ∣ 6 ∧ ∀ d, d ∣ 4 → d ∣ 6 → d ≤ g) ∧
    (∃ l : Nat, (∀ fuel, 6 < fuel →
        lcm fuel ((4 : Nat) : Int) ((6 : Nat) : Int) = Outcome.ok (l : Int)) ∧
      0 < l ∧ 4 ∣ l ∧ 6 ∣ l ∧ ∀ m, 0 < m → 4 ∣ m → 6 ∣ m → l ≤ m) ∧
    ∃ L : Nat,
      (∀ fuel, (∀ c ∈ [4, 6], c < fuel) →
        lcmOfSteps fuel ([4, 6].map (fun c => (c : Int))) = Outcome.ok (L : Int)) ∧
      0 < L ∧ (∀ c ∈ [4, 6], c ∣ L) ∧ ∀ m, 0 < m → (∀ c ∈ [4, 6], c ∣ m) → L ≤ m) :=
  ⟨by decide, by decide, by norm_num, by decide, by
      simp only [ProductsFit]
      norm_num,
    gcd_and_lcm_compute 4 6 (by decide) (by decide) (by norm_num) [4, 6] (by decide) (by
      simp only [ProductsFit]
      norm_num)⟩

end HauntedWasteland

namespace MirageMaintenance
open ClumsyCrucible (Outcome wrapInt IsInt)

/-! ## `mirage-maintenance`: the value of `extrapolateOnePointBackwards` -/

theorem length_forwardDifferences : ∀ l : List Int, (forwardDifferences l).length = l.length - 1
  | [] => rfl
  | [_] => rfl
  | a :: b :: rest => by
    rw [forwardDifferences, List.length_cons, length_forwardDifferences (b :: rest)]
    simp

theorem alternatingSum_nil : alternatingSum [] = 0 := rfl

theorem alternatingSum_cons (a : Int) (rest : List Int) :
    alternatingSum (a :: rest) = a - alternatingSum (forwardDifferences (a :: rest)) := by
  unfold alternatingSum
  rw [length_forwardDifferences, List.length_cons, Nat.add_sub_cancel, List.range_succ_eq_map,
    List.map_cons, List.sum_cons, List.map_map]
  have h0 : (-1 : Int) ^ 0 * (finiteDifferences 0 (a :: rest)).headD 0 = a := by
    simp [finiteDifferences]
  rw [h0]
  have hshift : ∀ ks : List Nat,
      (ks.map ((fun k => (-1 : Int) ^ k * (finiteDifferences k (a :: rest)).headD 0) ∘
        Nat.succ)).sum =
      -(ks.map (fun k => (-1 : Int) ^ k *
        (finiteDifferences k (forwardDifferences (a :: rest))).headD 0)).sum := by
    intro ks
    induction ks with
    | nil => simp
    | cons k ks ih =>
      rw [List.map_cons, List.sum_cons, ih, List.map_cons, List.sum_cons]
      simp only [Function.comp, finiteDifferences, Function.iterate_succ_apply, pow_succ]
      ring
  rw [hshift]
  ring

theorem forwardDifferences_zero : ∀ l : List Int, (∀ x ∈ l, x = 0) →
    ∀ x ∈ forwardDifferences l, x = 0
  | [], _ => by
    intro x hx
    simp [forwardDifferences] at hx
  | [_], _ => by
    intro x hx
    simp [forwardDifferences] at hx
  | a :: b :: rest, h => by
    intro x hx
    rw [forwardDifferences] at hx
    rcases List.mem_cons.mp hx with rfl | hx
    · rw [h a (List.mem_cons_self _ _), h b (List.mem_cons_of_mem _ (List.mem_cons_self _ _))]
      rfl
    · exact forwardDifferences_zero (b :: rest) (fun y hy => h y (List.mem_cons_of_mem _ hy)) x hx

theorem alternatingSum_zero : ∀ (n : Nat) (l : List Int), l.length = n → (∀ x ∈ l, x = 0) →
    alternatingSum l = 0 := by
  intro n
  induction n with
  | zero =>
    intro l hl _
    rw [List.length_eq_zero.mp hl]
    rfl
  | succ n ih =>
    intro l hl hz
    cases l with
    | nil => rfl
    | cons a rest =>
      rw [alternatingSum_cons,
        ih (forwardDifferences (a :: rest)) (by rw [length_forwardDifferences, hl]; rfl)
          (forwardDifferences_zero _ hz), hz a (List.mem_cons_self _ _)]
      rfl

theorem forwardDifferences_getElem? : ∀ (l : List Int) (i : Nat) (v : Int),
    (forwardDifferences l)[i]? = some v →
      ∃ x y, l[i]? = some x ∧ l[i + 1]? = some y ∧ v = y - x
  | [], i, v => by
    intro h
    simp [forwardDifferences] at h
  | [_], i, v => by
    intro h
    simp [forwardDifferences] at h
  | a :: b :: rest, 0, v => by
    intro h
    rw [forwardDifferences] at h
    simp only [List.getElem?_cons_zero, Option.some.injEq] at h
    exact ⟨a, b, by simp, by simp, h.symm⟩
  | a :: b :: rest, i + 1, v => by
    intro h
    rw [forwardDifferences, List.getElem?_cons_succ] at h
    obtain ⟨x, y, hx, hy, hv⟩ := forwardDifferences_getElem? (b :: rest) i v h
    exact ⟨x, y, by rw [List.getElem?_cons_succ]; exact hx,
      by rw [List.getElem?_cons_succ]; exact hy, hv⟩

theorem natDegree_shift_sub_lt (p : Polynomial ℚ) (hp : 0 < p.natDegree) :
    (p.comp (Polynomial.X + 1) - p).natDegree < p.natDegree := by
  have hX : (Polynomial.X + 1 : Polynomial ℚ).natDegree = 1 := by
    rw [show (Polynomial.X + 1 : Polynomial ℚ) = Polynomial.X + Polynomial.C 1 by simp]
    exact Polynomial.natDegree_X_add_C 1
  have hlead : (Polynomial.X + 1 : Polynomial ℚ).leadingCoeff = 1 := by
    rw [show (Polynomial.X + 1 : Polynomial ℚ) = Polynomial.X + Polynomial.C 1 by simp]
    exact Polynomial.leadingCoeff_X_add_C 1
  have hdeg : (p.comp (Polynomial.X + 1)).natDegree = p.natDegree := by
    rw [Polynomial.natDegree_comp, hX, mul_one]
  have hp0 : p ≠ 0 := by
    intro h
    rw [h] at hp
    simp at hp
  have hc0 : p.comp (Polynomial.X + 1) ≠ 0 := by
    intro h
    rw [h] at hdeg
    simp at hdeg
    omega
  have hlc : (p.comp (Polynomial.X + 1)).leadingCoeff = p.leadingCoeff := by
    rw [Polynomial.leadingCoeff_comp (by rw [hX]; exact one_ne_zero), hlead, one_pow, mul_one]
  have hd : (p.comp (Polynomial.X + 1)).degree = p.degree := by
    rw [Polynomial.degree_eq_natDegree hc0, Polynomial.degree_eq_natDegree hp0, hdeg]
  have hlt := Polynomial.degree_sub_lt hd hc0 hlc
  by_cases hq : p.comp (Polynomial.X + 1) - p = 0
  · rw [hq]
    simpa using hp
  · rw [← hdeg]
    exact Polynomial.natDegree_lt_natDegree hq hlt

/-- The alternating sum of the leading finite differences of the values
`p(0), …, p(n-1)` of a polynomial of degree below `n` is `p(-1)`. -/
theorem alternatingSum_polynomial : ∀ (n : Nat) (numbers : List Int) (p : Polynomial ℚ),
    numbers.length = n + 1 → p.natDegree < n + 1 →
    (∀ (i : Nat) (v : Int), numbers[i]? = some v → p.eval (i : ℚ) = (v : ℚ)) →
    ((alternatingSum numbers : Int) : ℚ) = p.eval (-1) := by
  intro n
  induction n with
  | zero =>
    intro numbers p hlen hdeg hval
    cases numbers with
    | nil => simp at hlen
    | cons a rest =>
      have hrest : rest = [] := by
        apply List.length_eq_zero.mp
        simp only [List.length_cons] at hlen
        omega
      subst hrest
      have h0 := hval 0 a (by simp)
      have hp := Polynomial.eq_C_of_natDegree_eq_zero (by omega : p.natDegree = 0)
      rw [alternatingSum_cons]
      simp only [forwardDifferences, alternatingSum_nil, sub_zero]
      rw [hp] at h0 ⊢
      simp only [Polynomial.eval_C] at h0 ⊢
      exact h0.symm
  | succ n ih =>
    intro numbers p hlen hdeg hval
    cases numbers with
    | nil => simp at hlen
    | cons a rest =>
      have hq : (p.comp (Polynomial.X + 1) - p).natDegree < n + 1 := by
        by_cases hp : p.natDegree = 0
        · rw [Polynomial.eq_C_of_natDegree_eq_zero hp]
          simp
        · have := natDegree_shift_sub_lt p (Nat.pos_of_ne_zero hp)
          omega
      have hlen2 : (forwardDifferences (a :: rest)).length = n + 1 := by
        rw [length_forwardDifferences, hlen]
        rfl
      have hval2 : ∀ (i : Nat) (v : Int), (forwardDifferences (a :: rest))[i]? = some v →
          (p.comp (Polynomial.X + 1) - p).eval (i : ℚ) = (v : ℚ) := by
        intro i v hv
        obtain ⟨x, y, hx, hy, hvxy⟩ := forwardDifferences_getElem? _ i v hv
        have h1 := hval i x hx
        have h2 := hval (i + 1) y hy
        simp only [Polynomial.eval_sub, Polynomial.eval_comp, Polynomial.eval_add,
          Polynomial.eval_X, Polynomial.eval_one]
        push_cast at h2
        rw [h1, h2, hvxy]
        push_cast
        rfl
      have hih := ih (forwardDifferences (a :: rest)) _ hlen2 hq hval2
      have h0 := hval 0 a (by simp)
      rw [alternatingSum_cons]
      push_cast
      rw [hih]
      simp only [Polynomial.eval_sub, Polynomial.eval_comp, Polynomial.eval_add,
        Polynomial.eval_X, Polynomial.eval_one]
      norm_num at h0 ⊢
      rw [h0]
      ring

/-! ## The differences of the code wrap around -/

theorem length_differences : ∀ l : List Int, (differences l).length = l.length - 1
  | [] => rfl
  | [_] => rfl
  | a :: b :: rest => by
    rw [differences, List.length_cons, length_differences (b :: rest)]
    simp

theorem isInt_differences : ∀ (l : List Int) (x : Int), x ∈ differences l → IsInt x
  | [], x => by
    intro hx
    simp [differences] at hx
  | [_], x => by
    intro hx
    simp [differences] at hx
  | a :: b :: rest, x => by
    intro hx
    rw [differences] at hx
    rcases List.mem_cons.mp hx with rfl | hx
    · exact ClumsyCrucible.isInt_wrapInt _
    · exact isInt_differences (b :: rest) x hx

/-- The differences of the code are the exact differences modulo `2^64`. -/
theorem differences_modEq : ∀ (l m : List Int),
    List.Forall₂ (fun a b => a ≡ b [ZMOD 2 ^ 64]) l m →
    List.Forall₂ (fun a b => a ≡ b [ZMOD 2 ^ 64]) (differences l) (forwardDifferences m)
  | [], _ => by
    intro h
    cases h
    exact List.Forall₂.nil
  | [_], _ => by
    intro h
    cases h with
    | cons h1 h2 =>
      cases h2
      exact List.Forall₂.nil
  | a :: b :: rest, _ => by
    intro h
    cases h with
    | cons ha h2 =>
      cases h2 with
      | cons hb h3 =>
        rw [differences, forwardDifferences]
        exact List.Forall₂.cons ((ClumsyCrucible.wrapInt_modEq _).trans (hb.sub ha))
          (differences_modEq (b :: rest) _ (List.Forall₂.cons hb h3))

theorem modEq_zero_of_forall₂ {l m : List Int}
    (h : List.Forall₂ (fun a b => a ≡ b [ZMOD 2 ^ 64]) l m) (hz : ∀ y ∈ l, y = 0) :
    ∀ x ∈ m, x ≡ 0 [ZMOD 2 ^ 64] := by
  induction h with
  | nil =>
    intro x hx
    cases hx
  | @cons a b l1 l2 hab _ ih =>
    intro x hx
    rcases List.mem_cons.mp hx with rfl | hx
    · have := hz a (List.mem_cons_self _ _)
      rw [this] at hab
      exact hab.symm
    · exact ih (fun y hy => hz y (List.mem_cons_of_mem _ hy)) x hx

theorem forwardDifferences_modEq_zero : ∀ l : List Int, (∀ x ∈ l, x ≡ 0 [ZMOD 2 ^ 64]) →
    ∀ x ∈ forwardDifferences l, x ≡ 0 [ZMOD 2 ^ 64]
  | [], _ => by
    intro x hx
    simp [forwardDifferences] at hx
  | [_], _ => by
    intro x hx
    simp [forwardDifferences] at hx
  | a :: b :: rest, h => by
    intro x hx
    rw [forwardDifferences] at hx
    rcases List.mem_cons.mp hx with rfl | hx
    · have ha := h a (List.mem_cons_self _ _)
      have hb := h b (List.mem_cons_of_mem _ (List.mem_cons_self _ _))
      simpa using hb.sub ha
    · exact forwardDifferences_modEq_zero (b :: rest)
        (fun y hy => h y (List.mem_cons_of_mem _ hy)) x hx

theorem alternatingSum_modEq_zero : ∀ (n : Nat) (l : List Int), l.length = n →
    (∀ x ∈ l, x ≡ 0 [ZMOD 2 ^ 64]) → alternatingSum l ≡ 0 [ZMOD 2 ^ 64] := by
  intro n
  induction n with
  | zero =>
    intro l hl _
    rw [List.length_eq_zero.mp hl]
    rfl
  | succ n ih =>
    intro l hl hz
    cases l with
    | nil => rfl
    | cons a rest =>
      rw [alternatingSum_cons]
      have h1 := ih (forwardDifferences (a :: rest))
        (by rw [length_forwardDifferences, hl]; rfl) (forwardDifferences_modEq_zero _ hz)
      simpa using (hz a (List.mem_cons_self _ _)).sub h1

theorem allZeroes_iff (l : List Int) : allZeroes l = true ↔ ∀ x ∈ differences l, x = 0 := by
  unfold allZeroes
  simp [List.all_eq_true]

/-- With enough fuel `extrapolateOnePointBackwards` returns a 64-bit value
that is, modulo `2^64`, the alternating sum of the leading finite differences
of every list the list of numbers is congruent to. -/
theorem extrapolate_modEq : ∀ (fuel : Nat) (l m : List Int), l ≠ [] → (∀ x ∈ l, IsInt x) →
    List.Forall₂ (fun a b => a ≡ b [ZMOD 2 ^ 64]) l m → l.length ≤ fuel + 1 →
    ∃ r, extrapolateOnePointBackwards fuel l = Outcome.ok r ∧ IsInt r ∧
      r ≡ alternatingSum m [ZMOD 2 ^ 64] := by
  intro fuel
  induction fuel with
  | zero =>
    intro l m hne hint hlm hlen
    cases hlm with
    | nil => exact absurd rfl hne
    | @cons a b rest rest2 hab hrest =>
      have hrest0 : rest = [] := by
        apply List.length_eq_zero.mp
        simp only [List.length_cons] at hlen
        omega
      subst hrest0
      cases hrest
      refine ⟨a, ?_, hint a (List.mem_cons_self _ _), ?_⟩
      · rw [extrapolateOnePointBackwards, if_pos (by rfl)]
      · rw [alternatingSum_cons]
        simpa [forwardDifferences, alternatingSum_nil] using hab
  | succ fuel ih =>
    intro l m hne hint hlm hlen
    cases hlm with
    | nil => exact absurd rfl hne
    | @cons a b rest rest2 hab hrest =>
      have hlm : List.Forall₂ (fun a b => a ≡ b [ZMOD 2 ^ 64]) (a :: rest) (b :: rest2) :=
        List.Forall₂.cons hab hrest
      have hd := differences_modEq _ _ hlm
      rw [extrapolateOnePointBackwards, alternatingSum_cons]
      by_cases hz : allZeroes (a :: rest) = true
      · rw [if_pos hz]
        refine ⟨a, rfl, hint a (List.mem_cons_self _ _), ?_⟩
        have h0 := alternatingSum_modEq_zero _ _ rfl
          (modEq_zero_of_forall₂ hd ((allZeroes_iff _).mp hz))
        simpa using hab.sub h0.symm
      · rw [if_neg hz]
        have hne2 : differences (a :: rest) ≠ [] := by
          intro h0
          apply hz
          rw [allZeroes_iff, h0]
          intro x hx
          cases hx
        have hlen2 : (differences (a :: rest)).length ≤ fuel + 1 := by
          rw [length_differences]
          omega
        obtain ⟨next, hnext, _, hmod⟩ :=
          ih _ _ hne2 (isInt_differences (a :: rest)) hd hlen2
        refine ⟨wrapInt (a - next), ?_, ClumsyCrucible.isInt_wrapInt _, ?_⟩
        · simp only [hnext]
        · exact (ClumsyCrucible.wrapInt_modEq _).trans (hab.sub hmod)

theorem forall₂_modEq_refl (l : List Int) :
    List.Forall₂ (fun a b => a ≡ b [ZMOD 2 ^ 64]) l l := by
  induction l with
  | nil => exact List.Forall₂.nil
  | cons a rest ih => exact List.Forall₂.cons (Int.ModEq.refl a) ih

/-- The counterexample to C34 as stated: for the list of `math.MaxInt` and
`math.MinInt` the alternating sum of the leading finite differences, and the
value at `-1` of every polynomial of degree below 2 with these two values at
0 and 1, is `27670116110564327422`, and `extrapolateOnePointBackwards`
returns `9223372036854775806`. -/
theorem extrapolate_wraps_around :
    (∀ x ∈ extremes, IsInt x) ∧
    extrapolateOnePointBackwards 1 extremes = Outcome.ok 9223372036854775806 ∧
    alternatingSum extremes = 27670116110564327422 ∧
    ∀ p : Polynomial ℚ, p.natDegree < 2 → p.eval 0 = 9223372036854775807 →
      p.eval 1 = -9223372036854775808 → p.eval (-1) = 27670116110564327422 := by
  refine ⟨by decide, by decide, by decide, ?_⟩
  intro p hdeg h0 h1
  have hval : ∀ (i : Nat) (v : Int), extremes[i]? = some v → p.eval (i : ℚ) = (v : ℚ) := by
    intro i v hv
    match i with
    | 0 =>
      simp only [extremes, List.getElem?_cons_zero, Option.some.injEq] at hv
      subst hv
      simpa using h0
    | 1 =>
      simp only [extremes, List.getElem?_cons_succ, List.getElem?_cons_zero,
        Option.some.injEq] at hv
      subst hv
      simpa using h1
    | k + 2 =>
      simp [extremes] at hv
  have h := alternatingSum_polynomial 1 extremes p rfl hdeg hval
  have hsum : alternatingSum extremes = 27670116110564327422 := by decide
  rw [hsum] at h
  rw [← h]
  norm_num

/-- C34, amended: on every non-empty list of 64-bit integers
`extrapolateOnePointBackwards` returns, once the fuel is at least the length
of the list less one, the alternating sum of the leading finite differences
wrapped to 64 bits, which is the alternating sum itself when that is a value
of the 64-bit `int`; and when the list holds the values `p(0), …, p(n-1)` of a
polynomial `p` of degree below its length `n`, the alternating sum is
`p(-1)`. -/
theorem extrapolate_is_wrapped_alternating_sum (numbers : List Int) (hne : numbers ≠ [])
    (hint : ∀ x ∈ numbers, IsInt x) :
    (∀ fuel, numbers.length ≤ fuel + 1 →
      extrapolateOnePointBackwards fuel numbers =
        Outcome.ok (wrapInt (alternatingSum numbers))) ∧
    (IsInt (alternatingSum numbers) → ∀ fuel, numbers.length ≤ fuel + 1 →
      extrapolateOnePointBackwards fuel numbers = Outcome.ok (alternatingSum numbers)) ∧
    ∀ p : Polynomial ℚ, p.natDegree < numbers.length →
      (∀ (i : Nat) (v : Int), numbers[i]? = some v → p.eval (i : ℚ) = (v : ℚ)) →
      ((alternatingSum numbers : Int) : ℚ) = p.eval (-1) := by
  have hwrap : ∀ fuel, numbers.length ≤ fuel + 1 →
      extrapolateOnePointBackwards fuel numbers =
        Outcome.ok (wrapInt (alternatingSum numbers)) := by
    intro fuel hfuel
    obtain ⟨r, hr, hint2, hmod⟩ :=
      extrapolate_modEq fuel numbers numbers hne hint (forall₂_modEq_refl _) hfuel
    rw [hr, ClumsyCrucible.eq_wrapInt_of_modEq hint2 hmod]
  refine ⟨hwrap, ?_, ?_⟩
  · intro hfits fuel hfuel
    rw [hwrap fuel hfuel, ClumsyCrucible.wrapInt_of_isInt hfits]
  · intro p hdeg hval
    have hlen : 0 < numbers.length := List.length_pos.mpr hne
    exact alternatingSum_polynomial (numbers.length - 1) numbers p (by omega) (by omega) hval

/-- An instance of C34, amended: the list `10, 13, 16, 21, 30, 45` of the
puzzle text, whose alternating sum is 5. -/
theorem extrapolate_is_wrapped_alternating_sum_witness :
    ([10, 13, 16, 21, 30, 45] : List Int) ≠ [] ∧
    (∀ x ∈ ([10, 13, 16, 21, 30, 45] : List Int), IsInt x) ∧
    alternatingSum [10, 13, 16, 21, 30, 45] = 5 ∧
    ((∀ fuel, ([10, 13, 16, 21, 30, 45] : List Int).length ≤ fuel + 1 →
      extrapolateOnePointBackwards fuel [10, 13, 16, 21, 30, 45] =
        Outcome.ok (wrapInt (alternatingSum [10, 13, 16, 21, 30, 45]))) ∧
    (IsInt (alternatingSum [10, 13, 16, 21, 30, 45]) →
      ∀ fuel, ([10, 13, 16, 21, 30, 45] : List Int).length ≤ fuel + 1 →
        extrapolateOnePointBackwards fuel [10, 13, 16, 21, 30, 45] =
          Outcome.ok (alternatingSum [10, 13, 16, 21, 30, 45])) ∧
    ∀ p : Polynomial ℚ, p.natDegree < ([10, 13, 16, 21, 30, 45] : List Int).length →
      (∀ (i : Nat) (v : Int), ([10, 13, 16, 21, 30, 45] : List Int)[i]? = some v →
        p.eval (i : ℚ) = (v : ℚ)) →
      ((alternatingSum [10, 13, 16, 21, 30, 45] : Int) : ℚ) = p.eval (-1)) :=
  ⟨by decide, by decide, by decide,
    extrapolate_is_wrapped_alternating_sum [10, 13, 16, 21, 30, 45] (by decide) (by decide)⟩

end MirageMaintenance

namespace LensLibrary

/-! ## `lens-library`: what `Set` and `Delete` keep and change -/

theorem hashWrite_lt : ∀ (p : List Nat) (state : Nat), state < 256 → hashWrite state p < 256 := by
  intro p
  induction p with
  | nil =>
    intro state h
    exact h
  | cons symbol rest ih =>
    intro state _
    unfold hashWrite
    rw [List.foldl_cons]
    exact ih _ (Nat.mod_lt _ (by decide))

theorem bucketIndex_lt (key : List Nat) : bucketIndex key < 256 :=
  hashWrite_lt key 0 (by decide)

theorem find_eq_none {key : List Nat} : ∀ {bucket : List MapEntry},
    find bucket key = none ↔ key ∉ keysOf bucket := by
  intro bucket
  induction bucket with
  | nil => simp [find, keysOf]
  | cons e rest ih =>
    unfold find
    by_cases he : e.Key = key
    · simp [he, keysOf]
    · rw [if_neg he]
      have hne : ¬ key = e.Key := fun h => he h.symm
      cases hf : find rest key with
      | none =>
        have := ih.mp hf
        simp only [keysOf, List.map_cons, List.mem_cons, not_or] at this ⊢
        simp only [true_iff]
        exact ⟨hne, this⟩
      | some pos =>
        have : ¬ key ∉ keysOf rest := fun h => by
          rw [ih.mpr h] at hf
          cases hf
        simp only [keysOf, List.map_cons, List.mem_cons, not_or, not_not] at this ⊢
        constructor
        · intro h
          cases h
        · intro h
          exact absurd this h.2

theorem keysOf_setValue : ∀ (bucket : List MapEntry) (position : Nat) (value : Int),
    keysOf (setValue bucket position value) = keysOf bucket
  | [], _, _ => rfl
  | _ :: _, 0, _ => rfl
  | e :: rest, position + 1, value => by
    simp only [setValue, keysOf, List.map_cons]
    exact congrArg _ (keysOf_setValue rest position value)

theorem map_of_not_mem (key : List Nat) (value : Int) : ∀ (bucket : List MapEntry),
    key ∉ keysOf bucket →
    bucket.map (fun e => if e.Key = key then { Key := e.Key, Value := value } else e) = bucket
  | [], _ => rfl
  | e :: rest, h => by
    simp only [keysOf, List.map_cons, List.mem_cons, not_or] at h
    rw [List.map_cons, if_neg (fun he => h.1 he.symm), map_of_not_mem key value rest h.2]

theorem filter_of_not_mem (key : List Nat) : ∀ (bucket : List MapEntry),
    key ∉ keysOf bucket → bucket.filter (fun e => decide (e.Key ≠ key)) = bucket
  | [], _ => rfl
  | e :: rest, h => by
    simp only [keysOf, List.map_cons, List.mem_cons, not_or] at h
    have he : e.Key ≠ key := fun he => h.1 he.symm
    rw [List.filter_cons_of_pos (by simpa using he), filter_of_not_mem key rest h.2]

theorem setValue_of_find {key : List Nat} (value : Int) : ∀ {bucket : List MapEntry}
    {position : Nat}, (keysOf bucket).Nodup → find bucket key = some position →
    setValue bucket position value =
      bucket.map (fun e => if e.Key = key then { Key := e.Key, Value := value } else e) := by
  intro bucket
  induction bucket with
  | nil =>
    intro position _ h
    simp [find] at h
  | cons e rest ih =>
    intro position hnd h
    simp only [keysOf, List.map_cons, List.nodup_cons] at hnd
    unfold find at h
    by_cases he : e.Key = key
    · rw [if_pos he] at h
      cases h
      rw [setValue, List.map_cons, if_pos he]
      rw [he] at hnd
      rw [map_of_not_mem key value rest hnd.1]
    · rw [if_neg he] at h
      cases hf : find rest key with
      | none => simp [hf] at h
      | some pos =>
        simp only [hf, Option.some.injEq] at h
        subst h
        rw [setValue, List.map_cons, if_neg he, ih hnd.2 hf]

theorem eraseIdx_of_find {key : List Nat} : ∀ {bucket : List MapEntry}
    {position : Nat}, (keysOf bucket).Nodup → find bucket key = some position →
    bucket.eraseIdx position = bucket.filter (fun e => decide (e.Key ≠ key)) := by
  intro bucket
  induction bucket with
  | nil =>
    intro position _ h
    simp [find] at h
  | cons e rest ih =>
    intro position hnd h
    simp only [keysOf, List.map_cons, List.nodup_cons] at hnd
    unfold find at h
    by_cases he : e.Key = key
    · rw [if_pos he] at h
      cases h
      rw [List.eraseIdx_cons_zero, List.filter_cons_of_neg (by simpa using he)]
      rw [he] at hnd
      rw [filter_of_not_mem key rest hnd.1]
    · rw [if_neg he] at h
      cases hf : find rest key with
      | none => simp [hf] at h
      | some pos =>
        simp only [hf, Option.some.injEq] at h
        subst h
        rw [List.eraseIdx_cons_succ, List.filter_cons_of_pos (by simpa using he), ih hnd.2 hf]

theorem getElem?_set_buckets (buckets : List (List MapEntry)) (i j : Nat)
    (bucket : List MapEntry) (hi : i < buckets.length) :
    (buckets.set i bucket)[j]? = if j = i then some bucket else buckets[j]? := by
  rw [List.getElem?_set]
  by_cases h : i = j
  · subst h
    simp [hi]
  · have h2 : ¬ j = i := fun h3 => h h3.symm
    simp [h, h2]

theorem bucket_getElem? {m : HashMap} (hlen : m.Buckets.length = 256) (key : List Nat) :
    m.Buckets[bucketIndex key]? = some (m.bucket key) := by
  have hlt : bucketIndex key < m.Buckets.length := by
    rw [hlen]
    exact bucketIndex_lt key
  unfold HashMap.bucket
  rw [List.getD_eq_getElem?_getD, List.getElem?_eq_getElem hlt]
  rfl

theorem has_iff {m : HashMap} (hs : m.Sound) (key : List Nat) :
    m.Has key ↔ key ∈ keysOf (m.bucket key) := by
  constructor
  · rintro ⟨bucket, hb, hk⟩
    obtain ⟨i, hi⟩ := List.mem_iff_getElem?.mp hb
    obtain ⟨e, he, hek⟩ := List.mem_map.mp hk
    have hidx := (hs.2 i bucket hi).1 e he
    rw [hek] at hidx
    rw [← hidx, bucket_getElem? hs.1 key] at hi
    cases hi
    exact hk
  · intro hk
    exact ⟨m.bucket key, List.mem_iff_getElem?.mpr ⟨_, bucket_getElem? hs.1 key⟩, hk⟩

theorem not_mem_other_bucket {m : HashMap} (hs : m.Sound) (key : List Nat) {i : Nat}
    {bucket : List MapEntry} (hi : m.Buckets[i]? = some bucket) (hne : i ≠ bucketIndex key) :
    key ∉ keysOf bucket := by
  intro hk
  obtain ⟨e, he, hek⟩ := List.mem_map.mp hk
  have hidx := (hs.2 i bucket hi).1 e he
  rw [hek] at hidx
  exact hne hidx.symm

theorem set_present {m : HashMap} (hs : m.Sound) (key : List Nat) (value : Int)
    (hk : key ∈ keysOf (m.bucket key)) (i : Nat) :
    (m.Set key value).Buckets[i]? =
      (m.Buckets[i]?).map (fun bucket =>
        bucket.map (fun e => if e.Key = key then { Key := e.Key, Value := value } else e)) := by
  have hlt : bucketIndex key < m.Buckets.length := by
    rw [hs.1]
    exact bucketIndex_lt key
  have hb := bucket_getElem? hs.1 key
  unfold HashMap.Set
  cases hf : find (m.bucket key) key with
  | none => exact absurd hk (find_eq_none.mp hf)
  | some position =>
    simp only
    rw [getElem?_set_buckets _ _ _ _ hlt]
    by_cases hi : i = bucketIndex key
    · rw [if_pos hi, hi, hb, Option.map_some',
        setValue_of_find value (hs.2 _ _ hb).2 hf]
    · rw [if_neg hi]
      cases hbi : m.Buckets[i]? with
      | none => rfl
      | some bucket =>
        rw [Option.map_some', map_of_not_mem key value bucket (not_mem_other_bucket hs key hbi hi)]

theorem set_absent {m : HashMap} (hs : m.Sound) (key : List Nat) (value : Int)
    (hk : key ∉ keysOf (m.bucket key)) (i : Nat) :
    (m.Set key value).Buckets[i]? =
      if i = bucketIndex key then
        (m.Buckets[i]?).map (fun bucket => bucket ++ [{ Key := key, Value := value }])
      else m.Buckets[i]? := by
  have hlt : bucketIndex key < m.Buckets.length := by
    rw [hs.1]
    exact bucketIndex_lt key
  have hb := bucket_getElem? hs.1 key
  unfold HashMap.Set
  rw [find_eq_none.mpr hk]
  simp only
  rw [getElem?_set_buckets _ _ _ _ hlt]
  by_cases hi : i = bucketIndex key
  · rw [if_pos hi, if_pos hi, hi, hb, Option.map_some']
  · rw [if_neg hi, if_neg hi]

theorem delete_spec {m : HashMap} (hs : m.Sound) (key : List Nat) (i : Nat) :
    (m.Delete key).Buckets[i]? =
      (m.Buckets[i]?).map (fun bucket => bucket.filter (fun e => decide (e.Key ≠ key))) := by
  have hlt : bucketIndex key < m.Buckets.length := by
    rw [hs.1]
    exact bucketIndex_lt key
  have hb := bucket_getElem? hs.1 key
  have hother : ∀ bucket, m.Buckets[i]? = some bucket → i ≠ bucketIndex key →
      bucket.filter (fun e => decide (e.Key ≠ key)) = bucket :=
    fun bucket hbi hi => filter_of_not_mem key bucket (not_mem_other_bucket hs key hbi hi)
  unfold HashMap.Delete
  cases hf : find (m.bucket key) key with
  | none =>
    simp only
    cases hbi : m.Buckets[i]? with
    | none => rfl
    | some bucket =>
      rw [Option.map_some']
      by_cases hi : i = bucketIndex key
      · rw [hi, hb] at hbi
        cases hbi
        rw [filter_of_not_mem key _ (find_eq_none.mp hf)]
      · rw [hother bucket hbi hi]
  | some position =>
    simp only
    rw [getElem?_set_buckets _ _ _ _ hlt]
    by_cases hi : i = bucketIndex key
    · rw [if_pos hi, hi, hb, Option.map_some', eraseIdx_of_find (hs.2 _ _ hb).2 hf]
    · rw [if_neg hi]
      cases hbi : m.Buckets[i]? with
      | none => rfl
      | some bucket => rw [Option.map_some', hother bucket hbi hi]

theorem length_Set (m : HashMap) (key : List Nat) (value : Int) :
    (m.Set key value).Buckets.length = m.Buckets.length := by
  unfold HashMap.Set
  cases find (m.bucket key) key <;> simp

theorem length_Delete (m : HashMap) (key : List Nat) :
    (m.Delete key).Buckets.length = m.Buckets.length := by
  unfold HashMap.Delete
  cases find (m.bucket key) key <;> simp

theorem sound_Set {m : HashMap} (hs : m.Sound) (key : List Nat) (value : Int) :
    (m.Set key value).Sound := by
  refine ⟨by rw [length_Set]; exact hs.1, ?_⟩
  intro i bucket hi
  by_cases hk : key ∈ keysOf (m.bucket key)
  · rw [set_present hs key value hk i] at hi
    cases hbi : m.Buckets[i]? with
    | none => simp [hbi] at hi
    | some old =>
      rw [hbi, Option.map_some', Option.some.injEq] at hi
      subst hi
      obtain ⟨h1, h2⟩ := hs.2 i old hbi
      constructor
      · intro e he
        obtain ⟨e0, he0, hee⟩ := List.mem_map.mp he
        have := h1 e0 he0
        split at hee
        · rw [← hee]
          exact this
        · rw [← hee]
          exact this
      · have hkeys : keysOf (old.map (fun e =>
            if e.Key = key then { Key := e.Key, Value := value } else e)) = keysOf old := by
          unfold keysOf
          rw [List.map_map]
          apply List.map_congr_left
          intro e _
          simp only [Function.comp]
          split <;> rfl
        rw [hkeys]
        exact h2
  · rw [set_absent hs key value hk i] at hi
    by_cases hik : i = bucketIndex key
    · rw [if_pos hik] at hi
      cases hbi : m.Buckets[i]? with
      | none => simp [hbi] at hi
      | some old =>
        rw [hbi, Option.map_some', Option.some.injEq] at hi
        subst hi
        obtain ⟨h1, h2⟩ := hs.2 i old hbi
        have hold : old = m.bucket key := by
          rw [hik, bucket_getElem? hs.1 key] at hbi
          exact (Option.some.inj hbi).symm
        constructor
        · intro e he
          rcases List.mem_append.mp he with he | he
          · exact h1 e he
          · simp only [List.mem_singleton] at he
            rw [he, hik]
        · unfold keysOf
          rw [List.map_append, List.nodup_append]
          refine ⟨h2, by simp, ?_⟩
          intro k hk1 hk2
          simp only [List.map_cons, List.map_nil, List.mem_singleton] at hk2
          rw [hk2, hold] at hk1
          exact hk hk1
    · rw [if_neg hik] at hi
      exact hs.2 i bucket hi

theorem sound_Delete {m : HashMap} (hs : m.Sound) (key : List Nat) : (m.Delete key).Sound := by
  refine ⟨by rw [length_Delete]; exact hs.1, ?_⟩
  intro i bucket hi
  rw [delete_spec hs key i] at hi
  cases hbi : m.Buckets[i]? with
  | none => simp [hbi] at hi
  | some old =>
    rw [hbi, Option.map_some', Option.some.injEq] at hi
    subst hi
    obtain ⟨h1, h2⟩ := hs.2 i old hbi
    constructor
    · intro e he
      exact h1 e (List.mem_filter.mp he).1
    · unfold keysOf at h2 ⊢
      exact h2.sublist ((List.filter_sublist old).map _)

theorem sound_empty : emptyHashMap.Sound := by
  refine ⟨List.length_replicate _ _, ?_⟩
  intro i bucket hi
  have hmem : bucket ∈ List.replicate 256 ([] : List MapEntry) :=
    List.mem_iff_getElem?.mpr ⟨i, hi⟩
  rw [List.eq_of_mem_replicate hmem]
  exact ⟨fun e he => absurd he (List.not_mem_nil e), List.nodup_nil⟩

theorem sound_foldl : ∀ (operations : List Operation) (m : HashMap), m.Sound →
    (operations.foldl HashMap.apply m).Sound := by
  intro operations
  induction operations with
  | nil =>
    intro m hs
    exact hs
  | cons op rest ih =>
    intro m hs
    rw [List.foldl_cons]
    apply ih
    cases op with
    | set key value => exact sound_Set hs key value
    | delete key => exact sound_Delete hs key

/-- C33: in the map after any sequence of `Set` and `Delete` on the empty
map, every stored key sits in the bucket whose index is the hash of the key,
a value below 256, and no key is stored twice; `Set` on a stored key replaces
the value of the entry with that key where it stands and changes nothing
else; `Set` on a key that is not stored appends the entry at the back of the
bucket of the key and changes no other bucket; `Delete` takes the entries
with the key out of every bucket and keeps the others in their order. -/
theorem hashMap_invariant (operations : List Operation) :
    (∀ key, bucketIndex key < 256) ∧
    (runOperations operations).Buckets.length = 256 ∧
    (∀ (i : Nat) bucket, (runOperations operations).Buckets[i]? = some bucket →
      (∀ mapEntry ∈ bucket, bucketIndex mapEntry.Key = i) ∧ (keysOf bucket).Nodup) ∧
    (∀ key (i j : Nat) bucket1 bucket2, (runOperations operations).Buckets[i]? = some bucket1 →
      (runOperations operations).Buckets[j]? = some bucket2 →
      key ∈ keysOf bucket1 → key ∈ keysOf bucket2 →
        i = j ∧ ∀ p q : Nat, (keysOf bucket1)[p]? = some key →
          (keysOf bucket1)[q]? = some key → p = q) ∧
    (∀ key value, (runOperations operations).Has key →
      ∀ i : Nat, ((runOperations operations).Set key value).Buckets[i]? =
        ((runOperations operations).Buckets[i]?).map (fun bucket =>
          bucket.map (fun e =>
            if e.Key = key then { Key := e.Key, Value := value } else e))) ∧
    (∀ key value, ¬ (runOperations operations).Has key →
      ∀ i : Nat, ((runOperations operations).Set key value).Buckets[i]? =
        if i = bucketIndex key then
          ((runOperations operations).Buckets[i]?).map
            (fun bucket => bucket ++ [{ Key := key, Value := value }])
        else (runOperations operations).Buckets[i]?) ∧
    (∀ key (i : Nat), ((runOperations operations).Delete key).Buckets[i]? =
      ((runOperations operations).Buckets[i]?).map
        (fun bucket => bucket.filter (fun e => decide (e.Key ≠ key)))) := by
  have hs : (runOperations operations).Sound := sound_foldl operations _ sound_empty
  refine ⟨bucketIndex_lt, hs.1, hs.2, ?_, ?_, ?_, ?_⟩
  · intro key i j bucket1 bucket2 h1 h2 hk1 hk2
    have hi : i = bucketIndex key := by
      by_contra hne
      exact not_mem_other_bucket hs key h1 hne hk1
    have hj : j = bucketIndex key := by
      by_contra hne
      exact not_mem_other_bucket hs key h2 hne hk2
    refine ⟨hi.trans hj.symm, ?_⟩
    intro p q hp hq
    obtain ⟨hpl, hpe⟩ := List.getElem?_eq_some_iff.mp hp
    obtain ⟨hql, hqe⟩ := List.getElem?_eq_some_iff.mp hq
    exact ((hs.2 i bucket1 h1).2.getElem_inj_iff).mp (hpe.trans hqe.symm)
  · intro key value hk i
    exact set_present hs key value ((has_iff hs key).mp hk) i
  · intro key value hk i
    exact set_absent hs key value (fun h => hk ((has_iff hs key).mpr h)) i
  · intro key i
    exact delete_spec hs key i

end LensLibrary

namespace SeedFertilizer
open ClumsyCrucible (Outcome)

/-! ## `if-you-give-a-seed-a-fertilizer`: the gap before the first range is lost -/

theorem binarySearchFunc_nil (fuel : Nat) (target : Int) :
    BinarySearchFunc fuel [] target = Outcome.ok (0, false) := by
  have hloop : binarySearchLoop fuel [] target 0 0 = Outcome.ok 0 := by
    cases fuel <;> simp [binarySearchLoop]
  unfold BinarySearchFunc
  rw [List.length_nil, hloop]
  rfl

theorem lookupRange_nil (fuel : Nat) (needle : Range) :
    lookupRange fuel [] needle =
      Outcome.ok [{ Start := needle.Start, End := needle.Start, Value := 0 }] := by
  unfold lookupRange
  rw [binarySearchFunc_nil, binarySearchFunc_nil]
  simp [middleLoop, firstGap, sortByStart]

/-- C31, the divergence: for the haystack of the one range `[10, 20)` with
offset 5 and the needle `[5, 15)`, `lookupRange` returns the ranges `[5, 5)`
and `[15, 20)`, of total length 5 and not 10; the value 5 of the needle lies
in no range of the haystack, so its image is 5, which no returned range
holds. On the empty haystack `lookupRange` returns the one empty range
`[Start, Start)` for every needle. -/
theorem lookupRange_loses_the_first_gap :
    lookupRange 1 lossyHaystack lossyNeedle =
      Outcome.ok [{ Start := 5, End := 5, Value := 0 }, { Start := 15, End := 20, Value := 0 }] ∧
    totalLength [{ Start := 5, End := 5, Value := 0 }, { Start := 15, End := 20, Value := 0 }] = 5 ∧
    lossyNeedle.End - lossyNeedle.Start = 10 ∧
    lossyNeedle.Mem 5 ∧ mapValue lossyHaystack 5 = 5 ∧
    (∀ r ∈ [({ Start := 5, End := 5, Value := 0 } : Range), { Start := 15, End := 20, Value := 0 }],
      ¬ r.Mem 5) ∧
    ∀ (fuel : Nat) (needle : Range),
      lookupRange fuel [] needle =
        Outcome.ok [{ Start := needle.Start, End := needle.Start, Value := 0 }] ∧
      totalLength [{ Start := needle.Start, End := needle.Start, Value := 0 }] = 0 := by
  refine ⟨by decide, by decide, by decide, ⟨by decide, by decide⟩, by decide, ?_, ?_⟩
  · intro r hr
    simp only [List.mem_cons, List.mem_singleton, List.not_mem_nil, or_false] at hr
    rcases hr with rfl | rfl
    · intro h
      have h1 : (5 : Int) < 5 := h.2
      omega
    · intro h
      have h1 : (15 : Int) ≤ 5 := h.1
      omega
  · intro fuel needle
    refine ⟨lookupRange_nil fuel needle, ?_⟩
    simp [totalLength]

end SeedFertilizer

namespace CamelCards
open Card

/-! ## `camel-cards`: the counts of a hand -/

theorem mem_allCards (c : Card) : c ∈ allCards := by
  cases c <;> decide

theorem labelsWith_pos {f : Card → Nat} {k : Nat} : 0 < labelsWith f k ↔ ∃ c, f c = k := by
  unfold labelsWith
  rw [List.length_pos_iff_exists_mem]
  constructor
  · rintro ⟨c, hc⟩
    exact ⟨c, by simpa using (List.mem_filter.mp hc).2⟩
  · rintro ⟨c, hc⟩
    exact ⟨c, List.mem_filter.mpr ⟨mem_allCards c, by simpa using hc⟩⟩

theorem labelsWith_mono {f g : Card → Nat} {k j : Nat} (h : ∀ c, f c = k → g c = j) :
    labelsWith f k ≤ labelsWith g j := by
  unfold labelsWith
  apply List.Sublist.length_le
  apply List.monotone_filter_right
  intro c hc
  simpa using h c (by simpa using hc)

theorem counting (f : Card → Nat) : ∀ (cards : List Card), (∀ c ∈ cards, f c ≤ 5) →
    (cards.map f).sum =
      (cards.filter (fun c => decide (f c = 1))).length +
      2 * (cards.filter (fun c => decide (f c = 2))).length +
      3 * (cards.filter (fun c => decide (f c = 3))).length +
      4 * (cards.filter (fun c => decide (f c = 4))).length +
      5 * (cards.filter (fun c => decide (f c = 5))).length ∧
    cards.length =
      (cards.filter (fun c => decide (f c = 0))).length +
      (cards.filter (fun c => decide (f c = 1))).length +
      (cards.filter (fun c => decide (f c = 2))).length +
      (cards.filter (fun c => decide (f c = 3))).length +
      (cards.filter (fun c => decide (f c = 4))).length +
      (cards.filter (fun c => decide (f c = 5))).length := by
  intro cards
  induction cards with
  | nil =>
    intro _
    simp
  | cons a rest ih =>
    intro h
    obtain ⟨ih1, ih2⟩ := ih (fun c hc => h c (List.mem_cons_of_mem _ hc))
    have ha := h a (List.mem_cons_self _ _)
    rw [List.map_cons, List.sum_cons, List.length_cons, ih1]
    simp only [List.filter_cons]
    have hcases : f a = 0 ∨ f a = 1 ∨ f a = 2 ∨ f a = 3 ∨ f a = 4 ∨ f a = 5 := by omega
    rcases hcases with h0 | h0 | h0 | h0 | h0 | h0 <;>
      simp only [h0, decide_True, decide_False, if_true, if_false, List.length_cons,
        Nat.reduceEqDiff, OfNat.ofNat_ne_zero, OfNat.zero_ne_ofNat, OfNat.ofNat_ne_one,
        OfNat.one_ne_ofNat, zero_ne_one, one_ne_zero, Bool.false_eq_true] <;>
      constructor <;> omega

theorem sum_indicator (a : Card) :
    (allCards.map (fun c => if a = c then 1 else 0)).sum = 1 := by
  cases a <;> decide

theorem sum_count : ∀ hand : List Card,
    (allCards.map (fun c => hand.count c)).sum = hand.length
  | [] => by
    simp [allCards]
  | a :: rest => by
    have ih := sum_count rest
    have hsplit : (allCards.map (fun c => (a :: rest).count c)).sum =
        (allCards.map (fun c => rest.count c)).sum +
          (allCards.map (fun c => if a = c then 1 else 0)).sum := by
      rw [← List.sum_map_add]
      apply congrArg
      apply List.map_congr_left
      intro c _
      rw [List.count_cons]
      simp only [beq_iff_eq]
    rw [hsplit, ih, sum_indicator, List.length_cons]

theorem countCards_append (hand : List Card) (card : Card) :
    countCards (hand ++ [card]) = countCard (countCards hand) card := by
  unfold countCards
  rw [List.foldl_append]
  rfl

/-- After the counting loop `cardCount` holds the number of times each card
other than the joker occurs, `jokerCount` the number of jokers and
`maxCount` the largest of the counts. -/
theorem countCards_spec (hand : List Card) :
    (∀ c, (countCards hand).cardCount c = if c = CardJoker then 0 else hand.count c) ∧
    (countCards hand).jokerCount = hand.count CardJoker ∧
    (∀ c, (countCards hand).cardCount c ≤ (countCards hand).maxCount) ∧
    ((countCards hand).maxCount = 0 ∨
      ∃ c, (countCards hand).cardCount c = (countCards hand).maxCount) := by
  induction hand using List.reverseRecOn with
  | nil =>
    refine ⟨?_, rfl, ?_, Or.inl rfl⟩
    · intro c
      simp [countCards]
    · intro c
      exact le_refl _
  | append_singleton rest card ih =>
    obtain ⟨h1, h2, h3, h4⟩ := ih
    rw [countCards_append]
    unfold countCard
    by_cases hj : card = CardJoker
    · rw [if_pos hj]
      simp only
      refine ⟨?_, ?_, h3, h4⟩
      · intro c
        rw [h1 c]
        split
        · rfl
        · rename_i hc
          rw [List.count_append, hj]
          simp [List.count_singleton, hc]
      · rw [h2, List.count_append, hj]
        simp
    · rw [if_neg hj]
      simp only
      refine ⟨?_, ?_, ?_, ?_⟩
      · intro c
        by_cases hc : c = card
        · rw [if_pos hc, hc, if_neg hj, h1 card, if_neg hj, List.count_append]
          simp
        · rw [if_neg hc, h1 c]
          split
          · rfl
          · rw [List.count_append]
            have : ¬ card = c := fun h => hc h.symm
            simp [List.count_singleton, this]
      · rw [h2, List.count_append]
        simp [List.count_singleton, hj]
      · intro c
        by_cases hc : c = card
        · rw [if_pos hc]
          split <;> omega
        · rw [if_neg hc]
          have := h3 c
          split <;> omega
      · right
        by_cases hgt : (countCards rest).cardCount card + 1 > (countCards rest).maxCount
        · rw [if_pos hgt]
          exact ⟨card, by rw [if_pos rfl]⟩
        · rw [if_neg hgt]
          rcases h4 with h0 | ⟨c, hc⟩
          · omega
          · by_cases hcc : c = card
            · have := h3 card
              rw [hcc] at hc
              omega
            · exact ⟨c, by rw [if_neg hcc]; exact hc⟩

/-! ## `camel-cards`: the rank from the counts -/

theorem rank_arith (m J q0 q1 q2 q3 q4 q5 : Nat)
    (ha : q1 + 2 * q2 + 3 * q3 + 4 * q4 + 5 * q5 + J = 5)
    (hb : q0 + q1 + q2 + q3 + q4 + q5 = 13)
    (hc1 : q1 = 0 ∨ 1 ≤ m) (hc2 : q2 = 0 ∨ 2 ≤ m) (hc3 : q3 = 0 ∨ 3 ≤ m)
    (hc4 : q4 = 0 ∨ 4 ≤ m) (hc5 : q5 = 0 ∨ 5 ≤ m)
    (hd : m = 0 ∨ (m = 1 ∧ 0 < q1) ∨ (m = 2 ∧ 0 < q2) ∨ (m = 3 ∧ 0 < q3) ∨
      (m = 4 ∧ 0 < q4) ∨ (m = 5 ∧ 0 < q5))
    (f : Card → Nat) (hf : pairs f = q2) (hhas : hasPair f = decide (0 < q2)) :
    rankOfCounts { cardCount := f, maxCount := m, jokerCount := J } =
      some (typeOf (m + J) (13 - q0)) := by
  have hJ : J ≤ 5 := by omega
  unfold rankOfCounts typeOf
  dsimp only
  rw [hf, hhas]
  simp only [RankFiveOfAKind, RankFourOfAKind, RankFullHouse, RankThreeOfAKind,
    RankTwoPair, RankOnePair, RankHighCard]
  rcases hd with rfl | ⟨rfl, h⟩ | ⟨rfl, h⟩ | ⟨rfl, h⟩ | ⟨rfl, h⟩ | ⟨rfl, h⟩ <;>
    interval_cases J <;> simp <;>
      first | omega | (split_ifs <;> first | rfl | omega)

theorem type_arith (m q0 q1 q2 q3 q4 q5 : Nat)
    (ha : q1 + 2 * q2 + 3 * q3 + 4 * q4 + 5 * q5 + 0 = 5)
    (hb : q0 + q1 + q2 + q3 + q4 + q5 = 13)
    (hc1 : q1 = 0 ∨ 1 ≤ m) (hc2 : q2 = 0 ∨ 2 ≤ m) (hc3 : q3 = 0 ∨ 3 ≤ m)
    (hc4 : q4 = 0 ∨ 4 ≤ m) (hc5 : q5 = 0 ∨ 5 ≤ m)
    (hd : m = 0 ∨ (m = 1 ∧ 0 < q1) ∨ (m = 2 ∧ 0 < q2) ∨ (m = 3 ∧ 0 < q3) ∨
      (m = 4 ∧ 0 < q4) ∨ (m = 5 ∧ 0 < q5)) :
    (if 0 < q5 then RankFiveOfAKind
      else if 0 < q4 then RankFourOfAKind
      else if 0 < q3 ∧ 0 < q2 then RankFullHouse
      else if 0 < q3 then RankThreeOfAKind
      else if q2 = 2 then RankTwoPair
      else if 0 < q2 then RankOnePair
      else RankHighCard) = typeOf m (13 - q0) := by
  unfold typeOf
  simp only [RankFiveOfAKind, RankFourOfAKind, RankFullHouse, RankThreeOfAKind,
    RankTwoPair, RankOnePair, RankHighCard]
  have e5 : q5 = 0 ∨ 0 < q5 := by omega
  have e4 : q4 = 0 ∨ 0 < q4 := by omega
  have e3 : q3 = 0 ∨ 0 < q3 := by omega
  have e2 : q2 = 0 ∨ q2 = 1 ∨ q2 = 2 ∨ 2 < q2 := by omega
  rcases hd with rfl | ⟨rfl, h⟩ | ⟨rfl, h⟩ | ⟨rfl, h⟩ | ⟨rfl, h⟩ | ⟨rfl, h⟩
  all_goals (rcases e5 with h5 | h5 <;> try omega)
  all_goals (rcases e4 with h4 | h4 <;> try omega)
  all_goals (rcases e3 with h3 | h3 <;> try omega)
  all_goals (rcases e2 with h2 | h2 | h2 | h2 <;> try omega)
  all_goals
    simp only [h5, h4, h3, h2, lt_irrefl, if_false, if_true, false_and, and_false, and_true,
      true_and, Nat.lt_irrefl, Nat.zero_lt_one, Nat.zero_lt_two, OfNat.one_ne_ofNat,
      OfNat.ofNat_ne_one, OfNat.zero_ne_ofNat, OfNat.ofNat_ne_zero, Nat.reduceEqDiff,
      Nat.reduceLeDiff, Nat.reduceLT, Nat.reduceSub]
  all_goals first | rfl | omega | (split_ifs <;> first | rfl | omega)

theorem typeOf_mono {most1 most2 labels1 labels2 : Nat} (hm : most1 ≤ most2)
    (hl : labels2 ≤ labels1) : typeOf most1 labels1 ≤ typeOf most2 labels2 := by
  unfold typeOf
  simp only [RankFiveOfAKind, RankFourOfAKind, RankFullHouse, RankThreeOfAKind,
    RankTwoPair, RankOnePair, RankHighCard]
  split_ifs <;> first | decide | (exfalso; omega)

theorem pairs_eq (f : Card → Nat) : pairs f = labelsWith f 2 := rfl

theorem hasPair_eq (f : Card → Nat) : hasPair f = decide (0 < labelsWith f 2) := by
  unfold hasPair
  rw [Bool.eq_iff_iff, List.any_eq_true, decide_eq_true_iff, labelsWith_pos]
  constructor
  · rintro ⟨c, _, hc⟩
    exact ⟨c, by simpa using hc⟩
  · rintro ⟨c, hc⟩
    exact ⟨c, mem_allCards c, by simpa using hc⟩

/-- The arithmetic of the counts of a hand of five cards. -/
theorem hand_numbers (hand : List Card) (hlen : hand.length = 5) :
    labelsWith (countCards hand).cardCount 1 + 2 * labelsWith (countCards hand).cardCount 2 +
      3 * labelsWith (countCards hand).cardCount 3 +
      4 * labelsWith (countCards hand).cardCount 4 +
      5 * labelsWith (countCards hand).cardCount 5 + (countCards hand).jokerCount = 5 ∧
    labelsWith (countCards hand).cardCount 0 + labelsWith (countCards hand).cardCount 1 +
      labelsWith (countCards hand).cardCount 2 + labelsWith (countCards hand).cardCount 3 +
      labelsWith (countCards hand).cardCount 4 + labelsWith (countCards hand).cardCount 5 = 13 ∧
    (∀ k, labelsWith (countCards hand).cardCount k = 0 ∨ k ≤ (countCards hand).maxCount) ∧
    ((countCards hand).maxCount = 0 ∨
      ((countCards hand).maxCount = 1 ∧ 0 < labelsWith (countCards hand).cardCount 1) ∨
      ((countCards hand).maxCount = 2 ∧ 0 < labelsWith (countCards hand).cardCount 2) ∨
      ((countCards hand).maxCount = 3 ∧ 0 < labelsWith (countCards hand).cardCount 3) ∨
      ((countCards hand).maxCount = 4 ∧ 0 < labelsWith (countCards hand).cardCount 4) ∨
      ((countCards hand).maxCount = 5 ∧ 0 < labelsWith (countCards hand).cardCount 5)) := by
  obtain ⟨h1, h2, h3, h4⟩ := countCards_spec hand
  have hle : ∀ c, (countCards hand).cardCount c ≤ 5 := by
    intro c
    rw [h1 c]
    split
    · omega
    · rw [← hlen]
      exact List.count_le_length _ _
  obtain ⟨hsum, hcard⟩ := counting (countCards hand).cardCount allCards (fun c _ => hle c)
  have htotal : (allCards.map (countCards hand).cardCount).sum + hand.count CardJoker = 5 := by
    have := sum_count hand
    rw [hlen] at this
    simp only [allCards, List.map_cons, List.map_nil, List.sum_cons, List.sum_nil, h1] at this ⊢
    simp only [reduceCtorEq, if_false, if_true] at this ⊢
    omega
  refine ⟨?_, ?_, ?_, ?_⟩
  · unfold labelsWith
    rw [h2]
    omega
  · unfold labelsWith
    have : allCards.length = 13 := rfl
    omega
  · intro k
    by_cases hk : 0 < labelsWith (countCards hand).cardCount k
    · obtain ⟨c, hc⟩ := labelsWith_pos.mp hk
      right
      rw [← hc]
      exact h3 c
    · left
      omega
  · rcases h4 with h0 | ⟨c, hc⟩
    · exact Or.inl h0
    · have hpos := labelsWith_pos.mpr ⟨c, hc⟩
      have hm5 : (countCards hand).maxCount ≤ 5 := hc ▸ hle c
      generalize (countCards hand).maxCount = m at hpos hm5
      interval_cases m
      · exact Or.inl rfl
      · exact Or.inr (Or.inl ⟨rfl, hpos⟩)
      · exact Or.inr (Or.inr (Or.inl ⟨rfl, hpos⟩))
      · exact Or.inr (Or.inr (Or.inr (Or.inl ⟨rfl, hpos⟩)))
      · exact Or.inr (Or.inr (Or.inr (Or.inr (Or.inl ⟨rfl, hpos⟩))))
      · exact Or.inr (Or.inr (Or.inr (Or.inr (Or.inr ⟨rfl, hpos⟩))))

/-- The rank `rankHand` returns, from the largest count, the number of jokers
and the number of cards that do not occur. -/
theorem rankHand_eq (hand : List Card) (hlen : hand.length = 5) :
    rankHand hand =
      some (typeOf ((countCards hand).maxCount + (countCards hand).jokerCount)
        (13 - labelsWith (countCards hand).cardCount 0)) := by
  obtain ⟨ha, hb, hc, hd⟩ := hand_numbers hand hlen
  unfold rankHand
  exact rank_arith _ _ _ _ _ _ _ _ ha hb (hc 1) (hc 2) (hc 3) (hc 4) (hc 5) hd _
    (pairs_eq _) (hasPair_eq _)

/-- The type of a hand of five cards without a joker, from its largest count
and the number of cards that do not occur. -/
theorem handType_eq (hand : List Card) (hlen : hand.length = 5)
    (hj : hand.count CardJoker = 0) :
    handType hand =
      typeOf (countCards hand).maxCount (13 - labelsWith (countCards hand).cardCount 0) := by
  obtain ⟨ha, hb, hc, hd⟩ := hand_numbers hand hlen
  obtain ⟨h1, h2, _, _⟩ := countCards_spec hand
  have hf : (fun c => hand.count c) = (countCards hand).cardCount := by
    funext c
    rw [h1 c]
    split
    · rename_i hc
      rw [hc, hj]
    · rfl
  rw [h2, hj] at ha
  unfold handType labelsWithCount
  rw [hf]
  exact type_arith _ _ _ _ _ _ _ ha hb (hc 1) (hc 2) (hc 3) (hc 4) (hc 5) hd

end CamelCards

namespace CamelCards
open Card

/-! ## `camel-cards`: the jokers take the best label -/

theorem replaces_counts {hand replaced : List Card} (h : Replaces hand replaced) :
    replaced.length = hand.length ∧ replaced.count CardJoker = 0 ∧
      ∀ c, c ≠ CardJoker →
        hand.count c ≤ replaced.count c ∧
          replaced.count c ≤ hand.count c + hand.count CardJoker := by
  unfold Replaces at h
  induction h with
  | nil =>
    refine ⟨rfl, rfl, ?_⟩
    intro c _
    simp
  | @cons a b l1 l2 hab _ ih =>
    obtain ⟨ih1, ih2, ih3⟩ := ih
    obtain ⟨hb, hkeep⟩ := hab
    refine ⟨by simp [ih1], ?_, ?_⟩
    · rw [List.count_cons, ih2]
      simp [hb]
    · intro c hc
      obtain ⟨i1, i2⟩ := ih3 c hc
      rw [List.count_cons, List.count_cons, List.count_cons]
      by_cases ha : a = CardJoker
      · subst ha
        have h1 : (CardJoker == c) = false := by
          simpa using fun h => hc h.symm
        simp only [h1, beq_self_eq_true, if_true, Bool.false_eq_true, if_false]
        split <;> omega
      · have hba := hkeep ha
        subst hba
        have h1 : (b == CardJoker) = false := by simpa using ha
        simp only [h1, Bool.false_eq_true, if_false]
        split <;> omega

theorem replaces_map (best : Card) (hbest : best ≠ CardJoker) : ∀ hand : List Card,
    Replaces hand (hand.map (fun c => if c = CardJoker then best else c))
  | [] => List.Forall₂.nil
  | a :: rest => by
    unfold Replaces
    rw [List.map_cons]
    refine List.Forall₂.cons ?_ (replaces_map best hbest rest)
    by_cases ha : a = CardJoker
    · rw [if_pos ha]
      exact ⟨hbest, fun h => absurd ha h⟩
    · rw [if_neg ha]
      exact ⟨ha, fun _ => rfl⟩

theorem count_map_best (best : Card) (hbest : best ≠ CardJoker) : ∀ hand : List Card,
    (hand.map (fun c => if c = CardJoker then best else c)).count best =
      hand.count best + hand.count CardJoker ∧
    ∀ c, c ≠ best → c ≠ CardJoker →
      (hand.map (fun c => if c = CardJoker then best else c)).count c = hand.count c
  | [] => by simp
  | a :: rest => by
    obtain ⟨ih1, ih2⟩ := count_map_best best hbest rest
    constructor
    · rw [List.map_cons, List.count_cons, List.count_cons, List.count_cons, ih1]
      by_cases ha : a = CardJoker
      · subst ha
        have h1 : (CardJoker == best) = false := by simpa using fun h => hbest h.symm
        simp [h1]
        omega
      · rw [if_neg ha]
        have h1 : (a == CardJoker) = false := by simpa using ha
        simp only [h1, Bool.false_eq_true, if_false]
        omega
    · intro c hcb hcj
      rw [List.map_cons, List.count_cons, List.count_cons, ih2 c hcb hcj]
      by_cases ha : a = CardJoker
      · subst ha
        have h1 : (best == c) = false := by simpa using fun h => hcb h.symm
        have h2 : (CardJoker == c) = false := by simpa using fun h => hcj h.symm
        simp [h1, h2]
      · rw [if_neg ha]

/-- C32: for every hand of five cards `rankHand` returns a rank and does not
panic; some replacement of each joker by a card that is not a joker gives a
hand of that type, and no such replacement gives a hand of a stronger type. -/
theorem rankHand_total_and_optimal (hand : List Card) (hlen : hand.length = 5) :
    ∃ rank, rankHand hand = some rank ∧
      (∃ replaced, Replaces hand replaced ∧ handType replaced = rank) ∧
      ∀ replaced, Replaces hand replaced → handType replaced ≤ rank := by
  refine ⟨_, rankHand_eq hand hlen, ?_, ?_⟩
  · obtain ⟨g1, g2, g3, g4⟩ := countCards_spec hand
    obtain ⟨ha, _, _, _⟩ := hand_numbers hand hlen
    -- the card the jokers turn into
    have hbest : ∃ best, best ≠ CardJoker ∧
        hand.count best = (countCards hand).maxCount := by
      rcases g4 with h0 | ⟨c, hc⟩
      · refine ⟨CardAce, by decide, ?_⟩
        have := g3 CardAce
        rw [g1 CardAce, if_neg (by decide)] at this
        omega
      · by_cases hcj : c = CardJoker
        · refine ⟨CardAce, by decide, ?_⟩
          rw [g1 c, if_pos hcj] at hc
          have := g3 CardAce
          rw [g1 CardAce, if_neg (by decide)] at this
          omega
        · refine ⟨c, hcj, ?_⟩
          rw [g1 c, if_neg hcj] at hc
          exact hc
    obtain ⟨best, hbj, hbc⟩ := hbest
    refine ⟨hand.map (fun c => if c = CardJoker then best else c),
      replaces_map best hbj hand, ?_⟩
    have hrep := replaces_map best hbj hand
    obtain ⟨r1, r2, r3⟩ := replaces_counts hrep
    obtain ⟨m1, m2⟩ := count_map_best best hbj hand
    obtain ⟨k1, k2, k3, k4⟩ :=
      countCards_spec (hand.map (fun c => if c = CardJoker then best else c))
    rw [handType_eq _ (r1.trans hlen) r2]
    -- the largest count of the replaced hand
    have hmost : (countCards (hand.map (fun c => if c = CardJoker then best else c))).maxCount =
        (countCards hand).maxCount + (countCards hand).jokerCount := by
      apply le_antisymm
      · rcases k4 with h0 | ⟨c, hc⟩
        · omega
        · rw [← hc, k1 c]
          split
          · omega
          · rename_i hcj
            have h1 := (r3 c hcj).2
            have h2 := g3 c
            rw [g1 c, if_neg hcj] at h2
            rw [g2]
            omega
      · have h1 := k3 best
        rw [k1 best, if_neg hbj, m1, hbc, ← g2] at h1
        exact h1
    rw [hmost]
    by_cases hm0 : (countCards hand).maxCount = 0
    · -- five jokers
      have hq : ∀ k, 0 < k → labelsWith (countCards hand).cardCount k = 0 := by
        intro k hk
        by_contra hne
        obtain ⟨c, hc⟩ := labelsWith_pos.mp (Nat.pos_of_ne_zero hne)
        have := g3 c
        omega
      rw [hq 1 Nat.one_pos, hq 2 (by decide), hq 3 (by decide), hq 4 (by decide),
        hq 5 (by decide)] at ha
      have hJ : (countCards hand).jokerCount = 5 := by omega
      rw [hm0, hJ]
      rfl
    · have hzero : labelsWith
          (countCards (hand.map (fun c => if c = CardJoker then best else c))).cardCount 0 =
          labelsWith (countCards hand).cardCount 0 := by
        apply le_antisymm
        · apply labelsWith_mono
          intro c hc
          rw [g1 c]
          split
          · rfl
          · rename_i hcj
            rw [k1 c, if_neg hcj] at hc
            have := (r3 c hcj).1
            omega
        · apply labelsWith_mono
          intro c hc
          rw [k1 c]
          split
          · rfl
          · rename_i hcj
            rw [g1 c, if_neg hcj] at hc
            have hcb : c ≠ best := by
              intro h
              rw [h, hbc] at hc
              exact hm0 hc
            rw [m2 c hcb hcj]
            exact hc
      rw [hzero]
  · intro replaced hrep
    obtain ⟨g1, g2, g3, g4⟩ := countCards_spec hand
    obtain ⟨r1, r2, r3⟩ := replaces_counts hrep
    obtain ⟨k1, k2, k3, k4⟩ := countCards_spec replaced
    rw [handType_eq _ (r1.trans hlen) r2]
    apply typeOf_mono
    · rcases k4 with h0 | ⟨c, hc⟩
      · omega
      · rw [← hc, k1 c]
        split
        · omega
        · rename_i hcj
          have h1 := (r3 c hcj).2
          have h2 := g3 c
          rw [g1 c, if_neg hcj] at h2
          rw [g2]
          omega
    · have hzero : labelsWith (countCards replaced).cardCount 0 ≤
          labelsWith (countCards hand).cardCount 0 := by
        apply labelsWith_mono
        intro c hc
        rw [g1 c]
        split
        · rfl
        · rename_i hcj
          rw [k1 c, if_neg hcj] at hc
          have := (r3 c hcj).1
          omega
      omega

/-- An instance of C32: the hand `KTJJT` of the puzzle text. -/
theorem rankHand_total_and_optimal_witness :
    [CardKing, Card10, CardJoker, CardJoker, Card10].length = 5 ∧
    ∃ rank, rankHand [CardKing, Card10, CardJoker, CardJoker, Card10] = some rank ∧
      (∃ replaced, Replaces [CardKing, Card10, CardJoker, CardJoker, Card10] replaced ∧
        handType replaced = rank) ∧
      ∀ replaced, Replaces [CardKing, Card10, CardJoker, CardJoker, Card10] replaced →
        handType replaced ≤ rank :=
  ⟨rfl, rankHand_total_and_optimal [CardKing, Card10, CardJoker, CardJoker, Card10] rfl⟩

end CamelCards

namespace ParabolicReflectorDish
open Tile

/-! ## `parabolic-reflector-dish`: one column under `tiltNorth` -/

theorem roundedCount_congr {col1 col2 : Nat → Tile} {a b : Nat}
    (h : ∀ r, a ≤ r → r < b → col1 r = col2 r) : roundedCount col1 a b = roundedCount col2 a b := by
  unfold roundedCount
  congr 1
  apply Finset.filter_congr
  intro r hr
  rw [Finset.mem_Ico] at hr
  rw [h r hr.1 hr.2]

theorem roundedCount_move {col1 col2 : Nat → Tile} {a b k n : Nat}
    (hk : a ≤ k ∧ k < b) (hn : a ≤ n ∧ n < b)
    (h1k : col1 k ≠ TileRoundedRock) (h1n : col1 n = TileRoundedRock)
    (h2k : col2 k = TileRoundedRock) (h2n : col2 n ≠ TileRoundedRock)
    (hrest : ∀ r, r ≠ k → r ≠ n → col2 r = col1 r) :
    roundedCount col2 a b = roundedCount col1 a b := by
  unfold roundedCount
  have hkn : k ≠ n := by
    intro h
    rw [h] at h1k
    exact h1k h1n
  have hset : (Finset.Ico a b).filter (fun r => col2 r = TileRoundedRock) =
      insert k (((Finset.Ico a b).filter (fun r => col1 r = TileRoundedRock)).erase n) := by
    ext r
    simp only [Finset.mem_filter, Finset.mem_Ico, Finset.mem_insert, Finset.mem_erase]
    constructor
    · rintro ⟨hr, hc⟩
      by_cases hrk : r = k
      · exact Or.inl hrk
      · right
        have hrn : r ≠ n := by
          intro h
          rw [h] at hc
          exact h2n hc
        exact ⟨hrn, hr, by rw [← hrest r hrk hrn]; exact hc⟩
    · rintro (hrk | ⟨hrn, hr, hc⟩)
      · rw [hrk]
        exact ⟨hk, h2k⟩
      · have hrk : r ≠ k := by
          intro h
          rw [h] at hc
          exact h1k hc
        exact ⟨hr, by rw [hrest r hrk hrn]; exact hc⟩
  rw [hset, Finset.card_insert_of_not_mem, Finset.card_erase_of_mem]
  · have hpos : 0 < ((Finset.Ico a b).filter (fun r => col1 r = TileRoundedRock)).card :=
      Finset.card_pos.mpr ⟨n, by
        simp only [Finset.mem_filter, Finset.mem_Ico]
        exact ⟨hn, h1n⟩⟩
    omega
  · simp only [Finset.mem_filter, Finset.mem_Ico]
    exact ⟨hn, h1n⟩
  · simp only [Finset.mem_erase, Finset.mem_filter, Finset.mem_Ico, not_and]
    intro _ _
    exact h1k

theorem columnOk_init (original : Nat → Tile) : ColumnOk original original 0 0 := by
  refine ⟨le_refl _, ?_, fun _ _ => rfl, fun _ => Iff.rfl, Or.inl rfl, ?_, fun _ _ _ _ _ _ => rfl⟩
  · intro r _ h
    omega
  · intro r h
    omega

theorem columnOk_empty {original column : Nat → Tile} {cursor n : Nat}
    (h : ColumnOk original column cursor n) (ht : column n = TileEmptySpace) :
    ColumnOk original column cursor (n + 1) := by
  obtain ⟨h1, h2, h3, h4, h5, h6, h7⟩ := h
  refine ⟨by omega, ?_, fun r hr => h3 r (by omega), h4, h5, ?_, ?_⟩
  · intro r hr1 hr2
    by_cases hrn : r = n
    · rw [hrn]
      exact ht
    · exact h2 r hr1 (by omega)
  · intro r hr hc
    by_cases hrn : r + 1 = n
    · rw [hrn, ht] at hc
      cases hc
    · exact h6 r (by omega) hc
  · intro a b hab hstart hfree hend
    exact h7 a b hab hstart hfree (by
      rcases hend with hb | hb
      · exact Or.inl (by omega)
      · exact Or.inr hb)

theorem columnOk_cube {original column : Nat → Tile} {cursor n : Nat}
    (h : ColumnOk original column cursor n) (ht : column n = TileCubeShapedRock) :
    ColumnOk original column (n + 1) (n + 1) := by
  obtain ⟨h1, h2, h3, h4, h5, h6, h7⟩ := h
  refine ⟨le_refl _, ?_, fun r hr => h3 r (by omega), h4, ?_, ?_, ?_⟩
  · intro r hr1 hr2
    omega
  · right
    rw [Nat.add_sub_cancel, ht]
    decide
  · intro r hr hc
    by_cases hrn : r + 1 = n
    · rw [hrn, ht] at hc
      cases hc
    · exact h6 r (by omega) hc
  · intro a b hab hstart hfree hend
    exact h7 a b hab hstart hfree (by
      rcases hend with hb | hb
      · exact Or.inl (by omega)
      · exact Or.inr hb)

theorem columnOk_stay {original column : Nat → Tile} {n : Nat}
    (h : ColumnOk original column n n) (ht : column n = TileRoundedRock) :
    ColumnOk original column (n + 1) (n + 1) := by
  obtain ⟨h1, h2, h3, h4, h5, h6, h7⟩ := h
  refine ⟨le_refl _, ?_, fun r hr => h3 r (by omega), h4, ?_, ?_, ?_⟩
  · intro r hr1 hr2
    omega
  · right
    rw [Nat.add_sub_cancel, ht]
    decide
  · intro r hr hc
    by_cases hrn : r + 1 = n
    · rcases h5 with h0 | h5
      · omega
      · have : n - 1 = r := by omega
        rw [this] at h5
        exact h5
    · exact h6 r (by omega) hc
  · intro a b hab hstart hfree hend
    exact h7 a b hab hstart hfree (by
      rcases hend with hb | hb
      · exact Or.inl (by omega)
      · exact Or.inr hb)

theorem columnOk_move {original column moved : Nat → Tile} {cursor n : Nat}
    (h : ColumnOk original column cursor n) (ht : column n = TileRoundedRock)
    (hk : cursor ≠ n)
    (hmoved : ∀ r, moved r =
      if r = n then TileEmptySpace else if r = cursor then TileRoundedRock else column r) :
    ColumnOk original moved (cursor + 1) (n + 1) := by
  obtain ⟨h1, h2, h3, h4, h5, h6, h7⟩ := h
  have hlt : cursor < n := by omega
  have hmn : moved n = TileEmptySpace := by rw [hmoved, if_pos rfl]
  have hmk : moved cursor = TileRoundedRock := by rw [hmoved, if_neg hk, if_pos rfl]
  have hmr : ∀ r, r ≠ n → r ≠ cursor → moved r = column r := by
    intro r hr1 hr2
    rw [hmoved, if_neg hr1, if_neg hr2]
  have hck : column cursor = TileEmptySpace := h2 cursor (le_refl _) hlt
  refine ⟨by omega, ?_, ?_, ?_, ?_, ?_, ?_⟩
  · intro r hr1 hr2
    by_cases hrn : r = n
    · rw [hrn]
      exact hmn
    · rw [hmr r hrn (by omega)]
      exact h2 r (by omega) (by omega)
  · intro r hr
    rw [hmr r (by omega) (by omega)]
    exact h3 r (by omega)
  · intro r
    by_cases hrn : r = n
    · rw [hrn, hmn, ← h3 n (le_refl _), ht]
      constructor <;> intro hc <;> cases hc
    · by_cases hrk : r = cursor
      · rw [hrk, hmk, ← h4 cursor, hck]
        constructor <;> intro hc <;> cases hc
      · rw [hmr r hrn hrk]
        exact h4 r
  · right
    rw [Nat.add_sub_cancel, hmk]
    decide
  · intro r hr hc
    by_cases hr1n : r + 1 = n
    · rw [hr1n, hmn] at hc
      cases hc
    · by_cases hr1k : r + 1 = cursor
      · rcases h5 with h0 | h5
        · omega
        · have hrc : cursor - 1 = r := by omega
          rw [hrc] at h5
          rw [hmr r (by omega) (by omega)]
          exact h5
      · rw [hmr (r + 1) hr1n hr1k] at hc
        by_cases hrk : r = cursor
        · rw [hrk, hmk]
          decide
        · rw [hmr r (by omega) hrk]
          exact h6 r (by omega) hc
  · intro a b hab hstart hfree hend
    have hold := h7 a b hab hstart hfree (by
      rcases hend with hb | hb
      · exact Or.inl (by omega)
      · exact Or.inr hb)
    rw [← hold]
    by_cases hin : a ≤ n ∧ n < b
    · have hak : a ≤ cursor := by
        by_contra hlt2
        rcases hstart with h0 | hcube
        · omega
        · have h8 := (h4 (a - 1)).mpr hcube
          rw [h2 (a - 1) (by omega) (by omega)] at h8
          cases h8
      exact roundedCount_move ⟨hak, by omega⟩ hin (by rw [hck]; decide) ht hmk
        (by rw [hmn]; decide) (fun r hr1 hr2 => hmr r hr2 hr1)
    · apply roundedCount_congr
      intro r hr1 hr2
      have hrn : r ≠ n := by
        intro h8
        exact hin ⟨by omega, by omega⟩
      have hrk : r ≠ cursor := by
        intro h8
        have hbn : b ≤ n := by
          by_contra h9
          exact hin ⟨by omega, by omega⟩
        rcases hend with hb | hb
        · omega
        · by_cases hbn2 : b = n
          · rw [hbn2, ← h3 n (le_refl _), ht] at hb
            cases hb
          · have h8 := (h4 b).mpr hb
            rw [h2 b (by omega) (by omega)] at h8
            cases h8
      exact hmr r hrn hrk

end ParabolicReflectorDish

namespace ParabolicReflectorDish
open Tile

/-! ## `parabolic-reflector-dish`: reads and writes of the platform -/

theorem row_of_rectangular {p : Platform} {rows cols i : Nat} (h : Rectangular p rows cols)
    (hi : i < rows) : ∃ row, p[i]? = some row ∧ row.length = cols := by
  have hlt : i < p.length := by rw [h.1]; exact hi
  exact ⟨p[i], List.getElem?_eq_getElem hlt, h.2 _ (List.getElem_mem hlt)⟩

theorem getTile_of_rectangular {p : Platform} {rows cols i j : Nat}
    (h : Rectangular p rows cols) (hi : i < rows) (hj : j < cols) :
    getTile p i j = some (tileAt p i j) := by
  obtain ⟨row, hrow, hlen⟩ := row_of_rectangular h hi
  unfold tileAt getTile
  rw [hrow]
  simp only
  rw [List.getElem?_eq_getElem (by rw [hlen]; exact hj)]
  rfl

theorem setTile_of_rectangular {p : Platform} {rows cols i j : Nat} (tile : Tile)
    (h : Rectangular p rows cols) (hi : i < rows) (hj : j < cols) :
    ∃ p1, setTile p i j tile = some p1 ∧ Rectangular p1 rows cols ∧
      ∀ r c, tileAt p1 r c = if r = i ∧ c = j then tile else tileAt p r c := by
  obtain ⟨row, hrow, hlen⟩ := row_of_rectangular h hi
  have hlt : i < p.length := by rw [h.1]; exact hi
  refine ⟨p.set i (row.set j tile), ?_, ?_, ?_⟩
  · unfold setTile
    rw [hrow]
    simp only
    rw [if_pos (by rw [hlen]; exact hj)]
  · refine ⟨by rw [List.length_set]; exact h.1, ?_⟩
    intro row1 hrow1
    rcases List.mem_or_eq_of_mem_set hrow1 with hmem | heq
    · exact h.2 row1 hmem
    · rw [heq, List.length_set]
      exact hlen
  · intro r c
    unfold tileAt getTile
    rw [List.getElem?_set]
    by_cases hri : i = r
    · subst hri
      rw [if_pos rfl, if_pos hlt]
      simp only
      rw [hrow, List.getElem?_set]
      by_cases hcj : j = c
      · subst hcj
        have hjr : j < row.length := by rw [hlen]; exact hj
        simp [hjr]
      · have hcj2 : ¬ c = j := fun h2 => hcj h2.symm
        simp [hcj, hcj2]
    · have hri2 : ¬ r = i := fun h2 => hri h2.symm
      simp [hri, hri2]

theorem getElem?_set_cursor (cursors : List Nat) (j c value : Nat) (hj : j < cursors.length) :
    (cursors.set j value)[c]? = if c = j then some value else cursors[c]? := by
  rw [List.getElem?_set]
  by_cases h : j = c
  · subst h
    simp [hj]
  · have h2 : ¬ c = j := fun h3 => h h3.symm
    simp [h, h2]

/-- The step of the inner loop keeps `TiltInv` and moves it one column on. -/
theorem tiltCell_inv {original : Platform} {rows cols i j : Nat} {state : Platform × List Nat}
    (hi : i < rows) (hj : j < cols) (h : TiltInv original rows cols i j state) :
    ∃ state1, tiltCell i j state = some state1 ∧ TiltInv original rows cols i (j + 1) state1 := by
  obtain ⟨hrect, hlen, hcols⟩ := h
  obtain ⟨cursor, hcur, hok⟩ := hcols j hj
  rw [if_neg (lt_irrefl j)] at hok
  have hjl : j < state.2.length := by rw [hlen]; exact hj
  have hget := getTile_of_rectangular hrect hi hj
  -- the columns other than `j` are as they were
  have hframe : ∀ (p1 : Platform) (cursors1 : List Nat),
      (∀ r c, c ≠ j → tileAt p1 r c = tileAt state.1 r c) →
      (∀ c, c ≠ j → cursors1[c]? = state.2[c]?) →
      ∀ c, c < cols → c ≠ j → ∃ cursor1, cursors1[c]? = some cursor1 ∧
        ColumnOk (fun r => tileAt original r c) (fun r => tileAt p1 r c) cursor1
          (if c < j + 1 then i + 1 else i) := by
    intro p1 cursors1 hp1 hc1 c hc hcj
    obtain ⟨cursor1, hcur1, hok1⟩ := hcols c hc
    refine ⟨cursor1, by rw [hc1 c hcj]; exact hcur1, ?_⟩
    have hfun : (fun r => tileAt p1 r c) = fun r => tileAt state.1 r c := by
      funext r
      exact hp1 r c hcj
    rw [hfun]
    by_cases hlt : c < j
    · rw [if_pos hlt] at hok1
      rw [if_pos (by omega)]
      exact hok1
    · rw [if_neg hlt] at hok1
      rw [if_neg (by omega)]
      exact hok1
  unfold tiltCell
  rw [hget]
  cases ht : tileAt state.1 i j with
  | TileEmptySpace =>
    refine ⟨state, rfl, hrect, hlen, ?_⟩
    intro c hc
    by_cases hcj : c = j
    · subst hcj
      refine ⟨cursor, hcur, ?_⟩
      rw [if_pos (Nat.lt_succ_self c)]
      exact columnOk_empty hok ht
    · exact hframe state.1 state.2 (fun _ _ _ => rfl) (fun _ _ => rfl) c hc hcj
  | TileCubeShapedRock =>
    simp only
    rw [if_pos hjl]
    refine ⟨_, rfl, hrect, by simp only [List.length_set]; exact hlen, ?_⟩
    intro c hc
    by_cases hcj : c = j
    · subst hcj
      refine ⟨i + 1, by simp only; rw [getElem?_set_cursor _ _ _ _ hjl, if_pos rfl], ?_⟩
      rw [if_pos (Nat.lt_succ_self c)]
      exact columnOk_cube hok ht
    · exact hframe state.1 _ (fun _ _ _ => rfl)
        (fun c2 hc2 => by rw [getElem?_set_cursor _ _ _ _ hjl, if_neg hc2]) c hc hcj
  | TileRoundedRock =>
    simp only
    rw [hcur]
    simp only
    by_cases hci : cursor = i
    · rw [if_neg (by simpa using hci)]
      refine ⟨_, rfl, hrect, by simp only [List.length_set]; exact hlen, ?_⟩
      intro c hc
      by_cases hcj : c = j
      · subst hcj
        refine ⟨cursor + 1, by simp only; rw [getElem?_set_cursor _ _ _ _ hjl, if_pos rfl], ?_⟩
        rw [if_pos (Nat.lt_succ_self c), hci]
        rw [hci] at hok
        exact columnOk_stay hok ht
      · exact hframe state.1 _ (fun _ _ _ => rfl)
          (fun c2 hc2 => by rw [getElem?_set_cursor _ _ _ _ hjl, if_neg hc2]) c hc hcj
    · rw [if_pos hci]
      have hcr : cursor < rows := by
        have := hok.1
        omega
      obtain ⟨p1, hp1, hrect1, htile1⟩ := setTile_of_rectangular TileRoundedRock hrect hcr hj
      obtain ⟨p2, hp2, hrect2, htile2⟩ := setTile_of_rectangular TileEmptySpace hrect1 hi hj
      rw [hp1]
      simp only
      rw [hp2]
      refine ⟨_, rfl, hrect2, by simp only [List.length_set]; exact hlen, ?_⟩
      intro c hc
      by_cases hcj : c = j
      · subst hcj
        refine ⟨cursor + 1, by simp only; rw [getElem?_set_cursor _ _ _ _ hjl, if_pos rfl], ?_⟩
        rw [if_pos (Nat.lt_succ_self c)]
        apply columnOk_move hok ht hci
        intro r
        simp only
        rw [htile2, htile1]
        by_cases hrn : r = i
        · rw [if_pos ⟨hrn, rfl⟩, if_pos hrn]
        · rw [if_neg (fun h2 => hrn h2.1), if_neg hrn]
          by_cases hrk : r = cursor
          · rw [if_pos ⟨hrk, rfl⟩, if_pos hrk]
          · rw [if_neg (fun h2 => hrk h2.1), if_neg hrk]
      · refine hframe p2 _ ?_
          (fun c2 hc2 => by rw [getElem?_set_cursor _ _ _ _ hjl, if_neg hc2]) c hc hcj
        intro r c2 hc2
        rw [htile2, htile1, if_neg (fun h2 => hc2 h2.2), if_neg (fun h2 => hc2 h2.2)]

end ParabolicReflectorDish

namespace ParabolicReflectorDish
open Tile

/-! ## `parabolic-reflector-dish`: the loops of `tiltNorth` -/

theorem tiltColumns_loop (I : Nat → Platform × List Nat → Prop) (i cols : Nat)
    (hstep : ∀ j, j < cols → ∀ s, I j s → ∃ s1, tiltCell i j s = some s1 ∧ I (j + 1) s1) :
    ∀ (len j : Nat) (s : Platform × List Nat), j + len = cols → I j s →
      ∃ s1, tiltColumns i (List.range' j len) s = some s1 ∧ I cols s1 := by
  intro len
  induction len with
  | zero =>
    intro j s hj hI
    have : j = cols := by omega
    subst this
    exact ⟨s, rfl, hI⟩
  | succ len ih =>
    intro j s hj hI
    obtain ⟨s1, h1, hI1⟩ := hstep j (by omega) s hI
    obtain ⟨s2, h2, hI2⟩ := ih (j + 1) s1 (by omega) hI1
    refine ⟨s2, ?_, hI2⟩
    rw [List.range'_succ, tiltColumns, h1]
    exact h2

theorem tiltRows_loop (I : Nat → Nat → Platform × List Nat → Prop) (rows cols : Nat)
    (hrow : ∀ i, i < rows → ∀ s, I i 0 s → ∃ row, s.1[i]? = some row ∧ row.length = cols)
    (hstep : ∀ i, i < rows → ∀ j, j < cols → ∀ s, I i j s →
      ∃ s1, tiltCell i j s = some s1 ∧ I i (j + 1) s1)
    (hnext : ∀ i s, I i cols s → I (i + 1) 0 s) :
    ∀ (len i : Nat) (s : Platform × List Nat), i + len = rows → I i 0 s →
      ∃ s1, tiltRows (List.range' i len) s = some s1 ∧ I rows 0 s1 := by
  intro len
  induction len with
  | zero =>
    intro i s hi hI
    have : i = rows := by omega
    subst this
    exact ⟨s, rfl, hI⟩
  | succ len ih =>
    intro i s hi hI
    obtain ⟨row, hrow1, hlen⟩ := hrow i (by omega) s hI
    obtain ⟨s1, h1, hI1⟩ := tiltColumns_loop (I i) i cols (hstep i (by omega)) cols 0 s
      (by omega) hI
    obtain ⟨s2, h2, hI2⟩ := ih (i + 1) s1 (by omega) (hnext i s1 hI1)
    refine ⟨s2, ?_, hI2⟩
    rw [List.range'_succ, tiltRows, hrow1]
    simp only
    rw [hlen, List.range_eq_range', h1]
    exact h2

theorem tileAt_outside {p : Platform} {rows cols : Nat} (h : Rectangular p rows cols)
    {r c : Nat} (hout : rows ≤ r ∨ cols ≤ c) : tileAt p r c = TileEmptySpace := by
  unfold tileAt getTile
  cases hrow : p[r]? with
  | none => rfl
  | some row =>
    simp only
    obtain ⟨hr, hrr⟩ := List.getElem?_eq_some_iff.mp hrow
    have hlen := h.2 row (hrr ▸ List.getElem_mem hr)
    rcases hout with h1 | h1
    · rw [h.1] at hr
      omega
    · rw [List.getElem?_eq_none (by omega)]
      rfl

theorem tiltInv_next {original : Platform} {rows cols i : Nat} {s : Platform × List Nat}
    (h : TiltInv original rows cols i cols s) : TiltInv original rows cols (i + 1) 0 s := by
  obtain ⟨h1, h2, h3⟩ := h
  refine ⟨h1, h2, ?_⟩
  intro c hc
  obtain ⟨cursor, hcur, hok⟩ := h3 c hc
  rw [if_pos hc] at hok
  exact ⟨cursor, hcur, by rw [if_neg (Nat.not_lt_zero c)]; exact hok⟩

/-- On a rectangular platform with a row `tiltNorth` returns, and `TiltInv`
holds of what it returns with every row passed. -/
theorem tiltNorth_inv (p : Platform) (rows cols : Nat) (hrows : 0 < rows)
    (hrect : Rectangular p rows cols) :
    ∃ q cursors, tiltNorth p = some q ∧ TiltInv p rows cols rows 0 (q, cursors) := by
  cases p with
  | nil =>
    have := hrect.1
    simp at this
    omega
  | cons row0 rest =>
    have hrow0 : row0.length = cols := hrect.2 row0 (List.mem_cons_self _ _)
    have hinit : TiltInv (row0 :: rest) rows cols 0 0
        (row0 :: rest, List.replicate row0.length 0) := by
      refine ⟨hrect, by rw [List.length_replicate, hrow0], ?_⟩
      intro c hc
      refine ⟨0, ?_, ?_⟩
      · simp only
        rw [List.getElem?_replicate, if_pos (by rw [hrow0]; exact hc)]
      · rw [if_neg (Nat.not_lt_zero c)]
        exact columnOk_init _
    obtain ⟨s1, h1, hI1⟩ := tiltRows_loop (TiltInv (row0 :: rest) rows cols) rows cols
      (fun i hi s hI => row_of_rectangular hI.1 hi)
      (fun i hi j hj s hI => tiltCell_inv hi hj hI)
      (fun i s hI => tiltInv_next hI) rows 0 _ (by omega) hinit
    refine ⟨s1.1, s1.2, ?_, hI1⟩
    unfold tiltNorth
    simp only
    rw [hrect.1, List.range_eq_range', h1]

theorem settled_of_inv {p q : Platform} {rows cols : Nat} {cursors : List Nat}
    (h : TiltInv p rows cols rows 0 (q, cursors)) : Settled q := by
  intro r c hc
  obtain ⟨hrect, _, hcols⟩ := h
  by_cases hin : r + 1 < rows ∧ c < cols
  · obtain ⟨cursor, _, hok⟩ := hcols c hin.2
    rw [if_neg (Nat.not_lt_zero c)] at hok
    exact hok.2.2.2.2.2.1 r hin.1 hc
  · rw [tileAt_outside hrect (by omega)] at hc
    cases hc

theorem tiltCell_still {q : Platform} {rows cols i j : Nat} {state : Platform × List Nat}
    (hrect : Rectangular q rows cols) (hsettled : Settled q)
    (hi : i < rows) (hj : j < cols) (h : StillInv q cols i j state) :
    ∃ state1, tiltCell i j state = some state1 ∧ StillInv q cols i (j + 1) state1 := by
  obtain ⟨hq, hlen, hcols⟩ := h
  obtain ⟨cursor, hcur, hle, hempty⟩ := hcols j hj
  rw [if_neg (lt_irrefl j)] at hle hempty
  have hjl : j < state.2.length := by rw [hlen]; exact hj
  have hget : getTile state.1 i j = some (tileAt q i j) := by
    rw [hq]
    exact getTile_of_rectangular hrect hi hj
  have hframe : ∀ cursors1 : List Nat, (∀ c, c ≠ j → cursors1[c]? = state.2[c]?) →
      ∀ c, c < cols → c ≠ j → ∃ cursor1, cursors1[c]? = some cursor1 ∧
        cursor1 ≤ (if c < j + 1 then i + 1 else i) ∧
        ∀ r, cursor1 ≤ r → r < (if c < j + 1 then i + 1 else i) →
          tileAt q r c = TileEmptySpace := by
    intro cursors1 hc1 c hc hcj
    obtain ⟨cursor1, hcur1, hle1, hempty1⟩ := hcols c hc
    refine ⟨cursor1, by rw [hc1 c hcj]; exact hcur1, ?_⟩
    by_cases hlt : c < j
    · rw [if_pos hlt] at hle1 hempty1
      rw [if_pos (by omega)]
      exact ⟨hle1, hempty1⟩
    · rw [if_neg hlt] at hle1 hempty1
      rw [if_neg (by omega)]
      exact ⟨hle1, hempty1⟩
  have hset : ∀ value : Nat, value = i + 1 →
      StillInv q cols i (j + 1) (state.1, state.2.set j value) := by
    intro value hv
    refine ⟨hq, by simp only [List.length_set]; exact hlen, ?_⟩
    intro c hc
    by_cases hcj : c = j
    · subst hcj
      refine ⟨value, by simp only; rw [getElem?_set_cursor _ _ _ _ hjl, if_pos rfl], ?_⟩
      rw [if_pos (Nat.lt_succ_self c), hv]
      exact ⟨le_refl _, fun r h1 h2 => by omega⟩
    · exact hframe _ (fun c2 hc2 => by
        simp only
        rw [getElem?_set_cursor _ _ _ _ hjl, if_neg hc2]) c hc hcj
  unfold tiltCell
  rw [hget]
  cases ht : tileAt q i j with
  | TileEmptySpace =>
    refine ⟨state, rfl, hq, hlen, ?_⟩
    intro c hc
    by_cases hcj : c = j
    · subst hcj
      refine ⟨cursor, hcur, ?_⟩
      rw [if_pos (Nat.lt_succ_self c)]
      refine ⟨by omega, ?_⟩
      intro r h1 h2
      by_cases hri : r = i
      · rw [hri]
        exact ht
      · exact hempty r h1 (by omega)
    · exact hframe state.2 (fun _ _ => rfl) c hc hcj
  | TileCubeShapedRock =>
    simp only
    rw [if_pos hjl]
    exact ⟨_, rfl, hset (i + 1) rfl⟩
  | TileRoundedRock =>
    simp only
    rw [hcur]
    simp only
    have hci : cursor = i := by
      by_contra hne
      have hlt : cursor < i := by omega
      have h1 := hempty (i - 1) (by omega) (by omega)
      have h2 := hsettled (i - 1) j
      rw [show i - 1 + 1 = i by omega] at h2
      exact h2 ht h1
    rw [if_neg (by simpa using hci)]
    exact ⟨_, rfl, hset (cursor + 1) (by rw [hci])⟩

theorem stillInv_next {q : Platform} {cols i : Nat} {s : Platform × List Nat}
    (h : StillInv q cols i cols s) : StillInv q cols (i + 1) 0 s := by
  obtain ⟨h1, h2, h3⟩ := h
  refine ⟨h1, h2, ?_⟩
  intro c hc
  obtain ⟨cursor, hcur, hle, hempty⟩ := h3 c hc
  rw [if_pos hc] at hle hempty
  exact ⟨cursor, hcur, by rw [if_neg (Nat.not_lt_zero c)]; exact ⟨hle, hempty⟩⟩

/-- On a settled rectangular platform `tiltNorth` changes nothing. -/
theorem tiltNorth_of_settled (q : Platform) (rows cols : Nat) (hrows : 0 < rows)
    (hrect : Rectangular q rows cols) (hsettled : Settled q) : tiltNorth q = some q := by
  cases hq : q with
  | nil =>
    have := hrect.1
    rw [hq] at this
    simp at this
    omega
  | cons row0 rest =>
    rw [← hq]
    have hrow0 : row0.length = cols := hrect.2 row0 (by rw [hq]; exact List.mem_cons_self _ _)
    have hinit : StillInv q cols 0 0 (q, List.replicate row0.length 0) := by
      refine ⟨rfl, by rw [List.length_replicate, hrow0], ?_⟩
      intro c hc
      refine ⟨0, ?_, ?_⟩
      · simp only
        rw [List.getElem?_replicate, if_pos (by rw [hrow0]; exact hc)]
      · rw [if_neg (Nat.not_lt_zero c)]
        exact ⟨le_refl _, fun r h1 h2 => by omega⟩
    obtain ⟨s1, h1, hI1⟩ := tiltRows_loop (StillInv q cols) rows cols
      (fun i hi s hI => by
        rw [hI.1]
        exact row_of_rectangular hrect hi)
      (fun i hi j hj s hI => tiltCell_still hrect hsettled hi hj hI)
      (fun i s hI => stillInv_next hI) rows 0 _ (by omega) hinit
    have hunfold : tiltNorth q =
        match tiltRows (List.range q.length) (q, List.replicate row0.length 0) with
        | none => none
        | some state => some state.1 := by
      rw [hq]
      rfl
    rw [hunfold, hrect.1, List.range_eq_range', h1]
    simp only
    rw [hI1.1]

end ParabolicReflectorDish

namespace ParabolicReflectorDish
open Tile

/-- C35: on every rectangular platform with at least one row `tiltNorth`
returns a platform of the same shape in which every cube-shaped rock is where
it was (and no other cell holds one), every column segment between
cube-shaped rocks or the edges holds as many rounded rocks as before, and no
rounded rock has an empty space directly north of it; `tiltNorth` applied to
that platform returns it unchanged. -/
theorem tiltNorth_settles_the_platform (p : Platform) (rows cols : Nat) (hrows : 0 < rows)
    (hrect : Rectangular p rows cols) :
    ∃ q, tiltNorth p = some q ∧ Rectangular q rows cols ∧
      (∀ r c, tileAt q r c = TileCubeShapedRock ↔ tileAt p r c = TileCubeShapedRock) ∧
      (∀ c a b, c < cols → IsSegment (fun r => tileAt p r c) rows a b →
        roundedCount (fun r => tileAt q r c) a b = roundedCount (fun r => tileAt p r c) a b) ∧
      (∀ r c, tileAt q (r + 1) c = TileRoundedRock → tileAt q r c ≠ TileEmptySpace) ∧
      tiltNorth q = some q := by
  obtain ⟨q, cursors, hq, hinv⟩ := tiltNorth_inv p rows cols hrows hrect
  have hsettled : Settled q := settled_of_inv hinv
  have hrectq : Rectangular q rows cols := hinv.1
  refine ⟨q, hq, hrectq, ?_, ?_, hsettled, tiltNorth_of_settled q rows cols hrows hrectq hsettled⟩
  · intro r c
    by_cases hc : c < cols
    · obtain ⟨cursor, _, hok⟩ := hinv.2.2 c hc
      exact hok.2.2.2.1 r
    · rw [tileAt_outside hrectq (Or.inr (by omega)), tileAt_outside hrect (Or.inr (by omega))]
  · intro c a b hc hseg
    obtain ⟨cursor, _, hok⟩ := hinv.2.2 c hc
    rw [if_neg (Nat.not_lt_zero c)] at hok
    obtain ⟨hab, hb, ha, hmid, hend⟩ := hseg
    refine hok.2.2.2.2.2.2 a b hab ha hmid ?_
    rcases hend with h | h
    · exact Or.inl (by omega)
    · exact Or.inr h

theorem tiltNorth_settles_the_platform_witness :
    Rectangular samplePlatform 3 2 ∧
    ∃ q, tiltNorth samplePlatform = some q ∧ Rectangular q 3 2 ∧
      (∀ r c, tileAt q r c = TileCubeShapedRock ↔
        tileAt samplePlatform r c = TileCubeShapedRock) ∧
      (∀ c a b, c < 2 → IsSegment (fun r => tileAt samplePlatform r c) 3 a b →
        roundedCount (fun r => tileAt q r c) a b =
          roundedCount (fun r => tileAt samplePlatform r c) a b) ∧
      (∀ r c, tileAt q (r + 1) c = TileRoundedRock → tileAt q r c ≠ TileEmptySpace) ∧
      tiltNorth q = some q :=
  ⟨by unfold Rectangular; decide,
    tiltNorth_settles_the_platform samplePlatform 3 2 (by decide)
      (by unfold Rectangular; decide)⟩

end ParabolicReflectorDish
